import Mathlib

/-!
# PikaScript interpreter core: a shallow embedding

Definitions translated from `src/trunk/documentation/PikaCmdAmalgam.cpp`
(the amalgamated `PikaScript.h` / `PikaScriptImpl.h`).

Conventions of the embedding.

* A string (`std::string`, the template parameter `S`) is a list of character
  codes; an 8-bit character is a code below 256 (`uintChar`).
* A pair of iterators `(p, e)` is the list of the characters from `p` up to
  `e`.  A routine that advances `p` returns the characters that remain.
* `long` and `ulong` are 64 bits wide; arithmetic on them is reduced with
  `wrapLong` and `wrapULong`.
* `double` arithmetic is not interpreted: the routines that compute a `double`
  take the arithmetic as a parameter (`DoubleOps`).
* A thrown `Exception<S>` is the `Except.error` of an `Xception`.
* The arguments of a call are evaluated from the last to the first, each with
  its conversion to the type of the parameter, as the build of the program with
  g++ does: in `set(lvalue(v), rvalue(r))` the call `rvalue(r)` comes first.
-/

namespace Pika

deriving instance DecidableEq for Except

/-- A string: the list of its character codes. -/
abbrev Str := List Nat

/-- The character codes of a Lean string literal. -/
def str (s : String) : Str := s.toList.map Char.toNat

/-- The exceptions thrown by the embedded routines, one constructor per message. -/
inductive Xception where
  /-- "Invalid string literal" -/
  | invalidStringLiteral
  /-- "Invalid escape character" -/
  | invalidEscapeCharacter
  /-- "Unterminated string" -/
  | unterminatedString
  /-- "Invalid identifier: " followed by the escaped rest of the identifier -/
  | invalidIdentifier (rest : Str)
  /-- "Frame does not exist: " followed by the escaped label -/
  | frameDoesNotExistLabel (label : Str)
  /-- "Frame does not exist" (a caret with no caller left) -/
  | frameDoesNotExist
  /-- "Undefined: " followed by the escaped identifier -/
  | undefined (identifier : Str)
  /-- "Cannot modify: " followed by the escaped identifier -/
  | cannotModify (identifier : Str)
  /-- "Invalid lvalue" -/
  | invalidLValue
  /-- "Syntax error" -/
  | syntaxError
  /-- "Syntax error (missing ';')?" -/
  | syntaxErrorSemicolon
  /-- "Missing '}'" of a compound expression -/
  | missingBrace
  /-- "Missing '" followed by the terminator and an apostrophe -/
  | missing (term : Nat)
  /-- "Missing '*/'" -/
  | missingCommentEnd
  /-- "Expected '('" -/
  | expectedParenthesis
  /-- "Expected '{'" -/
  | expectedBrace
  /-- "Expected '}' or ':'" -/
  | expectedBraceOrColon
  /-- "Expected ',' or ')'" -/
  | expectedCommaOrParenthesis
  /-- "Unexpected 'else' (preceded by ';'?)" -/
  | unexpectedElse
  /-- "Invalid hexadecimal number" -/
  | invalidHexadecimal
  /-- "Invalid boolean: " followed by the escaped value -/
  | invalidBoolean (value : Str)
  /-- "Invalid integer: " followed by the escaped value -/
  | invalidInteger (value : Str)
  /-- "Invalid number: " followed by the escaped value -/
  | invalidNumber (value : Str)
  /-- "Unknown native function: " followed by the escaped body -/
  | unknownNative (body : Str)
  /-- "Illegal call on: " followed by the escaped body -/
  | illegalCall (body : Str)
  /-- An exception thrown by a native, with its message. -/
  | native (message : Str)
  /-- A frame pointer that designates no frame of the heap (no source counterpart). -/
  | danglingFrame
  /-- Behaviour the language leaves undefined: an iterator moved past the end, an
  access outside an array, an integer division by zero or with overflow, a
  shift by a count outside the width (no source counterpart). -/
  | undefinedBehaviour
  /-- The fuel of a recursion of the embedding is used up (no source counterpart). -/
  | outOfFuel
  deriving DecidableEq, Repr

/-- Reduction of an integer to the range of a 64-bit `long`. -/
def wrapLong (x : Int) : Int := (x + 2 ^ 63) % 2 ^ 64 - 2 ^ 63

/-- Reduction of a natural number to the range of a 64-bit `ulong`. -/
def wrapULong (x : Nat) : Nat := x % 2 ^ 64

/-- The test `c >= '0' && c <= '9'`. -/
def isDigit (c : Nat) : Bool := 48 ≤ c && c ≤ 57

/-- The test of `hexToLong`: a digit, `A`..`F` or `a`..`f`. -/
def isHexDigit (c : Nat) : Bool :=
  (48 ≤ c && c ≤ 57) || (65 ≤ c && c ≤ 70) || (97 ≤ c && c ≤ 102)

/-- The value `*p <= '9' ? *p - '0' : (*p & ~0x20) - ('A' - 10)` of a hex digit. -/
def hexValue (c : Nat) : Nat := if c ≤ 57 then c - 48 else (c - (c &&& 32)) - 55

/-- The loop of `hexToLong` over the characters from `p` to `e`. -/
def hexToLongLoop : Nat → Str → Nat × Str
  | l, [] => (l, [])
  | l, c :: p =>
    if isHexDigit c then hexToLongLoop (wrapULong (l * 16 + hexValue c)) p else (l, c :: p)

/-- The routine `hexToLong(p, e)`: the value read and the characters left. -/
def hexToLong (p : Str) : Nat × Str := hexToLongLoop 0 p

/-- The digit loop of `stringToLong`. -/
def stringToLongLoop : Int → Str → Int × Str
  | l, [] => (l, [])
  | l, c :: p =>
    if isDigit c then stringToLongLoop (wrapLong (l * 10 + ((c : Int) - 48))) p else (l, c :: p)

/-- The routine `stringToLong(p, e)`: a sign is read only when another character
follows it. -/
def stringToLong (p : Str) : Int × Str :=
  let sp : Bool × Str :=
    match p with
    | c :: c1 :: r => if c = 43 ∨ c = 45 then (c == 45, c1 :: r) else (false, p)
    | _ => (false, p)
  let lr := stringToLongLoop 0 sp.2
  (if sp.1 then wrapLong (-lr.1) else lr.1, lr.2)

/-- The mirrored digit table "fedcba9876543210123456789abcdef". -/
def digitTable : Str :=
  [102, 101, 100, 99, 98, 97, 57, 56, 55, 54, 53, 52, 51, 50, 49, 48,
   49, 50, 51, 52, 53, 54, 55, 56, 57, 97, 98, 99, 100, 101, 102]

/-- The loop of `intToString`: `room` is the space left in the buffer, `need` the
number of digits still owed to `minLength`, `acc` the digits written so far. -/
def intToStringLoop : Nat → Int → Nat → Nat → Str → Str
  | 0, _, _, _, acc => acc
  | room + 1, x, radix, need, acc =>
    if 0 < need ∨ x ≠ 0 then
      intToStringLoop room (Int.tdiv x radix) radix (need - 1)
        (digitTable.getD (15 + Int.tmod x radix).toNat 0 :: acc)
    else acc

/-- The routine `intToString<S, T>(i, radix, minLength)` for an integer type `T`
of `bits` bits. -/
def intToString (bits : Nat) (isSigned : Bool) (i : Int) (radix minLength : Nat) : Str :=
  let digits := intToStringLoop bits i radix minLength []
  if isSigned && decide (i < 0) then 45 :: digits else digits

/-- The table `ESCAPE_CHARS`. -/
def ESCAPE_CHARS : Str := [92, 34, 39, 97, 98, 102, 110, 114, 116, 118]

/-- The table `ESCAPE_CODES`. -/
def ESCAPE_CODES : Str := [92, 34, 39, 7, 8, 12, 10, 13, 9, 11]

/-- The conversion `CHAR(l)` of a `long` to an 8-bit character. -/
def toChar (l : Int) : Nat := (l % 256).toNat

/-- The routine `std::find(p, e, c)`: the characters from the first `c` on. -/
def find (c : Nat) : Str → Str
  | [] => []
  | x :: p => if x = c then x :: p else find c p

/-- The single-quoted loop of `unescape`; `d` is the text decoded so far and the
characters between `b` and `p` are read off `p` when they are appended. -/
def unescapeSingle : Nat → Str → Str → Except Xception (Str × Str)
  | 0, _, _ => .error .unterminatedString
  | fuel + 1, d, b =>
    match find 39 b with
    | 39 :: 39 :: r => unescapeSingle fuel (d ++ b.take (b.length - (r.length + 1))) r
    | _ :: r => .ok (d ++ b.take (b.length - (r.length + 1)), r)
    | [] => .error .unterminatedString

/-- The escape sequence after a backslash: the character code and the rest.  A
backslash that ends the text reads the terminator of the string, which no escape
matches. -/
def unescapeCode (p : Str) : Except Xception (Int × Str) :=
  match p with
  | [] => .error .invalidEscapeCharacter
  | c :: r =>
    match ESCAPE_CHARS.indexOf? c with
    | some k => .ok ((ESCAPE_CODES.getD k 0 : Nat), r)
    | none =>
      if c = 120 then
        let lr := hexToLong (r.take 2)
        if lr.2.length = (r.take 2).length then .error .invalidEscapeCharacter
        else .ok ((lr.1 : Nat), lr.2 ++ r.drop 2)
      else if c = 117 then
        let lr := hexToLong (r.take 4)
        if lr.2.length = (r.take 4).length then .error .invalidEscapeCharacter
        else .ok ((lr.1 : Nat), lr.2 ++ r.drop 4)
      else
        let lr := stringToLong (c :: r)
        if lr.2.length = (c :: r).length then .error .invalidEscapeCharacter
        else .ok lr

/-- The double-quoted loop of `unescape`: `d` is the text decoded so far, `seg`
the characters between `b` and `p`, not yet appended. -/
def unescapeDouble : Nat → Str → Str → Str → Except Xception (Str × Str)
  | 0, _, _, _ => .error .unterminatedString
  | _ + 1, _, _, [] => .error .unterminatedString
  | fuel + 1, d, seg, c :: p =>
    if c = 34 then .ok (d ++ seg, p)
    else if c = 92 then
      match unescapeCode p with
      | .error x => .error x
      | .ok (l, p1) => unescapeDouble fuel ((d ++ seg) ++ [toChar l]) [] p1
    else unescapeDouble fuel d (seg ++ [c]) p

/-- The routine `unescape(p, e)`: the decoded text and the characters left after
the closing quote. -/
def unescape (p : Str) : Except Xception (Str × Str) :=
  match p with
  | [] => .error .invalidStringLiteral
  | q :: r =>
    if q = 39 then unescapeSingle (r.length + 1) [] r
    else if q = 34 then unescapeDouble (r.length + 1) [] [] r
    else .error .invalidStringLiteral

/-- The test of the first loop of `escape`: printable and no apostrophe. -/
def isPlainSingle (c : Nat) : Bool := 32 ≤ c && c ≤ 126 && c != 39

/-- The test of the inner loop of `escape`: printable, no backslash, no double quote. -/
def isPlainDouble (c : Nat) : Bool := 32 ≤ c && c ≤ 126 && c != 92 && c != 34

/-- The escape sequence `escape` writes for the character `c`.  The test
`uintChar(*b) == uintChar(*b)` of the source always holds, so that a character
outside `ESCAPE_CODES` is written as `\x` and two or more hexadecimal digits. -/
def escapeChar (c : Nat) : Str :=
  match ESCAPE_CODES.indexOf? c with
  | some k => [92, ESCAPE_CHARS.getD k 0]
  | none => [92, 120] ++ intToString 32 false (c : Int) 16 2

/-- The outer loop of `escape`: `d` is the output so far, `seg` the characters
between `l` and `b`, `b` the characters not yet examined. -/
def escapeLoop : Nat → Str → Str → Str → Str
  | 0, d, seg, _ => d ++ seg
  | fuel + 1, d, seg, b =>
    let d1 := d ++ (seg ++ b.takeWhile isPlainDouble)
    match b.dropWhile isPlainDouble with
    | [] => d1
    | c :: r => escapeLoop fuel (d1 ++ escapeChar c) [] r

/-- The routine `escape(s)`. -/
def escape (s : Str) : Str :=
  let skipped := s.takeWhile isPlainSingle
  let b := s.dropWhile isPlainSingle
  let needToBackUp := skipped.any (fun c => c == 92 || c == 34)
  if b = [] then [39] ++ s ++ [39]
  else if needToBackUp then escapeLoop (s.length + 1) [34] [] s ++ [34]
  else escapeLoop (s.length + 1) [34] skipped b ++ [34]

/-- The text `escape` writes between the double quotes, character by character. -/
def escBody : Str → Str
  | [] => []
  | c :: r => (if isPlainDouble c then [c] else escapeChar c) ++ escBody r

/-! ### Numbers -/

/-- The `double` arithmetic used by the number routines, not interpreted. -/
structure DoubleOps (D : Type) where
  /-- The constant `0`. -/
  zero : D
  /-- The constant `1.0`. -/
  one : D
  /-- The constant `-1.0`. -/
  minusOne : D
  /-- The constant `10.0`. -/
  ten : D
  /-- The constant `0.1`. -/
  tenth : D
  /-- The value `std::numeric_limits<double>::infinity()`. -/
  infinity : D
  /-- The conversion of an integer to `double`. -/
  ofInt : Int → D
  /-- Addition. -/
  add : D → D → D
  /-- Multiplication. -/
  mul : D → D → D
  /-- The function `pow`. -/
  pow : D → D → D
  /-- The comparison `<`. -/
  lt : D → D → Bool
  /-- The comparison `==`. -/
  eq : D → D → Bool
  /-- The comparison `<=`. -/
  le : D → D → Bool
  /-- The negation `-d`. -/
  neg : D → D
  /-- Subtraction. -/
  sub : D → D → D
  /-- Division. -/
  div : D → D → D
  /-- The function `fmod`. -/
  fmod : D → D → D
  /-- The function `fabs`. -/
  fabs : D → D
  /-- The function `floor`. -/
  floor : D → D
  /-- The function `log10`. -/
  log10 : D → D
  /-- The conversion `long(d)`, towards zero. -/
  toLong : D → Int
  /-- The constant `1.0E-300`. -/
  epsilon : D
  /-- The constant `1.0E-5`. -/
  small : D
  /-- The constant `1.0E+10`. -/
  large : D
  /-- The constant `1.0E-10`. -/
  tol : D

/-- The word "infinity". -/
def INFINITY : Str := [105, 110, 102, 105, 110, 105, 116, 121]

/-- The integer-part loop of `stringToDouble`: `d = d * 10.0 + (*p - '0')` while
a digit follows. -/
def integerLoop {D : Type} (ops : DoubleOps D) : D → Str → D × Str
  | d, [] => (d, [])
  | d, c :: p =>
    if isDigit c then
      integerLoop ops (ops.add (ops.mul d ops.ten) (ops.ofInt ((c : Int) - 48))) p
    else (d, c :: p)

/-- The fraction loop of `stringToDouble`: `d += (*p - '0') * (f *= 0.1)` while a
digit follows. -/
def fractionLoop {D : Type} (ops : DoubleOps D) : D → D → Str → D × Str
  | d, _, [] => (d, [])
  | d, f, c :: p =>
    if isDigit c then
      fractionLoop ops (ops.add d (ops.mul (ops.ofInt ((c : Int) - 48)) (ops.mul f ops.tenth)))
        (ops.mul f ops.tenth) p
    else (d, c :: p)

/-- The routine `stringToDouble(p, e)`: the value read and the characters left. -/
def stringToDoubleIt {D : Type} (ops : DoubleOps D) (p : Str) : D × Str :=
  let sp : D × Str :=
    match p with
    | c :: c1 :: r =>
      if c = 43 ∨ c = 45 then (if c = 45 then ops.minusOne else ops.one, c1 :: r)
      else (ops.one, p)
    | _ => (ops.one, p)
  let dp : D × Str :=
    if INFINITY.isPrefixOf sp.2 then (ops.infinity, sp.2.drop 8)
    else
      match sp.2 with
      | [] => (ops.zero, [])
      | c :: r =>
        if isDigit c then
          let ip : D × Str := if c = 48 then (ops.zero, r) else integerLoop ops ops.zero (c :: r)
          let fp : D × Str :=
            match ip.2 with
            | 46 :: c1 :: r1 =>
              if isDigit c1 then fractionLoop ops ip.1 ops.one (c1 :: r1) else ip
            | _ => ip
          match fp.2 with
          | c2 :: c3 :: r2 =>
            if c2 = 69 ∨ c2 = 101 then
              let lr := stringToLong (c3 :: r2)
              (ops.mul fp.1 (ops.pow ops.ten (ops.ofInt lr.1)), lr.2)
            else fp
          | _ => fp
        else (ops.zero, c :: r)
  (ops.mul dp.1 sp.1, dp.2)

/-- The routine `stringToDouble(s, d)`: whether all of a non-empty `s` was read,
and `d`. -/
def stringToDouble {D : Type} (ops : DoubleOps D) (s : Str) : Bool × D :=
  let dp := stringToDoubleIt ops s
  (decide (dp.2.length ≠ s.length) && decide (dp.2 = []), dp.1)

/-- The sign of the grammar of the specification: absent, `+` or `-`. -/
def IsSign (s : Str) : Prop := s = [] ∨ s = [43] ∨ s = [45]

/-- One or more digits. -/
def IsDigits (s : Str) : Prop := s ≠ [] ∧ ∀ c ∈ s, isDigit c = true

/-- The optional fraction of the grammar: `.` and one or more digits. -/
def IsFraction (s : Str) : Prop := s = [] ∨ ∃ ds, s = 46 :: ds ∧ IsDigits ds

/-- The optional exponent of the grammar: `e` or `E`, optional sign, one or more
digits. -/
def IsExponent (s : Str) : Prop :=
  s = [] ∨ ∃ c sg ds, s = c :: (sg ++ ds) ∧ (c = 69 ∨ c = 101) ∧ IsSign sg ∧ IsDigits ds

/-- The number grammar as the specification words it: optional sign, then the
word infinity or integer part (one or more digits), optional fraction, optional
exponent. -/
def IsNumberSpec (s : Str) : Prop :=
  ∃ sg body, s = sg ++ body ∧ IsSign sg ∧
    (body = INFINITY ∨
      ∃ ip fr ex, body = ip ++ (fr ++ ex) ∧ IsDigits ip ∧ IsFraction fr ∧ IsExponent ex)

/-- The integer part the code reads: a lone `0`, or digits the first of which is
not `0`. -/
def IsIntegerPart (s : Str) : Prop := s = [48] ∨ (IsDigits s ∧ s.head? ≠ some 48)

/-- The number grammar of the code: as `IsNumberSpec`, the integer part being an
`IsIntegerPart`. -/
def IsNumber (s : Str) : Prop :=
  ∃ sg body, s = sg ++ body ∧ IsSign sg ∧
    (body = INFINITY ∨
      ∃ ip fr ex, body = ip ++ (fr ++ ex) ∧ IsIntegerPart ip ∧ IsFraction fr ∧ IsExponent ex)

/-! ### Values (`STLValue`) -/

/-- The comparison `<` of `std::string`: lexicographic on the character codes. -/
def stringLess : Str → Str → Bool
  | _, [] => false
  | [], _ :: _ => true
  | a :: l, b :: r => if a < b then true else if b < a then false else stringLess l r

namespace STLValue

/-- The operator `STLValue::operator<`. -/
def less {D : Type} (ops : DoubleOps D) (l r : Str) : Bool :=
  let ln := stringToDouble ops l
  let rn := stringToDouble ops r
  if ln.1 = rn.1 then (if ln.1 then ops.lt ln.2 rn.2 else stringLess l r) else ln.1

/-- The operator `STLValue::operator==`. -/
def equal {D : Type} (ops : DoubleOps D) (l r : Str) : Bool :=
  let ln := stringToDouble ops l
  let rn := stringToDouble ops r
  decide (ln.1 = rn.1) && (if ln.1 then ops.eq ln.2 rn.2 else decide (l = r))

/-- The operator `STLValue::operator!=`. -/
def notEqual {D : Type} (ops : DoubleOps D) (l r : Str) : Bool := !equal ops l r

/-- The `case ':'` of the switch of `STLValue::operator[]`, on the characters
from `b` to `p`: the characters from `b` to the new `p`. -/
def subscriptColon (q : Str) : Str :=
  if 1 < q.length ∧ q.getLast? = some 58 ∧ q.head? = some 58 ∧ find 58 (q.drop 1) = [58] then []
  else q

/-- The `case '^'` of the switch, falling through to `case ':'`. -/
def subscriptCaret (q : Str) : Str :=
  let q1 := q.rdropWhile (fun c => c == 94)
  if q1 = [] then [] else subscriptColon q1

/-- The `case '$'` of the switch, falling through to `case '^'`. -/
def subscriptDollar (q : Str) : Str :=
  let q1 := q.dropLast
  if q1 = [] then [] else subscriptCaret q1

/-- The switch on the last character of `STLValue::operator[]`: the characters
from `b` to `p` after it. -/
def subscriptSwitch (self : Str) : Str :=
  match self.getLast? with
  | some 36 => subscriptDollar self
  | some 94 => subscriptCaret self
  | some 58 => subscriptColon self
  | _ => self

/-- The operator `STLValue::operator[]`. -/
def subscript (self i : Str) : Str :=
  if subscriptSwitch self = [] then self ++ i else (self ++ [46]) ++ i

end STLValue

/-- A frame prefix as the specification words it: an optional `:label:` with no
`:` inside the label (which includes `::`), then any number of `^`, then an
optional `$`. -/
def IsFramePrefix (s : Str) : Prop :=
  ∃ lp carets dollar, s = lp ++ (carets ++ dollar) ∧
    (lp = [] ∨ ∃ label, lp = 58 :: (label ++ [58]) ∧ 58 ∉ label) ∧
    (∀ c ∈ carets, c = 94) ∧ (dollar = [] ∨ dollar = [36])

/-! ### The substring postfix -/

/-- The routine `std::string::substr(pos, n)` for `pos` within the string; `none`
is `npos`. -/
def substr (s : Str) (pos : Nat) (n : Option Nat) : Str :=
  match n with
  | none => s.drop pos
  | some k => (s.drop pos).take k

/-- The live evaluation of `s{index:count}` in `Frame::post`, from the values of
the operands; `none` is an omitted operand (`gotIndex`, `gotCount` false). -/
def postSubstring (s : Str) (index count : Option Int) : Str :=
  let i : Int := index.getD 0
  let n : Option Int := count.map (fun c => wrapLong (c + min i 0))
  if decide (i ≤ (s.length : Int)) && (match n with | none => true | some k => decide (0 ≤ k)) then
    substr s (max i 0).toNat (n.map Int.toNat)
  else []

/-- The characters of `s` at the positions `j` with `i <= j`, and `j < i + c`
when a count `c` is given, as the specification words the result of `s{i:c}`. -/
def specSubstring (s : Str) (i : Int) (count : Option Int) : Str :=
  ((s.enum.filter (fun jc => decide (i ≤ (jc.1 : Int)) &&
      (match count with
       | none => true
       | some c => decide ((jc.1 : Int) < i + c)))).map Prod.snd)

/-! ### Frames -/

/-- The routine `isSymbolChar`. -/
def isSymbolChar (c : Nat) : Bool :=
  (97 ≤ c && c ≤ 122) || (65 ≤ c && c ≤ 90) || (48 ≤ c && c ≤ 57) || c == 95 || c == 36

/-- A variable space, `STLVariables::vars`: the symbols with their values. -/
abbrev Variables := List (Str × Str)

/-- The routine `STLVariables::lookup`. -/
def Variables.lookup (vars : Variables) (symbol : Str) : Option Str := List.lookup symbol vars

/-- The assignment `vars[symbol] = value` on the map `STLVariables::vars`: the
value of an existing symbol is replaced, a new symbol is inserted at its place
in the order of the keys. -/
def Variables.assign : Variables → Str → Str → Variables
  | [], symbol, value => [(symbol, value)]
  | (k, w) :: vars, symbol, value =>
    if symbol = k then (symbol, value) :: vars
    else if stringLess symbol k then (symbol, value) :: (k, w) :: vars
    else (k, w) :: Variables.assign vars symbol value

/-- The map `STLVariables::natives`: the identifiers with their natives.  A
pointer to a native is `none` when null and the number of the native otherwise. -/
abbrev NativeMap := List (Str × Option Nat)

/-- The template parameter `CACHE_SIZE` of `QuickVars`, at its default. -/
def CACHE_SIZE : Nat := 11

/-- The promotion of a `char` to `int`, for a signed 8-bit `char`. -/
def charToInt (c : Nat) : Int := if c < 128 then (c : Int) else (c : Int) - 256

/-- The routine `QuickVars::hash` on a string that is not empty: the sum is an
`int` that the remainder by the unsigned `CACHE_SIZE` converts to `unsigned int`. -/
def QuickVars.hash (s : Str) : Nat :=
  let l := s.length
  if l = 1 ∧ 97 ≤ s.getD 0 0 ∧ s.getD 0 0 ≤ 122 then (s.getD 0 0 - 97) % CACHE_SIZE
  else if l = 2 ∧ s.getD 0 0 = 36 ∧ 48 ≤ s.getD 1 0 ∧ s.getD 1 0 ≤ 57 then s.getD 1 0 - 48
  else
    (((charToInt (s.getD 0 0) * 1733 + charToInt (s.getD (l / 4) 0) * 2069 +
        charToInt (s.getD (l / 2) 0) * 2377 + charToInt (s.getD (l - 1) 0) * 2851) %
      2 ^ 32).toNat) % CACHE_SIZE

/-- A variable space of one of the two classes of the repository: `STLVariables`
when `cache` is `none`, `QuickVars<STLVariables>` with its array `cache`
otherwise. -/
structure VarSpace where
  /-- The map `STLVariables::vars`. -/
  vars : Variables
  /-- The map `STLVariables::natives`. -/
  natives : NativeMap := []
  /-- The array `QuickVars::cache`. -/
  cache : Option (List (Str × Str)) := none
  deriving DecidableEq, Repr

/-- An empty `STLVariables`. -/
def VarSpace.emptySTL : VarSpace := { vars := [] }

/-- An empty `QuickVars<STLVariables>`. -/
def VarSpace.emptyQuick : VarSpace :=
  { vars := [], cache := some (List.replicate CACHE_SIZE ([], [])) }

/-- The virtual `lookup` of a variable space: `STLVariables::lookup` or
`QuickVars::lookup`, with the space as the call leaves it. -/
def VarSpace.lookup (vs : VarSpace) (identifier : Str) : Option Str × VarSpace :=
  match vs.cache with
  | none => (vs.vars.lookup identifier, vs)
  | some cache =>
    if identifier = [] then (none, vs)
    else
      let i := QuickVars.hash identifier
      let entry := cache.getD i ([], [])
      if entry.1 = identifier then (some entry.2, vs)
      else
        match vs.vars.lookup identifier with
        | none => (none, vs)
        | some value =>
          let vars1 := if entry.1 ≠ [] then vs.vars.assign entry.1 entry.2 else vs.vars
          (some value, { vs with vars := vars1, cache := some (cache.set i (identifier, value)) })

/-- The virtual `assign` of a variable space: `STLVariables::assign` or
`QuickVars::assign`, with the space as the call leaves it. -/
def VarSpace.assign (vs : VarSpace) (identifier value : Str) : Bool × VarSpace :=
  match vs.cache with
  | none => (true, { vs with vars := vs.vars.assign identifier value })
  | some cache =>
    if identifier = [] then (false, vs)
    else
      let i := QuickVars.hash identifier
      let entry := cache.getD i ([], [])
      if entry.1 = identifier then
        (true, { vs with cache := some (cache.set i (identifier, value)) })
      else
        let vars1 := if entry.1 ≠ [] then vs.vars.assign entry.1 entry.2 else vs.vars
        (true, { vs with vars := vars1, cache := some (cache.set i (identifier, value)) })

/-- The members of a `Root` beside those of its `Frame`. -/
structure RootData where
  /-- The trace level `traceLevel`. -/
  traceLevel : Nat
  /-- The value `tracerFunction`. -/
  tracerFunction : Str
  /-- The flag `isInsideTracer`. -/
  isInsideTracer : Bool
  /-- The array `autoLabel`. -/
  autoLabel : List Nat
  /-- The pointer `autoLabelStart`, as an index of `autoLabel`. -/
  autoLabelStart : Nat
  deriving DecidableEq, Repr

/-- A `Frame`, or a `Root` when `rootData` is present.  A pointer to a frame is
its index in the heap.  Each frame has a variable space of its own, as the
frames of `Frame::call` and the `FullRoot` have. -/
structure Frame where
  /-- The variable space `vars`. -/
  vars : VarSpace
  /-- The pointer `root`. -/
  root : Nat
  /-- The pointer `previous` to the caller, `none` for the null pointer. -/
  previous : Option Nat
  /-- The pointer `closure`. -/
  closure : Nat
  /-- The frame label `label`. -/
  label : Str
  /-- The string `source` points to, `none` before the first `evaluate`. -/
  source : Option Str := none
  /-- The members of `Root`, for a frame that is a `Root`. -/
  rootData : Option RootData := none
  deriving DecidableEq, Repr

/-- The frames alive, each at its address. -/
abbrev Heap := List Frame

/-- The dereference of a frame pointer. -/
def deref (h : Heap) (f : Nat) : Except Xception Frame :=
  match h[f]? with
  | some fr => .ok fr
  | none => .error .danglingFrame

/-- The loop `while (f->label != s) if ((f = f->previous) == 0) throw ...` of
`resolveFrame`; the first number bounds the iterations, which the length of the
heap does when every caller lies below its callee (`findLabel_spec`). -/
def findLabel (h : Heap) (s : Str) : Nat → Nat → Except Xception Nat
  | 0, _ => .error .danglingFrame
  | fuel + 1, f =>
    match deref h f with
    | .error x => .error x
    | .ok fr =>
      if fr.label ≠ s then
        match fr.previous with
        | none => .error (.frameDoesNotExistLabel s)
        | some g => findLabel h s fuel g
      else .ok f

/-- The loop `for (; p < e && *p == '^'; ++p) if ((f = f->previous) == 0) throw ...`
of `resolveFrame`. -/
def climb (h : Heap) : Nat → Str → Except Xception (Nat × Str)
  | f, [] => .ok (f, [])
  | f, c :: p =>
    if c = 94 then
      match deref h f with
      | .error x => .error x
      | .ok fr =>
        match fr.previous with
        | none => .error .frameDoesNotExist
        | some g => climb h g p
    else .ok (f, c :: p)

/-- The label part of `resolveFrame(p, e)`: the frame the prefix designates and
the characters after the prefix.  With `n` at the second colon, the distance
`n - p` is `r.length - after.length`. -/
def resolveLabel (h : Heap) (self : Nat) (p : Str) : Except Xception (Nat × Str) :=
  match p with
  | 58 :: r =>
    match find 58 r with
    | [] => .error (.invalidIdentifier p)
    | _ :: after =>
      if 1 < r.length - after.length then
        match findLabel h (p.take (r.length - after.length + 1)) h.length self with
        | .error x => .error x
        | .ok f => .ok (f, after)
      else
        match deref h self with
        | .error x => .error x
        | .ok fr => .ok (fr.root, after)
  | _ => .ok (self, p)

/-- The routine `Frame::resolveFrame(StringIt& p, const StringIt& e)` on the frame `self`:
the frame found and the characters left. -/
def resolveFrameIt (h : Heap) (self : Nat) (p : Str) : Except Xception (Nat × Str) :=
  match resolveLabel h self p with
  | .error x => .error x
  | .ok (f, p1) =>
    match climb h f p1 with
    | .error x => .error x
    | .ok (f2, p2) =>
      if p2.head? ≠ some 36 then
        match deref h f2 with
        | .error x => .error x
        | .ok fr => .ok (fr.closure, p2)
      else .ok (f2, p2)

/-- The routine `Frame::resolveFrame(const String& identifier)` on the frame `self`. -/
def resolveFrame (h : Heap) (self : Nat) (identifier : Str) : Except Xception (Nat × Str) :=
  match identifier with
  | 36 :: _ => .ok (self, identifier)
  | 58 :: _ => resolveFrameIt h self identifier
  | 94 :: _ => resolveFrameIt h self identifier
  | _ =>
    match deref h self with
    | .error x => .error x
    | .ok fr => .ok (fr.closure, identifier)

/-- The heap after the variable space of the frame `f` has become `vs`. -/
def storeVars (h : Heap) (f : Nat) (vs : VarSpace) : Heap :=
  match h[f]? with
  | none => h
  | some fr => h.set f { fr with vars := vs }

/-- The routine `Frame::get(identifier, fallback)` on the frame `self`: the value
or the exception, and the heap as the lookups leave it. -/
def get (h : Heap) (self : Nat) (identifier : Str) (fallback : Bool) :
    Except Xception Str × Heap :=
  match resolveFrame h self identifier with
  | .error x => (.error x, h)
  | .ok (f, symbol) =>
    match deref h f with
    | .error x => (.error x, h)
    | .ok fr =>
      let r := fr.vars.lookup symbol
      let h1 := storeVars h f r.2
      match r.1 with
      | some v => (.ok v, h1)
      | none =>
        if fallback && isSymbolChar (identifier.headD 0) then
          match deref h1 self with
          | .error x => (.error x, h1)
          | .ok me =>
            match deref h1 me.root with
            | .error x => (.error x, h1)
            | .ok rt =>
              let r2 := rt.vars.lookup symbol
              let h2 := storeVars h1 me.root r2.2
              match r2.1 with
              | some v => (.ok v, h2)
              | none => (.error (.undefined identifier), h2)
        else (.error (.undefined identifier), h1)

/-- The routine `Frame::getOptional(identifier, defaultValue)` on the frame
`self`. -/
def getOptional (h : Heap) (self : Nat) (identifier defaultValue : Str) :
    Except Xception Str × Heap :=
  match resolveFrame h self identifier with
  | .error x => (.error x, h)
  | .ok (f, symbol) =>
    match deref h f with
    | .error x => (.error x, h)
    | .ok fr =>
      let r := fr.vars.lookup symbol
      match r.1 with
      | some v => (.ok v, storeVars h f r.2)
      | none => (.ok defaultValue, storeVars h f r.2)

/-- The routine `Frame::set(identifier, v)` on the frame `self`. -/
def set (h : Heap) (self : Nat) (identifier v : Str) : Except Xception Str × Heap :=
  match resolveFrame h self identifier with
  | .error x => (.error x, h)
  | .ok (f, symbol) =>
    match deref h f with
    | .error x => (.error x, h)
    | .ok fr =>
      let r := fr.vars.assign symbol v
      if r.1 then (.ok v, storeVars h f r.2)
      else (.error (.cannotModify identifier), storeVars h f r.2)

/-- The routine `Frame::reference(identifier)` on the frame `self`. -/
def reference (h : Heap) (self : Nat) (identifier : Str) : Except Xception Str :=
  match resolveFrame h self identifier with
  | .error x => .error x
  | .ok (f, symbol) =>
    match deref h f with
    | .error x => .error x
    | .ok fr => .ok (fr.label ++ symbol)

/-- The frame `k` callers above `f`: `f->previous->...->previous`. -/
def ancestor (h : Heap) : Nat → Nat → Option Nat
  | 0, f => some f
  | k + 1, f =>
    match h[f]? with
    | none => none
    | some fr =>
      match fr.previous with
      | none => none
      | some g => ancestor h k g

/-- The frame `g` is the nearest frame of the caller chain of `f` (`f` included)
whose label is `s`. -/
def IsNearestLabelled (h : Heap) (f : Nat) (s : Str) (g : Nat) : Prop :=
  ∃ n fr, ancestor h n f = some g ∧ h[g]? = some fr ∧ fr.label = s ∧
    ∀ m, m < n → ∀ g1 fr1, ancestor h m f = some g1 → h[g1]? = some fr1 → fr1.label ≠ s

/-- No frame of the caller chain of `f` (`f` included) has the label `s`. -/
def NoFrameLabelled (h : Heap) (f : Nat) (s : Str) : Prop :=
  ∀ n g fr, ancestor h n f = some g → h[g]? = some fr → fr.label ≠ s

/-- The frame prefixes of an identifier: none, `::`, or `:label:` with a label
that is not empty and holds no `:`. -/
inductive Prefix where
  /-- No prefix. -/
  | none
  /-- The prefix `::`. -/
  | root
  /-- The prefix `:label:`. -/
  | label (l : Str)
  deriving DecidableEq, Repr

/-- The text of a prefix. -/
def Prefix.text : Prefix → Str
  | .none => []
  | .root => [58, 58]
  | .label l => 58 :: (l ++ [58])

/-- A prefix is well formed: a label is not empty and holds no `:`. -/
def Prefix.Valid : Prefix → Prop
  | .label l => l ≠ [] ∧ 58 ∉ l
  | _ => True

/-- The frame at which the resolution of a prefix starts, in the words of the
specification: the Root for `::`, the nearest frame of the caller chain with
that label for `:label:`, the frame itself otherwise. -/
def StartsAt (h : Heap) (self : Nat) : Prefix → Nat → Prop
  | .none, g => g = self
  | .root, g => ∃ fr, h[self]? = some fr ∧ g = fr.root
  | .label l, g => IsNearestLabelled h self (58 :: (l ++ [58])) g

/-- The last step of the resolution: the frame itself when the symbol begins
with `$`, its closure otherwise. -/
def IsTarget (h : Heap) (up : Nat) (sym : Str) (t : Nat) : Prop :=
  if sym.head? = some 36 then t = up else ∃ fr, h[up]? = some fr ∧ t = fr.closure

/-- The invariant of the heap the constructor of `Frame` establishes: the caller
of a frame is a frame built before it, and the root pointer designates a frame. -/
structure WellFormed (h : Heap) : Prop where
  /-- A caller lies below its callee in the heap. -/
  previous_lt : ∀ (i : Nat) (fr : Frame), h[i]? = some fr → ∀ j, fr.previous = some j → j < i
  /-- The root pointer designates a frame of the heap. -/
  root_valid : ∀ (i : Nat) (fr : Frame), h[i]? = some fr → fr.root < h.length

/-- The result is the failure "Frame does not exist", with or without label. -/
def FailsFrameDoesNotExist {α : Type} (r : Except Xception α) : Prop :=
  r = .error .frameDoesNotExist ∨ ∃ s, r = .error (.frameDoesNotExistLabel s)

/-- The result is the failure "Invalid identifier". -/
def FailsInvalidIdentifier {α : Type} (r : Except Xception α) : Prop :=
  ∃ x, r = .error (.invalidIdentifier x)

/-- The identifier with the prefix `P` and `k` carets names a frame that does not
exist: no frame of the caller chain of `self` has the label of `P`, or the frame
at which the resolution starts has fewer than `k` callers above it. -/
def MissingFrame (h : Heap) (self : Nat) (P : Prefix) (k : Nat) : Prop :=
  (∃ l, P = .label l ∧ NoFrameLabelled h self P.text) ∨
    ∃ start, StartsAt h self P start ∧ ancestor h k start = none

/-- The identifier with the prefix `P`, `k` carets and the bare symbol `sym`; the
prefix is well formed, the symbol does not begin with `^`, and without prefix
and caret it does not begin with `:`. -/
def IsIdentifier (identifier : Str) (P : Prefix) (k : Nat) (sym : Str) : Prop :=
  identifier = P.text ++ (List.replicate k 94 ++ sym) ∧ P.Valid ∧ sym.head? ≠ some 94 ∧
    (P = .none → k = 0 → sym.head? ≠ some 58)

/-- The heap of the examples: the Root, a frame `:1:` called by the Root whose
closure is the Root and which binds `$n` and `a`, and a frame `:2:` called by
`:1:` whose closure is `:1:` and which binds `$n`.  The evaluation of
`(>(('>' # @$x # ';a = 1; [@a]')()))()` on the Root reaches it. -/
def exampleHeap : Heap :=
  [{ vars := { vars := [] }, root := 0, previous := none, closure := 0, label := [58, 58] },
   { vars := { vars := [([36, 110], [48]), ([97], [49])] }, root := 0, previous := some 0,
     closure := 0, label := [58, 49, 58] },
   { vars := { vars := [([36, 110], [48])] }, root := 0, previous := some 1, closure := 1,
     label := [58, 50, 58] }]

/-! ### Auxiliary definitions: the read position of `stringToDouble` -/

/-- The characters after the sign `stringToLong` and `stringToDouble` read. -/
def signRest (p : Str) : Str :=
  match p with
  | c :: c1 :: r => if c = 43 ∨ c = 45 then c1 :: r else p
  | _ => p

/-- The characters after the integer part, for `p` beginning with a digit. -/
def integerEnd (p : Str) : Str :=
  match p with
  | [] => []
  | c :: r => if c = 48 then r else (c :: r).dropWhile isDigit

/-- The characters after the fraction, if one begins `p`. -/
def fractionEnd (p : Str) : Str :=
  match p with
  | 46 :: c1 :: r1 => if isDigit c1 then (c1 :: r1).dropWhile isDigit else p
  | _ => p

/-- The characters after the exponent, if one begins `p`. -/
def exponentEnd (p : Str) : Str :=
  match p with
  | c2 :: c3 :: r2 =>
    if c2 = 69 ∨ c2 = 101 then (signRest (c3 :: r2)).dropWhile isDigit else p
  | _ => p

/-- The characters `stringToDouble(p, e)` leaves unread. -/
def numberEnd (p : Str) : Str :=
  if INFINITY.isPrefixOf (signRest p) then (signRest p).drop 8
  else
    match signRest p with
    | [] => []
    | c :: r => if isDigit c then exponentEnd (fractionEnd (integerEnd (c :: r))) else c :: r

/-- A `double` arithmetic without content, for the evaluation of the routines on
concrete strings where the result does not depend on the arithmetic. -/
def unitOps : DoubleOps Unit where
  zero := ()
  one := ()
  minusOne := ()
  ten := ()
  tenth := ()
  infinity := ()
  ofInt := fun _ => ()
  add := fun _ _ => ()
  mul := fun _ _ => ()
  pow := fun _ _ => ()
  lt := fun _ _ => false
  eq := fun _ _ => true
  le := fun _ _ => true
  neg := fun _ => ()
  sub := fun _ _ => ()
  div := fun _ _ => ()
  fmod := fun _ _ => ()
  fabs := fun _ => ()
  floor := fun _ => ()
  log10 := fun _ => ()
  toLong := fun _ => 0
  epsilon := ()
  small := ()
  large := ()
  tol := ()

/-- The members of a frame that `resolveFrame` reads. -/
def Frame.shape (fr : Frame) : Nat × Option Nat × Nat × Str :=
  (fr.root, fr.previous, fr.closure, fr.label)

/-- The array `cache` of a `QuickVars` has `CACHE_SIZE` entries. -/
def VarSpace.WF (vs : VarSpace) : Prop := ∀ c, vs.cache = some c → c.length = CACHE_SIZE

/-- The heap of the examples of `QuickVars`: a Root whose variable space is an
empty `QuickVars`. -/
def quickHeap : Heap :=
  [{ vars := VarSpace.emptyQuick, root := 0, previous := none, closure := 0,
     label := [58, 58] }]

/-! ### Frame labels: `Root::generateLabel` -/

/-- The members of a `Root` as the constructor `Root::Root` leaves them: no
tracing, `autoLabel` filled with 32 colons and `autoLabelStart` at `autoLabel + 29`. -/
def RootData.init : RootData :=
  { traceLevel := 0, tracerFunction := [], isInsideTracer := false,
    autoLabel := List.replicate 32 58, autoLabelStart := 29 }

/-- The loop `while (*--p == 'z');` of `Root::generateLabel`: the index at which
`p` stops, `none` when `p` would leave the array at its lower end. -/
def skipZ (autoLabel : List Nat) : Nat → Option Nat
  | 0 => none
  | p + 1 => if autoLabel.getD p 0 = 122 then skipZ autoLabel p else some p

/-- The loop `for (++p; *p != ':'; ++p) *p = '0';` of `Root::generateLabel`, from
the index `p` already incremented: the array as the loop leaves it, `none` when
`p` would leave the array at its upper end.  The fuel bounds the iterations. -/
def zeroFill (autoLabel : List Nat) (p : Nat) : Nat → Option (List Nat)
  | 0 => none
  | fuel + 1 =>
    match autoLabel[p]? with
    | none => none
    | some c => if c = 58 then some autoLabel else zeroFill (autoLabel.set p 48) (p + 1) fuel

/-- The routine `Root::generateLabel`: the label returned and the members of the
Root after the call, `none` when the call reads or writes outside `autoLabel`. -/
def generateLabel (r : RootData) : Option (Str × RootData) :=
  match skipZ r.autoLabel 30 with
  | none => none
  | some p =>
    let c := r.autoLabel.getD p 0
    let switched : Option (List Nat × Nat) :=
      if c = 58 then
        if r.autoLabelStart = 0 then none
        else some ((r.autoLabel.set p 49).set (r.autoLabelStart - 1) 58, r.autoLabelStart - 1)
      else if c = 57 then some (r.autoLabel.set p 65, r.autoLabelStart)
      else if c = 90 then some (r.autoLabel.set p 97, r.autoLabelStart)
      else some (r.autoLabel.set p ((c + 1) % 256), r.autoLabelStart)
    match switched with
    | none => none
    | some (a, b) =>
      match zeroFill a (p + 1) 32 with
      | none => none
      | some a1 =>
        some ((a1.drop b).take (31 - b), { r with autoLabel := a1, autoLabelStart := b })

/-- The labels of `n` successive calls of `Root::generateLabel`, the first call
first, with the members of the Root after the last call. -/
def generateLabels : Nat → RootData → Option (List Str × RootData)
  | 0, r => some ([], r)
  | n + 1, r =>
    match generateLabel r with
    | none => none
    | some (l, r1) =>
      match generateLabels n r1 with
      | none => none
      | some (ls, r2) => some (l :: ls, r2)

/-- The buffer `autoLabel` is exhausted: the label has filled it up to its first
entry and consists of the character `z` only, so that the next label needs one
character more than the array has. -/
def labelExhausted (r : RootData) : Bool :=
  r.autoLabelStart = 0 && ((r.autoLabel.drop 1).take 29).all (fun c => c = 122)

/-- The characters of a generated label between its colons: digits, capital and
small letters. -/
def IsLabelChar (c : Nat) : Prop :=
  (48 ≤ c ∧ c ≤ 57) ∨ (65 ≤ c ∧ c ≤ 90) ∨ (97 ≤ c ∧ c ≤ 122)

/-- The order of the generated labels: a shorter string is before a longer one,
and strings of one length are in the order of their characters. -/
def ShortLex (a b : Str) : Prop :=
  a.length < b.length ∨ (a.length = b.length ∧ stringLess a b = true)

instance (a b : Str) : Decidable (ShortLex a b) := by
  unfold ShortLex
  infer_instance

/-- The members of the Root hold the label `: ds :` right-aligned before the last
entry of `autoLabel`, with colons before it. -/
structure LabelInv (r : RootData) (ds : Str) : Prop where
  /-- The array. -/
  buf : r.autoLabel = List.replicate (30 - ds.length) 58 ++ ds ++ [58, 58]
  /-- The start of the label. -/
  start : r.autoLabelStart = 29 - ds.length
  /-- The label fits. -/
  len : ds.length ≤ 29
  /-- The characters of the label. -/
  chars : ∀ c ∈ ds, IsLabelChar c

/-- The successor of a label character other than `z`, as the `switch` of
`Root::generateLabel` computes it. -/
def labelNext (c : Nat) : Nat :=
  if c = 57 then 65 else if c = 90 then 97 else c + 1

/-! ### Conversions of values -/

/-- Reduction of an integer to the range of a 32-bit `int`. -/
def wrapInt (x : Int) : Int := (x + 2 ^ 31) % 2 ^ 32 - 2 ^ 31

/-- The loop `for (; x >= 10.0 && pp < ep; x *= 0.1) ++pp;` of `doubleToString`:
the value `x` and the index `pp` after it. -/
def normalizeLoop {D : Type} (ops : DoubleOps D) (ep : Nat) : Nat → D → Nat → D × Nat
  | 0, x, pp => (x, pp)
  | fuel + 1, x, pp =>
    if ops.le ops.ten x && decide (pp < ep) then normalizeLoop ops ep fuel (ops.mul x ops.tenth) (pp + 1)
    else (x, pp)

/-- The loop `for (double f = fabs(e); f >= 8; f /= 10) --maxp;` of
`doubleToString`: the value of `maxp` after it. -/
def maxpLoop {D : Type} (ops : DoubleOps D) : Nat → D → Int → Option Int
  | 0, _, _ => none
  | fuel + 1, f, maxp =>
    if ops.le (ops.ofInt 8) f then maxpLoop ops fuel (ops.div f ops.ten) (maxp - 1) else some maxp

/-- The state of the digit loops of `doubleToString`: the array `buffer` and the
indices of the pointers `bp`, `dp`, `pp` and `ep` in it, with the value `x`. -/
structure DigitState (D : Type) where
  /-- The array `buffer`. -/
  buffer : List Nat
  /-- The pointer `bp`. -/
  bp : Nat
  /-- The pointer `dp`. -/
  dp : Nat
  /-- The pointer `pp`. -/
  pp : Nat
  /-- The pointer `ep`. -/
  ep : Nat
  /-- The value `x`. -/
  x : D

/-- The step `*dp++ = c; if (dp == pp) *dp++ = '9';` of the digit loops. -/
def putDigit {D : Type} (s : DigitState D) (c : Nat) : DigitState D :=
  let b1 := s.buffer.set s.dp c
  if s.dp + 1 = s.pp then { s with buffer := b1.set (s.dp + 1) 57, dp := s.dp + 2 }
  else { s with buffer := b1, dp := s.dp + 1 }

/-- The loop `for (; x < 1.0 && dp < buffer + 32; ++ep, x *= 10.0)` of
`doubleToString`, which writes the leading zeros. -/
def zerosLoop {D : Type} (ops : DoubleOps D) : Nat → DigitState D → DigitState D
  | 0, s => s
  | fuel + 1, s =>
    if ops.lt s.x ops.one && decide (s.dp < 32) then
      let s1 := putDigit s 48
      zerosLoop ops fuel { s1 with ep := s1.ep + 1, x := ops.mul s1.x ops.ten }
    else s

/-- The loop `for (; dp < ep; )` of `doubleToString`, which writes the digits of
the mantissa. -/
def mantissaLoop {D : Type} (ops : DoubleOps D) : Nat → DigitState D → DigitState D
  | 0, s => s
  | fuel + 1, s =>
    if s.dp < s.ep then
      let ix : Int := ops.toLong s.x % 2 ^ 32
      let s1 := putDigit s ((ix + 48) % 256).toNat
      mantissaLoop ops fuel { s1 with x := ops.mul (ops.sub s1.x (ops.ofInt ix)) ops.ten }
    else s

/-- The loop `while (dp[-1] == '9') *--dp = '0';` of `doubleToString`. -/
def ninesLoop {D : Type} : Nat → DigitState D → DigitState D
  | 0, s => s
  | fuel + 1, s =>
    if s.buffer.getD (s.dp - 1) 0 = 57 then
      ninesLoop fuel { s with buffer := s.buffer.set (s.dp - 1) 48, dp := s.dp - 1 }
    else s

/-- The loop `while (ep[-1] == '0') --ep;` of `doubleToString`. -/
def trimLoop {D : Type} : Nat → DigitState D → DigitState D
  | 0, s => s
  | fuel + 1, s =>
    if s.buffer.getD (s.ep - 1) 0 = 48 then trimLoop fuel { s with ep := s.ep - 1 } else s

/-- The digit part of `doubleToString(d, precision)`, from the state after the
loop that moves the period.  The entries of `buffer` the routine has not
written hold `0`. -/
def digitsToString {D : Type} (ops : DoubleOps D) (d : D) (s0 : DigitState D) : Str :=
  let s1 := zerosLoop ops 32 s0
  let s2 := mantissaLoop ops 32 s1
  let s3 : DigitState D :=
    if ops.le (ops.ofInt 5) s2.x then
      let t := ninesLoop 32 s2
      let t1 : DigitState D :=
        if t.dp = t.bp then { t with buffer := t.buffer.set (t.bp - 1) 49, bp := t.bp - 1 }
        else { t with buffer := t.buffer.set (t.dp - 1) ((t.buffer.getD (t.dp - 1) 0 + 1) % 256) }
      if t1.buffer.getD (t1.dp - 1) 0 = 49 then { t1 with ep := t1.ep - 1 } else t1
    else s2
  let s4 := { s3 with buffer := s3.buffer.set s3.pp 46 }
  let s5 := if s4.pp < s4.ep then trimLoop 32 s4 else s4
  let s6 := if s5.ep - 1 = s5.pp then { s5 with ep := s5.ep - 1 } else s5
  let s7 := if ops.lt d ops.zero then { s6 with buffer := s6.buffer.set (s6.bp - 1) 45, bp := s6.bp - 1 }
            else s6
  (s7.buffer.drop s7.bp).take (s7.ep - s7.bp)

/-- The routine `doubleToString(d, precision)`.  The fuel bounds the depth of the
recursion for the exponent notation. -/
def doubleToStringFuel {D : Type} (ops : DoubleOps D) : Nat → D → Int → Except Xception Str
  | 0, _, _ => .error .outOfFuel
  | fuel + 1, d, precision =>
    let x := ops.fabs d
    let y := x
    if ops.lt y ops.epsilon then .ok [48]
    else if decide (12 ≤ precision) && ops.lt y ops.large && ops.eq (ops.ofInt (ops.toLong d)) d then
      .ok (intToString 64 true (ops.toLong d) 10 1)
    else if ops.eq x ops.infinity then
      .ok (if ops.lt d ops.zero then 45 :: INFINITY else 43 :: INFINITY)
    else
      let ep : Nat := 3 + precision.toNat
      let xp := normalizeLoop ops ep 32 x 3
      if decide (ep ≤ xp.2) || ops.le y ops.small || ops.le ops.large y then
        let e := ops.floor (ops.add (ops.log10 y) ops.tol)
        let exps : Str := (if ops.le ops.zero e then [101, 43] else [101]) ++
          intToString 32 true (wrapInt (ops.toLong e)) 10 1
        match maxpLoop ops 400 (ops.fabs e) 15 with
        | none => .error .outOfFuel
        | some maxp =>
          match doubleToStringFuel ops fuel (ops.mul d (ops.pow ops.tenth e)) (min maxp precision) with
          | .error err => .error err
          | .ok s => .ok (s ++ exps)
      else
        .ok (digitsToString ops d
          { buffer := List.replicate 32 0, bp := 2, dp := 2, pp := xp.2, ep := ep, x := xp.1 })

/-- The routine `doubleToString(d, precision)`. -/
def doubleToString {D : Type} (ops : DoubleOps D) (d : D) (precision : Int) : Except Xception Str :=
  doubleToStringFuel ops 8 d precision

/-- The constructor `STLValue(bool)`. -/
def ofBool (b : Bool) : Str := if b then [116, 114, 117, 101] else [102, 97, 108, 115, 101]

/-- The constructor `STLValue(long)`. -/
def ofLong (i : Int) : Str := intToString 64 true i 10 1

/-- The constructor `STLValue(ulong)`. -/
def ofULong (i : Nat) : Str := intToString 64 false i 10 1

/-- The constructor `STLValue(double)`, with the default precision of
`doubleToString`. -/
def ofDouble {D : Type} (ops : DoubleOps D) (d : D) : Except Xception Str := doubleToString ops d 14

/-- The conversion `STLValue::operator bool`. -/
def toBool (s : Str) : Except Xception Bool :=
  if s = [102, 97, 108, 115, 101] then .ok false
  else if s = [116, 114, 117, 101] then .ok true
  else .error (.invalidBoolean s)

/-- The conversion `STLValue::operator long`. -/
def toLong (s : Str) : Except Xception Int :=
  let lr := stringToLong s
  if lr.2.length = s.length ∨ lr.2 ≠ [] then .error (.invalidInteger s) else .ok lr.1

/-- The conversion `STLValue::operator ulong`. -/
def toULong (s : Str) : Except Xception Nat :=
  match toLong s with
  | .error x => .error x
  | .ok l => .ok (l % 2 ^ 64).toNat

/-- The conversion `STLValue::operator int`. -/
def toInt (s : Str) : Except Xception Int :=
  match toLong s with
  | .error x => .error x
  | .ok l => .ok (wrapInt l)

/-- The conversion `STLValue::operator double`. -/
def toDouble {D : Type} (ops : DoubleOps D) (s : Str) : Except Xception D :=
  let r := stringToDouble ops s
  if r.1 then .ok r.2 else .error (.invalidNumber s)
/-! ### The interpreter: operators, white space and tokens -/

/-- The precedence levels `Precedence`. -/
abbrev Precedence := Nat

/-- The level `NO_TRACE`. -/
def NO_TRACE : Precedence := 0
/-- The level `TRACE_ERROR`. -/
def TRACE_ERROR : Precedence := 1
/-- The level `TRACE_CALL`. -/
def TRACE_CALL : Precedence := 2
/-- The level `TRACE_LOOP`. -/
def TRACE_LOOP : Precedence := 3
/-- The level `STATEMENT`. -/
def STATEMENT : Precedence := 4
/-- The level `BODY`. -/
def BODY : Precedence := 5
/-- The level `ARGUMENT`. -/
def ARGUMENT : Precedence := 6
/-- The level `BRACKETS`. -/
def BRACKETS : Precedence := 7
/-- The level `ASSIGN`. -/
def ASSIGN : Precedence := 8
/-- The level `LOGICAL_OR`. -/
def LOGICAL_OR : Precedence := 9
/-- The level `LOGICAL_AND`. -/
def LOGICAL_AND : Precedence := 10
/-- The level `BIT_OR`. -/
def BIT_OR : Precedence := 11
/-- The level `BIT_XOR`. -/
def BIT_XOR : Precedence := 12
/-- The level `BIT_AND`. -/
def BIT_AND : Precedence := 13
/-- The level `EQUALITY`. -/
def EQUALITY : Precedence := 14
/-- The level `COMPARE`. -/
def COMPARE : Precedence := 15
/-- The level `CONCAT`. -/
def CONCAT : Precedence := 16
/-- The level `SHIFT`. -/
def SHIFT : Precedence := 17
/-- The level `ADD_SUB`. -/
def ADD_SUB : Precedence := 18
/-- The level `MUL_DIV`. -/
def MUL_DIV : Precedence := 19
/-- The level `PREFIX`. -/
def PREFIX : Precedence := 20
/-- The level `POSTFIX`. -/
def POSTFIX : Precedence := 21
/-- The level `DEFINITION`. -/
def DEFINITION : Precedence := 22

/-- An `XValue`: `first` tells an lvalue, `second` is the symbol of an lvalue or
the value of an rvalue. -/
abbrev XValue := Bool × Str

/-- The functors `Frame::post` passes to `binaryOp`, `assignableOp`, `addSubOp`
and `lgtOp`. -/
inductive Opr where
  /-- `std::divides<double>` -/
  | divides
  /-- `std::plus<double>` -/
  | plus
  /-- `std::minus<double>` -/
  | minus
  /-- `std::plus<String>` -/
  | concat
  /-- `std::multiplies<double>` -/
  | multiplies
  /-- `std::divides<long>` -/
  | dividesLong
  /-- `fmod` -/
  | fmod
  /-- `bitXor` -/
  | bitXor
  /-- `bitAnd` -/
  | bitAnd
  /-- `bitOr` -/
  | bitOr
  /-- `shiftLeft` -/
  | shiftLeft
  /-- `shiftRight` -/
  | shiftRight
  /-- `std::less<Value>` -/
  | less
  /-- `std::less_equal<Value>` -/
  | lessEqual
  /-- `std::greater<Value>` -/
  | greater
  /-- `std::greater_equal<Value>` -/
  | greaterEqual
  /-- `std::equal_to<String>` -/
  | equalString
  /-- `std::not_equal_to<String>` -/
  | notEqualString
  /-- `std::equal_to<Value>` -/
  | equalValue
  /-- `std::not_equal_to<Value>` -/
  | notEqualValue
  deriving DecidableEq, Repr

/-- A functor of `double` arguments applied to two values: both are converted,
the right one first, and the result becomes a value again. -/
def applyDouble {D : Type} (ops : DoubleOps D) (f : D → D → D) (l r : Str) : Except Xception Str :=
  match toDouble ops r with
  | .error x => .error x
  | .ok b =>
    match toDouble ops l with
    | .error x => .error x
    | .ok a => ofDouble ops (f a b)

/-- A functor of `ulong` arguments applied to two values. -/
def applyULong (f : Nat → Nat → Nat) (l r : Str) : Except Xception Str :=
  match toULong r with
  | .error x => .error x
  | .ok b =>
    match toULong l with
    | .error x => .error x
    | .ok a => .ok (ofULong (f a b))

/-- The functions `shiftLeft` and `shiftRight` applied to two values: the count
is converted to `int`; a count outside `0 .. 63` is undefined. -/
def applyShift (f : Nat → Nat → Nat) (l r : Str) : Except Xception Str :=
  match toInt r with
  | .error x => .error x
  | .ok b =>
    match toULong l with
    | .error x => .error x
    | .ok a =>
      if 0 ≤ b ∧ b < 64 then .ok (ofULong (wrapULong (f a b.toNat))) else .error .undefinedBehaviour

/-- The conversion of the right argument of `op(l, r)` to the type of the
parameter of the functor, for the exception it may throw: the right argument of
a call is complete before the left one is read. -/
def rightArg {D : Type} (ops : DoubleOps D) (op : Opr) (r : Str) : Except Xception Unit :=
  match op with
  | .divides | .plus | .minus | .multiplies | .fmod =>
    match toDouble ops r with
    | .error x => .error x
    | .ok _ => .ok ()
  | .dividesLong =>
    match toLong r with
    | .error x => .error x
    | .ok _ => .ok ()
  | .bitXor | .bitAnd | .bitOr =>
    match toULong r with
    | .error x => .error x
    | .ok _ => .ok ()
  | .shiftLeft | .shiftRight =>
    match toInt r with
    | .error x => .error x
    | .ok _ => .ok ()
  | _ => .ok ()

/-- The application `op(l, r)` of a functor to two values, with the conversions
of the arguments (the right one first) and of the result. -/
def applyOp {D : Type} (ops : DoubleOps D) (op : Opr) (l r : Str) : Except Xception Str :=
  match op with
  | .divides => applyDouble ops ops.div l r
  | .plus => applyDouble ops ops.add l r
  | .minus => applyDouble ops ops.sub l r
  | .multiplies => applyDouble ops ops.mul l r
  | .fmod => applyDouble ops ops.fmod l r
  | .concat => .ok (l ++ r)
  | .dividesLong =>
    match toLong r with
    | .error x => .error x
    | .ok b =>
      match toLong l with
      | .error x => .error x
      | .ok a =>
        if b = 0 ∨ (a = -(2 ^ 63) ∧ b = -1) then .error .undefinedBehaviour
        else .ok (ofLong (Int.tdiv a b))
  | .bitXor => applyULong (fun a b => a ^^^ b) l r
  | .bitAnd => applyULong (fun a b => a &&& b) l r
  | .bitOr => applyULong (fun a b => a ||| b) l r
  | .shiftLeft => applyShift (fun a b => a <<< b) l r
  | .shiftRight => applyShift (fun a b => a >>> b) l r
  | .less => .ok (ofBool (STLValue.less ops l r))
  | .lessEqual => .ok (ofBool (!STLValue.less ops r l))
  | .greater => .ok (ofBool (STLValue.less ops r l))
  | .greaterEqual => .ok (ofBool (!STLValue.less ops l r))
  | .equalString => .ok (ofBool (decide (l = r)))
  | .notEqualString => .ok (ofBool (decide (l ≠ r)))
  | .equalValue => .ok (ofBool (STLValue.equal ops l r))
  | .notEqualValue => .ok (ofBool (STLValue.notEqual ops l r))

/-- The functors `std::plus<double>` and `std::minus<double>` applied to a `long`
and the `int` 1, as the postfix `++` and `--` apply them. -/
def applyStep {D : Type} (ops : DoubleOps D) (op : Opr) (l : Int) : Except Xception Str :=
  match op with
  | .minus => ofDouble ops (ops.sub (ops.ofInt l) (ops.ofInt 1))
  | _ => ofDouble ops (ops.add (ops.ofInt l) (ops.ofInt 1))

/-- The routine `maybeWhite`. -/
def maybeWhite (c : Nat) : Bool := c == 32 || c == 9 || c == 13 || c == 10 || c == 47

/-- The call `std::find_first_of(p, e, END_CHARS, END_CHARS + 2)` for the end of
a line comment. -/
def findLineEnd : Str → Str
  | [] => []
  | c :: r => if c = 13 ∨ c = 10 then c :: r else findLineEnd r

/-- The call `std::search(p, e, END_CHARS, END_CHARS + 2)` for the end of a block
comment. -/
def searchCommentEnd : Str → Str
  | [] => []
  | [_] => []
  | c :: c1 :: r => if c = 42 ∧ c1 = 47 then c :: c1 :: r else searchCommentEnd (c1 :: r)

/-- The loop of `Frame::white`; the fuel bounds its iterations. -/
def whiteLoop : Nat → Str → Except Xception Str
  | 0, p => .ok p
  | _ + 1, [] => .ok []
  | fuel + 1, c :: r =>
    if c = 32 ∨ c = 9 ∨ c = 13 ∨ c = 10 then whiteLoop fuel r
    else if c = 47 then
      match r with
      | 47 :: r1 => whiteLoop fuel (findLineEnd r1)
      | 42 :: r1 =>
        match searchCommentEnd r1 with
        | _ :: _ :: r2 => whiteLoop fuel r2
        | _ => .error .missingCommentEnd
      | _ => .ok (c :: r)
    else .ok (c :: r)

/-- The routine `Frame::white(p, e)`: the characters left.  When it throws, `p`
is at `e`. -/
def white (p : Str) : Except Xception Str := whiteLoop (p.length + 1) p

/-- The statement `if (p < e && maybeWhite(*p)) white(p, e);`. -/
def skipWhite (p : Str) : Except Xception Str :=
  match p with
  | c :: _ => if maybeWhite c then white p else .ok p
  | [] => .ok p

/-- The routine `Frame::token(p, e, token)`, called with `p < e`: whether the
token follows the first character, and the characters left. -/
def token (p : Str) (tok : Str) : Except Xception (Bool × Str) :=
  match p with
  | [] => .error .undefinedBehaviour
  | _ :: r =>
    if tok.isPrefixOf r then
      let t := r.drop tok.length
      if (match t with | [] => true | c :: _ => !isSymbolChar c) then
        match skipWhite t with
        | .error x => .error x
        | .ok t1 => .ok (true, t1)
      else .ok (false, p)
    else .ok (false, p)

/-- The symbol characters at the head of `p`: the loop
`while (p < e && isSymbolChar(*p)) ++p;`. -/
def symbolEnd (p : Str) : Str := p.dropWhile isSymbolChar

/-! ### The interpreter: frames -/

/-- The configuration of the interpreter: the `double` arithmetic, the natives
and the class `CFG::Locals`. -/
structure Env (D : Type) where
  /-- The `double` arithmetic. -/
  ops : DoubleOps D
  /-- The call `native->pikaCall(frame)` of the native with the given number, on
  the frame `frame`: the value returned or the exception, with the heap after. -/
  pikaCall : Nat → List Frame → Nat → Except Xception Str × List Frame
  /-- A new instance of `CFG::Locals`. -/
  locals : VarSpace

/-- The routine `Frame::rvalue(v, fallback)` on the frame `self`. -/
def rvalue (h : Heap) (self : Nat) (v : XValue) (fallback : Bool) : Except Xception Str × Heap :=
  if !v.1 then (.ok v.2, h) else get h self v.2 fallback

/-- The routine `Frame::lvalue(v)`. -/
def lvalue (v : XValue) : Except Xception Str :=
  if !v.1 then .error .invalidLValue else .ok v.2

/-- The members of the Root of the frame `self`. -/
def rootDataOf (h : Heap) (self : Nat) : Option RootData :=
  match h[self]? with
  | none => none
  | some fr =>
    match h[fr.root]? with
    | none => none
    | some rt => rt.rootData

/-- The routine `Root::doTrace(level)` on the Root of the frame `self`. -/
def doTrace (h : Heap) (self : Nat) (level : Precedence) : Bool :=
  match rootDataOf h self with
  | none => false
  | some rd => decide (level ≤ rd.traceLevel)

/-- The heap after the members of the Root at `root` have become `rd`. -/
def storeRootData (h : Heap) (root : Nat) (rd : RootData) : Heap :=
  match h[root]? with
  | none => h
  | some fr => h.set root { fr with rootData := some rd }

/-- The heap after the member `source` of the frame `f` has become `src`. -/
def storeSource (h : Heap) (f : Nat) (src : Option Str) : Heap :=
  match h[f]? with
  | none => h
  | some fr => h.set f { fr with source := src }

/-- The heap after the member `closure` of the frame `f` has become `c`. -/
def storeClosure (h : Heap) (f : Nat) (c : Nat) : Heap :=
  match h[f]? with
  | none => h
  | some fr => h.set f { fr with closure := c }

/-- The constructor `Frame(vars, root, previous)` for a frame with a caller: the
new frame gets the next address, its closure is itself and its label comes from
`root.generateLabel()`.  The result is the address and the heap. -/
def newFrame (h : Heap) (vars : VarSpace) (previous : Nat) : Except Xception (Nat × Heap) :=
  match h[previous]? with
  | none => .error .danglingFrame
  | some pf =>
    match h[pf.root]? with
    | none => .error .danglingFrame
    | some rt =>
      match rt.rootData with
      | none => .error .danglingFrame
      | some rd =>
        match generateLabel rd with
        | none => .error .undefinedBehaviour
        | some (label, rd1) =>
          let h1 := storeRootData h pf.root rd1
          .ok (h1.length, h1 ++ [{ vars := vars, root := pf.root, previous := some previous,
                                   closure := h1.length, label := label }])

/-- The end of the life of the frame at `f`, the newest of the heap. -/
def deleteFrame (h : Heap) (f : Nat) : Heap := h.take f

/-- The heap with one frame: a Root as `Root::Root(vars)` constructs it. -/
def newRoot (vars : VarSpace) : Heap :=
  [{ vars := vars, root := 0, previous := none, closure := 0, label := [58, 58],
     rootData := some RootData.init }]

/-- The statement `locals.assign(identifier, value)` on the variable space of
the frame `f`; the result of `assign` is not used. -/
def assignLocal (h : Heap) (f : Nat) (identifier value : Str) : Heap :=
  match h[f]? with
  | none => h
  | some fr => storeVars h f (fr.vars.assign identifier value).2

/-- The routine `STLVariables::lookupNative`. -/
def VarSpace.lookupNative (vs : VarSpace) (identifier : Str) : Option Nat :=
  match List.lookup identifier vs.natives with
  | none => none
  | some native => native
/-! ### The interpreter: `Frame::pre`, `Frame::post`, `Frame::expr` and the calls

The routines of the interpreter call each other recursively.  The embedding
cuts the recursion at `expr`, `execute` and `call`: each routine is a function
of an `Interp`, which holds these three routines for the calls, and
`interp env n` is the interpreter whose calls may nest `n` deep.  The
parameters `p` and `v`, passed by reference, are returned with the heap in an
`St`, also when the routine throws. -/

/-- The message `getError()` of an exception. -/
def Xception.getError : Xception → Str
  | .invalidStringLiteral => str "Invalid string literal"
  | .invalidEscapeCharacter => str "Invalid escape character"
  | .unterminatedString => str "Unterminated string"
  | .invalidIdentifier rest => str "Invalid identifier: " ++ escape rest
  | .frameDoesNotExistLabel label => str "Frame does not exist: " ++ escape label
  | .frameDoesNotExist => str "Frame does not exist"
  | .undefined identifier => str "Undefined: " ++ escape identifier
  | .cannotModify identifier => str "Cannot modify: " ++ escape identifier
  | .invalidLValue => str "Invalid lvalue"
  | .syntaxError => str "Syntax error"
  | .syntaxErrorSemicolon => str "Syntax error (missing ';')?"
  | .missingBrace => str "Missing '\x7d'"
  | .missing term => str "Missing '" ++ [term] ++ [39]
  | .missingCommentEnd => str "Missing '*/'"
  | .expectedParenthesis => str "Expected '('"
  | .expectedBrace => str "Expected '\x7b'"
  | .expectedBraceOrColon => str "Expected '\x7d' or ':'"
  | .expectedCommaOrParenthesis => str "Expected ',' or ')'"
  | .unexpectedElse => str "Unexpected 'else' (preceded by ';'?)"
  | .invalidHexadecimal => str "Invalid hexadecimal number"
  | .invalidBoolean value => str "Invalid boolean: " ++ escape value
  | .invalidInteger value => str "Invalid integer: " ++ escape value
  | .invalidNumber value => str "Invalid number: " ++ escape value
  | .unknownNative body => str "Unknown native function: " ++ escape body
  | .illegalCall body => str "Illegal call on: " ++ escape body
  | .native message => message
  | .danglingFrame => []
  | .undefinedBehaviour => []
  | .outOfFuel => []

/-- The outcomes that are no exception of the program, which no `catch` handles. -/
def Xception.isFault : Xception → Bool
  | .danglingFrame => true
  | .undefinedBehaviour => true
  | .outOfFuel => true
  | _ => false

/-- The parameters a parsing routine has by reference, and the heap: the
iterator `p` (as the characters up to `e`), the value `v` and the frames. -/
structure St where
  /-- The characters from `p` to `e`. -/
  p : Str
  /-- The parameter `v`. -/
  v : XValue
  /-- The frames. -/
  h : Heap
  deriving DecidableEq, Repr

/-- The outcome of a parsing routine: the `bool` returned or the exception
thrown, with the parameters by reference and the heap as the routine leaves
them. -/
abbrev Res := Except Xception Bool × St

/-- The outcome of a routine that returns a value. -/
abbrev ValRes := Except Xception Str × Heap

/-- The routines the others call recursively, for a given depth of calls. -/
structure Interp where
  /-- The iterations a `for` loop may take. -/
  fuel : Nat
  /-- The routine `Frame::expr(p, e, v, emptyOk, dry, thres)` on the frame `self`. -/
  expr : Nat → St → Bool → Bool → Precedence → Res
  /-- The routine `Frame::execute(body)` on the frame `self`. -/
  execute : Nat → Str → Heap → ValRes
  /-- The routine `Frame::call(callee, body, argc, argv)` on the frame `self`. -/
  call : Nat → Str → Str → List Str → Heap → ValRes

/-- The routine `Frame::termExpr(p, e, v, emptyOk, dry, thres, term)`. -/
def termExpr (rec : Interp) (self : Nat) (st : St) (emptyOk dry : Bool) (thres : Precedence)
    (term : Nat) : Res :=
  let r := rec.expr self st emptyOk dry thres
  match r.1 with
  | .error x => (.error x, r.2)
  | .ok nonEmpty =>
    match r.2.p with
    | c :: rest =>
      if c = term then (.ok nonEmpty, { r.2 with p := rest }) else (.error (.missing term), r.2)
    | [] => (.error (.missing term), r.2)

/-- The routine `Root::trace` as `Frame::tick(p, v, thres, exit)` calls it on the
frame `self`: the tracer function is called with the source, the offset of `p`
in it, the parts of `v`, the level and `exit`. -/
def tick (rec : Interp) (self : Nat) (p : Str) (v : XValue) (thres : Precedence) (exit : Bool)
    (h : Heap) : Except Xception Unit × Heap :=
  match h[self]? with
  | none => (.error .danglingFrame, h)
  | some fr =>
    match rootDataOf h self with
    | none => (.error .danglingFrame, h)
    | some rd =>
      if rd.tracerFunction ≠ [] ∧ rd.isInsideTracer = false then
        match fr.source with
        | none => (.error .undefinedBehaviour, h)
        | some source =>
          let h1 := storeRootData h fr.root { rd with isInsideTracer := true }
          let argv : List Str := [source, ofULong (source.length - p.length), ofBool v.1, v.2,
            ofLong thres, ofBool exit]
          let r := rec.call self [] rd.tracerFunction argv h1
          match r.1 with
          | .ok _ =>
            match rootDataOf r.2 self with
            | none => (.error .danglingFrame, r.2)
            | some rd1 => (.ok (), storeRootData r.2 fr.root { rd1 with isInsideTracer := false })
          | .error x =>
            if x.isFault then (.error x, r.2)
            else
              match rootDataOf r.2 self with
              | none => (.error .danglingFrame, r.2)
              | some rd1 =>
                (.error x, storeRootData r.2 fr.root
                  { rd1 with isInsideTracer := false, traceLevel := NO_TRACE, tracerFunction := [] })
      else (.ok (), h)

/-- The statement `if (cond && root.doTrace(thres)) tick(p, v, thres, exit);`. -/
def tickIf (rec : Interp) (self : Nat) (cond : Bool) (p : Str) (v : XValue) (thres : Precedence)
    (exit : Bool) (h : Heap) : Except Xception Unit × Heap :=
  if cond && doTrace h self thres then tick rec self p v thres exit h else (.ok (), h)

/-- The live part `v = XValue(false, op(rvalue(v), rvalue(r)))` of `binaryOp`: the
right operand is read and converted, then the left one. -/
def liveBinary {D : Type} (env : Env D) (self : Nat) (op : Opr) (v r : XValue) (h : Heap) :
    Except Xception XValue × Heap :=
  let b := rvalue h self r true
  match b.1 with
  | .error x => (.error x, b.2)
  | .ok rr =>
    match rightArg env.ops op rr with
    | .error x => (.error x, b.2)
    | .ok _ =>
      let a := rvalue b.2 self v true
      match a.1 with
      | .error x => (.error x, a.2)
      | .ok l =>
        match applyOp env.ops op l rr with
        | .error x => (.error x, a.2)
        | .ok val => (.ok (false, val), a.2)

/-- The routine `Frame::binaryOp(p, e, v, dry, thres, hop, prec, op)`. -/
def binaryOp {D : Type} (env : Env D) (rec : Interp) (self : Nat) (st : St) (dry : Bool)
    (thres : Precedence) (hop : Nat) (prec : Precedence) (op : Opr) : Res :=
  if thres ≥ prec then (.ok false, st)
  else
    let r := rec.expr self { p := st.p.drop hop, v := (false, []), h := st.h } false dry prec
    match r.1 with
    | .error x => (.error x, { p := r.2.p, v := st.v, h := r.2.h })
    | .ok _ =>
      if dry then (.ok true, { p := r.2.p, v := st.v, h := r.2.h })
      else
        let l := liveBinary env self op st.v r.2.v r.2.h
        match l.1 with
        | .error x => (.error x, { p := r.2.p, v := st.v, h := l.2 })
        | .ok v1 => (.ok true, { p := r.2.p, v := v1, h := l.2 })

/-- The live part `v = XValue(false, set(lvalue(v), op(rvalue(v, false), rvalue(r))))`
of `assignableOp`: the right operand is read and converted, then the left one,
the functor is applied, and `lvalue(v)` comes last. -/
def liveAssignOp {D : Type} (env : Env D) (self : Nat) (op : Opr) (v r : XValue) (h : Heap) :
    Except Xception XValue × Heap :=
  let b := rvalue h self r true
  match b.1 with
  | .error x => (.error x, b.2)
  | .ok rr =>
    match rightArg env.ops op rr with
    | .error x => (.error x, b.2)
    | .ok _ =>
      let a := rvalue b.2 self v false
      match a.1 with
      | .error x => (.error x, a.2)
      | .ok l =>
        match applyOp env.ops op l rr with
        | .error x => (.error x, a.2)
        | .ok val =>
          match lvalue v with
          | .error x => (.error x, a.2)
          | .ok identifier =>
            let s := set a.2 self identifier val
            match s.1 with
            | .error x => (.error x, s.2)
            | .ok w => (.ok (false, w), s.2)

/-- The routine `Frame::assignableOp(p, e, v, dry, thres, hop, prec, op)`. -/
def assignableOp {D : Type} (env : Env D) (rec : Interp) (self : Nat) (st : St) (dry : Bool)
    (thres : Precedence) (hop : Nat) (prec : Precedence) (op : Opr) : Res :=
  if (st.p.drop hop).head? ≠ some 61 then binaryOp env rec self st dry thres hop prec op
  else if thres > ASSIGN then (.ok false, st)
  else
    let r := rec.expr self { p := st.p.drop (hop + 1), v := (false, []), h := st.h } false dry ASSIGN
    match r.1 with
    | .error x => (.error x, { p := r.2.p, v := st.v, h := r.2.h })
    | .ok _ =>
      if dry then (.ok true, { p := r.2.p, v := st.v, h := r.2.h })
      else
        let l := liveAssignOp env self op st.v r.2.v r.2.h
        match l.1 with
        | .error x => (.error x, { p := r.2.p, v := st.v, h := l.2 })
        | .ok v1 => (.ok true, { p := r.2.p, v := v1, h := l.2 })

/-- The live part of the postfix `++` and `--` in `addSubOp`:
`r = rvalue(v, false); set(lvalue(v), f(long(r), 1)); v = XValue(false, r);`,
where `f(long(r), 1)` comes before `lvalue(v)`. -/
def livePostStep {D : Type} (env : Env D) (self : Nat) (op : Opr) (v : XValue) (h : Heap) :
    Except Xception XValue × Heap :=
  let a := rvalue h self v false
  match a.1 with
  | .error x => (.error x, a.2)
  | .ok r =>
    match toLong r with
    | .error x => (.error x, a.2)
    | .ok l =>
      match applyStep env.ops op l with
      | .error x => (.error x, a.2)
      | .ok val =>
        match lvalue v with
        | .error x => (.error x, a.2)
        | .ok identifier =>
          let s := set a.2 self identifier val
          match s.1 with
          | .error x => (.error x, s.2)
          | .ok _ => (.ok (false, r), s.2)

/-- The routine `Frame::addSubOp(p, e, v, dry, thres, f)`. -/
def addSubOp {D : Type} (env : Env D) (rec : Interp) (self : Nat) (st : St) (dry : Bool)
    (thres : Precedence) (op : Opr) : Res :=
  if (st.p.drop 1).head? ≠ st.p.head? then assignableOp env rec self st dry thres 1 ADD_SUB op
  else if thres ≥ POSTFIX then (.ok false, st)
  else if dry then (.ok true, { st with p := st.p.drop 2 })
  else
    let l := livePostStep env self op st.v st.h
    match l.1 with
    | .error x => (.error x, { st with h := l.2 })
    | .ok v1 => (.ok true, { p := st.p.drop 2, v := v1, h := l.2 })

/-- The routine `Frame::lgtOp(p, e, v, dry, thres, excl, incl, shift)`. -/
def lgtOp {D : Type} (env : Env D) (rec : Interp) (self : Nat) (st : St) (dry : Bool)
    (thres : Precedence) (excl incl shift : Opr) : Res :=
  if (st.p.drop 1).head? = st.p.head? then assignableOp env rec self st dry thres 2 SHIFT shift
  else if (st.p.drop 1).head? = some 61 then binaryOp env rec self st dry thres 2 COMPARE incl
  else binaryOp env rec self st dry thres 1 COMPARE excl
/-- The end of `Frame::pre` after a `break`: the symbol characters from `p` on are
read, and the characters from `b` to `p`, when there are any, are an lvalue. -/
def symbolTail (b : Str) (st : St) (dry : Bool) : Res :=
  let p1 := symbolEnd st.p
  if b.length ≠ p1.length then
    (.ok true, { st with p := p1, v := if dry then st.v else (true, b.take (b.length - p1.length)) })
  else (.ok false, { st with p := p1 })

/-- A prefix operator of `Frame::pre`: `expr(++p, e, v, false, dry, PREFIX)` and,
when live, the update of `v` by `live`. -/
def prefixOp (rec : Interp) (self : Nat) (st : St) (dry : Bool) (rest : Str)
    (live : XValue → Heap → Except Xception XValue × Heap) : Res :=
  let r := rec.expr self { st with p := rest } false dry PREFIX
  match r.1 with
  | .error x => (.error x, r.2)
  | .ok _ =>
    if dry then (.ok true, r.2)
    else
      let l := live r.2.v r.2.h
      match l.1 with
      | .error x => (.error x, { r.2 with h := l.2 })
      | .ok v1 => (.ok true, { r.2 with v := v1, h := l.2 })

/-- The live part `v = XValue(false, !rvalue(v))`. -/
def liveNot (self : Nat) (v : XValue) (h : Heap) : Except Xception XValue × Heap :=
  let a := rvalue h self v true
  match a.1 with
  | .error x => (.error x, a.2)
  | .ok s =>
    match toBool s with
    | .error x => (.error x, a.2)
    | .ok b => (.ok (false, ofBool (!b)), a.2)

/-- The live part `v = XValue(false, ~ulong(rvalue(v)))`. -/
def liveBitNot (self : Nat) (v : XValue) (h : Heap) : Except Xception XValue × Heap :=
  let a := rvalue h self v true
  match a.1 with
  | .error x => (.error x, a.2)
  | .ok s =>
    match toULong s with
    | .error x => (.error x, a.2)
    | .ok u => (.ok (false, ofULong (2 ^ 64 - 1 - u)), a.2)

/-- The live part `v = XValue(false, reference(lvalue(v)))`. -/
def liveReference (self : Nat) (v : XValue) (h : Heap) : Except Xception XValue × Heap :=
  match lvalue v with
  | .error x => (.error x, h)
  | .ok identifier =>
    match reference h self identifier with
    | .error x => (.error x, h)
    | .ok s => (.ok (false, s), h)

/-- The live part `v = XValue(false, set(lvalue(v), long(rvalue(v, false)) + step))`
of the prefix `++` and `--`: the operand is read and converted, and `lvalue(v)`
comes last. -/
def livePreStep (self : Nat) (step : Int) (v : XValue) (h : Heap) :
    Except Xception XValue × Heap :=
  let a := rvalue h self v false
  match a.1 with
  | .error x => (.error x, a.2)
  | .ok s =>
    match toLong s with
    | .error x => (.error x, a.2)
    | .ok l =>
      match lvalue v with
      | .error x => (.error x, a.2)
      | .ok identifier =>
        let r := set a.2 self identifier (ofLong (wrapLong (l + step)))
        match r.1 with
        | .error x => (.error x, r.2)
        | .ok w => (.ok (false, w), r.2)

/-- The live part `v = XValue(false, *b == '-' ? -double(rvalue(v)) : double(rvalue(v)))`. -/
def liveSign {D : Type} (env : Env D) (self : Nat) (negative : Bool) (v : XValue) (h : Heap) :
    Except Xception XValue × Heap :=
  let a := rvalue h self v true
  match a.1 with
  | .error x => (.error x, a.2)
  | .ok s =>
    match toDouble env.ops s with
    | .error x => (.error x, a.2)
    | .ok d =>
      match ofDouble env.ops (if negative then env.ops.neg d else d) with
      | .error x => (.error x, a.2)
      | .ok val => (.ok (false, val), a.2)

/-- The numeric literals of `Frame::pre`, from `case '0'` on: `b` is the start of
the operand and `p` the first digit. -/
def numericLiteral {D : Type} (env : Env D) (b : Str) (st : St) (dry : Bool) : Res :=
  if (st.p.drop 1).head? = some 120 then
    let lp := hexToLong (st.p.drop 2)
    if lp.2.length + 2 = b.length then (.error .invalidHexadecimal, { st with p := lp.2 })
    else if dry then (.ok true, { st with p := lp.2 })
    else
      (.ok true, { st with p := lp.2,
                           v := (false, ofULong (if b.head? = some 45 then wrapULong (2 ^ 64 - lp.1)
                                                 else lp.1)) })
  else
    let dp := stringToDoubleIt env.ops st.p
    if dry then (.ok true, { st with p := dp.2 })
    else
      match ofDouble env.ops (if b.head? = some 45 then env.ops.neg dp.1 else dp.1) with
      | .error x => (.error x, { st with p := dp.2 })
      | .ok val => (.ok true, { st with p := dp.2, v := (false, val) })

/-- The loop `do \x7b expr(++p, e, v, true, dry, STATEMENT); \x7d while (p < e && *p == ';');`
of the compound expression, followed by the test of the closing brace. -/
def compoundLoop (rec : Interp) (self : Nat) (dry : Bool) : Nat → St → Res
  | 0, st => (.error .outOfFuel, st)
  | n + 1, st =>
    let r := rec.expr self { st with p := st.p.drop 1 } true dry STATEMENT
    match r.1 with
    | .error x => (.error x, r.2)
    | .ok _ =>
      match r.2.p with
      | [] => (.error .missingBrace, r.2)
      | c :: rest =>
        if c = 59 then compoundLoop rec self dry n r.2
        else if c ≠ 125 then (.error .syntaxErrorSemicolon, r.2)
        else (.ok true, { r.2 with p := rest })

/-- The conversion `bool(rvalue(xv))` with the heap after it. -/
def rvalueBool (h : Heap) (self : Nat) (xv : XValue) : Except Xception Bool × Heap :=
  let a := rvalue h self xv true
  match a.1 with
  | .error x => (.error x, a.2)
  | .ok s =>
    match toBool s with
    | .error x => (.error x, a.2)
    | .ok b => (.ok b, a.2)

/-- The loop `do ... while (cb);` of `for`, entered with `cb` true: the body
at `bp` is evaluated, then the step at `ip` and the condition at `cp`, and `cb`
becomes the value of the condition.  The state holds `v`; `xv` is separate. -/
def forLoop (rec : Interp) (self : Nat) (cp ip bp : Str) : Nat → XValue → St → Res
  | 0, _, st => (.error .outOfFuel, st)
  | n + 1, xv, st =>
    let body := rec.expr self { st with p := bp } true false BODY
    match body.1 with
    | .error x => (.error x, body.2)
    | .ok _ =>
      let t := tickIf rec self true body.2.p body.2.v TRACE_LOOP true body.2.h
      match t.1 with
      | .error x => (.error x, { body.2 with h := t.2 })
      | .ok _ =>
        let step := rec.expr self { p := ip, v := xv, h := t.2 } true false ARGUMENT
        match step.1 with
        | .error x => (.error x, { p := step.2.p, v := body.2.v, h := step.2.h })
        | .ok _ =>
          let cond := rec.expr self { p := cp, v := step.2.v, h := step.2.h } true false ARGUMENT
          match cond.1 with
          | .error x => (.error x, { p := cond.2.p, v := body.2.v, h := cond.2.h })
          | .ok _ =>
            let cb := rvalueBool cond.2.h self cond.2.v
            match cb.1 with
            | .error x => (.error x, { p := body.2.p, v := body.2.v, h := cb.2 })
            | .ok true => forLoop rec self cp ip bp n cond.2.v { p := body.2.p, v := body.2.v, h := cb.2 }
            | .ok false => (.ok true, { p := body.2.p, v := body.2.v, h := cb.2 })

/-- The `for` of `Frame::pre`, after the token: `p` is at the parenthesis. -/
def forStatement (rec : Interp) (self : Nat) (st : St) (dry : Bool) : Res :=
  match st.p with
  | 40 :: p1 =>
    let init := termExpr rec self { p := p1, v := (false, []), h := st.h } true dry ARGUMENT 59
    match init.1 with
    | .error x => (.error x, { init.2 with v := st.v })
    | .ok _ =>
      let cp := init.2.p
      let cond := termExpr rec self init.2 true dry ARGUMENT 59
      match cond.1 with
      | .error x => (.error x, { cond.2 with v := st.v })
      | .ok _ =>
        let ip := cond.2.p
        let step := termExpr rec self cond.2 true true ARGUMENT 41
        match step.1 with
        | .error x => (.error x, { step.2 with v := st.v })
        | .ok _ =>
          let bp := step.2.p
          let xv := step.2.v
          let cb : Except Xception Bool × Heap :=
            if dry then (.ok false, step.2.h) else rvalueBool step.2.h self xv
          match cb.1 with
          | .error x => (.error x, { p := bp, v := st.v, h := cb.2 })
          | .ok true =>
            let l := forLoop rec self cp ip bp rec.fuel xv { p := bp, v := st.v, h := cb.2 }
            match l.1 with
            | .error x => (.error x, l.2)
            | .ok _ =>
              let t := tickIf rec self true l.2.p l.2.v TRACE_LOOP false l.2.h
              match t.1 with
              | .error x => (.error x, { l.2 with h := t.2 })
              | .ok _ => (.ok true, { l.2 with h := t.2 })
          | .ok false =>
            let body := rec.expr self { p := bp, v := st.v, h := cb.2 } true true BODY
            match body.1 with
            | .error x => (.error x, body.2)
            | .ok _ =>
              let t := tickIf rec self (!dry) body.2.p body.2.v TRACE_LOOP false body.2.h
              match t.1 with
              | .error x => (.error x, { body.2 with h := t.2 })
              | .ok _ => (.ok true, { body.2 with h := t.2 })
  | _ => (.error .expectedParenthesis, st)

/-- The `if` of `Frame::pre`, after the token: `p` is at the parenthesis. -/
def ifStatement (rec : Interp) (self : Nat) (st : St) (dry : Bool) : Res :=
  match st.p with
  | 40 :: p1 =>
    let c := termExpr rec self { p := p1, v := (false, []), h := st.h } false dry ARGUMENT 41
    match c.1 with
    | .error x => (.error x, { c.2 with v := st.v })
    | .ok _ =>
      let b : Except Xception Bool × Heap :=
        if dry then (.ok true, c.2.h) else rvalueBool c.2.h self c.2.v
      match b.1 with
      | .error x => (.error x, { p := c.2.p, v := st.v, h := b.2 })
      | .ok cb =>
        let t := rec.expr self { p := c.2.p, v := st.v, h := b.2 } false (dry || !cb) BODY
        match t.1 with
        | .error x => (.error x, t.2)
        | .ok _ =>
          match t.2.p with
          | 101 :: _ =>
            match token t.2.p [108, 115, 101] with
            | .error x => (.error x, { t.2 with p := [] })
            | .ok (true, p2) =>
              let f := rec.expr self { t.2 with p := p2 } false (dry || cb) BODY
              match f.1 with
              | .error x => (.error x, f.2)
              | .ok _ => (.ok true, f.2)
            | .ok (false, _) => (.ok true, t.2)
          | _ => (.ok true, t.2)
  | _ => (.error .expectedParenthesis, st)

/-- The `function` of `Frame::pre`, after the token: `p` is at the brace. -/
def functionLiteral (rec : Interp) (self : Nat) (st : St) (dry : Bool) : Res :=
  match st.p with
  | 123 :: _ =>
    let r := rec.expr self st false true DEFINITION
    match r.1 with
    | .error x => (.error x, r.2)
    | .ok _ =>
      if dry then (.ok true, r.2)
      else (.ok true, { r.2 with v := (false, st.p.take (st.p.length - r.2.p.length)) })
  | _ => (.error .expectedBrace, st)

/-- The lambda of `Frame::pre`: `p` is after the `>`. -/
def lambdaLiteral (rec : Interp) (self : Nat) (st : St) (dry : Bool) : Res :=
  match skipWhite st.p with
  | .error x => (.error x, { st with p := [] })
  | .ok b =>
    let r := rec.expr self { st with p := b } false true STATEMENT
    match r.1 with
    | .error x => (.error x, r.2)
    | .ok _ =>
      if dry then (.ok true, r.2)
      else
        match deref r.2.h self with
        | .error x => (.error x, r.2)
        | .ok fr =>
          match deref r.2.h fr.closure with
          | .error x => (.error x, r.2)
          | .ok cl =>
            (.ok true, { r.2 with v := (false, [62] ++ cl.label ++ b.take (b.length - r.2.p.length)) })

/-- A literal of `Frame::pre` read by `token`: `true`, `void` or `false`. -/
def literalToken (st : St) (dry : Bool) (p1 : Str) (value : Str) : Res :=
  (.ok true, { st with p := p1, v := if dry then st.v else (false, value) })

/-- The routine `Frame::pre(p, e, v, dry)` on the frame `self`. -/
def pre {D : Type} (env : Env D) (rec : Interp) (self : Nat) (st : St) (dry : Bool) : Res :=
  let b := st.p
  match st.p with
  | [] => (.ok false, st)
  | c :: p1 =>
    if c = 0 then (.ok false, st)
    else if c = 33 then prefixOp rec self st dry p1 (liveNot self)
    else if c = 126 then prefixOp rec self st dry p1 (liveBitNot self)
    else if c = 40 then
      let r := termExpr rec self { st with p := p1 } false dry BRACKETS 41
      match r.1 with
      | .error x => (.error x, r.2)
      | .ok _ => (.ok true, r.2)
    else if c = 58 then
      symbolTail b (if p1.head? = some 58 then { st with p := p1.drop 1 } else st) dry
    else if c = 94 then symbolTail b { st with p := p1.dropWhile (fun x => x == 94) } dry
    else if c = 64 then prefixOp rec self st dry p1 (liveReference self)
    else if c = 91 then
      let r := termExpr rec self { st with p := p1 } false dry BRACKETS 93
      match r.1 with
      | .error x => (.error x, r.2)
      | .ok _ =>
        if dry then (.ok true, r.2)
        else
          let a := rvalue r.2.h self r.2.v true
          match a.1 with
          | .error x => (.error x, { r.2 with h := a.2 })
          | .ok s => (.ok true, { r.2 with v := (true, s), h := a.2 })
    else if c = 60 then
      let p2 := (find 62 st.p).drop 1
      (.ok true, { st with p := p2, v := if dry then st.v else (false, b.take (b.length - p2.length)) })
    else if c = 39 ∨ c = 34 then
      match unescape st.p with
      | .error x => (.error x, { st with p := [] })
      | .ok (s, p2) => (.ok true, { st with p := p2, v := if dry then st.v else (false, s) })
    else if c = 101 then
      match token st.p [108, 115, 101] with
      | .error x => (.error x, { st with p := [] })
      | .ok (true, p2) => (.error .unexpectedElse, { st with p := p2 })
      | .ok (false, _) => symbolTail b st dry
    else if c = 116 then
      match token st.p [114, 117, 101] with
      | .error x => (.error x, { st with p := [] })
      | .ok (true, p2) => literalToken st dry p2 (ofBool true)
      | .ok (false, _) => symbolTail b st dry
    else if c = 118 then
      match token st.p [111, 105, 100] with
      | .error x => (.error x, { st with p := [] })
      | .ok (true, p2) => literalToken st dry p2 []
      | .ok (false, _) => symbolTail b st dry
    else if c = 62 then lambdaLiteral rec self { st with p := p1 } dry
    else if c = 123 then compoundLoop rec self dry (st.p.length + 1) st
    else if c = 43 ∨ c = 45 then
      match token st.p INFINITY with
      | .error x => (.error x, { st with p := [] })
      | .ok (true, _) => numericLiteral env b { st with p := p1 } dry
      | .ok (false, _) =>
        match p1 with
        | [] => (.ok false, { st with p := [] })
        | c1 :: p2 =>
          if c1 = c then prefixOp rec self st dry p2 (livePreStep self (if c = 45 then -1 else 1))
          else if c1 < 48 ∨ c1 > 57 then
            prefixOp rec self st dry p1 (liveSign env self (decide (c = 45)))
          else numericLiteral env b { st with p := p1 } dry
    else if 48 ≤ c ∧ c ≤ 57 then
      if c = 48 then numericLiteral env b st dry
      else
        let dp := stringToDoubleIt env.ops st.p
        if dry then (.ok true, { st with p := dp.2 })
        else
          match ofDouble env.ops dp.1 with
          | .error x => (.error x, { st with p := dp.2 })
          | .ok val => (.ok true, { st with p := dp.2, v := (false, val) })
    else if c = 102 then
      match token st.p [97, 108, 115, 101] with
      | .error x => (.error x, { st with p := [] })
      | .ok (true, p2) => literalToken st dry p2 (ofBool false)
      | .ok (false, _) =>
        match token st.p [111, 114] with
        | .error x => (.error x, { st with p := [] })
        | .ok (true, p2) => forStatement rec self { st with p := p2 } dry
        | .ok (false, _) =>
          match token st.p [117, 110, 99, 116, 105, 111, 110] with
          | .error x => (.error x, { st with p := [] })
          | .ok (true, p2) => functionLiteral rec self { st with p := p2 } dry
          | .ok (false, _) => symbolTail b st dry
    else if c = 105 then
      match p1 with
      | [] => symbolTail b st dry
      | _ :: _ =>
        match token st.p [102] with
        | .error x => (.error x, { st with p := [] })
        | .ok (true, p2) => ifStatement rec self { st with p := p2 } dry
        | .ok (false, _) => symbolTail b st dry
    else symbolTail b st dry
/-- The live evaluation of `s\x7bi\x7d` in `Frame::post`, from the values of the
operands: `i >= 0L && i <= long(s.size()) ? Value(s.substr(i, 1)) : Value()`. -/
def postIndex (s : Str) (i : Int) : Str :=
  if 0 ≤ i ∧ i ≤ (s.length : Int) then substr s i.toNat (some 1) else []

/-- The conversion `long(rvalue(x))` with the heap after it. -/
def rvalueLong (h : Heap) (self : Nat) (x : XValue) : Except Xception Int × Heap :=
  let a := rvalue h self x true
  match a.1 with
  | .error e => (.error e, a.2)
  | .ok s =>
    match toLong s with
    | .error e => (.error e, a.2)
    | .ok l => (.ok l, a.2)

/-- The live part of the substring `s\x7bindex:count\x7d` of `Frame::post`. -/
def liveSubstring (self : Nat) (v : XValue) (index count : Option XValue) (h : Heap) :
    Except Xception XValue × Heap :=
  let a := rvalue h self v true
  match a.1 with
  | .error x => (.error x, a.2)
  | .ok s =>
    let i : Except Xception (Option Int) × Heap :=
      match index with
      | none => (.ok none, a.2)
      | some ix =>
        let r := rvalueLong a.2 self ix
        match r.1 with
        | .error x => (.error x, r.2)
        | .ok l => (.ok (some l), r.2)
    match i.1 with
    | .error x => (.error x, i.2)
    | .ok io =>
      let n : Except Xception (Option Int) × Heap :=
        match count with
        | none => (.ok none, i.2)
        | some cx =>
          let r := rvalueLong i.2 self cx
          match r.1 with
          | .error x => (.error x, r.2)
          | .ok l => (.ok (some l), r.2)
      match n.1 with
      | .error x => (.error x, n.2)
      | .ok no => (.ok (false, postSubstring s io no), n.2)

/-- The live part of the single index `s\x7bi\x7d` of `Frame::post`. -/
def liveIndex (self : Nat) (v index : XValue) (h : Heap) : Except Xception XValue × Heap :=
  let a := rvalue h self v true
  match a.1 with
  | .error x => (.error x, a.2)
  | .ok s =>
    let r := rvalueLong a.2 self index
    match r.1 with
    | .error x => (.error x, r.2)
    | .ok i => (.ok (false, postIndex s i), r.2)

/-- The substring postfix of `Frame::post`: `p` is after the brace. -/
def substringPostfix (rec : Interp) (self : Nat) (st : St) (dry : Bool) (p1 : Str) : Res :=
  let ix := rec.expr self { p := p1, v := (false, []), h := st.h } true dry BRACKETS
  match ix.1 with
  | .error x => (.error x, { ix.2 with v := st.v })
  | .ok gotIndex =>
    match ix.2.p with
    | [] => (.error .expectedBraceOrColon, { ix.2 with v := st.v })
    | c :: p2 =>
      if c ≠ 58 ∧ c ≠ 125 then (.error .expectedBraceOrColon, { ix.2 with v := st.v })
      else if c = 58 then
        let cnt := termExpr rec self { p := p2, v := (false, []), h := ix.2.h } true dry BRACKETS 125
        match cnt.1 with
        | .error x => (.error x, { cnt.2 with v := st.v })
        | .ok gotCount =>
          if dry then (.ok true, { cnt.2 with v := st.v })
          else
            let l := liveSubstring self st.v (if gotIndex then some ix.2.v else none)
              (if gotCount then some cnt.2.v else none) cnt.2.h
            match l.1 with
            | .error x => (.error x, { p := cnt.2.p, v := st.v, h := l.2 })
            | .ok v1 => (.ok true, { p := cnt.2.p, v := v1, h := l.2 })
      else if gotIndex && !dry then
        let l := liveIndex self st.v ix.2.v ix.2.h
        match l.1 with
        | .error x => (.error x, { p := p2, v := st.v, h := l.2 })
        | .ok v1 => (.ok true, { p := p2, v := v1, h := l.2 })
      else if !dry then (.error .syntaxError, { p := p2, v := st.v, h := ix.2.h })
      else (.ok true, { p := p2, v := st.v, h := ix.2.h })

/-- The loop over the arguments of a call in `Frame::post`, entered with `p` at
the parenthesis or at a comma; `n` counts the arguments and `callee` is the new
frame.  The result is `n` after the loop. -/
def argsLoop (rec : Interp) (self callee : Nat) (dry : Bool) :
    Nat → Nat → Str → Heap → Except Xception Nat × Str × Heap
  | 0, _, p, h => (.error .outOfFuel, p, h)
  | fuel + 1, n, p, h =>
    match skipWhite (p.drop 1) with
    | .error x => (.error x, [], h)
    | .ok p1 =>
      if p1.head? = some 41 ∧ n = 0 then (.ok n, p1, h)
      else
        let r := rec.expr self { p := p1, v := (false, []), h := h } true dry ARGUMENT
        match r.1 with
        | .error x => (.error x, r.2.p, r.2.h)
        | .ok got =>
          let a : Except Xception Unit × Heap :=
            if got && !dry then
              let rv := rvalue r.2.h self r.2.v true
              match rv.1 with
              | .error x => (.error x, rv.2)
              | .ok s => (.ok (), assignLocal rv.2 callee (36 :: intToString 64 true n 10 1) s)
            else (.ok (), r.2.h)
          match a.1 with
          | .error x => (.error x, r.2.p, a.2)
          | .ok _ =>
            if r.2.p.head? = some 44 then argsLoop rec self callee dry fuel (n + 1) r.2.p a.2
            else (.ok (n + 1), r.2.p, a.2)

/-- The live end of a call in `Frame::post`: `$n` and `$callee` are assigned and
the body `rvalue(v)` is executed on the new frame. -/
def liveCall (rec : Interp) (self callee : Nat) (n : Nat) (v : XValue) (h : Heap) :
    Except Xception XValue × Heap :=
  let h1 := assignLocal h callee [36, 110] (ofLong n)
  let h2 := if v.1 then assignLocal h1 callee [36, 99, 97, 108, 108, 101, 101] v.2 else h1
  let body := rvalue h2 self v true
  match body.1 with
  | .error x => (.error x, body.2)
  | .ok b =>
    let r := rec.execute callee b body.2
    match r.1 with
    | .error x => (.error x, r.2)
    | .ok val => (.ok (false, val), r.2)

/-- The call postfix of `Frame::post`: `p` is at the parenthesis.  The frame of
the callee lives until the postfix is left. -/
def callPostfix {D : Type} (env : Env D) (rec : Interp) (self : Nat) (st : St) (dry : Bool) : Res :=
  match newFrame st.h env.locals self with
  | .error x => (.error x, st)
  | .ok (callee, h1) =>
    let args := argsLoop rec self callee dry (st.p.length + 1) 0 st.p h1
    match args.1 with
    | .error x => (.error x, { p := args.2.1, v := st.v, h := deleteFrame args.2.2 callee })
    | .ok n =>
      match args.2.1 with
      | 41 :: p2 =>
        if dry then (.ok true, { p := p2, v := st.v, h := deleteFrame args.2.2 callee })
        else
          let l := liveCall rec self callee n st.v args.2.2
          match l.1 with
          | .error x => (.error x, { p := p2, v := st.v, h := deleteFrame l.2 callee })
          | .ok v1 => (.ok true, { p := p2, v := v1, h := deleteFrame l.2 callee })
      | _ =>
        (.error .expectedCommaOrParenthesis,
          { p := args.2.1, v := st.v, h := deleteFrame args.2.2 callee })

/-- The live part `v = XValue(false, set(lvalue(v), rvalue(r)))` of the assignment:
`rvalue(r)` comes first, then `lvalue(v)`. -/
def liveAssign (self : Nat) (v r : XValue) (h : Heap) : Except Xception XValue × Heap :=
  let a := rvalue h self r true
  match a.1 with
  | .error x => (.error x, a.2)
  | .ok val =>
    match lvalue v with
    | .error x => (.error x, a.2)
    | .ok identifier =>
      let s := set a.2 self identifier val
      match s.1 with
      | .error x => (.error x, s.2)
      | .ok w => (.ok (false, w), s.2)

/-- The assignment of `Frame::post`: `p` is at the `=`. -/
def assignPostfix (rec : Interp) (self : Nat) (st : St) (dry : Bool) : Res :=
  let r := rec.expr self { p := st.p.drop 1, v := (false, []), h := st.h } false dry ASSIGN
  match r.1 with
  | .error x => (.error x, { p := r.2.p, v := st.v, h := r.2.h })
  | .ok _ =>
    if dry then (.ok true, { p := r.2.p, v := st.v, h := r.2.h })
    else
      let l := liveAssign self st.v r.2.v r.2.h
      match l.1 with
      | .error x => (.error x, { p := r.2.p, v := st.v, h := l.2 })
      | .ok v1 => (.ok true, { p := r.2.p, v := v1, h := l.2 })

/-- The logical `&&` of `Frame::post`, with `p` at the first `&`, and the logical
`||` likewise: `isAnd` tells which.  The right operand is parsed into `v`, dry
when the left operand decides the result. -/
def logicalPostfix (rec : Interp) (self : Nat) (st : St) (dry : Bool) (isAnd : Bool) : Res :=
  let l : Except Xception Bool × Heap :=
    if dry then (.ok (!isAnd), st.h) else rvalueBool st.h self st.v
  match l.1 with
  | .error x => (.error x, { st with h := l.2 })
  | .ok lb =>
    if st.p.length < 2 then (.error .undefinedBehaviour, { st with h := l.2 })
    else
      let r := rec.expr self { p := st.p.drop 2, v := st.v, h := l.2 } false
        (if isAnd then !lb else lb) (if isAnd then LOGICAL_AND else LOGICAL_OR)
      match r.1 with
      | .error x => (.error x, r.2)
      | .ok _ =>
        if dry then (.ok true, r.2)
        else if isAnd && !lb then (.ok true, { r.2 with v := (false, ofBool false) })
        else if !isAnd && lb then (.ok true, { r.2 with v := (false, ofBool true) })
        else
          let rb := rvalueBool r.2.h self r.2.v
          match rb.1 with
          | .error x => (.error x, { r.2 with h := rb.2 })
          | .ok b => (.ok true, { r.2 with v := (false, ofBool b), h := rb.2 })

/-- The member postfix of `Frame::post`: `p` is after the period. -/
def memberPostfix (st : St) (dry : Bool) (p1 : Str) : Res :=
  match skipWhite p1 with
  | .error x => (.error x, { st with p := [] })
  | .ok b =>
    let p2 := symbolEnd b
    if dry then (.ok true, { st with p := p2 })
    else
      match lvalue st.v with
      | .error x => (.error x, { st with p := p2 })
      | .ok l =>
        (.ok true, { st with p := p2, v := (true, STLValue.subscript l (b.take (b.length - p2.length))) })

/-- The subscript postfix of `Frame::post`: `p` is after the bracket.  In
`lvalue(v)[rvalue(element)]` the object of the operator, `lvalue(v)`, is taken
before its argument. -/
def subscriptPostfix (rec : Interp) (self : Nat) (st : St) (dry : Bool) (p1 : Str) : Res :=
  let el := termExpr rec self { p := p1, v := (false, []), h := st.h } false dry BRACKETS 93
  match el.1 with
  | .error x => (.error x, { el.2 with v := st.v })
  | .ok _ =>
    if dry then (.ok true, { el.2 with v := st.v })
    else
      match lvalue st.v with
      | .error x => (.error x, { el.2 with v := st.v })
      | .ok l =>
        let a := rvalue el.2.h self el.2.v true
        match a.1 with
        | .error x => (.error x, { p := el.2.p, v := st.v, h := a.2 })
        | .ok i => (.ok true, { p := el.2.p, v := (true, STLValue.subscript l i), h := a.2 })

/-- The routine `Frame::post(p, e, v, dry, thres)` on the frame `self`. -/
def post {D : Type} (env : Env D) (rec : Interp) (self : Nat) (st : St) (dry : Bool)
    (thres : Precedence) : Res :=
  match st.p with
  | [] => (.ok false, st)
  | c :: p1 =>
    if c = 0 then (.ok false, st)
    else if c = 32 ∨ c = 9 ∨ c = 13 ∨ c = 10 then
      if thres < DEFINITION then (.ok true, { st with p := p1.dropWhile (fun x => x == c) })
      else (.ok false, st)
    else if c = 47 then
      if thres < DEFINITION ∧ (p1.head? = some 47 ∨ p1.head? = some 42) then
        match white st.p with
        | .error x => (.error x, { st with p := [] })
        | .ok p2 => (.ok true, { st with p := p2 })
      else assignableOp env rec self st dry thres 1 MUL_DIV .divides
    else if c = 43 then addSubOp env rec self st dry thres .plus
    else if c = 45 then addSubOp env rec self st dry thres .minus
    else if c = 35 then assignableOp env rec self st dry thres 1 CONCAT .concat
    else if c = 42 then assignableOp env rec self st dry thres 1 MUL_DIV .multiplies
    else if c = 92 then assignableOp env rec self st dry thres 1 MUL_DIV .dividesLong
    else if c = 37 then assignableOp env rec self st dry thres 1 MUL_DIV .fmod
    else if c = 94 then assignableOp env rec self st dry thres 1 BIT_XOR .bitXor
    else if c = 60 then lgtOp env rec self st dry thres .less .lessEqual .shiftLeft
    else if c = 62 then lgtOp env rec self st dry thres .greater .greaterEqual .shiftRight
    else if c = 33 then
      if p1.head? = some 61 ∧ (p1.drop 1).head? = some 61 then
        binaryOp env rec self st dry thres 3 EQUALITY .notEqualString
      else if p1.head? = some 61 then binaryOp env rec self st dry thres 2 EQUALITY .notEqualValue
      else (.ok false, st)
    else if c = 61 then
      if p1.head? = some 61 ∧ (p1.drop 1).head? = some 61 then
        binaryOp env rec self st dry thres 3 EQUALITY .equalString
      else if p1.head? = some 61 then binaryOp env rec self st dry thres 2 EQUALITY .equalValue
      else if thres ≤ ASSIGN then assignPostfix rec self st dry
      else (.ok false, st)
    else if c = 38 then
      if p1 ≠ [] ∧ p1.head? ≠ some 38 then assignableOp env rec self st dry thres 1 BIT_AND .bitAnd
      else if thres < LOGICAL_AND then logicalPostfix rec self st dry true
      else (.ok false, st)
    else if c = 124 then
      if p1 ≠ [] ∧ p1.head? ≠ some 124 then assignableOp env rec self st dry thres 1 BIT_OR .bitOr
      else if thres < LOGICAL_OR then logicalPostfix rec self st dry false
      else (.ok false, st)
    else if c = 46 then memberPostfix st dry p1
    else if c = 91 then
      if thres < POSTFIX then subscriptPostfix rec self st dry p1 else (.ok false, st)
    else if c = 123 then
      if thres < POSTFIX then substringPostfix rec self st dry p1 else (.ok false, st)
    else if c = 40 then
      if thres < POSTFIX then callPostfix env rec self st dry else (.ok false, st)
    else (.ok false, st)

/-- The loop `while (post(p, e, v, dry, thres));` of `Frame::expr`. -/
def postLoop {D : Type} (env : Env D) (rec : Interp) (self : Nat) (dry : Bool) (thres : Precedence) :
    Nat → St → Res
  | 0, st => (.error .outOfFuel, st)
  | n + 1, st =>
    let r := post env rec self st dry thres
    match r.1 with
    | .error x => (.error x, r.2)
    | .ok true => postLoop env rec self dry thres n r.2
    | .ok false => (.ok true, r.2)

/-- The routine `Frame::expr(p, e, v, emptyOk, dry, thres)` on the frame `self`. -/
def exprBody {D : Type} (env : Env D) (rec : Interp) (self : Nat) (st : St) (emptyOk dry : Bool)
    (thres : Precedence) : Res :=
  match skipWhite st.p with
  | .error x => (.error x, { st with p := [] })
  | .ok p1 =>
    let t := tickIf rec self (!dry) p1 st.v thres false st.h
    match t.1 with
    | .error x => (.error x, { st with p := p1, h := t.2 })
    | .ok _ =>
      let r := pre env rec self { st with p := p1, h := t.2 } dry
      match r.1 with
      | .error x => (.error x, r.2)
      | .ok true =>
        let l := postLoop env rec self dry thres (r.2.p.length + 1) r.2
        match l.1 with
        | .error x => (.error x, l.2)
        | .ok _ =>
          let t2 := tickIf rec self (!dry) l.2.p l.2.v thres true l.2.h
          match t2.1 with
          | .error x => (.error x, { l.2 with h := t2.2 })
          | .ok _ => (.ok true, { l.2 with h := t2.2 })
      | .ok false =>
        if !emptyOk then (.error .syntaxError, r.2) else (.ok false, r.2)
/-- The loop `while (p < e)` of `Frame::evaluate` and the statement
`v = XValue(false, rvalue(v));` after it. -/
def evaluateLoop (rec : Interp) (self : Nat) : Nat → St → Res
  | 0, st => (.error .outOfFuel, st)
  | n + 1, st =>
    match st.p with
    | [] =>
      let a := rvalue st.h self st.v true
      match a.1 with
      | .error x => (.error x, { st with h := a.2 })
      | .ok s => (.ok true, { st with v := (false, s), h := a.2 })
    | _ :: _ =>
      let r := rec.expr self st true false STATEMENT
      match r.1 with
      | .error x => (.error x, r.2)
      | .ok _ =>
        match r.2.p with
        | [] => evaluateLoop rec self n r.2
        | c :: rest =>
          if c ≠ 59 then (.error .syntaxError, r.2) else evaluateLoop rec self n { r.2 with p := rest }

/-- The handlers of `Frame::evaluate` for an exception `x` thrown with `p` and `v`
as given: the tick of the error, then the tick of the exit; an exception of a
tick replaces `x`. -/
def evaluateCatch (rec : Interp) (self : Nat) (isRoot : Bool) (x : Xception) (st : St) :
    Xception × Heap :=
  if x.isFault then (x, st.h)
  else
    let te := tickIf rec self true st.p (false, x.getError) TRACE_ERROR isRoot st.h
    let x1 : Xception := match te.1 with | .error y => y | .ok _ => x
    if x1.isFault then (x1, te.2)
    else
      let tc := tickIf rec self true st.p st.v TRACE_CALL true te.2
      match tc.1 with
      | .error z => (z, tc.2)
      | .ok _ => (x1, tc.2)

/-- The routine `Frame::evaluate(source)` on the frame `self`. -/
def evaluateBody (rec : Interp) (self : Nat) (source : Str) (h : Heap) : ValRes :=
  match h[self]? with
  | none => (.error .danglingFrame, h)
  | some fr =>
    let h0 := storeSource h self (some source)
    let t0 := tickIf rec self true source (false, []) TRACE_CALL false h0
    match t0.1 with
    | .error x => (.error x, storeSource t0.2 self fr.source)
    | .ok _ =>
      let r := evaluateLoop rec self (source.length + 2) { p := source, v := (false, []), h := t0.2 }
      match r.1 with
      | .error x =>
        let c := evaluateCatch rec self (decide (fr.previous = none)) x r.2
        (.error c.1, storeSource c.2 self fr.source)
      | .ok _ =>
        let t1 := tickIf rec self true r.2.p r.2.v TRACE_CALL true r.2.h
        match t1.1 with
        | .error x => (.error x, storeSource t1.2 self fr.source)
        | .ok _ => (.ok r.2.v.2, storeSource t1.2 self fr.source)

/-- The routine `Frame::execute(body)` on the frame `self`. -/
def executeBody {D : Type} (env : Env D) (rec : Interp) (self : Nat) (body : Str) (h : Heap) :
    ValRes :=
  match body with
  | 123 :: _ => evaluateBody rec self body h
  | 62 :: b =>
    match resolveFrameIt h self b with
    | .error x => (.error x, h)
    | .ok (f, rest) => evaluateBody rec self rest (storeClosure h self f)
  | 60 :: b =>
    let inner := b.dropLast
    if b.length > 1 then
      let target : Except Xception (Nat × Str) :=
        if inner.head? = some 58 then resolveFrameIt h self inner
        else
          match deref h self with
          | .error x => .error x
          | .ok fr => .ok (fr.root, inner)
      match target with
      | .error x => (.error x, h)
      | .ok (f, name) =>
        match deref h f with
        | .error x => (.error x, h)
        | .ok nf =>
          match nf.vars.lookupNative name with
          | some native => env.pikaCall native h self
          | none => (.error (.unknownNative body), h)
    else (.error (.unknownNative body), h)
  | _ => (.error (.illegalCall body), h)

/-- The loop `for (long i = 0; i < argc; ++i) locals.assign("$" + intToString(i), argv[i]);`
of `Frame::call`. -/
def assignArgs (callee : Nat) : Nat → List Str → Heap → Heap
  | _, [], h => h
  | i, a :: rest, h =>
    assignArgs callee (i + 1) rest (assignLocal h callee (36 :: intToString 64 true i 10 1) a)

/-- The routine `Frame::call(callee, body, argc, argv)` on the frame `self`, with
the arguments as a list. -/
def callBody {D : Type} (env : Env D) (rec : Interp) (self : Nat) (callee body : Str)
    (argv : List Str) (h : Heap) : ValRes :=
  match newFrame h env.locals self with
  | .error x => (.error x, h)
  | .ok (cf, h1) =>
    let h2 := assignLocal h1 cf [36, 110] (ofLong argv.length)
    let h3 := assignArgs cf 0 argv h2
    let h4 := if callee ≠ [] then assignLocal h3 cf [36, 99, 97, 108, 108, 101, 101] callee else h3
    let b : ValRes := if body = [] then get h4 self callee true else (.ok body, h4)
    match b.1 with
    | .error x => (.error x, deleteFrame b.2 cf)
    | .ok code =>
      let r := rec.execute cf code b.2
      (r.1, deleteFrame r.2 cf)

/-- The interpreter whose calls of `expr`, `execute` and `call` may nest `n` deep;
a deeper call gives `outOfFuel`. -/
def interp {D : Type} (env : Env D) : Nat → Interp
  | 0 =>
    { fuel := 0
      expr := fun _ st _ _ _ => (.error .outOfFuel, st)
      execute := fun _ _ h => (.error .outOfFuel, h)
      call := fun _ _ _ _ h => (.error .outOfFuel, h) }
  | n + 1 =>
    { fuel := n + 1
      expr := exprBody env (interp env n)
      execute := executeBody env (interp env n)
      call := callBody env (interp env n) }

/-- The routine `Frame::expr` with the fuel `n`. -/
def expr {D : Type} (env : Env D) (n : Nat) (self : Nat) (st : St) (emptyOk dry : Bool)
    (thres : Precedence) : Res :=
  (interp env n).expr self st emptyOk dry thres

/-- The routine `Frame::evaluate(source)` on the frame `self`, with the fuel `n`. -/
def evaluate {D : Type} (env : Env D) (n : Nat) (self : Nat) (source : Str) (h : Heap) : ValRes :=
  evaluateBody (interp env n) self source h

/-- The routine `Frame::execute(body)` on the frame `self`, with the fuel `n`. -/
def execute {D : Type} (env : Env D) (n : Nat) (self : Nat) (body : Str) (h : Heap) : ValRes :=
  (interp env n).execute self body h

/-- The routine `Frame::call(callee, body, argc, argv)` on the frame `self`, with
the fuel `n`. -/
def call {D : Type} (env : Env D) (n : Nat) (self : Nat) (callee body : Str) (argv : List Str)
    (h : Heap) : ValRes :=
  (interp env n).call self callee body argv h

/-- The routine `Frame::parse(begin, end, literal)` for `literal` false: the
characters left after a dry `expr` of a statement. -/
def parse {D : Type} (env : Env D) (n : Nat) (self : Nat) (source : Str) (h : Heap) : Res :=
  expr env n self { p := source, v := (false, []), h := h } true true STATEMENT
/-! ### The arithmetic of `double`: IEEE 754 binary64, rounding to nearest even -/

/-- A `double` of IEEE 754 binary64.  A finite number is `(-1)^neg * m * 2^e`
with `m < 2^53` and `-1074 <= e <= 971`, and `2^52 <= m` unless `e = -1074`;
zero is written with the exponent `0`. -/
inductive F64 where
  /-- A finite number, zero included. -/
  | finite (neg : Bool) (m : Nat) (e : Int)
  /-- An infinity. -/
  | inf (neg : Bool)
  /-- Not a number. -/
  | nan
  deriving DecidableEq, Repr

namespace F64

/-- The loop of `log2`; the fuel bounds its iterations. -/
def log2Loop : Nat → Nat → Nat
  | 0, _ => 0
  | fuel + 1, n => if n < 2 then 0 else log2Loop fuel (n / 2) + 1

/-- The position of the leading bit of `n`: the largest `k` with `2^k <= n`. -/
def log2 (n : Nat) : Nat := log2Loop n n

/-- The numerator and denominator of `n / d * 2^e`. -/
def scale (n d : Nat) (e : Int) : Nat × Nat :=
  if 0 ≤ e then (n <<< e.toNat, d) else (n, d <<< (-e).toNat)

/-- The `double` nearest to `(-1)^neg * n / d`, ties to even; `d` is positive. -/
def round (neg : Bool) (n d : Nat) : F64 :=
  if n = 0 then .finite neg 0 0
  else
    let e1 : Int := (log2 n : Int) - (log2 d : Int) - 52
    let s1 := scale n d (-e1)
    let e2 : Int := if s1.1 / s1.2 < 2 ^ 52 then e1 - 1 else if 2 ^ 53 ≤ s1.1 / s1.2 then e1 + 1 else e1
    let e3 : Int := max e2 (-1074)
    let s := scale n d (-e3)
    let q := s.1 / s.2
    let r := s.1 % s.2
    let m := if s.2 < 2 * r ∨ (2 * r = s.2 ∧ q % 2 = 1) then q + 1 else q
    let me : Nat × Int := if m = 2 ^ 53 then (2 ^ 52, e3 + 1) else (m, e3)
    if 971 < me.2 then .inf neg else .finite neg me.1 me.2

/-- The conversion of an integer. -/
def ofInt (i : Int) : F64 := round (decide (i < 0)) i.natAbs 1

/-- The number `n / d` of a decimal literal. -/
def ofRatio (n d : Nat) : F64 := round false n d

/-- The integers `(-1)^neg * m * 2^(e - k)` of two finite numbers on the common
exponent `k`, the smaller of the two (the exponent of a zero is left aside). -/
def aligned (na : Bool) (ma : Nat) (ea : Int) (nb : Bool) (mb : Nat) (eb : Int) : Int × Int × Int :=
  let k := if ma = 0 then eb else if mb = 0 then ea else min ea eb
  let ia : Int := (if na then -1 else 1) * (ma <<< (ea - k).toNat : Nat)
  let ib : Int := (if nb then -1 else 1) * (mb <<< (eb - k).toNat : Nat)
  (ia, ib, k)

/-- The negation. -/
def neg : F64 → F64
  | .finite n m e => .finite (!n) m e
  | .inf n => .inf (!n)
  | .nan => .nan

/-- The addition. -/
def add : F64 → F64 → F64
  | .nan, _ => .nan
  | _, .nan => .nan
  | .inf a, .inf b => if a = b then .inf a else .nan
  | .inf a, .finite _ _ _ => .inf a
  | .finite _ _ _, .inf b => .inf b
  | .finite na ma ea, .finite nb mb eb =>
    let t := aligned na ma ea nb mb eb
    let s := t.1 + t.2.1
    if s = 0 then .finite (na && nb) 0 0
    else
      let sc := scale s.natAbs 1 t.2.2
      round (decide (s < 0)) sc.1 sc.2

/-- The subtraction. -/
def sub (a b : F64) : F64 := add a (neg b)

/-- The multiplication. -/
def mul : F64 → F64 → F64
  | .nan, _ => .nan
  | _, .nan => .nan
  | .inf a, .inf b => .inf (a != b)
  | .inf a, .finite nb mb _ => if mb = 0 then .nan else .inf (a != nb)
  | .finite na ma _, .inf b => if ma = 0 then .nan else .inf (na != b)
  | .finite na ma ea, .finite nb mb eb =>
    let sc := scale (ma * mb) 1 (ea + eb)
    round (na != nb) sc.1 sc.2

/-- The division. -/
def div : F64 → F64 → F64
  | .nan, _ => .nan
  | _, .nan => .nan
  | .inf _, .inf _ => .nan
  | .inf a, .finite nb _ _ => .inf (a != nb)
  | .finite na _ _, .inf b => .finite (na != b) 0 0
  | .finite na ma ea, .finite nb mb eb =>
    if mb = 0 then (if ma = 0 then .nan else .inf (na != nb))
    else
      let sc := scale ma mb (ea - eb)
      round (na != nb) sc.1 sc.2

/-- The comparison `<`. -/
def lt : F64 → F64 → Bool
  | .nan, _ => false
  | _, .nan => false
  | .inf a, .inf b => a && !b
  | .inf a, .finite _ _ _ => a
  | .finite _ _ _, .inf b => !b
  | .finite na ma ea, .finite nb mb eb =>
    let t := aligned na ma ea nb mb eb
    decide (t.1 < t.2.1)

/-- The comparison `==`. -/
def eq : F64 → F64 → Bool
  | .nan, _ => false
  | _, .nan => false
  | .inf a, .inf b => a == b
  | .inf _, .finite _ _ _ => false
  | .finite _ _ _, .inf _ => false
  | .finite na ma ea, .finite nb mb eb =>
    let t := aligned na ma ea nb mb eb
    decide (t.1 = t.2.1)

/-- The comparison `<=`. -/
def le (a b : F64) : Bool := lt a b || eq a b

/-- The function `fabs`. -/
def fabs : F64 → F64
  | .finite _ m e => .finite false m e
  | .inf _ => .inf false
  | .nan => .nan

/-- The integer part of a finite number, towards zero. -/
def truncate (n : Bool) (m : Nat) (e : Int) : Int :=
  let sc := scale m 1 e
  (if n then -1 else 1) * ((sc.1 / sc.2 : Nat) : Int)

/-- The conversion `long(d)`; outside the range of `long` the result is the one
of the conversion instruction of x86-64, the least `long`. -/
def toLong : F64 → Int
  | .finite n m e =>
    let i := truncate n m e
    if -(2 ^ 63) ≤ i ∧ i < 2 ^ 63 then i else -(2 ^ 63)
  | _ => -(2 ^ 63)

/-- The function `floor`. -/
def floor : F64 → F64
  | .finite n m e =>
    let sc := scale m 1 e
    let q := sc.1 / sc.2
    if sc.1 % sc.2 = 0 then .finite n m e
    else if n then round true (q + 1) 1
    else round false q 1
  | x => x

/-- The function `fmod`. -/
def fmod : F64 → F64 → F64
  | .nan, _ => .nan
  | _, .nan => .nan
  | .inf _, _ => .nan
  | .finite na ma ea, .inf _ => .finite na ma ea
  | .finite na ma ea, .finite _ mb eb =>
    if mb = 0 then .nan
    else
      let t := aligned false ma ea false mb eb
      let r := t.1.natAbs % t.2.1.natAbs
      let sc := scale r 1 t.2.2
      round na sc.1 sc.2

/-- Whether a finite number is an integer, and the integer. -/
def isInteger : F64 → Option Int
  | .finite n m e =>
    let sc := scale m 1 e
    if sc.1 % sc.2 = 0 then some ((if n then -1 else 1) * ((sc.1 / sc.2 : Nat) : Int)) else none
  | _ => none

/-- The function `pow` for a finite base and an integer exponent of magnitude
at most 400, rounded correctly; other arguments are left to `other`. -/
def powInt (other : F64 → F64 → F64) (x y : F64) : F64 :=
  match x, isInteger y with
  | .finite n m e, some k =>
    if k.natAbs ≤ 400 then
      if k = 0 then .finite false (2 ^ 52) (-52)
      else if m = 0 then (if 0 < k then .finite (n && decide (k % 2 = 1)) 0 0
                          else .inf (n && decide (k % 2 = 1)))
      else
        let sc := scale (m ^ k.natAbs) 1 (e * k.natAbs)
        if 0 < k then round (n && decide (k % 2 = 1)) sc.1 sc.2
        else round (n && decide (k % 2 = 1)) sc.2 sc.1
    else other x y
  | _, _ => other x y

end F64

/-- The functions of the C library that IEEE 754 does not fix. -/
structure LibM where
  /-- The function `pow` outside the integer exponents of magnitude at most 400. -/
  pow : F64 → F64 → F64
  /-- The function `log10`. -/
  log10 : F64 → F64

/-- The arithmetic of `double` as IEEE 754 binary64. -/
def f64Ops (libm : LibM) : DoubleOps F64 where
  zero := F64.ofInt 0
  one := F64.ofInt 1
  minusOne := F64.ofInt (-1)
  ten := F64.ofInt 10
  tenth := F64.ofRatio 1 10
  infinity := .inf false
  ofInt := F64.ofInt
  add := F64.add
  mul := F64.mul
  pow := F64.powInt libm.pow
  lt := F64.lt
  eq := F64.eq
  le := F64.le
  neg := F64.neg
  sub := F64.sub
  div := F64.div
  fmod := F64.fmod
  fabs := F64.fabs
  floor := F64.floor
  log10 := libm.log10
  toLong := F64.toLong
  epsilon := F64.ofRatio 1 (10 ^ 100 * 10 ^ 100 * 10 ^ 100)
  small := F64.ofRatio 1 (10 ^ 5)
  large := F64.ofInt (10 ^ 10)
  tol := F64.ofRatio 1 (10 ^ 10)

/-- A C library whose `pow` and `log10` give no number. -/
def noLibM : LibM := { pow := fun _ _ => .nan, log10 := fun _ => .nan }

/-- The interpreter configuration of the examples: IEEE 754 arithmetic, no
natives, and `STLVariables` for the locals, as in `StdConfig`. -/
def stdEnv : Env F64 :=
  { ops := f64Ops noLibM, pikaCall := fun _ h _ => (.error (.native []), h),
    locals := VarSpace.emptySTL }

/-- The heap of a new `FullRoot` of `StdConfig`: the Root with an empty
`STLVariables`. -/
def stdRoot : Heap := newRoot VarSpace.emptySTL

/-! ### Auxiliary definitions: literals and tracing -/

/-- The routine `stringToDouble(p, e)` reads the literal `a` with the value `d`:
`a` begins with a digit, is no hexadecimal literal, and is read off as a whole
when the source ends after it or a space follows. -/
def ReadsLiteral {D : Type} (ops : DoubleOps D) (a : Str) (d : D) : Prop :=
  (∃ c0, a.head? = some c0 ∧ isDigit c0 = true) ∧
    ∀ r : Str, (r = [] ∨ r.head? = some 32) →
      ((a ++ r).drop 1).head? ≠ some 120 ∧ stringToDoubleIt ops (a ++ r) = (d, r)

/-- A decimal literal without sign: integer part, optional fraction, optional
exponent. -/
def IsDecimalLiteral (a : Str) : Prop :=
  ∃ ip fr ex, a = ip ++ (fr ++ ex) ∧ IsIntegerPart ip ∧ IsFraction fr ∧ IsExponent ex

/-- Tracing is off on the Root of the frame `self`: `doTrace` is false for every
level but `NO_TRACE`. -/
def TraceOff (h : Heap) (self : Nat) : Prop :=
  ∀ level : Precedence, 0 < level → doTrace h self level = false

/-- The integer part of `stringToDouble`, for `p` beginning with a digit: the
value and the characters left. -/
def integerStage {D : Type} (ops : DoubleOps D) (p : Str) : D × Str :=
  match p with
  | [] => (ops.zero, [])
  | c :: r => if c = 48 then (ops.zero, r) else integerLoop ops ops.zero (c :: r)

/-- The fraction of `stringToDouble`, from the value and the characters the
integer part leaves. -/
def fractionStage {D : Type} (ops : DoubleOps D) (ip : D × Str) : D × Str :=
  match ip.2 with
  | 46 :: c1 :: r1 => if isDigit c1 then fractionLoop ops ip.1 ops.one (c1 :: r1) else ip
  | _ => ip

/-- The exponent of `stringToDouble`, from the value and the characters the
fraction leaves. -/
def exponentStage {D : Type} (ops : DoubleOps D) (fp : D × Str) : D × Str :=
  match fp.2 with
  | c2 :: c3 :: r2 =>
    if c2 = 69 ∨ c2 = 101 then
      let lr := stringToLong (c3 :: r2)
      (ops.mul fp.1 (ops.pow ops.ten (ops.ofInt lr.1)), lr.2)
    else fp
  | _ => fp

/-! ### Auxiliary definitions: dry parsing -/

/-- The members of a frame but those of `Root`. -/
def Frame.core (fr : Frame) : VarSpace × Nat × Option Nat × Nat × Str × Option Str :=
  (fr.vars, fr.root, fr.previous, fr.closure, fr.label, fr.source)

/-- Two heaps hold the same frames with the same variables: they differ at most
in the members of `Root`. -/
def SameVars (h h1 : Heap) : Prop := h.map Frame.core = h1.map Frame.core

/-- The exceptions of the syntax: the ones the parser throws for the text alone. -/
def Xception.isParseError : Xception → Bool
  | .invalidStringLiteral => true
  | .invalidEscapeCharacter => true
  | .unterminatedString => true
  | .syntaxError => true
  | .syntaxErrorSemicolon => true
  | .missingBrace => true
  | .missing _ => true
  | .missingCommentEnd => true
  | .expectedParenthesis => true
  | .expectedBrace => true
  | .expectedBraceOrColon => true
  | .expectedCommaOrParenthesis => true
  | .unexpectedElse => true
  | .invalidHexadecimal => true
  | _ => false

/-- The exceptions of a lookup or of a conversion of a value: an undefined
variable, a frame that does not exist, an invalid identifier, lvalue, boolean,
integer or number, a variable that cannot be modified. -/
def Xception.isLookupOrConversion : Xception → Bool
  | .undefined _ => true
  | .invalidIdentifier _ => true
  | .frameDoesNotExistLabel _ => true
  | .frameDoesNotExist => true
  | .cannotModify _ => true
  | .invalidLValue => true
  | .invalidBoolean _ => true
  | .invalidInteger _ => true
  | .invalidNumber _ => true
  | _ => false

/-- The outcome `out` with the heap `h1` of a routine started on the heap `h` is
that of a dry run: the variables are as before, and an exception is one of the
syntax (or an outcome that is no exception of the program). -/
def DryOK {α : Type} (h : Heap) (out : Except Xception α) (h1 : Heap) : Prop :=
  SameVars h h1 ∧ ∀ x, out = .error x → (x.isParseError || x.isFault) = true

/-- The routine `expr` of an `Interp` runs dry when asked to. -/
def DryRec (rec : Interp) : Prop :=
  ∀ (self : Nat) (st : St) (emptyOk : Bool) (thres : Precedence),
    DryOK st.h (rec.expr self st emptyOk true thres).1 (rec.expr self st emptyOk true thres).2.h

/-- The outcome `r` of a parsing routine started on the heap `h` is that of a dry
run. -/
abbrev DryRes (h : Heap) (r : Res) : Prop := DryOK h r.1 r.2.h

/-! ### Auxiliary definitions: the heaps the constructors build -/

/-- The members of a frame that identify it: its label, its caller and its Root,
and for a Root the label buffer. -/
def Frame.ident (fr : Frame) : Str × Option Nat × Nat × Option (List Nat × Nat) :=
  (fr.label, fr.previous, fr.root, fr.rootData.map (fun rd => (rd.autoLabel, rd.autoLabelStart)))

/-- The heaps that arise from a new Root by constructing frames with the
constructor of `Frame`, destroying the newest frames, and changing members that
do not identify a frame (variables, closure, source, tracing). -/
inductive Built : Heap → Prop where
  /-- A new Root. -/
  | root (vars : VarSpace) : Built (newRoot vars)
  /-- The constructor `Frame(vars, root, previous)`. -/
  | frame (h : Heap) (vars : VarSpace) (previous f : Nat) (h1 : Heap) :
      Built h → newFrame h vars previous = .ok (f, h1) → Built h1
  /-- The end of the life of the frames from `f` on, the Root apart. -/
  | delete (h : Heap) (f : Nat) : Built h → 0 < f → Built (deleteFrame h f)
  /-- A change of other members. -/
  | update (h h1 : Heap) : Built h → h1.map Frame.ident = h.map Frame.ident → Built h1

/-- The labels of the frames of a heap are in the order of their generation: the
Root holds the label `: ds :` generated last, every frame has the Root at 0,
its caller before it and a label up to `: ds :`, and the labels increase along
the heap. -/
def LabelsOrdered (h : Heap) : Prop :=
  ∃ ds : Str,
    (∃ rt rd, h[0]? = some rt ∧ rt.rootData = some rd ∧ LabelInv rd ds) ∧
    (∀ (i : Nat) (fr : Frame), h[i]? = some fr →
      fr.root = 0 ∧ (∀ p, fr.previous = some p → p < i) ∧
        (fr.label = 58 :: ds ++ [58] ∨ ShortLex fr.label (58 :: ds ++ [58]))) ∧
    (∀ (i j : Nat) (fi fj : Frame), i < j → h[i]? = some fi → h[j]? = some fj →
      ShortLex fi.label fj.label)

/-! ### Auxiliary definitions: numerals -/

/-- The character of the digit `d` in the numerals of the claims: `0`..`9`, then
`a`..`f`. -/
def digitChar (d : Nat) : Nat := if d < 10 then 48 + d else 87 + d

/-- The numeral of `v` in the base `r`, most significant digit first; the
numeral of 0 has no digit. -/
def numeral (r v : Nat) : Str := (Nat.digits r v).reverse.map digitChar

/-- The native `radix` (`Script::radix`) on the frame `f`: the value returned or
the exception, with the heap as the lookups leave it.  The arguments of the last
call are read from left to right. -/
def radix (h : Heap) (f : Nat) : ValRes :=
  let g1 := get h f [36, 49] false
  match g1.1 with
  | .error x => (.error x, g1.2)
  | .ok s1 =>
    match toInt s1 with
    | .error x => (.error x, g1.2)
    | .ok rdx =>
      if rdx < 2 ∨ rdx > 16 then
        (.error (.native (str "Radix out of range: " ++ intToString 32 true rdx 10 1)), g1.2)
      else
        let g2 := getOptional g1.2 f [36, 50] (ofLong 1)
        match g2.1 with
        | .error x => (.error x, g2.2)
        | .ok s2 =>
          match toInt s2 with
          | .error x => (.error x, g2.2)
          | .ok minLength =>
            if minLength < 0 ∨ minLength > 32 then
              (.error (.native (str "Minimum length out of range: " ++
                intToString 32 true minLength 10 1)), g2.2)
            else
              let g3 := get g2.2 f [36, 48] false
              match g3.1 with
              | .error x => (.error x, g3.2)
              | .ok s0 =>
                match toULong s0 with
                | .error x => (.error x, g3.2)
                | .ok v =>
                  let g4 := get g3.2 f [36, 49] false
                  match g4.1 with
                  | .error x => (.error x, g4.2)
                  | .ok s4 =>
                    match toInt s4 with
                    | .error x => (.error x, g4.2)
                    | .ok r => (.ok (intToString 64 false v r.toNat minLength.toNat), g4.2)

/-- A Root whose variables are the arguments `$0`, `$1` and `$2` of a native. -/
def argsRoot (a0 a1 a2 : Str) : Heap :=
  newRoot { vars := [([36, 48], a0), ([36, 49], a1), ([36, 50], a2)] }

/-! ### Auxiliary definitions: escape sequences -/

/-- The escape sequence `e` (the characters after the backslash) stands for the
character `c` wherever it is written: whatever text `t` follows it, the decoder
of `unescape` reads `e` off `e ++ t`, neither more nor less, and yields `c`. -/
def DecodesTo (e : Str) (c : Nat) : Prop :=
  ∀ t : Str, ∃ l : Int, unescapeCode (e ++ t) = .ok (l, t) ∧ toChar l = c

/-! ### The listing of a variable space -/

/-- The entries of the map from `vars.lower_bound(key)` on: from the first entry
whose symbol is not less than `key`. -/
def Variables.lowerBound (vars : Variables) (key : Str) : Variables :=
  vars.dropWhile (fun kv => stringLess kv.1 key)

/-- The routine `STLVariables::list(key, list)`: the list after the call.  From
`vars.lower_bound(key)` the entries are pushed back as long as
`it->first.substr(0, key.size()) == key`.  The map is not changed. -/
def Variables.list (vars : Variables) (key : Str) (list : List (Str × Str)) : List (Str × Str) :=
  list ++ (vars.lowerBound key).takeWhile (fun kv => kv.1.take key.length == key)

/-- The invariant of the map `STLVariables::vars`: the symbols increase along
the entries. -/
def Variables.Ordered (vars : Variables) : Prop :=
  vars.Pairwise (fun a b => stringLess a.1 b.1 = true)

instance (vars : Variables) : Decidable vars.Ordered := by
  unfold Variables.Ordered
  infer_instance

/-! ### Auxiliary definitions: the contents of a variable space -/

/-- The value a variable space holds for a symbol: what `lookup` finds. -/
def VarSpace.value (vs : VarSpace) (symbol : Str) : Option Str := (vs.lookup symbol).1

/-- The invariant of the array `cache` of a `QuickVars`: it has `CACHE_SIZE`
entries, and an entry in use lies at the index its symbol hashes to. -/
def VarSpace.Hashed (vs : VarSpace) : Prop :=
  ∀ entries, vs.cache = some entries → entries.length = CACHE_SIZE ∧
    ∀ (i : Nat) (e : Str × Str), entries[i]? = some e → e.1 ≠ [] → QuickVars.hash e.1 = i

/-- The name `"$" + intToString(i)` of the argument `i` of a call. -/
def argName (i : Nat) : Str := 36 :: intToString 64 true (i : Int) 10 1

/-- The assignments of the loop of `Frame::call`, on the variable space of the
frame of the call. -/
def assignArgsVars : Nat → List Str → VarSpace → VarSpace
  | _, [], vs => vs
  | i, a :: rest, vs => assignArgsVars (i + 1) rest (vs.assign (argName i) a).2

/-- The variable space of the frame of a call when the execution starts: `$n`,
the arguments and, for a callee with a name, `$callee` are assigned in this
order to a new instance of `CFG::Locals`. -/
def callVars (locals : VarSpace) (callee : Str) (argv : List Str) : VarSpace :=
  let vs1 := (locals.assign [36, 110] (ofLong argv.length)).2
  let vs2 := assignArgsVars 0 argv vs1
  if callee ≠ [] then (vs2.assign [36, 99, 97, 108, 108, 101, 101] callee).2 else vs2

/-! ### The native `random` -/

/-- The native `Script::random(m)`, `m * ::rand() / double(RAND_MAX)`, for the
value `rand` that `::rand()` returns: the product of the `double` and the `int`
is taken first, in `double`, and divided by the constant of the C library. -/
def random {D : Type} (ops : DoubleOps D) (RAND_MAX : Nat) (rand : Nat) (m : D) : D :=
  ops.div (ops.mul m (ops.ofInt rand)) (ops.ofInt RAND_MAX)

/-! ### The registration of natives -/

/-- The map `STLVariables::natives` after `natives.insert(identifier, 0)` and the
assignment of `native` to the entry: the native of an identifier the map holds
is replaced, a new identifier is inserted at its place in the order of the
keys. -/
def NativeMap.assign : NativeMap → Str → Option Nat → NativeMap
  | [], identifier, native => [(identifier, native)]
  | (k, w) :: natives, identifier, native =>
    if identifier = k then (identifier, native) :: natives
    else if stringLess identifier k then (identifier, native) :: (k, w) :: natives
    else (k, w) :: NativeMap.assign natives identifier native

/-- The routine `STLVariables::assignNative`, which `QuickVars` inherits; the
native the identifier had is deleted, and the result is always `true`. -/
def VarSpace.assignNative (vs : VarSpace) (identifier : Str) (native : Option Nat) :
    Bool × VarSpace :=
  (true, { vs with natives := vs.natives.assign identifier native })

/-- The routine `Frame::registerNative(identifier, native)` on the frame `self`;
the null pointer is `none`. -/
def registerNative (h : Heap) (self : Nat) (identifier : Str) (native : Option Nat) :
    Except Xception Unit × Heap :=
  match resolveFrame h self identifier with
  | .error x => (.error x, h)
  | .ok (f, symbol) =>
    match deref h f, deref h self with
    | .error x, _ => (.error x, h)
    | _, .error x => (.error x, h)
    | .ok fr, .ok me =>
      let r := fr.vars.assignNative symbol native
      let h1 := storeVars h f r.2
      if !r.1 then (.error (.native (str "Cannot register native: " ++ escape identifier)), h1)
      else if native ≠ none then
        let s := set h1 f symbol ([60] ++ (if f = me.root then symbol else fr.label ++ symbol) ++ [62])
        match s.1 with
        | .error x => (.error x, s.2)
        | .ok _ => (.ok (), s.2)
      else (.ok (), h1)

/-- The routine `Frame::unregisterNative(identifier)` on the frame `self`. -/
def unregisterNative (h : Heap) (self : Nat) (identifier : Str) : Except Xception Unit × Heap :=
  registerNative h self identifier none

/-! ### Erasing and listing in a variable space -/

/-- The map `STLVariables::vars` after `vars.erase(symbol)`. -/
def Variables.erase (vars : Variables) (symbol : Str) : Variables :=
  vars.filter (fun kv => kv.1 != symbol)

/-- The first loop of `QuickVars::list`: every entry of the cache in use is
written back to the map, `Super::vars[cache[i].first] = cache[i].second`. -/
def flushCache : Variables → List (Str × Str) → Variables
  | vars, [] => vars
  | vars, e :: rest => flushCache (if e.1 ≠ [] then vars.assign e.1 e.2 else vars) rest

/-- The virtual `erase` of a variable space: `STLVariables::erase` or
`QuickVars::erase`, with the space as the call leaves it. -/
def VarSpace.erase (vs : VarSpace) (identifier : Str) : Bool × VarSpace :=
  match vs.cache with
  | none => ((vs.vars.lookup identifier).isSome, { vs with vars := vs.vars.erase identifier })
  | some cache =>
    let erased := (vs.vars.lookup identifier).isSome
    let vars1 := vs.vars.erase identifier
    let i := QuickVars.hash identifier
    if (cache.getD i ([], [])).1 = identifier then
      (true, { vs with vars := vars1, cache := some (cache.set i ([], [])) })
    else (erased, { vs with vars := vars1 })

/-- The virtual `list` of a variable space: `STLVariables::list` or
`QuickVars::list`, with the list after the call and the space as the call
leaves it. -/
def VarSpace.list (vs : VarSpace) (key : Str) (list : List (Str × Str)) :
    List (Str × Str) × VarSpace :=
  match vs.cache with
  | none => (vs.vars.list key list, vs)
  | some cache =>
    let vars1 := flushCache vs.vars cache
    (vars1.list key list, { vs with vars := vars1 })

/-- A call of one of the routines of a variable space. -/
inductive VarOp where
  /-- The call `assign(identifier, value)`. -/
  | assign (identifier value : Str)
  /-- The call `lookup(identifier, result)`. -/
  | lookup (identifier : Str)
  /-- The call `erase(identifier)`. -/
  | erase (identifier : Str)
  /-- The call `list(key, list)` with an empty `list`. -/
  | list (key : Str)
  deriving DecidableEq, Repr

/-- What a call of a routine of a variable space gives back. -/
inductive VarResult where
  /-- The `bool` that `assign` returns. -/
  | assigned (ok : Bool)
  /-- The outcome of `lookup`: the value, when the `bool` returned is `true`. -/
  | found (value : Option Str)
  /-- The `bool` that `erase` returns. -/
  | erased (ok : Bool)
  /-- The list that `list` has filled. -/
  | listed (pairs : List (Str × Str))
  deriving DecidableEq, Repr

/-- The identifier of the call is not empty. -/
def VarOp.NonEmpty : VarOp → Prop
  | .assign identifier _ => identifier ≠ []
  | .lookup identifier => identifier ≠ []
  | .erase identifier => identifier ≠ []
  | .list _ => True

instance (op : VarOp) : Decidable op.NonEmpty := by
  cases op <;> unfold VarOp.NonEmpty <;> infer_instance

/-- One call on a variable space: what it gives back, and the space after it. -/
def VarSpace.step (vs : VarSpace) : VarOp → VarResult × VarSpace
  | .assign identifier value => (.assigned (vs.assign identifier value).1, (vs.assign identifier value).2)
  | .lookup identifier => (.found (vs.lookup identifier).1, (vs.lookup identifier).2)
  | .erase identifier => (.erased (vs.erase identifier).1, (vs.erase identifier).2)
  | .list key => (.listed (vs.list key []).1, (vs.list key []).2)

/-- A sequence of calls on a variable space: what the calls give back, in order. -/
def VarSpace.run : VarSpace → List VarOp → List VarResult
  | _, [] => []
  | vs, op :: ops => (vs.step op).1 :: VarSpace.run (vs.step op).2 ops

/-- The map of a variable space once the cache, if there is one, is written
back: the entries `list` walks through. -/
def VarSpace.content (vs : VarSpace) : Variables :=
  match vs.cache with
  | none => vs.vars
  | some cache => flushCache vs.vars cache

/-! ### Auxiliary definitions: the links between the frames -/

/-- The links of the frames of a heap to other frames, and their labels, frame
by frame. -/
def links (h : Heap) : List (Nat × Option Nat × Nat × Str) := h.map Frame.shape

/-- The members of a frame but the label generator of a `Root`: the variable
space, the links, the label, the source, and for a `Root` the settings of the
tracer. -/
def Frame.steady (fr : Frame) :
    VarSpace × Nat × Option Nat × Nat × Str × Option Str × Option (Nat × Str × Bool) :=
  (fr.vars, fr.root, fr.previous, fr.closure, fr.label, fr.source,
    fr.rootData.map (fun rd => (rd.traceLevel, rd.tracerFunction, rd.isInsideTracer)))

/-- The members of the frames of a heap but the label generator, frame by frame. -/
def steadies (h : Heap) :
    List (VarSpace × Nat × Option Nat × Nat × Str × Option Str × Option (Nat × Str × Bool)) :=
  h.map Frame.steady

/-- The root pointer and the closure link of every frame designate the frame
itself or one of the callers above it. -/
def OnChain (h : Heap) : Prop :=
  ∀ (f : Nat) (fr : Frame), h[f]? = some fr →
    (∃ k, ancestor h k f = some fr.root) ∧ ∃ k, ancestor h k f = some fr.closure

/-- The invariant of the frames: callers lie below their callees, and root
pointers and closure links stay on the caller chain. -/
def ChainOK (h : Heap) : Prop := WellFormed h ∧ OnChain h

/-- The routines of an `Interp` keep the links of the frames: `expr` and `call`
those of all frames, `execute` those of the frames below the one it runs on,
whose closure it may set to a frame of its caller chain. -/
structure LinkRec (rec : Interp) : Prop where
  /-- The routine `expr`. -/
  expr : ∀ (self : Nat) (st : St) (emptyOk dry : Bool) (thres : Precedence),
    links (rec.expr self st emptyOk dry thres).2.h = links st.h
  /-- The routine `execute`, below the frame. -/
  execute : ∀ (self : Nat) (body : Str) (h : Heap),
    (links (rec.execute self body h).2).take self = (links h).take self
  /-- The routine `execute`, for the invariant. -/
  executeOK : ∀ (self : Nat) (body : Str) (h : Heap),
    ChainOK h → ChainOK (rec.execute self body h).2
  /-- The routine `call`. -/
  call : ∀ (self : Nat) (callee body : Str) (argv : List Str) (h : Heap),
    links (rec.call self callee body argv h).2 = links h

/-- The natives of a configuration keep the links of the frames below the one
they are called on, and the invariant of the frames. -/
def NativeOK {D : Type} (env : Env D) : Prop :=
  ∀ (k : Nat) (h : Heap) (f : Nat),
    (links (env.pikaCall k h f).2).take f = (links h).take f ∧
      (ChainOK h → ChainOK (env.pikaCall k h f).2)

/-- The routine `expr` of an `Interp`, when it runs dry, changes no member of a
frame but the label generator. -/
def SteadyRec (rec : Interp) : Prop :=
  ∀ (self : Nat) (st : St) (emptyOk : Bool) (thres : Precedence),
    steadies (rec.expr self st emptyOk true thres).2.h = steadies st.h

/-- A Root of the examples with tracing on: the tracer function is the native
`<t>`, registered under the number 0, the trace level is `STATEMENT`, and the
source is the empty string. -/
def tracedRoot : Heap :=
  [{ vars := { vars := [], natives := [([116], some 0)] }, root := 0, previous := none,
     closure := 0, label := [58, 58], source := some [],
     rootData := some { RootData.init with traceLevel := STATEMENT, tracerFunction := [60, 116, 62] } }]

/-! ### The natives `try` and `throw` -/

/-- The native `Script::tryer` on the frame `f`:
`try \x7b f.call(String(), f.get("$0"), 0); \x7d catch (const Xception& x) \x7b return x.getError(); \x7d return Value();`
with the routine `call` of `rec`.  An outcome that is no exception of the
program is not caught. -/
def tryer (rec : Interp) (h : Heap) (f : Nat) : ValRes :=
  let g := get h f [36, 48] false
  match g.1 with
  | .error x => if x.isFault then (.error x, g.2) else (.ok x.getError, g.2)
  | .ok body =>
    let r := rec.call f [] body [] g.2
    match r.1 with
    | .error x => if x.isFault then (.error x, r.2) else (.ok x.getError, r.2)
    | .ok _ => (.ok [], r.2)

/-- The native `Script::thrower` behind its `UnaryFunctor`, on the frame `f`:
`throw Xception(f.get("$0"))`. -/
def thrower (h : Heap) (f : Nat) : ValRes :=
  let g := get h f [36, 48] false
  match g.1 with
  | .error x => (.error x, g.2)
  | .ok s => (.error (.native s), g.2)

/-- The interpreter configuration of `StdConfig` with one native, `throw`, under
the number 0. -/
def throwEnv : Env F64 :=
  { ops := f64Ops noLibM,
    pikaCall := fun k h f => if k = 0 then thrower h f else (.error (.native []), h),
    locals := VarSpace.emptySTL }

/-- The frames when `try` is called with one argument, the lambda `code`, on a
new Root where `throw` is registered and the variable `m` holds the string `m`:
the Root and the frame of `try` with its `$0`, `$n` and `$callee`. -/
def tryHeap (code m : Str) : Heap :=
  let h1 := (registerNative (newRoot VarSpace.emptySTL) 0 (str "throw") (some 0)).2
  let h2 := (set h1 0 (str "m") m).2
  match newFrame h2 VarSpace.emptySTL 0 with
  | .error _ => h2
  | .ok (cf, h3) =>
    assignLocal (assignLocal (assignLocal h3 cf [36, 48] code) cf [36, 110] (ofLong 1)) cf
      (str "$callee") (str "try")

/-! ### The native `foreach` -/

/-- The loop of `Script::foreach` over the list of variables, from the heap `h`:
the arguments of a call are the reference of the variable, its symbol from the
size of the key on, and its value. -/
def foreachLoop (rec : Interp) (f : Nat) (arg1 : Str) (target keySize : Nat) :
    List (Str × Str) → Heap → ValRes
  | [], h => (.ok [], h)
  | kv :: rest, h =>
    match reference h target kv.1 with
    | .error x => (.error x, h)
    | .ok r =>
      let c := rec.call f [] arg1 [r, kv.1.drop keySize, kv.2] h
      match c.1 with
      | .error x => (.error x, c.2)
      | .ok _ => foreachLoop rec f arg1 target keySize rest c.2

/-- The native `Script::foreach` on the frame `f`, with the routine `call` of
`rec`: `$1` is read, then `$0`, whose subscript with the void value is resolved
on the caller; the variables under that key are listed, and the function is
called for each entry of the list. -/
def foreach (rec : Interp) (h : Heap) (f : Nat) : ValRes :=
  let a1 := get h f [36, 49] false
  match a1.1 with
  | .error x => (.error x, a1.2)
  | .ok arg1 =>
    let a0 := get a1.2 f [36, 48] false
    match a0.1 with
    | .error x => (.error x, a0.2)
    | .ok ref =>
      match deref a0.2 f with
      | .error x => (.error x, a0.2)
      | .ok fr =>
        match fr.previous with
        | none => (.error .undefinedBehaviour, a0.2)
        | some previous =>
          match resolveFrame a0.2 previous (STLValue.subscript ref []) with
          | .error x => (.error x, a0.2)
          | .ok (target, key) =>
            match deref a0.2 target with
            | .error x => (.error x, a0.2)
            | .ok tf =>
              let l := tf.vars.list key []
              foreachLoop rec f arg1 target key.length l.1 (storeVars a0.2 target l.2)

/-- The calls `f.call(String(), fn, 3, argv)` for the argument lists of a list,
one after the other, each once; the calls end with the first one that throws. -/
def callEach (rec : Interp) (f : Nat) (fn : Str) : List (List Str) → Heap → ValRes
  | [], h => (.ok [], h)
  | argv :: rest, h =>
    let c := rec.call f [] fn argv h
    match c.1 with
    | .error x => (.error x, c.2)
    | .ok _ => callEach rec f fn rest c.2

/-- The frames of an example of `foreach`: the Root with the variables `a.p`,
`a.q`, `b` and `log`, and the frame of `foreach(@a, >log = log # $0 # '=' # $2 # ' ')`
called on the Root. -/
def foreachHeap : Heap :=
  [{ vars := { vars := [(str "a.p", str "1"), (str "a.q", str "2"), (str "b", str "3"),
                        (str "log", [])] },
     root := 0, previous := none, closure := 0, label := str "::",
     rootData := (generateLabels 1 RootData.init).map (fun r => r.2) },
   { vars := { vars := [(str "$0", str "::a"),
                        (str "$1", str ">::log = log # $0 # '=' # $2 # ' '"), (str "$n", str "2")] },
     root := 0, previous := some 0, closure := 1, label := str ":1:" }]

/-- The frames of a second example of `foreach`: the Root with the variable
`a.x`, the frame `:1:` with the variables `a` and `a.y`, the frame `:2:` of a
lambda whose closure is `:1:`, and the frame of `foreach(@a, >log = log # $0 # ' ')`
called on `:2:`, where `@a` is `:1:a`.  The frame `:1:` is not its own closure:
it runs a lambda of the Root. -/
def foreachLambdaHeap : Heap :=
  [{ vars := { vars := [(str "a.x", str "r"), (str "log", [])] },
     root := 0, previous := none, closure := 0, label := str "::",
     rootData := (generateLabels 3 RootData.init).map (fun r => r.2) },
   { vars := { vars := [(str "$n", str "0"), (str "a", str "1"), (str "a.y", str "s")] },
     root := 0, previous := some 0, closure := 0, label := str ":1:" },
   { vars := { vars := [(str "$n", str "0")] },
     root := 0, previous := some 1, closure := 1, label := str ":2:" },
   { vars := { vars := [(str "$0", str ":1:a"), (str "$1", str ">::log = log # $0 # ' '"),
                        (str "$n", str "2")] },
     root := 0, previous := some 2, closure := 3, label := str ":3:" }]

/-! ### The numbers that `double`s denote, and the parts of `round` -/

/-- The number `(-1)^neg * m * 2^e` that a finite `double` denotes; for an
infinity and a NaN, which denote no number, the result is 0. -/
def F64.toRat : F64 → ℚ
  | .finite neg m e => (if neg then -1 else 1) * (m : ℚ) * 2 ^ e
  | _ => 0

/-- Two `double`s have the same numeric value: both are finite and denote the
same number (so `+0` and `-0`), or both are the same infinity.  A NaN has no
numeric value. -/
def F64.SameValue : F64 → F64 → Prop
  | .finite na ma ea, .finite nb mb eb =>
    (F64.finite na ma ea).toRat = (F64.finite nb mb eb).toRat
  | .inf a, .inf b => a = b
  | _, _ => False

/-- The exponent `round` settles on before it is limited to `-1074`: the `e` with
`2^52 <= n / d * 2^(-e) < 2^53`. -/
def F64.exponent (n d : Nat) : Int :=
  let e1 : Int := (F64.log2 n : Int) - (F64.log2 d : Int) - 52
  let s1 := F64.scale n d (-e1)
  if s1.1 / s1.2 < 2 ^ 52 then e1 - 1 else if 2 ^ 53 ≤ s1.1 / s1.2 then e1 + 1 else e1

/-- The integer nearest to `a / b`, ties to even. -/
def F64.nearest (a b : Nat) : Nat :=
  if b < 2 * (a % b) ∨ (2 * (a % b) = b ∧ (a / b) % 2 = 1) then a / b + 1 else a / b

/-! ## Theorems -/

/-! ### Escaping and unescaping (C1) -/

set_option maxRecDepth 100000 in
theorem escapeChar_shape : ∀ c < 256, isPlainDouble c = false →
    (escapeChar c = [92, (escapeChar c).getD 1 0] ∧
      (ESCAPE_CHARS.indexOf? ((escapeChar c).getD 1 0)).map (fun k => ESCAPE_CODES.getD k 0)
        = some c) ∨
    (escapeChar c = [92, 120, (escapeChar c).getD 2 0, (escapeChar c).getD 3 0] ∧
      isHexDigit ((escapeChar c).getD 2 0) = true ∧ isHexDigit ((escapeChar c).getD 3 0) = true ∧
      hexValue ((escapeChar c).getD 2 0) * 16 + hexValue ((escapeChar c).getD 3 0) = c) := by
  decide


theorem escBody_append_plain (a b : Str) (h : ∀ c ∈ a, isPlainDouble c = true) :
    escBody (a ++ b) = a ++ escBody b := by
  induction a with
  | nil => rfl
  | cons c a ih =>
    have hc := h c (List.mem_cons_self _ _)
    simp [escBody, hc, ih (fun x hx => h x (List.mem_cons_of_mem _ hx))]

theorem escapeLoop_eq (fuel : Nat) : ∀ (d seg b : Str), b.length < fuel →
    escapeLoop fuel d seg b = d ++ seg ++ escBody b := by
  induction fuel with
  | zero => intro d seg b h; omega
  | succ fuel ih =>
    intro d seg b h
    have hsplit : b = b.takeWhile isPlainDouble ++ b.dropWhile isPlainDouble :=
      (List.takeWhile_append_dropWhile _ _).symm
    have hplain : ∀ c ∈ b.takeWhile isPlainDouble, isPlainDouble c = true :=
      fun c hc => List.mem_takeWhile_imp hc
    have hlen : (b.dropWhile isPlainDouble).length ≤ b.length := by
      have := congrArg List.length hsplit
      simp only [List.length_append] at this
      omega
    unfold escapeLoop
    cases hdrop : b.dropWhile isPlainDouble with
    | nil =>
      rw [hdrop, List.append_nil] at hsplit
      have : escBody b = b := by
        have := escBody_append_plain (b.takeWhile isPlainDouble) [] hplain
        rw [List.append_nil, ← hsplit] at this
        simpa [escBody] using this
      simp only [this]
      rw [← hsplit]
      simp
    | cons c r =>
      have hc : isPlainDouble c = false := by
        have := List.head_dropWhile_not isPlainDouble b (by rw [hdrop]; simp)
        simpa [hdrop] using this
      rw [hdrop] at hsplit hlen
      simp only [List.length_cons] at hlen
      have hb : escBody b = b.takeWhile isPlainDouble ++ (escapeChar c ++ escBody r) := by
        conv_lhs => rw [hsplit]
        rw [escBody_append_plain _ _ hplain]
        simp [escBody, hc]
      simp only []
      rw [ih _ _ _ (by omega), hb]
      simp [List.append_assoc]


theorem isPlainDouble_of_single {c : Nat} (h : isPlainSingle c = true)
    (h2 : (c == 92 || c == 34) = false) : isPlainDouble c = true := by
  simp [isPlainSingle, isPlainDouble] at *
  omega

theorem escape_eq (s : Str) :
    escape s = if s.dropWhile isPlainSingle = [] then [39] ++ s ++ [39]
      else [34] ++ escBody s ++ [34] := by
  unfold escape
  simp only []
  split
  · rfl
  · split
    · rw [escapeLoop_eq _ _ _ _ (Nat.lt_succ_self _)]
      simp
    · rename_i hb hn
      have hlen : (s.dropWhile isPlainSingle).length < s.length + 1 := by
        have := congrArg List.length (List.takeWhile_append_dropWhile isPlainSingle s)
        simp only [List.length_append] at this
        omega
      rw [escapeLoop_eq _ _ _ _ hlen]
      have hplain : ∀ c ∈ s.takeWhile isPlainSingle, isPlainDouble c = true := by
        intro c hc
        apply isPlainDouble_of_single (List.mem_takeWhile_imp hc)
        have := hn
        simp only [List.any_eq_true, not_exists, not_and, Bool.not_eq_true] at this
        exact this c hc
      have := escBody_append_plain _ (s.dropWhile isPlainSingle) hplain
      rw [List.takeWhile_append_dropWhile] at this
      rw [this]
      simp [List.append_assoc]

theorem unescapeCode_escapeChar (c : Nat) (hc : c < 256) (hp : isPlainDouble c = false)
    (rest : Str) : ∃ e, escapeChar c = 92 :: e ∧ unescapeCode (e ++ rest) = .ok ((c : Int), rest) := by
  rcases escapeChar_shape c hc hp with ⟨h1, h2⟩ | ⟨h1, h2, h3, h4⟩
  · generalize (escapeChar c).getD 1 0 = e at h1 h2
    refine ⟨[e], h1, ?_⟩
    cases hk : ESCAPE_CHARS.indexOf? e with
    | none => simp [hk] at h2
    | some k =>
      simp only [hk, Option.map_some', Option.some.injEq] at h2
      simp only [unescapeCode, List.singleton_append, hk, h2]
  · generalize (escapeChar c).getD 2 0 = x1 at h1 h2 h4
    generalize (escapeChar c).getD 3 0 = x2 at h1 h3 h4
    refine ⟨[120, x1, x2], h1, ?_⟩
    have hx : ESCAPE_CHARS.indexOf? 120 = none := by decide
    have hv : hexValue x1 * 16 + hexValue x2 < 2 ^ 64 := by omega
    have hv1 : hexValue x1 < 2 ^ 64 := by omega
    simp [unescapeCode, hx, hexToLong, hexToLongLoop, h2, h3, wrapULong,
      Nat.mod_eq_of_lt hv, Nat.mod_eq_of_lt hv1, h4]
    omega

theorem unescapeDouble_escBody (s : Str) (h8 : ∀ c ∈ s, c < 256) :
    ∀ (fuel : Nat) (d seg rest : Str), (escBody s).length < fuel →
      unescapeDouble fuel d seg (escBody s ++ 34 :: rest) = .ok (d ++ seg ++ s, rest) := by
  induction s with
  | nil =>
    intro fuel d seg rest hf
    cases fuel with
    | zero => omega
    | succ fuel => simp [escBody, unescapeDouble]
  | cons c s ih =>
    intro fuel d seg rest hf
    have hc := h8 c (List.mem_cons_self _ _)
    have ih := ih (fun x hx => h8 x (List.mem_cons_of_mem _ hx))
    cases fuel with
    | zero => omega
    | succ fuel =>
      cases hp : isPlainDouble c with
      | true =>
        have h34 : c ≠ 34 := by simp [isPlainDouble] at hp; omega
        have h92 : c ≠ 92 := by simp [isPlainDouble] at hp; omega
        simp only [escBody, hp, if_true, List.singleton_append, List.cons_append,
          List.length_cons, List.nil_append] at hf ⊢
        simp only [unescapeDouble, h34, h92, if_false]
        rw [ih fuel d (seg ++ [c]) rest (by omega)]
        simp
      | false =>
        obtain ⟨e, he, hu⟩ := unescapeCode_escapeChar c hc hp (escBody s ++ 34 :: rest)
        simp only [escBody, hp, he, List.cons_append, List.length_cons, List.length_append,
          Bool.false_eq_true, if_false] at hf ⊢
        simp only [unescapeDouble, List.append_assoc]
        simp only [show (92 : Nat) ≠ 34 by decide, if_false, if_true, hu]
        rw [ih fuel _ [] rest (by omega)]
        have : toChar (c : Int) = c := by
          simp only [toChar]
          omega
        simp [this]


theorem find_append_of_not_mem (c : Nat) (s : Str) (h : c ∉ s) : find c (s ++ [c]) = [c] := by
  induction s with
  | nil => simp [find]
  | cons x s ih =>
    have hx : x ≠ c := fun e => h (by simp [e])
    have hs : c ∉ s := fun m => h (List.mem_cons_of_mem _ m)
    simp [find, hx, ih hs]

theorem not_mem_of_dropWhile_single (s : Str) (h : s.dropWhile isPlainSingle = []) : 39 ∉ s := by
  intro hm
  have hall : ∀ c ∈ s, isPlainSingle c = true := by
    have := List.takeWhile_append_dropWhile isPlainSingle s
    rw [h, List.append_nil] at this
    intro c hc
    rw [← this] at hc
    exact List.mem_takeWhile_imp hc
  have := hall 39 hm
  simp [isPlainSingle] at this

/-- C1: for every string `s` of 8-bit characters, `unescape` applied to `escape s`
returns exactly `s` and leaves no character unread (the read position is just
past the closing quote, the end of the escaped text). -/
theorem unescape_escape (s : Str) (h8 : ∀ c ∈ s, c < 256) :
    unescape (escape s) = .ok (s, []) := by
  rw [escape_eq]
  split
  · rename_i h
    have hnm := not_mem_of_dropWhile_single s h
    simp only [unescape, List.singleton_append, List.cons_append, List.nil_append, if_true]
    unfold unescapeSingle
    rw [find_append_of_not_mem 39 s hnm]
    simp
  · simp only [unescape, List.singleton_append, List.cons_append, List.nil_append,
      show (34 : Nat) ≠ 39 by decide, if_false, if_true]
    rw [unescapeDouble_escBody s h8 _ [] [] [] (by simp; omega)]
    simp

/-- Witness of C1 on a string with a control character, a byte above 127, a
backslash, an apostrophe and a letter. -/
theorem unescape_escape_witness :
    unescape (escape [1, 200, 92, 39, 65]) = .ok ([1, 200, 92, 39, 65], []) :=
  unescape_escape [1, 200, 92, 39, 65] (by decide)

/-! ### The substring postfix (C2) -/

theorem enumFrom_filter_map_snd_shift (P : Int → Bool) (s : Str) (n : Nat) :
    ((s.enumFrom (n + 1)).filter (fun jc => P (jc.1 : Int))).map Prod.snd =
      ((s.enumFrom n).filter (fun jc => P ((jc.1 : Int) + 1))).map Prod.snd := by
  induction s generalizing n with
  | nil => rfl
  | cons x s ih =>
    simp only [List.enumFrom_cons, List.filter_cons]
    have : ((n + 1 : Nat) : Int) = (n : Int) + 1 := by push_cast; rfl
    rw [this]
    split <;> simp [ih]

/-- The characters at the positions `lo <= j < hi` of `s` are those of
`(s.drop lo).take (hi - lo)`. -/
theorem filter_window (s : Str) : ∀ (lo hi : Int),
    ((s.enum.filter (fun jc => decide (lo ≤ (jc.1 : Int)) && decide ((jc.1 : Int) < hi))).map
      Prod.snd) = (s.drop lo.toNat).take (hi - max lo 0).toNat := by
  induction s with
  | nil => intro lo hi; simp [List.enum]
  | cons x s ih =>
    intro lo hi
    have hs := enumFrom_filter_map_snd_shift (fun j => decide (lo ≤ j) && decide (j < hi)) s 0
    simp only [List.enum, List.enumFrom_cons, Nat.zero_add] at hs ⊢
    have ih' := ih (lo - 1) (hi - 1)
    simp only [List.enum] at ih'
    have hconv : (fun jc : Nat × Nat => decide (lo ≤ (jc.1 : Int) + 1) && decide ((jc.1 : Int) + 1 < hi))
        = (fun jc : Nat × Nat => decide (lo - 1 ≤ (jc.1 : Int)) && decide ((jc.1 : Int) < hi - 1)) := by
      funext jc
      congr 1 <;> simp only [decide_eq_decide] <;> omega
    rw [hconv] at hs
    by_cases hlo : lo ≤ 0
    · by_cases hhi : 0 < hi
      · have h1 : lo.toNat = 0 := by omega
        have h2 : (lo - 1).toNat = 0 := by omega
        have h3 : (hi - max lo 0).toNat = (hi - 1 - max (lo - 1) 0).toNat + 1 := by omega
        rw [List.filter_cons_of_pos (by simp [hlo, hhi]), List.map_cons, hs, ih', h1, h2, h3]
        simp
      · have h3 : (hi - max lo 0).toNat = 0 := by omega
        have h4 : (hi - 1 - max (lo - 1) 0).toNat = 0 := by omega
        rw [List.filter_cons_of_neg (by simp [hhi]), hs, ih', h3, h4]
        simp
    · have h1 : lo.toNat = (lo - 1).toNat + 1 := by omega
      have h3 : (hi - max lo 0).toNat = (hi - 1 - max (lo - 1) 0).toNat := by omega
      rw [List.filter_cons_of_neg (by simp [hlo]), hs, ih', h1, h3]
      simp

/-- The characters at the positions `lo <= j` of `s` are those of `s.drop lo`. -/
theorem filter_from (s : Str) (lo : Int) :
    ((s.enum.filter (fun jc => decide (lo ≤ (jc.1 : Int)) && true)).map Prod.snd) =
      s.drop lo.toNat := by
  have h := filter_window s lo (max lo 0 + s.length)
  have hf : (fun jc : Nat × Nat => decide (lo ≤ (jc.1 : Int)) && true) =
      (fun jc : Nat × Nat => decide (lo ≤ (jc.1 : Int)) && true) := rfl
  have hfilter : s.enum.filter (fun jc => decide (lo ≤ (jc.1 : Int)) && true) =
      s.enum.filter (fun jc => decide (lo ≤ (jc.1 : Int)) &&
        decide ((jc.1 : Int) < max lo 0 + s.length)) := by
    apply List.filter_congr
    intro jc hjc
    have := List.fst_lt_of_mem_enum hjc
    have : decide ((jc.1 : Int) < max lo 0 + s.length) = true := by
      simp only [decide_eq_true_eq]; omega
    rw [this]
  rw [hfilter, h]
  apply List.take_of_length_le
  simp only [List.length_drop]
  omega

/-- The substring postfix on operands whose sum stays within `long`: the result
is the characters of `s` at the positions `j` with `i <= j < i + c` and
`0 <= j < |s|`, an omitted `i` being 0 and an omitted `c` leaving the range open. -/
theorem postSubstring_spec (s : Str) (index count : Option Int)
    (hsum : ∀ c ∈ count, -(2:Int) ^ 63 ≤ c + min (index.getD 0) 0 ∧
      c + min (index.getD 0) 0 < 2 ^ 63) :
    postSubstring s index count = specSubstring s (index.getD 0) count := by
  unfold postSubstring specSubstring
  generalize index.getD 0 = i at hsum ⊢
  simp only []
  cases count with
  | none =>
    simp only [Option.map_none', Bool.and_true, substr]
    have hf := filter_from s i
    simp only [Bool.and_true] at hf
    rw [hf]
    by_cases h : i ≤ (s.length : Int)
    · simp only [h, decide_True, if_true]
      congr 1
      omega
    · have hd : s.drop i.toNat = [] := List.drop_of_length_le (by omega)
      simp [h, hd]
  | some c =>
    obtain ⟨h1, h2⟩ := hsum c rfl
    have hw : wrapLong (c + min i 0) = c + min i 0 := by
      unfold wrapLong
      omega
    simp only [Option.map_some', hw, substr]
    rw [filter_window s i (i + c)]
    by_cases h : i ≤ (s.length : Int)
    · by_cases hn : 0 ≤ c + min i 0
      · simp only [h, hn, decide_True, Bool.and_self, if_true]
        have e1 : (max i 0).toNat = i.toNat := by omega
        have e2 : (c + min i 0).toNat = (i + c - max i 0).toNat := by omega
        rw [e1, e2]
      · simp only [h, hn, decide_True, decide_False, Bool.and_false]
        have e2 : (i + c - max i 0).toNat = 0 := by omega
        rw [e2]
        simp
    · have hd : s.drop i.toNat = [] := List.drop_of_length_le (by omega)
      simp [h, hd]

/-- The substring postfix on "hello" with the start 1 and the count 3. -/
theorem postSubstring_spec_hello :
    postSubstring (str "hello") (some 1) (some 3) = specSubstring (str "hello") 1 (some 3) :=
  postSubstring_spec (str "hello") (some 1) (some 3) (by
    intro c hc
    cases hc
    decide)

/-- C2 at the start -2 and the count -9223372036854775807 on the string "abc":
the sum of the count and the start leaves the range of `long`, the code yields
the whole string, and no position `j` satisfies `-2 <= j < -2 + count`, so the
characters the claim describes are none. -/
theorem postSubstring_overflow :
    postSubstring (str "abc") (some (-2)) (some (-9223372036854775807)) = str "abc" ∧
      specSubstring (str "abc") (-2) (some (-9223372036854775807)) = [] := by
  constructor <;> decide

/-! ### The number grammar (C3) -/

theorem integerLoop_snd {D : Type} (ops : DoubleOps D) (p : Str) :
    ∀ d, (integerLoop ops d p).2 = p.dropWhile isDigit := by
  induction p with
  | nil => intro d; rfl
  | cons c p ih =>
    intro d
    unfold integerLoop
    by_cases h : isDigit c = true
    · simp [h, ih]
    · simp [h]

theorem fractionLoop_snd {D : Type} (ops : DoubleOps D) (p : Str) :
    ∀ d f, (fractionLoop ops d f p).2 = p.dropWhile isDigit := by
  induction p with
  | nil => intro d f; rfl
  | cons c p ih =>
    intro d f
    unfold fractionLoop
    by_cases h : isDigit c = true
    · simp [h, ih]
    · simp [h]

theorem stringToLongLoop_snd (p : Str) :
    ∀ l, (stringToLongLoop l p).2 = p.dropWhile isDigit := by
  induction p with
  | nil => intro l; rfl
  | cons c p ih =>
    intro l
    unfold stringToLongLoop
    by_cases h : isDigit c = true
    · simp [h, ih]
    · simp [h]

theorem stringToLong_snd (p : Str) : (stringToLong p).2 = (signRest p).dropWhile isDigit := by
  unfold stringToLong signRest
  simp only [stringToLongLoop_snd]
  split
  · split <;> rfl
  · rfl

theorem stringToDoubleIt_snd {D : Type} (ops : DoubleOps D) (p : Str) :
    (stringToDoubleIt ops p).2 = numberEnd p := by
  have hs : (match p with
      | c :: c1 :: r =>
        if c = 43 ∨ c = 45 then ((if c = 45 then ops.minusOne else ops.one), c1 :: r)
        else (ops.one, p)
      | _ => (ops.one, p)).2 = signRest p := by
    unfold signRest
    split
    · split <;> rfl
    · rfl
  unfold stringToDoubleIt numberEnd
  simp only [hs]
  generalize signRest p = q
  by_cases hinf : INFINITY.isPrefixOf q = true
  · simp [hinf]
  · simp only [hinf, Bool.false_eq_true, if_false]
    cases q with
    | nil => rfl
    | cons c r =>
      by_cases hd : isDigit c = true
      · simp only [hd, if_true]
        have hip : (if c = 48 then (ops.zero, r) else integerLoop ops ops.zero (c :: r)).2 =
            integerEnd (c :: r) := by
          show _ = (if c = 48 then r else (c :: r).dropWhile isDigit)
          split
          · rfl
          · exact integerLoop_snd ops _ _
        generalize (if c = 48 then (ops.zero, r) else integerLoop ops ops.zero (c :: r)) = ip at hip
        obtain ⟨d1, r1⟩ := ip
        simp only at hip
        subst hip
        have hfp : (match integerEnd (c :: r) with
            | 46 :: c1 :: r1 =>
              if isDigit c1 then fractionLoop ops d1 ops.one (c1 :: r1)
              else (d1, integerEnd (c :: r))
            | _ => (d1, integerEnd (c :: r))).2 = fractionEnd (integerEnd (c :: r)) := by
          unfold fractionEnd
          split
          · split
            · exact fractionLoop_snd ops _ _ _
            · rfl
          · rfl
        generalize (match integerEnd (c :: r) with
            | 46 :: c1 :: r1 =>
              if isDigit c1 then fractionLoop ops d1 ops.one (c1 :: r1)
              else (d1, integerEnd (c :: r))
            | _ => (d1, integerEnd (c :: r))) = fp at hfp
        obtain ⟨d2, r2⟩ := fp
        simp only at hfp
        subst hfp
        generalize fractionEnd (integerEnd (c :: r)) = q2
        match q2 with
        | [] => rfl
        | [_] => rfl
        | c2 :: c3 :: r3 =>
          by_cases he : c2 = 69 ∨ c2 = 101
          · simp only [exponentEnd, he, if_true, stringToLong_snd]
          · simp only [exponentEnd, he, if_false]
      · simp [hd]

/-- A string that does not begin with a digit. -/
theorem dropWhile_digits_append (ds rest : Str) (hall : ∀ c ∈ ds, isDigit c = true)
    (hrest : ∀ c, rest.head? = some c → isDigit c = false) :
    (ds ++ rest).dropWhile isDigit = rest := by
  induction ds with
  | nil =>
    cases rest with
    | nil => rfl
    | cons x rest => simp [List.dropWhile, hrest x rfl]
  | cons d ds ih =>
    have hd := hall d (List.mem_cons_self _ _)
    simp only [List.cons_append, List.dropWhile, hd]
    exact ih (fun c hc => hall c (List.mem_cons_of_mem _ hc))

theorem dropWhile_digits_self (ds : Str) (hall : ∀ c ∈ ds, isDigit c = true) :
    ds.dropWhile isDigit = [] := by
  have := dropWhile_digits_append ds [] hall (by simp)
  simpa using this

theorem signRest_of_digit (d : Nat) (r : Str) (hd : isDigit d = true) :
    signRest (d :: r) = d :: r := by
  have h1 : d ≠ 43 := by intro h; subst h; simp [isDigit] at hd
  have h2 : d ≠ 45 := by intro h; subst h; simp [isDigit] at hd
  cases r with
  | nil => rfl
  | cons x r => simp [signRest, h1, h2]

theorem exponentEnd_of_isExponent (ex : Str) (h : IsExponent ex) : exponentEnd ex = [] := by
  rcases h with h | ⟨c, sg, ds, rfl, hc, hsg, hne, hall⟩
  · subst h; rfl
  · obtain ⟨d, ds', rfl⟩ := List.exists_cons_of_ne_nil hne
    have hd := hall d (List.mem_cons_self _ _)
    have hdrop := dropWhile_digits_self (d :: ds') hall
    rcases hsg with rfl | rfl | rfl
    · simp only [List.nil_append, exponentEnd, hc, if_true, signRest_of_digit d ds' hd, hdrop]
    · simp only [List.singleton_append, exponentEnd, hc, if_true]
      simp only [signRest, true_or, if_true, hdrop]
    · simp only [List.singleton_append, exponentEnd, hc, if_true]
      simp only [signRest, or_true, if_true, hdrop]

theorem isExponent_of_exponentEnd (r : Str) (h : exponentEnd r = []) : IsExponent r := by
  match r, h with
  | [], _ => exact Or.inl rfl
  | [x], h => simp [exponentEnd] at h
  | c2 :: c3 :: r2, h =>
    by_cases he : c2 = 69 ∨ c2 = 101
    · simp only [exponentEnd, he, if_true, List.dropWhile_eq_nil_iff] at h
      right
      cases r2 with
      | nil =>
        refine ⟨c2, [], [c3], rfl, he, Or.inl rfl, by simp, ?_⟩
        simpa [signRest] using h
      | cons c4 r3 =>
        by_cases hs : c3 = 43 ∨ c3 = 45
        · simp only [signRest, hs, if_true] at h
          refine ⟨c2, [c3], c4 :: r3, rfl, he, ?_, by simp, h⟩
          rcases hs with rfl | rfl
          · exact Or.inr (Or.inl rfl)
          · exact Or.inr (Or.inr rfl)
        · simp only [signRest, hs, if_false] at h
          exact ⟨c2, [], c3 :: c4 :: r3, rfl, he, Or.inl rfl, by simp, h⟩
    · simp [exponentEnd, he] at h

theorem head_not_digit_of_isExponent (ex : Str) (h : IsExponent ex) :
    ∀ c, ex.head? = some c → isDigit c = false ∧ c ≠ 46 := by
  intro c hc
  rcases h with h | ⟨c2, sg, ds, rfl, hc2, _, _⟩
  · subst h; simp at hc
  · simp only [List.head?_cons, Option.some.injEq] at hc
    subst hc
    rcases hc2 with rfl | rfl <;> simp [isDigit]

theorem fractionEnd_append (fr ex : Str) (hfr : IsFraction fr) (hex : IsExponent ex) :
    fractionEnd (fr ++ ex) = ex := by
  have hhead := head_not_digit_of_isExponent ex hex
  rcases hfr with rfl | ⟨ds, rfl, hne, hall⟩
  · simp only [List.nil_append]
    match ex, hhead with
    | [], _ => rfl
    | [x], hhead =>
      have := (hhead x rfl).2
      simp [fractionEnd]
    | x :: y :: r, hhead =>
      have := (hhead x rfl).2
      unfold fractionEnd
      split
      · rename_i heq
        simp only [List.cons.injEq] at heq
        exact absurd heq.1 this
      · rfl
  · obtain ⟨d, ds', rfl⟩ := List.exists_cons_of_ne_nil hne
    have hd := hall d (List.mem_cons_self _ _)
    simp only [List.cons_append, fractionEnd, hd, if_true]
    exact dropWhile_digits_append (d :: ds') ex hall (fun c hc => (hhead c hc).1)

theorem fractionEnd_split (r : Str) : ∃ fr, IsFraction fr ∧ r = fr ++ fractionEnd r := by
  match r with
  | [] => exact ⟨[], Or.inl rfl, rfl⟩
  | [x] => exact ⟨[], Or.inl rfl, by simp [fractionEnd]⟩
  | x :: c1 :: r1 =>
    by_cases hx : x = 46
    · subst hx
      by_cases hd : isDigit c1 = true
      · refine ⟨46 :: (c1 :: r1).takeWhile isDigit, Or.inr ⟨_, rfl, ?_, ?_⟩, ?_⟩
        · simp [List.takeWhile, hd]
        · intro c hc
          exact List.mem_takeWhile_imp hc
        · simp only [fractionEnd, hd, if_true, List.cons_append,
            List.takeWhile_append_dropWhile]
      · exact ⟨[], Or.inl rfl, by simp [fractionEnd, hd]⟩
    · refine ⟨[], Or.inl rfl, ?_⟩
      unfold fractionEnd
      split
      · rename_i heq
        simp only [List.cons.injEq] at heq
        exact absurd heq.1 hx
      · rfl

theorem integerEnd_append (ip rest : Str) (hip : IsIntegerPart ip)
    (hrest : ∀ c, rest.head? = some c → isDigit c = false) :
    integerEnd (ip ++ rest) = rest := by
  rcases hip with rfl | ⟨⟨hne, hall⟩, hhead⟩
  · simp [integerEnd]
  · obtain ⟨d, ds', rfl⟩ := List.exists_cons_of_ne_nil hne
    have hd : d ≠ 48 := by simpa using hhead
    simp only [List.cons_append, integerEnd, hd, if_false]
    exact dropWhile_digits_append (d :: ds') rest hall hrest

theorem integerEnd_split (c : Nat) (r : Str) (hc : isDigit c = true) :
    ∃ ip, IsIntegerPart ip ∧ c :: r = ip ++ integerEnd (c :: r) := by
  by_cases h : c = 48
  · subst h
    exact ⟨[48], Or.inl rfl, by simp [integerEnd]⟩
  · refine ⟨(c :: r).takeWhile isDigit, Or.inr ⟨⟨?_, ?_⟩, ?_⟩, ?_⟩
    · simp [List.takeWhile, hc]
    · intro x hx
      exact List.mem_takeWhile_imp hx
    · simp [List.takeWhile, hc, h]
    · simp only [integerEnd, h, if_false, List.takeWhile_append_dropWhile]

theorem signRest_sign_append (sg : Str) (b : Nat) (body : Str) (hsg : IsSign sg)
    (hb : b ≠ 43 ∧ b ≠ 45) : signRest (sg ++ b :: body) = b :: body := by
  rcases hsg with rfl | rfl | rfl
  · cases body with
    | nil => rfl
    | cons x body => simp [signRest, hb.1, hb.2]
  · simp [signRest]
  · simp [signRest]

theorem signRest_split (s : Str) :
    ∃ sg, IsSign sg ∧ s = sg ++ signRest s ∧ (s ≠ [] → signRest s ≠ []) := by
  match s with
  | [] => exact ⟨[], Or.inl rfl, rfl, by simp⟩
  | [x] => exact ⟨[], Or.inl rfl, rfl, by simp [signRest]⟩
  | c :: c1 :: r =>
    by_cases h : c = 43 ∨ c = 45
    · refine ⟨[c], ?_, by simp [signRest, h], by simp [signRest, h]⟩
      rcases h with rfl | rfl
      · exact Or.inr (Or.inl rfl)
      · exact Or.inr (Or.inr rfl)
    · exact ⟨[], Or.inl rfl, by simp [signRest, h], by simp [signRest, h]⟩

theorem not_infinity_of_digit (c : Nat) (r : Str) (hc : isDigit c = true) :
    INFINITY.isPrefixOf (c :: r) = false := by
  have : c ≠ 105 := by intro h; subst h; simp [isDigit] at hc
  simp [INFINITY, List.isPrefixOf, this]
  intro h
  exact absurd h.symm this

theorem numberEnd_of_isNumber (s : Str) (h : IsNumber s) : numberEnd s = [] ∧ s ≠ [] := by
  obtain ⟨sg, body, rfl, hsg, hbody⟩ := h
  rcases hbody with rfl | ⟨ip, fr, ex, rfl, hip, hfr, hex⟩
  · have hs : signRest (sg ++ INFINITY) = INFINITY :=
      signRest_sign_append sg 105 _ hsg (by decide)
    refine ⟨?_, by simp [INFINITY]⟩
    unfold numberEnd
    rw [hs]
    decide
  · have hipne : ∃ d ip', ip = d :: ip' ∧ isDigit d = true := by
      rcases hip with rfl | ⟨⟨hne, hall⟩, _⟩
      · exact ⟨48, [], rfl, by decide⟩
      · obtain ⟨d, ip', rfl⟩ := List.exists_cons_of_ne_nil hne
        exact ⟨d, ip', rfl, hall d (List.mem_cons_self _ _)⟩
    obtain ⟨d, ip', rfl, hd⟩ := hipne
    have hd1 : d ≠ 43 ∧ d ≠ 45 := by
      constructor <;> intro h <;> subst h <;> simp [isDigit] at hd
    have hs : signRest (sg ++ (d :: ip' ++ (fr ++ ex))) = d :: ip' ++ (fr ++ ex) :=
      signRest_sign_append sg d _ hsg hd1
    refine ⟨?_, by simp⟩
    unfold numberEnd
    rw [hs]
    have hni := not_infinity_of_digit d (ip' ++ (fr ++ ex)) hd
    simp only [List.cons_append] at hni ⊢
    simp only [hni, Bool.false_eq_true, if_false, hd, if_true]
    have hrest : ∀ c, (fr ++ ex).head? = some c → isDigit c = false := by
      intro c hc
      rcases hfr with rfl | ⟨ds, rfl, _⟩
      · exact (head_not_digit_of_isExponent ex hex c (by simpa using hc)).1
      · simp only [List.cons_append, List.head?_cons, Option.some.injEq] at hc
        subst hc
        decide
    have h1 := integerEnd_append (d :: ip') (fr ++ ex) hip hrest
    simp only [List.cons_append] at h1
    rw [h1, fractionEnd_append fr ex hfr hex, exponentEnd_of_isExponent ex hex]

theorem isNumber_of_numberEnd (s : Str) (h : numberEnd s = []) (hne : s ≠ []) : IsNumber s := by
  obtain ⟨sg, hsg, hs, hrest⟩ := signRest_split s
  have hq := hrest hne
  unfold numberEnd at h
  generalize signRest s = q at hs hq h
  refine ⟨sg, q, hs, hsg, ?_⟩
  by_cases hinf : INFINITY.isPrefixOf q = true
  · left
    simp only [hinf, if_true] at h
    obtain ⟨t, rfl⟩ := List.isPrefixOf_iff_prefix.mp hinf
    have : t = [] := by simpa [INFINITY] using h
    simp [this]
  · right
    simp only [hinf, Bool.false_eq_true, if_false] at h
    obtain ⟨c, r, rfl⟩ := List.exists_cons_of_ne_nil hq
    by_cases hd : isDigit c = true
    · simp only [hd, if_true] at h
      obtain ⟨ip, hip, e1⟩ := integerEnd_split c r hd
      obtain ⟨fr, hfr, e2⟩ := fractionEnd_split (integerEnd (c :: r))
      have hex := isExponent_of_exponentEnd _ h
      refine ⟨ip, fr, fractionEnd (integerEnd (c :: r)), ?_, hip, hfr, hex⟩
      rw [← e2]
      exact e1
    · simp [hd] at h

/-- The code reads `s` as a number exactly when `s` follows the grammar of the
code. -/
theorem stringToDouble_iff_isNumber {D : Type} (ops : DoubleOps D) (s : Str) :
    (stringToDouble ops s).1 = true ↔ IsNumber s := by
  unfold stringToDouble
  simp only [stringToDoubleIt_snd, Bool.and_eq_true, decide_eq_true_eq]
  constructor
  · rintro ⟨h1, h2⟩
    apply isNumber_of_numberEnd s h2
    intro hs
    subst hs
    rw [h2] at h1
    exact h1 rfl
  · intro h
    obtain ⟨h1, h2⟩ := numberEnd_of_isNumber s h
    refine ⟨?_, h1⟩
    rw [h1]
    intro hl
    exact h2 (List.length_eq_zero.mp hl.symm)

/-- C3 (as stated, refuted): the string "00" follows the grammar of the
specification (an integer part of two digits) and the code does not read it as a
number. -/
theorem number_spec_counterexample :
    IsNumberSpec [48, 48] ∧ (stringToDouble unitOps [48, 48]).1 = false :=
  ⟨⟨[], [48, 48], rfl, Or.inl rfl,
      Or.inr ⟨[48, 48], [], [], rfl, ⟨by simp, by decide⟩, Or.inl rfl, Or.inl rfl⟩⟩,
    by decide⟩

/-- C3 (amended): `stringToDouble(s, d)` returns true exactly when `s` is an
optional `+` or `-` followed by the word infinity or by a decimal numeral made
of an integer part (a lone `0`, or digits the first of which is not `0`), an
optional fraction and an optional exponent; the empty string, a lone sign, a
`0x` prefix, `inf` and `nan` are not numbers. -/
theorem stringToDouble_grammar {D : Type} (ops : DoubleOps D) (s : Str) :
    ((stringToDouble ops s).1 = true ↔ IsNumber s) ∧
      (stringToDouble ops []).1 = false ∧
      (stringToDouble ops [43]).1 = false ∧
      (stringToDouble ops [45]).1 = false ∧
      (stringToDouble ops (48 :: 120 :: s)).1 = false ∧
      (stringToDouble ops [105, 110, 102]).1 = false ∧
      (stringToDouble ops [110, 97, 110]).1 = false := by
  refine ⟨stringToDouble_iff_isNumber ops s, ?_, ?_, ?_, ?_, ?_, ?_⟩
  · simp only [stringToDouble, stringToDoubleIt_snd]
    decide
  · simp only [stringToDouble, stringToDoubleIt_snd]
    decide
  · simp only [stringToDouble, stringToDoubleIt_snd]
    decide
  · simp only [stringToDouble, stringToDoubleIt_snd, Bool.and_eq_false_iff,
      decide_eq_false_iff_not]
    right
    have : numberEnd (48 :: 120 :: s) = 120 :: s := by
      have h1 : signRest (48 :: 120 :: s) = 48 :: 120 :: s := signRest_of_digit 48 _ (by decide)
      unfold numberEnd
      rw [h1, not_infinity_of_digit 48 _ (by decide)]
      simp only [Bool.false_eq_true, if_false, show isDigit 48 = true by decide, if_true,
        integerEnd]
      cases s with
      | nil => rfl
      | cons x s => simp [fractionEnd, exponentEnd]
    rw [this]
    simp
  · simp only [stringToDouble, stringToDoubleIt_snd]
    decide
  · simp only [stringToDouble, stringToDoubleIt_snd]
    decide

/-! ### Comparison of values (C5, C6) -/

/-- C5: when `a` is a number and `b` is not (void included), `a < b` is true and
`b < a` is false. -/
theorem number_less_nonNumber {D : Type} (ops : DoubleOps D) (a b : Str)
    (ha : (stringToDouble ops a).1 = true) (hb : (stringToDouble ops b).1 = false) :
    STLValue.less ops a b = true ∧ STLValue.less ops b a = false := by
  unfold STLValue.less
  simp [ha, hb]

/-- Witness of C5: the number "5" and the void value. -/
theorem number_less_nonNumber_witness :
    (stringToDouble unitOps [53]).1 = true ∧ (stringToDouble unitOps []).1 = false ∧
      (STLValue.less unitOps [53] [] = true ∧ STLValue.less unitOps [] [53] = false) :=
  ⟨by decide, by decide, number_less_nonNumber unitOps [53] [] (by decide) (by decide)⟩

theorem stringLess_iff (a b : Str) : stringLess a b = true ↔ a < b := by
  induction a generalizing b with
  | nil =>
    cases b with
    | nil =>
      simp only [stringLess, Bool.false_eq_true, false_iff]
      intro h
      cases h
    | cons y b =>
      simp only [stringLess, true_iff]
      exact List.Lex.nil
  | cons x a ih =>
    cases b with
    | nil =>
      simp only [stringLess, Bool.false_eq_true, false_iff]
      intro h
      cases h
    | cons y b =>
      unfold stringLess
      constructor
      · intro h
        split at h
        · exact List.Lex.rel ‹x < y›
        · split at h
          · exact absurd h (by simp)
          · have hxy : x = y := by omega
            subst hxy
            exact List.Lex.cons ((ih b).mp h)
      · intro h
        cases h with
        | rel hlt => simp [hlt]
        | cons hab => simp [(ih _).mpr hab]

/-- C6 (as stated, refuted): "5" and the void value are not both numbers, the
code finds "5" less than void, and "5" does not precede the empty string in
lexicographic order. -/
theorem less_lexicographic_counterexample :
    ¬ ((stringToDouble unitOps [53]).1 = true ∧ (stringToDouble unitOps []).1 = true) ∧
      STLValue.less unitOps [53] [] = true ∧ ¬ (([53] : Str) < []) := by
  refine ⟨by decide, by decide, ?_⟩
  intro h
  cases h

/-- C6 (amended): when neither `a` nor `b` is a number, `a < b` holds exactly
when `a` precedes `b` in the lexicographic order of the character sequences. -/
theorem less_iff_lexicographic {D : Type} (ops : DoubleOps D) (a b : Str)
    (ha : (stringToDouble ops a).1 = false) (hb : (stringToDouble ops b).1 = false) :
    STLValue.less ops a b = true ↔ a < b := by
  unfold STLValue.less
  simp only [ha, hb, if_true, Bool.false_eq_true, if_false]
  exact stringLess_iff a b

/-- Witness of C6 (amended): "abc" and "abd". -/
theorem less_iff_lexicographic_witness :
    (stringToDouble unitOps [97, 98, 99]).1 = false ∧
      (stringToDouble unitOps [97, 98, 100]).1 = false ∧
      (STLValue.less unitOps [97, 98, 99] [97, 98, 100] = true ↔
        ([97, 98, 99] : Str) < [97, 98, 100]) :=
  ⟨by decide, by decide,
    less_iff_lexicographic unitOps [97, 98, 99] [97, 98, 100] (by decide) (by decide)⟩

/-! ### The subscript of a value (C7) -/

theorem find_append_singleton_iff (c : Nat) (l : Str) : find c (l ++ [c]) = [c] ↔ c ∉ l := by
  constructor
  · intro h
    induction l with
    | nil => simp
    | cons x l ih =>
      by_cases hx : x = c
      · subst hx
        simp [find] at h
      · simp only [List.cons_append, find, hx, if_false] at h
        simp only [List.mem_cons, not_or]
        exact ⟨fun e => hx e.symm, ih h⟩
  · exact find_append_of_not_mem c l

/-- A `:label:` prefix: a label without `:` between two colons. -/
theorem subscriptColon_eq_nil_iff (q : Str) :
    STLValue.subscriptColon q = [] ↔
      q = [] ∨ ∃ label, q = 58 :: (label ++ [58]) ∧ 58 ∉ label := by
  unfold STLValue.subscriptColon
  constructor
  · intro h
    split at h
    · rename_i hc
      obtain ⟨hlen, hlast, hhead, hfind⟩ := hc
      right
      obtain ⟨ys, rfl⟩ := List.getLast?_eq_some_iff.mp hlast
      cases ys with
      | nil => simp at hlen
      | cons y ys =>
        simp only [List.cons_append, List.head?_cons, Option.some.injEq] at hhead
        subst hhead
        refine ⟨ys, rfl, ?_⟩
        simp only [List.cons_append, List.drop_succ_cons, List.drop_zero] at hfind
        exact (find_append_singleton_iff 58 ys).mp hfind
    · exact Or.inl h
  · rintro (rfl | ⟨label, rfl, hl⟩)
    · simp
    · have hfind := (find_append_singleton_iff 58 label).mpr hl
      have hlast : (58 :: (label ++ [58])).getLast? = some 58 := by
        rw [← List.cons_append]
        exact List.getLast?_concat _
      simp [hfind, hlast]

theorem rdropWhile_split (p : Nat → Bool) (q : Str) :
    ∃ t, q = q.rdropWhile p ++ t ∧ ∀ c ∈ t, p c = true := by
  induction q using List.reverseRecOn with
  | nil => exact ⟨[], by simp, by simp⟩
  | append_singleton l x ih =>
    by_cases hx : p x = true
    · obtain ⟨t, ht, hall⟩ := ih
      refine ⟨t ++ [x], ?_, ?_⟩
      · rw [List.rdropWhile_concat_pos _ _ _ hx, ← List.append_assoc, ← ht]
      · intro c hc
        rcases List.mem_append.mp hc with h | h
        · exact hall c h
        · simp only [List.mem_singleton] at h
          subst h
          exact hx
    · exact ⟨[], by rw [List.rdropWhile_concat_neg _ _ _ hx]; simp, by simp⟩

theorem rdropWhile_append_all (p : Nat → Bool) (lp carets : Str)
    (hlp : lp.rdropWhile p = lp) (hall : ∀ c ∈ carets, p c = true) :
    (lp ++ carets).rdropWhile p = lp := by
  induction carets using List.reverseRecOn with
  | nil => simpa using hlp
  | append_singleton cs c ih =>
    have hc := hall c (by simp)
    rw [← List.append_assoc, List.rdropWhile_concat_pos _ _ _ hc]
    exact ih (fun x hx => hall x (by simp [hx]))

theorem rdropWhile_caret_label (lp : Str)
    (hlp : lp = [] ∨ ∃ label, lp = 58 :: (label ++ [58]) ∧ 58 ∉ label) :
    lp.rdropWhile (fun c => c == 94) = lp := by
  rcases hlp with rfl | ⟨label, rfl, _⟩
  · simp
  · rw [← List.cons_append]
    exact List.rdropWhile_concat_neg _ _ _ (by decide)

theorem subscriptCaret_eq_nil_iff (q : Str) :
    STLValue.subscriptCaret q = [] ↔
      ∃ lp carets, q = lp ++ carets ∧
        (lp = [] ∨ ∃ label, lp = 58 :: (label ++ [58]) ∧ 58 ∉ label) ∧
        (∀ c ∈ carets, c = 94) := by
  unfold STLValue.subscriptCaret
  simp only []
  constructor
  · intro h
    obtain ⟨t, ht, hall⟩ := rdropWhile_split (fun c => c == 94) q
    have hcar : ∀ c ∈ t, c = 94 := fun c hc => by simpa using hall c hc
    refine ⟨q.rdropWhile (fun c => c == 94), t, ht, ?_, hcar⟩
    split at h
    · rename_i h0
      exact Or.inl h0
    · exact (subscriptColon_eq_nil_iff _).mp h
  · rintro ⟨lp, carets, rfl, hlp, hcar⟩
    have hr : (lp ++ carets).rdropWhile (fun c => c == 94) = lp :=
      rdropWhile_append_all _ lp carets (rdropWhile_caret_label lp hlp)
        (fun c hc => by simp [hcar c hc])
    rw [hr]
    split
    · rfl
    · exact (subscriptColon_eq_nil_iff _).mpr hlp

/-- The last character of a text made of a label prefix and carets. -/
theorem getLast?_label_carets (lp carets : Str) (x : Nat) (q : Str)
    (he : q ++ [x] = lp ++ carets)
    (hlp : lp = [] ∨ ∃ label, lp = 58 :: (label ++ [58]) ∧ 58 ∉ label)
    (hcar : ∀ c ∈ carets, c = 94) : x = 94 ∨ x = 58 := by
  have hlast : (q ++ [x]).getLast? = some x := List.getLast?_concat _
  rcases List.eq_nil_or_concat carets with rfl | ⟨cs, c, rfl⟩
  · simp only [List.append_nil] at he
    rcases hlp with rfl | ⟨label, rfl, _⟩
    · simp at he
    · have := congrArg List.getLast? he
      rw [hlast, ← List.cons_append, List.getLast?_concat] at this
      right
      simpa using this
  · have hc := hcar c (by simp)
    subst hc
    have := congrArg List.getLast? he
    rw [hlast, List.concat_eq_append, ← List.append_assoc, List.getLast?_concat] at this
    left
    simpa using this

theorem subscriptSwitch_eq_nil_iff (self : Str) :
    STLValue.subscriptSwitch self = [] ↔ IsFramePrefix self := by
  unfold IsFramePrefix
  rcases List.eq_nil_or_concat self with rfl | ⟨q, x, rfl⟩
  · simp only [STLValue.subscriptSwitch, List.getLast?_nil, true_iff]
    exact ⟨[], [], [], rfl, Or.inl rfl, by simp, Or.inl rfl⟩
  · simp only [List.concat_eq_append]
    have hlast : (q ++ [x]).getLast? = some x := List.getLast?_concat _
    by_cases h36 : x = 36
    · subst h36
      have hsw : STLValue.subscriptSwitch (q ++ [36]) =
          if q = [] then [] else STLValue.subscriptCaret q := by
        simp [STLValue.subscriptSwitch, hlast, STLValue.subscriptDollar]
      rw [hsw]
      constructor
      · intro h
        have hq : ∃ lp carets, q = lp ++ carets ∧
            (lp = [] ∨ ∃ label, lp = 58 :: (label ++ [58]) ∧ 58 ∉ label) ∧
            (∀ c ∈ carets, c = 94) := by
          split at h
          · rename_i h0
            exact ⟨[], [], by simp [h0], Or.inl rfl, by simp⟩
          · exact (subscriptCaret_eq_nil_iff q).mp h
        obtain ⟨lp, carets, rfl, hlp, hcar⟩ := hq
        exact ⟨lp, carets, [36], by simp, hlp, hcar, Or.inr rfl⟩
      · rintro ⟨lp, carets, dollar, he, hlp, hcar, hd⟩
        have hq : q = lp ++ carets := by
          rcases hd with rfl | rfl
          · exfalso
            simp only [List.append_nil] at he
            rcases getLast?_label_carets lp carets 36 q he hlp hcar with h | h <;> simp at h
          · rw [← List.append_assoc] at he
            exact List.append_inj_left' he rfl
        split
        · rfl
        · exact (subscriptCaret_eq_nil_iff q).mpr ⟨lp, carets, hq, hlp, hcar⟩
    · have hnodollar : ∀ lp carets dollar, q ++ [x] = lp ++ (carets ++ dollar) →
          (dollar = [] ∨ dollar = [36]) → q ++ [x] = lp ++ carets := by
        intro lp carets dollar he hd
        rcases hd with rfl | rfl
        · simpa using he
        · exfalso
          rw [← List.append_assoc] at he
          have := List.append_inj_right' he rfl
          simp only [List.cons.injEq, and_true] at this
          exact h36 this
      by_cases h94 : x = 94
      · subst h94
        have hsw : STLValue.subscriptSwitch (q ++ [94]) = STLValue.subscriptCaret (q ++ [94]) := by
          simp [STLValue.subscriptSwitch, hlast]
        rw [hsw, subscriptCaret_eq_nil_iff]
        constructor
        · rintro ⟨lp, carets, he, hlp, hcar⟩
          exact ⟨lp, carets, [], by simpa using he, hlp, hcar, Or.inl rfl⟩
        · rintro ⟨lp, carets, dollar, he, hlp, hcar, hd⟩
          exact ⟨lp, carets, hnodollar lp carets dollar he hd, hlp, hcar⟩
      · by_cases h58 : x = 58
        · subst h58
          have hsw : STLValue.subscriptSwitch (q ++ [58]) =
              STLValue.subscriptColon (q ++ [58]) := by
            simp [STLValue.subscriptSwitch, hlast]
          rw [hsw, subscriptColon_eq_nil_iff]
          constructor
          · rintro (h | ⟨label, he, hl⟩)
            · simp at h
            · exact ⟨58 :: (label ++ [58]), [], [], by simpa using he,
                Or.inr ⟨label, rfl, hl⟩, by simp, Or.inl rfl⟩
          · rintro ⟨lp, carets, dollar, he, hlp, hcar, hd⟩
            have he2 := hnodollar lp carets dollar he hd
            right
            rcases List.eq_nil_or_concat carets with rfl | ⟨cs, c, rfl⟩
            · simp only [List.append_nil] at he2
              rcases hlp with rfl | ⟨label, rfl, hl⟩
              · simp at he2
              · exact ⟨label, he2, hl⟩
            · exfalso
              have hc := hcar c (by simp)
              subst hc
              rw [List.concat_eq_append, ← List.append_assoc] at he2
              have := List.append_inj_right' he2 rfl
              simp at this
        · have hsw : STLValue.subscriptSwitch (q ++ [x]) = q ++ [x] := by
            unfold STLValue.subscriptSwitch
            rw [hlast]
            split <;> simp_all
          rw [hsw]
          constructor
          · intro h
            simp at h
          · rintro ⟨lp, carets, dollar, he, hlp, hcar, hd⟩
            have he2 := hnodollar lp carets dollar he hd
            rcases getLast?_label_carets lp carets x q he2 hlp hcar with h | h
            · exact absurd h h94
            · exact absurd h h58

/-- C7: the subscript `self[child]` is the plain concatenation `self ++ child`
exactly when `self` is empty or consists solely of a frame prefix (an optional
`:label:` with no `:` inside the label, then any number of `^`, then an optional
`$`); in every other case it is `self ++ "." ++ child`. -/
theorem subscript_eq (self child : Str) :
    (STLValue.subscript self child = self ++ child ↔ IsFramePrefix self) ∧
      (STLValue.subscript self child = self ++ ([46] ++ child) ↔ ¬ IsFramePrefix self) := by
  have hne : self ++ ([46] ++ child) ≠ self ++ child := by
    intro h
    have := congrArg List.length h
    simp at this
  unfold STLValue.subscript
  rw [← subscriptSwitch_eq_nil_iff]
  by_cases h : STLValue.subscriptSwitch self = []
  · simp only [h, if_true, true_iff, iff_true, not_true_eq_false, iff_false]
    exact ⟨trivial, fun e => hne e.symm⟩
  · simp only [h, if_false, List.append_assoc, iff_false, not_false_eq_true, iff_true]
    exact ⟨hne, trivial⟩

/-! ### The resolution of frames (C8, C9, C10) -/

theorem deref_eq_ok {h : Heap} {f : Nat} {fr : Frame} :
    deref h f = .ok fr ↔ h[f]? = some fr := by
  unfold deref
  cases h[f]? <;> simp

theorem deref_of_lt {h : Heap} {f : Nat} (hf : f < h.length) : ∃ fr, deref h f = .ok fr ∧
    h[f]? = some fr := by
  refine ⟨h[f], ?_, List.getElem?_eq_getElem hf⟩
  rw [deref_eq_ok]
  exact List.getElem?_eq_getElem hf

theorem ancestor_succ_of_previous {h : Heap} {f g : Nat} {fr : Frame} (hf : h[f]? = some fr)
    (hp : fr.previous = some g) (n : Nat) : ancestor h (n + 1) f = ancestor h n g := by
  simp [ancestor, hf, hp]

/-- The loop over the labels finds the nearest frame with the label, or fails
when no frame of the chain has it. -/
theorem findLabel_spec (h : Heap) (hwf : WellFormed h) (s : Str) :
    ∀ (fuel f : Nat), f < fuel → f < h.length →
      (∃ g, findLabel h s fuel f = .ok g ∧ IsNearestLabelled h f s g) ∨
        (findLabel h s fuel f = .error (.frameDoesNotExistLabel s) ∧ NoFrameLabelled h f s) := by
  intro fuel
  induction fuel with
  | zero => intro f hf; omega
  | succ fuel ih =>
    intro f hf hlen
    obtain ⟨fr, hd, hfr⟩ := deref_of_lt hlen
    unfold findLabel
    rw [hd]
    simp only []
    by_cases hl : fr.label = s
    · left
      refine ⟨f, by simp [hl], 0, fr, rfl, hfr, hl, ?_⟩
      intro m hm
      omega
    · simp only [ne_eq, hl, not_false_eq_true, if_true]
      cases hp : fr.previous with
      | none =>
        right
        refine ⟨rfl, ?_⟩
        intro n g fr1 hn hg
        cases n with
        | zero =>
          simp only [ancestor, Option.some.injEq] at hn
          subst hn
          rw [hfr] at hg
          cases hg
          exact hl
        | succ n => simp [ancestor, hfr, hp] at hn
      | some j =>
        have hj := hwf.previous_lt f fr hfr j hp
        rcases ih j (by omega) (by omega) with ⟨g, hg, n, frg, hn, hfg, hlg, hmin⟩ | ⟨he, hno⟩
        · left
          refine ⟨g, hg, n + 1, frg, ?_, hfg, hlg, ?_⟩
          · rw [ancestor_succ_of_previous hfr hp]
            exact hn
          · intro m hm g1 fr1 hg1 hfr1
            cases m with
            | zero =>
              simp only [ancestor, Option.some.injEq] at hg1
              subst hg1
              rw [hfr] at hfr1
              cases hfr1
              exact hl
            | succ m =>
              rw [ancestor_succ_of_previous hfr hp] at hg1
              exact hmin m (by omega) g1 fr1 hg1 hfr1
        · right
          refine ⟨he, ?_⟩
          intro n g fr1 hn hg
          cases n with
          | zero =>
            simp only [ancestor, Option.some.injEq] at hn
            subst hn
            rw [hfr] at hg
            cases hg
            exact hl
          | succ n =>
            rw [ancestor_succ_of_previous hfr hp] at hn
            exact hno n g fr1 hn hg

/-- A successful search of a label returns the nearest frame with the label. -/
theorem findLabel_ok (h : Heap) (s : Str) :
    ∀ (fuel f g : Nat), findLabel h s fuel f = .ok g → IsNearestLabelled h f s g := by
  intro fuel
  induction fuel with
  | zero => intro f g hg; simp [findLabel] at hg
  | succ fuel ih =>
    intro f g hg
    unfold findLabel at hg
    cases hd : deref h f with
    | error x => simp [hd] at hg
    | ok fr =>
      have hfr := deref_eq_ok.mp hd
      simp only [hd] at hg
      by_cases hl : fr.label = s
      · simp only [ne_eq, hl, not_true_eq_false, if_false, Except.ok.injEq] at hg
        subst hg
        exact ⟨0, fr, rfl, hfr, hl, fun m hm => by omega⟩
      · simp only [ne_eq, hl, not_false_eq_true, if_true] at hg
        cases hp : fr.previous with
        | none => simp [hp] at hg
        | some j =>
          simp only [hp] at hg
          obtain ⟨n, frg, hn, hfg, hlg, hmin⟩ := ih j g hg
          refine ⟨n + 1, frg, ?_, hfg, hlg, ?_⟩
          · rw [ancestor_succ_of_previous hfr hp]
            exact hn
          · intro m hm g1 fr1 hg1 hfr1
            cases m with
            | zero =>
              simp only [ancestor, Option.some.injEq] at hg1
              subst hg1
              rw [hfr] at hfr1
              cases hfr1
              exact hl
            | succ m =>
              rw [ancestor_succ_of_previous hfr hp] at hg1
              exact hmin m (by omega) g1 fr1 hg1 hfr1

/-- A successful climb over `k` carets returns the frame `k` callers up. -/
theorem climb_ok (h : Heap) (sym : Str) (hsym : sym.head? ≠ some 94) :
    ∀ (k f up : Nat) (p : Str), climb h f (List.replicate k 94 ++ sym) = .ok (up, p) →
      p = sym ∧ ancestor h k f = some up := by
  intro k
  induction k with
  | zero =>
    intro f up p hc
    simp only [List.replicate_zero, List.nil_append] at hc
    cases sym with
    | nil =>
      simp only [climb, Except.ok.injEq, Prod.mk.injEq] at hc
      exact ⟨hc.2.symm, by simp [ancestor, hc.1]⟩
    | cons c r =>
      have hc94 : c ≠ 94 := by simpa using hsym
      simp only [climb, hc94, if_false, Except.ok.injEq, Prod.mk.injEq] at hc
      exact ⟨hc.2.symm, by simp [ancestor, hc.1]⟩
  | succ k ih =>
    intro f up p hc
    simp only [List.replicate_succ, List.cons_append, climb, if_true] at hc
    cases hd : deref h f with
    | error x => simp [hd] at hc
    | ok fr =>
      have hfr := deref_eq_ok.mp hd
      simp only [hd] at hc
      cases hp : fr.previous with
      | none => simp [hp] at hc
      | some j =>
        simp only [hp] at hc
        obtain ⟨h1, h2⟩ := ih j up p hc
        exact ⟨h1, by rw [ancestor_succ_of_previous hfr hp]; exact h2⟩

theorem find_append_cons_of_not_mem (c : Nat) (l rest : Str) (h : c ∉ l) :
    find c (l ++ c :: rest) = c :: rest := by
  induction l with
  | nil => simp [find]
  | cons x l ih =>
    have hx : x ≠ c := fun e => h (by simp [e])
    have hl : c ∉ l := fun m => h (List.mem_cons_of_mem _ m)
    simp [find, hx, ih hl]

/-- The label part of the resolution on a well-formed prefix. -/
theorem resolveLabel_text (h : Heap) (self : Nat) (P : Prefix) (rest : Str) (hP : P.Valid)
    (hrest : P = .none → rest.head? ≠ some 58) :
    resolveLabel h self (P.text ++ rest) =
      match P with
      | .none => .ok (self, rest)
      | .root =>
        match deref h self with
        | .error x => .error x
        | .ok fr => .ok (fr.root, rest)
      | .label l =>
        match findLabel h (58 :: (l ++ [58])) h.length self with
        | .error x => .error x
        | .ok f => .ok (f, rest) := by
  cases P with
  | none =>
    have hr := hrest rfl
    simp only [Prefix.text, List.nil_append]
    unfold resolveLabel
    split
    · rename_i r
      simp at hr
    · rfl
  | root =>
    simp only [Prefix.text, List.cons_append, List.nil_append, resolveLabel, find, if_true,
      List.length_cons]
    simp
  | label l =>
    obtain ⟨hne, hmem⟩ := hP
    have hfind : find 58 (l ++ 58 :: rest) = 58 :: rest :=
      find_append_cons_of_not_mem 58 l rest hmem
    have hlen : 0 < l.length := List.length_pos.mpr hne
    have htake : (58 :: (l ++ 58 :: rest)).take (l.length + 1 + 1) = 58 :: (l ++ [58]) := by
      simp [List.take_append_eq_append_take]
    have htext : (Prefix.label l).text ++ rest = 58 :: (l ++ 58 :: rest) := by
      simp [Prefix.text]
    rw [htext]
    simp only [resolveLabel, hfind, List.length_append, List.length_cons]
    have e1 : l.length + (rest.length + 1) - rest.length = l.length + 1 := by omega
    rw [e1]
    simp only [show 1 < l.length + 1 by omega, if_true, htake]

theorem resolveFrameIt_ok (h : Heap) (self : Nat) (identifier : Str) (P : Prefix) (k : Nat)
    (sym : Str) (t : Nat) (s : Str) (hid : IsIdentifier identifier P k sym)
    (hres : resolveFrameIt h self identifier = .ok (t, s)) :
    s = sym ∧ ∃ start up, StartsAt h self P start ∧ ancestor h k start = some up ∧
      IsTarget h up sym t := by
  obtain ⟨rfl, hP, hsym, hnone⟩ := hid
  have hrest : P = .none → (List.replicate k 94 ++ sym).head? ≠ some 58 := by
    intro hp
    cases k with
    | zero => simpa using hnone hp rfl
    | succ k => simp [List.replicate_succ]
  unfold resolveFrameIt at hres
  rw [resolveLabel_text h self P _ hP hrest] at hres
  have key : ∀ start, StartsAt h self P start →
      (match climb h start (List.replicate k 94 ++ sym) with
        | .error x => .error x
        | .ok (f2, p2) =>
          if p2.head? ≠ some 36 then
            match deref h f2 with
            | .error x => .error x
            | .ok fr => .ok (fr.closure, p2)
          else .ok (f2, p2)) = (.ok (t, s) : Except Xception (Nat × Str)) →
      s = sym ∧ ∃ start up, StartsAt h self P start ∧ ancestor h k start = some up ∧
        IsTarget h up sym t := by
    intro start hstart hc
    cases hcl : climb h start (List.replicate k 94 ++ sym) with
    | error x => simp [hcl] at hc
    | ok r =>
      obtain ⟨up, p2⟩ := r
      obtain ⟨hp2, hanc⟩ := climb_ok h sym hsym k start up p2 hcl
      subst hp2
      simp only [hcl] at hc
      by_cases h36 : p2.head? = some 36
      · simp only [h36, ne_eq, not_true_eq_false, if_false, Except.ok.injEq,
          Prod.mk.injEq] at hc
        refine ⟨hc.2.symm, start, up, hstart, hanc, ?_⟩
        simp [IsTarget, h36, hc.1]
      · simp only [ne_eq, h36, not_false_eq_true, if_true] at hc
        cases hd : deref h up with
        | error x => simp [hd] at hc
        | ok fr =>
          simp only [hd, Except.ok.injEq, Prod.mk.injEq] at hc
          refine ⟨hc.2.symm, start, up, hstart, hanc, ?_⟩
          simp only [IsTarget, h36, if_false]
          exact ⟨fr, deref_eq_ok.mp hd, hc.1.symm⟩
  cases P with
  | none => exact key self rfl hres
  | root =>
    simp only [] at hres
    cases hd : deref h self with
    | error x => simp [hd] at hres
    | ok fr =>
      simp only [hd] at hres
      exact key fr.root ⟨fr, deref_eq_ok.mp hd, rfl⟩ hres
  | label l =>
    simp only [] at hres
    cases hf : findLabel h (58 :: (l ++ [58])) h.length self with
    | error x => simp [hf] at hres
    | ok f =>
      simp only [hf] at hres
      exact key f (findLabel_ok h _ _ _ _ hf) hres

/-- C8: for the identifier made of the prefix `P` (none, `::` or `:label:`), `k`
carets and a bare symbol `sym` that begins with neither `:` nor `^`, a successful
`resolveFrame` on the frame `F` returns `sym` with the target obtained by
starting at the Root for `::`, at the nearest frame of the caller chain of `F`
with the label for `:label:` and at `F` otherwise, moving `k` frames up the
caller chain, and taking that frame itself when `sym` begins with `$` and its
closure otherwise. -/
theorem resolveFrame_target (h : Heap) (F : Nat) (P : Prefix) (k : Nat) (sym : Str) (t : Nat)
    (s : Str) (hP : P.Valid) (hsym : sym.head? ≠ some 58 ∧ sym.head? ≠ some 94)
    (hres : resolveFrame h F (P.text ++ (List.replicate k 94 ++ sym)) = .ok (t, s)) :
    s = sym ∧ ∃ start up, StartsAt h F P start ∧ ancestor h k start = some up ∧
      IsTarget h up sym t := by
  have hid : IsIdentifier (P.text ++ (List.replicate k 94 ++ sym)) P k sym :=
    ⟨rfl, hP, hsym.2, fun _ _ => hsym.1⟩
  by_cases hpk : P = .none ∧ k = 0
  · obtain ⟨rfl, rfl⟩ := hpk
    simp only [Prefix.text, List.replicate_zero, List.nil_append] at hres
    unfold resolveFrame at hres
    split at hres
    · simp only [Except.ok.injEq, Prod.mk.injEq] at hres
      refine ⟨hres.2.symm, F, F, rfl, rfl, ?_⟩
      simp [IsTarget, hres.1]
    · simp at hsym
    · simp at hsym
    · rename_i h36 h58 h94
      cases hd : deref h F with
      | error x => simp [hd] at hres
      | ok fr =>
        simp only [hd, Except.ok.injEq, Prod.mk.injEq] at hres
        refine ⟨hres.2.symm, F, F, rfl, rfl, ?_⟩
        have hne : sym.head? ≠ some 36 := by
          intro hh
          cases sym with
          | nil => simp at hh
          | cons c r =>
            simp only [List.head?_cons, Option.some.injEq] at hh
            subst hh
            exact h36 r rfl
        simp only [IsTarget, hne, if_false]
        exact ⟨fr, deref_eq_ok.mp hd, hres.1.symm⟩
  · have hstart : ∃ c r, P.text ++ (List.replicate k 94 ++ sym) = c :: r ∧ (c = 58 ∨ c = 94) := by
      cases P with
      | none =>
        cases k with
        | zero => simp at hpk
        | succ k =>
          exact ⟨94, List.replicate k 94 ++ sym, by simp [Prefix.text, List.replicate_succ],
            Or.inr rfl⟩
      | root =>
        exact ⟨58, 58 :: (List.replicate k 94 ++ sym), by simp [Prefix.text], Or.inl rfl⟩
      | label l =>
        exact ⟨58, l ++ 58 :: (List.replicate k 94 ++ sym), by simp [Prefix.text], Or.inl rfl⟩
    obtain ⟨c, r, hcr, hc⟩ := hstart
    have hrf : resolveFrame h F (P.text ++ (List.replicate k 94 ++ sym)) =
        resolveFrameIt h F (P.text ++ (List.replicate k 94 ++ sym)) := by
      rw [hcr]
      rcases hc with rfl | rfl <;> rfl
    rw [hrf] at hres
    exact resolveFrameIt_ok h F _ P k sym t s hid hres

/-- Witness of C8: in the example heap the identifier `:1:^$x` resolves on the
frame `:2:` to the Root with the symbol `$x`. -/
theorem resolveFrame_target_witness :
    resolveFrame exampleHeap 2 ((Prefix.label [49]).text ++ (List.replicate 1 94 ++ [36, 120]))
        = .ok (0, [36, 120]) ∧
      ([36, 120] = [36, 120] ∧ ∃ start up, StartsAt exampleHeap 2 (Prefix.label [49]) start ∧
        ancestor exampleHeap 1 start = some up ∧ IsTarget exampleHeap up [36, 120] 0) :=
  ⟨by decide, resolveFrame_target exampleHeap 2 (Prefix.label [49]) 1 [36, 120] 0 [36, 120]
    ⟨by decide, by decide⟩ (by decide) (by decide)⟩


/-- In a well-formed heap the climb over `k` carets from a frame of the heap
reaches the frame `k` callers up, or fails when there is none. -/
theorem climb_total (h : Heap) (hwf : WellFormed h) (sym : Str) (hsym : sym.head? ≠ some 94) :
    ∀ (k f : Nat), f < h.length →
      (∃ up, climb h f (List.replicate k 94 ++ sym) = .ok (up, sym) ∧
          ancestor h k f = some up ∧ up < h.length) ∨
        (climb h f (List.replicate k 94 ++ sym) = .error .frameDoesNotExist ∧
          ancestor h k f = none) := by
  intro k
  induction k with
  | zero =>
    intro f hf
    left
    refine ⟨f, ?_, rfl, hf⟩
    simp only [List.replicate_zero, List.nil_append]
    cases sym with
    | nil => rfl
    | cons c r =>
      have hc94 : c ≠ 94 := by simpa using hsym
      simp [climb, hc94]
  | succ k ih =>
    intro f hf
    obtain ⟨fr, hd, hfr⟩ := deref_of_lt hf
    simp only [List.replicate_succ, List.cons_append, climb, if_true, hd]
    cases hp : fr.previous with
    | none =>
      right
      exact ⟨rfl, by simp [ancestor, hfr, hp]⟩
    | some j =>
      have hj := hwf.previous_lt f fr hfr j hp
      simp only []
      rw [ancestor_succ_of_previous hfr hp]
      exact ih j (by omega)

theorem isNearestLabelled_unique {h : Heap} {f : Nat} {s : Str} {a b : Nat}
    (ha : IsNearestLabelled h f s a) (hb : IsNearestLabelled h f s b) : a = b := by
  obtain ⟨n, fa, hna, hfa, hla, hmina⟩ := ha
  obtain ⟨m, fb, hmb, hfb, hlb, hminb⟩ := hb
  have hnm : n = m := by
    rcases Nat.lt_trichotomy n m with hlt | heq | hgt
    · exact absurd hla (hminb n hlt a fa hna hfa)
    · exact heq
    · exact absurd hlb (hmina m hgt b fb hmb hfb)
  subst hnm
  rw [hna] at hmb
  exact Option.some.inj hmb

theorem startsAt_unique {h : Heap} {self : Nat} {P : Prefix} {a b : Nat}
    (ha : StartsAt h self P a) (hb : StartsAt h self P b) : a = b := by
  cases P with
  | none => exact ha.trans hb.symm
  | root =>
    obtain ⟨fa, hfa, rfl⟩ := ha
    obtain ⟨fb, hfb, rfl⟩ := hb
    rw [hfa] at hfb
    cases hfb
    rfl
  | label l => exact isNearestLabelled_unique ha hb

theorem not_missing_of_reached {h : Heap} {self : Nat} {P : Prefix} {k start up : Nat}
    (hs : StartsAt h self P start) (ha : ancestor h k start = some up) :
    ¬ MissingFrame h self P k := by
  rintro (⟨l, rfl, hno⟩ | ⟨start', hs', hnone⟩)
  · obtain ⟨n, fr, hn, hfr, hl, _⟩ := hs
    exact hno n start fr hn hfr hl
  · rw [startsAt_unique hs' hs, ha] at hnone
    cases hnone

/-- The outcome of `resolveFrame(p, e)` on an identifier with a well-formed
prefix. -/
theorem resolveFrameIt_cases (h : Heap) (hwf : WellFormed h) (F : Nat) (hF : F < h.length)
    (identifier : Str) (P : Prefix) (k : Nat) (sym : Str)
    (hid : IsIdentifier identifier P k sym) :
    (MissingFrame h F P k ∧ FailsFrameDoesNotExist (resolveFrameIt h F identifier)) ∨
      (¬ MissingFrame h F P k ∧ ∃ t, resolveFrameIt h F identifier = .ok (t, sym)) := by
  obtain ⟨rfl, hP, hsym, hnone⟩ := hid
  have hrest : P = .none → (List.replicate k 94 ++ sym).head? ≠ some 58 := by
    intro hp
    cases k with
    | zero => simpa using hnone hp rfl
    | succ k => simp [List.replicate_succ]
  have key : ∀ start, StartsAt h F P start → start < h.length →
      (MissingFrame h F P k ∧ FailsFrameDoesNotExist
        (match climb h start (List.replicate k 94 ++ sym) with
          | .error x => (.error x : Except Xception (Nat × Str))
          | .ok (f2, p2) =>
            if p2.head? ≠ some 36 then
              match deref h f2 with
              | .error x => .error x
              | .ok fr => .ok (fr.closure, p2)
            else .ok (f2, p2))) ∨
      (¬ MissingFrame h F P k ∧ ∃ t,
        (match climb h start (List.replicate k 94 ++ sym) with
          | .error x => (.error x : Except Xception (Nat × Str))
          | .ok (f2, p2) =>
            if p2.head? ≠ some 36 then
              match deref h f2 with
              | .error x => .error x
              | .ok fr => .ok (fr.closure, p2)
            else .ok (f2, p2)) = .ok (t, sym)) := by
    intro start hstart hlt
    rcases climb_total h hwf sym hsym k start hlt with ⟨up, hc, hanc, hup⟩ | ⟨hc, hanc⟩
    · right
      refine ⟨not_missing_of_reached hstart hanc, ?_⟩
      obtain ⟨fr, hd, _⟩ := deref_of_lt hup
      rw [hc]
      simp only [hd]
      by_cases h36 : sym.head? = some 36
      · exact ⟨up, by simp [h36]⟩
      · exact ⟨fr.closure, by simp [h36]⟩
    · left
      refine ⟨Or.inr ⟨start, hstart, hanc⟩, ?_⟩
      rw [hc]
      exact Or.inl rfl
  unfold resolveFrameIt
  rw [resolveLabel_text h F P _ hP hrest]
  cases P with
  | none => exact key F rfl hF
  | root =>
    obtain ⟨fr, hd, hfr⟩ := deref_of_lt hF
    simp only [hd]
    exact key fr.root ⟨fr, hfr, rfl⟩ (hwf.root_valid F fr hfr)
  | label l =>
    simp only []
    rcases findLabel_spec h hwf (58 :: (l ++ [58])) h.length F hF hF with
      ⟨g, hg, hnear⟩ | ⟨he, hno⟩
    · rw [hg]
      have hglt : g < h.length := by
        obtain ⟨_, fr, _, hfr, _, _⟩ := hnear
        exact (List.getElem?_eq_some_iff.mp hfr).1
      exact key g hnear hglt
    · left
      rw [he]
      exact ⟨Or.inl ⟨l, rfl, hno⟩, Or.inr ⟨_, rfl⟩⟩

theorem find_eq_nil_of_not_mem (c : Nat) (l : Str) (h : c ∉ l) : find c l = [] := by
  induction l with
  | nil => rfl
  | cons x l ih =>
    have hx : x ≠ c := fun e => h (by simp [e])
    simp [find, hx, ih (fun m => h (List.mem_cons_of_mem _ m))]

theorem resolveFrameIt_invalid (h : Heap) (F : Nat) (identifier : Str)
    (hid : identifier.head? = some 58 ∧ 58 ∉ identifier.tail) :
    resolveFrameIt h F identifier = .error (.invalidIdentifier identifier) := by
  obtain ⟨hh, ht⟩ := hid
  cases identifier with
  | nil => simp at hh
  | cons c r =>
    simp only [List.head?_cons, Option.some.injEq] at hh
    subst hh
    simp only [List.tail_cons] at ht
    simp [resolveFrameIt, resolveLabel, find_eq_nil_of_not_mem 58 r ht]

theorem carets_split (rest : Str) :
    ∃ k sym, rest = List.replicate k 94 ++ sym ∧ sym.head? ≠ some 94 := by
  induction rest with
  | nil => exact ⟨0, [], rfl, by simp⟩
  | cons c r ih =>
    by_cases hc : c = 94
    · obtain ⟨k, sym, hr, hs⟩ := ih
      exact ⟨k + 1, sym, by simp [List.replicate_succ, hc, hr], hs⟩
    · exact ⟨0, c :: r, rfl, by simpa using hc⟩

/-- Every identifier begins with `:` and holds no second `:`, or is made of a
well-formed prefix, carets and a bare symbol. -/
theorem identifier_split (identifier : Str) :
    (identifier.head? = some 58 ∧ 58 ∉ identifier.tail) ∨
      ∃ P k sym, IsIdentifier identifier P k sym := by
  by_cases hh : identifier.head? = some 58
  · obtain ⟨r, rfl⟩ : ∃ r, identifier = 58 :: r := by
      cases identifier with
      | nil => simp at hh
      | cons c r => exact ⟨r, by simpa using hh⟩
    by_cases hm : 58 ∈ r
    · right
      obtain ⟨l, rest, rfl, hl⟩ := List.eq_append_cons_of_mem hm
      obtain ⟨k, sym, rfl, hs⟩ := carets_split rest
      by_cases hl0 : l = []
      · subst hl0
        exact ⟨.root, k, sym, by simp [Prefix.text], trivial, hs, fun hp => by cases hp⟩
      · exact ⟨.label l, k, sym, by simp [Prefix.text], ⟨hl0, hl⟩, hs, fun hp => by cases hp⟩
    · exact Or.inl ⟨rfl, hm⟩
  · right
    obtain ⟨k, sym, hr, hs⟩ := carets_split identifier
    refine ⟨.none, k, sym, by simpa [Prefix.text] using hr, trivial, hs, ?_⟩
    intro _ hk
    subst hk
    simp only [List.replicate_zero, List.nil_append] at hr
    rw [← hr]
    exact hh

/-- C9: on a frame of a well-formed heap, `resolveFrame(p, e)` fails with
"Invalid identifier" exactly when the identifier begins with `:` and holds no
second `:`; it fails with "Frame does not exist" exactly when the `:label:`
prefix of the identifier is the label of no frame of the caller chain of the
current frame, or the identifier carries more carets than there are callers above
the frame reached; in every other case it succeeds. -/
theorem resolveFrameIt_failure (h : Heap) (hwf : WellFormed h) (F : Nat) (hF : F < h.length)
    (identifier : Str) :
    (FailsInvalidIdentifier (resolveFrameIt h F identifier) ↔
        identifier.head? = some 58 ∧ 58 ∉ identifier.tail) ∧
      (FailsFrameDoesNotExist (resolveFrameIt h F identifier) ↔
        ∃ P k sym, IsIdentifier identifier P k sym ∧ MissingFrame h F P k) ∧
      (¬ (identifier.head? = some 58 ∧ 58 ∉ identifier.tail) →
        ¬ (∃ P k sym, IsIdentifier identifier P k sym ∧ MissingFrame h F P k) →
        ∃ r, resolveFrameIt h F identifier = .ok r) := by
  refine ⟨⟨?_, ?_⟩, ⟨?_, ?_⟩, ?_⟩
  · rintro ⟨x, hx⟩
    rcases identifier_split identifier with hinv | ⟨P, k, sym, hid⟩
    · exact hinv
    · rcases resolveFrameIt_cases h hwf F hF identifier P k sym hid with
        ⟨_, hfail | ⟨s, hfail⟩⟩ | ⟨_, t, hok⟩
      · rw [hx] at hfail; cases hfail
      · rw [hx] at hfail; cases hfail
      · rw [hx] at hok; cases hok
  · intro hinv
    exact ⟨identifier, resolveFrameIt_invalid h F identifier hinv⟩
  · intro hfail
    rcases identifier_split identifier with hinv | ⟨P, k, sym, hid⟩
    · rw [resolveFrameIt_invalid h F identifier hinv] at hfail
      rcases hfail with hfail | ⟨s, hfail⟩ <;> cases hfail
    · rcases resolveFrameIt_cases h hwf F hF identifier P k sym hid with
        ⟨hmiss, _⟩ | ⟨_, t, hok⟩
      · exact ⟨P, k, sym, hid, hmiss⟩
      · rw [hok] at hfail
        rcases hfail with hfail | ⟨s, hfail⟩ <;> cases hfail
  · rintro ⟨P, k, sym, hid, hmiss⟩
    rcases resolveFrameIt_cases h hwf F hF identifier P k sym hid with
      ⟨_, hfail⟩ | ⟨hnot, _⟩
    · exact hfail
    · exact absurd hmiss hnot
  · intro hninv hnmiss
    rcases identifier_split identifier with hinv | ⟨P, k, sym, hid⟩
    · exact absurd hinv hninv
    · rcases resolveFrameIt_cases h hwf F hF identifier P k sym hid with
        ⟨hmiss, _⟩ | ⟨_, t, hok⟩
      · exact absurd ⟨P, k, sym, hid, hmiss⟩ hnmiss
      · exact ⟨_, hok⟩

theorem exampleHeap_wellFormed : WellFormed exampleHeap := by
  constructor
  · intro i fr hi j hj
    match i, hi with
    | 0, hi =>
      simp only [exampleHeap, List.getElem?_cons_zero, Option.some.injEq] at hi
      subst hi
      simp at hj
    | 1, hi =>
      simp only [exampleHeap, List.getElem?_cons_succ, List.getElem?_cons_zero,
        Option.some.injEq] at hi
      subst hi
      simp only [Option.some.injEq] at hj
      omega
    | 2, hi =>
      simp only [exampleHeap, List.getElem?_cons_succ, List.getElem?_cons_zero,
        Option.some.injEq] at hi
      subst hi
      simp only [Option.some.injEq] at hj
      omega
    | n + 3, hi => simp [exampleHeap] at hi
  · intro i fr hi
    match i, hi with
    | 0, hi =>
      simp only [exampleHeap, List.getElem?_cons_zero, Option.some.injEq] at hi
      subst hi
      decide
    | 1, hi =>
      simp only [exampleHeap, List.getElem?_cons_succ, List.getElem?_cons_zero,
        Option.some.injEq] at hi
      subst hi
      decide
    | 2, hi =>
      simp only [exampleHeap, List.getElem?_cons_succ, List.getElem?_cons_zero,
        Option.some.injEq] at hi
      subst hi
      decide
    | n + 3, hi => simp [exampleHeap] at hi

/-- Witness of C9: on the frame `:2:` of the example heap, for the identifier
`:x`. -/
theorem resolveFrameIt_failure_witness :
    WellFormed exampleHeap ∧ 2 < exampleHeap.length ∧
      ((FailsInvalidIdentifier (resolveFrameIt exampleHeap 2 [58, 120]) ↔
          ([58, 120] : Str).head? = some 58 ∧ 58 ∉ ([58, 120] : Str).tail) ∧
        (FailsFrameDoesNotExist (resolveFrameIt exampleHeap 2 [58, 120]) ↔
          ∃ P k sym, IsIdentifier [58, 120] P k sym ∧ MissingFrame exampleHeap 2 P k) ∧
        (¬ (([58, 120] : Str).head? = some 58 ∧ 58 ∉ ([58, 120] : Str).tail) →
          ¬ (∃ P k sym, IsIdentifier [58, 120] P k sym ∧ MissingFrame exampleHeap 2 P k) →
          ∃ r, resolveFrameIt exampleHeap 2 [58, 120] = .ok r)) :=
  ⟨exampleHeap_wellFormed, by decide,
    resolveFrameIt_failure exampleHeap exampleHeap_wellFormed 2 (by decide) [58, 120]⟩

theorem climb_rest_head (h : Heap) :
    ∀ (p : Str) (f f2 : Nat) (p2 : Str), climb h f p = .ok (f2, p2) → p2.head? ≠ some 94 := by
  intro p
  induction p with
  | nil =>
    intro f f2 p2 hc
    simp only [climb, Except.ok.injEq, Prod.mk.injEq] at hc
    simp [← hc.2]
  | cons c r ih =>
    intro f f2 p2 hc
    by_cases h94 : c = 94
    · subst h94
      simp only [climb, if_true] at hc
      cases hd : deref h f with
      | error x => simp [hd] at hc
      | ok fr =>
        simp only [hd] at hc
        cases hp : fr.previous with
        | none => simp [hp] at hc
        | some j =>
          simp only [hp] at hc
          exact ih j f2 p2 hc
    · simp only [climb, h94, if_false, Except.ok.injEq, Prod.mk.injEq] at hc
      rw [← hc.2]
      simpa using h94

/-- The bare symbol `resolveFrame` returns does not begin with `^`. -/
theorem resolveFrame_sym_head (h : Heap) (F : Nat) (x : Str) (T : Nat) (sym : Str)
    (hres : resolveFrame h F x = .ok (T, sym)) : sym.head? ≠ some 94 := by
  have hit : resolveFrameIt h F x = .ok (T, sym) → sym.head? ≠ some 94 := by
    intro hr
    unfold resolveFrameIt at hr
    cases hl : resolveLabel h F x with
    | error e => simp [hl] at hr
    | ok r =>
      obtain ⟨f, p1⟩ := r
      simp only [hl] at hr
      cases hc : climb h f p1 with
      | error e => simp [hc] at hr
      | ok r2 =>
        obtain ⟨f2, p2⟩ := r2
        have hh := climb_rest_head h p1 f f2 p2 hc
        simp only [hc] at hr
        split at hr
        · cases hd : deref h f2 with
          | error e => simp [hd] at hr
          | ok fr =>
            simp only [hd, Except.ok.injEq, Prod.mk.injEq] at hr
            rw [← hr.2]
            exact hh
        · simp only [Except.ok.injEq, Prod.mk.injEq] at hr
          rw [← hr.2]
          exact hh
  unfold resolveFrame at hres
  split at hres
  · simp only [Except.ok.injEq, Prod.mk.injEq] at hres
    simp [← hres.2]
  · exact hit hres
  · exact hit hres
  · rename_i h36 h58 h94
    cases hd : deref h F with
    | error e => simp [hd] at hres
    | ok fr =>
      simp only [hd, Except.ok.injEq, Prod.mk.injEq] at hres
      rw [← hres.2]
      intro hh
      cases x with
      | nil => simp at hh
      | cons c r =>
        simp only [List.head?_cons, Option.some.injEq] at hh
        subst hh
        exact h94 r rfl

/-- C10 (as stated, refuted): on the frame `:2:` of the example heap the
identifier `a` resolves to the frame `:1:`, which binds it to `1`; the reference
is `:1:a`, and `get` on the reference resolves to the closure of `:1:`, the Root,
where `a` is undefined. -/
theorem get_reference_counterexample :
    resolveFrame exampleHeap 2 [97] = .ok (1, [97]) ∧
      exampleHeap[1]?.map (fun fr => (fr.vars.lookup [97]).1) = some (some [49]) ∧
      (get exampleHeap 2 [97] false).1 = .ok [49] ∧
      reference exampleHeap 2 [97] = .ok [58, 49, 58, 97] ∧
      (get exampleHeap 2 [58, 49, 58, 97] false).1 = .error (.undefined [58, 49, 58, 97]) := by
  decide

/-- C10 (amended): when the identifier `x` is bound in the frame `T` that the
frame `F` resolves it to, the label of `T` designates `T` from `F` (`T` is the
Root and its label `::`, or `T` is the nearest frame of the caller chain of `F`
with its label), and the bare symbol begins with `$` or `T` is its own closure,
`F.get(F.reference(x))` succeeds and returns the same value as `F.get(x)`. -/
theorem get_reference (h : Heap) (hwf : WellFormed h) (F : Nat) (hF : F < h.length) (x : Str)
    (T : Nat) (sym : Str) (fr : Frame) (v : Str) (P : Prefix)
    (hres : resolveFrame h F x = .ok (T, sym)) (hT : h[T]? = some fr)
    (hbound : (fr.vars.lookup sym).1 = some v)
    (hP : P.Valid) (hPne : P ≠ .none) (hlabel : fr.label = P.text) (hstart : StartsAt h F P T)
    (hclos : sym.head? = some 36 ∨ fr.closure = T) :
    (get h F x false).1 = .ok v ∧
      ∃ ref, reference h F x = .ok ref ∧ (get h F ref false).1 = .ok v := by
  have hd : deref h T = .ok fr := deref_eq_ok.mpr hT
  have hget : (get h F x false).1 = .ok v := by
    simp [get, hres, hd, hbound]
  refine ⟨hget, fr.label ++ sym, by simp [reference, hres, hd], ?_⟩
  have hsym := resolveFrame_sym_head h F x T sym hres
  have hid : IsIdentifier (P.text ++ sym) P 0 sym :=
    ⟨by simp, hP, hsym, fun hp => absurd hp hPne⟩
  have hit : resolveFrameIt h F (P.text ++ sym) = .ok (T, sym) := by
    rcases resolveFrameIt_cases h hwf F hF _ P 0 sym hid with ⟨hmiss, _⟩ | ⟨_, t, hok⟩
    · exact absurd hmiss (not_missing_of_reached hstart rfl)
    · obtain ⟨_, start, up, hs, ha, ht⟩ := resolveFrameIt_ok h F _ P 0 sym t sym hid hok
      have h1 : start = T := startsAt_unique hs hstart
      subst h1
      simp only [ancestor, Option.some.injEq] at ha
      subst ha
      have : t = start := by
        unfold IsTarget at ht
        split at ht
        · exact ht
        · obtain ⟨fr', hfr', rfl⟩ := ht
          rw [hT] at hfr'
          cases hfr'
          rcases hclos with hc | hc
          · rename_i hne
            exact absurd hc hne
          · exact hc
      rw [hok, this]
  have hrf : resolveFrame h F (P.text ++ sym) = resolveFrameIt h F (P.text ++ sym) := by
    cases P with
    | none => exact absurd rfl hPne
    | root => rfl
    | label l => rfl
  rw [hlabel]
  simp [get, hrf, hit, hd, hbound]

/-- Witness of C10 (amended): on the frame `:2:` of the example heap, the
identifier `^$n` resolves to the frame `:1:`, which binds `$n`. -/
theorem get_reference_witness :
    (get exampleHeap 2 [94, 36, 110] false).1 = .ok [48] ∧
      ∃ ref, reference exampleHeap 2 [94, 36, 110] = .ok ref ∧
        (get exampleHeap 2 ref false).1 = .ok [48] :=
  get_reference exampleHeap exampleHeap_wellFormed 2 (by decide) [94, 36, 110] 1 [36, 110]
    { vars := { vars := [([36, 110], [48]), ([97], [49])] }, root := 0, previous := some 0,
      closure := 0, label := [58, 49, 58] }
    [48] (Prefix.label [49]) (by decide) (by decide) (by decide) ⟨by decide, by decide⟩
    (by decide) rfl
    ⟨1, { vars := { vars := [([36, 110], [48]), ([97], [49])] }, root := 0,
          previous := some 0, closure := 0, label := [58, 49, 58] },
      by decide, by decide, by decide, fun m hm g1 fr1 hg hf => by
      have hm0 : m = 0 := by omega
      subst hm0
      simp only [ancestor, Option.some.injEq] at hg
      subst hg
      simp only [exampleHeap, List.getElem?_cons_succ, List.getElem?_cons_zero,
        Option.some.injEq] at hf
      subst hf
      decide⟩
    (Or.inl (by decide))

/-! ### Getting and setting variables (C11, C12, C13) -/

theorem deref_shape {h1 h2 : Heap} (hs : h1.map Frame.shape = h2.map Frame.shape) (f : Nat) :
    (∃ x, deref h1 f = .error x ∧ deref h2 f = .error x) ∨
      ∃ fr1 fr2, deref h1 f = .ok fr1 ∧ deref h2 f = .ok fr2 ∧ fr1.shape = fr2.shape := by
  have hf : (h1.map Frame.shape)[f]? = (h2.map Frame.shape)[f]? := by rw [hs]
  simp only [List.getElem?_map] at hf
  unfold deref
  cases h1f : h1[f]? with
  | none =>
    rw [h1f] at hf
    cases h2f : h2[f]? with
    | none => exact Or.inl ⟨_, rfl, rfl⟩
    | some fr2 => rw [h2f] at hf; simp at hf
  | some fr1 =>
    rw [h1f] at hf
    cases h2f : h2[f]? with
    | none => rw [h2f] at hf; simp at hf
    | some fr2 =>
      rw [h2f] at hf
      simp only [Option.map_some', Option.some.injEq] at hf
      exact Or.inr ⟨fr1, fr2, rfl, rfl, hf⟩

theorem shape_fields {fr1 fr2 : Frame} (hs : fr1.shape = fr2.shape) :
    fr1.root = fr2.root ∧ fr1.previous = fr2.previous ∧ fr1.closure = fr2.closure ∧
      fr1.label = fr2.label := by
  simp only [Frame.shape, Prod.mk.injEq] at hs
  exact hs

theorem findLabel_shape {h1 h2 : Heap} (hs : h1.map Frame.shape = h2.map Frame.shape)
    (s : Str) : ∀ fuel f, findLabel h1 s fuel f = findLabel h2 s fuel f := by
  intro fuel
  induction fuel with
  | zero => intro f; rfl
  | succ fuel ih =>
    intro f
    unfold findLabel
    rcases deref_shape hs f with ⟨x, e1, e2⟩ | ⟨fr1, fr2, e1, e2, hfr⟩
    · rw [e1, e2]
    · obtain ⟨_, hp, _, hl⟩ := shape_fields hfr
      rw [e1, e2]
      simp only [hl, hp]
      split
      · cases fr2.previous with
        | none => rfl
        | some g => exact ih g
      · rfl

theorem climb_shape {h1 h2 : Heap} (hs : h1.map Frame.shape = h2.map Frame.shape) :
    ∀ (p : Str) (f : Nat), climb h1 f p = climb h2 f p := by
  intro p
  induction p with
  | nil => intro f; rfl
  | cons c p ih =>
    intro f
    unfold climb
    split
    · rcases deref_shape hs f with ⟨x, e1, e2⟩ | ⟨fr1, fr2, e1, e2, hfr⟩
      · rw [e1, e2]
      · obtain ⟨_, hp, _, _⟩ := shape_fields hfr
        rw [e1, e2]
        simp only [hp]
        cases fr2.previous with
        | none => rfl
        | some g => exact ih g
    · rfl

theorem resolveFrameIt_shape {h1 h2 : Heap} (hs : h1.map Frame.shape = h2.map Frame.shape)
    (self : Nat) (p : Str) : resolveFrameIt h1 self p = resolveFrameIt h2 self p := by
  have hlen : h1.length = h2.length := by
    have := congrArg List.length hs
    simpa using this
  have hl : resolveLabel h1 self p = resolveLabel h2 self p := by
    unfold resolveLabel
    split
    · split
      · rfl
      · split
        · rw [findLabel_shape hs, hlen]
        · rcases deref_shape hs self with ⟨x, e1, e2⟩ | ⟨fr1, fr2, e1, e2, hfr⟩
          · rw [e1, e2]
          · obtain ⟨hr, _, _, _⟩ := shape_fields hfr
            rw [e1, e2]
            simp only [hr]
    · rfl
  unfold resolveFrameIt
  rw [hl]
  cases resolveLabel h2 self p with
  | error x => rfl
  | ok r =>
    obtain ⟨f, p1⟩ := r
    simp only [climb_shape hs]
    cases climb h2 f p1 with
    | error x => rfl
    | ok r2 =>
      obtain ⟨f2, p2⟩ := r2
      simp only []
      split
      · rcases deref_shape hs f2 with ⟨x, e1, e2⟩ | ⟨fr1, fr2, e1, e2, hfr⟩
        · rw [e1, e2]
        · obtain ⟨_, _, hc, _⟩ := shape_fields hfr
          rw [e1, e2]
          simp only [hc]
      · rfl

/-- The resolution of frames reads no variable space. -/
theorem resolveFrame_shape {h1 h2 : Heap} (hs : h1.map Frame.shape = h2.map Frame.shape)
    (self : Nat) (identifier : Str) :
    resolveFrame h1 self identifier = resolveFrame h2 self identifier := by
  unfold resolveFrame
  split
  · rfl
  · exact resolveFrameIt_shape hs self _
  · exact resolveFrameIt_shape hs self _
  · rcases deref_shape hs self with ⟨x, e1, e2⟩ | ⟨fr1, fr2, e1, e2, hfr⟩
    · rw [e1, e2]
    · obtain ⟨_, _, hc, _⟩ := shape_fields hfr
      rw [e1, e2]
      simp only [hc]

theorem storeVars_shape (h : Heap) (f : Nat) (vs : VarSpace) :
    (storeVars h f vs).map Frame.shape = h.map Frame.shape := by
  unfold storeVars
  cases hf : h[f]? with
  | none => rfl
  | some fr =>
    simp only []
    apply List.ext_getElem?
    intro i
    simp only [List.getElem?_map, List.getElem?_set]
    by_cases hi : f = i
    · subst hi
      have hlt : f < h.length := (List.getElem?_eq_some_iff.mp hf).1
      simp [hlt, hf, Frame.shape]
    · simp [hi]

theorem storeVars_get (h : Heap) (f : Nat) (fr : Frame) (vs : VarSpace) (hf : h[f]? = some fr) :
    (storeVars h f vs)[f]? = some { fr with vars := vs } := by
  have hlt : f < h.length := (List.getElem?_eq_some_iff.mp hf).1
  simp [storeVars, hf, hlt]

theorem storeVars_self (h : Heap) (f : Nat) (fr : Frame) (hf : h[f]? = some fr) :
    storeVars h f fr.vars = h := by
  have hlt : f < h.length := (List.getElem?_eq_some_iff.mp hf).1
  have hget : h[f] = fr := (List.getElem?_eq_some_iff.mp hf).2
  simp only [storeVars, hf]
  apply List.ext_getElem?
  intro i
  rw [List.getElem?_set]
  by_cases hi : f = i
  · subst hi
    simp [hlt, hf]
  · simp [hi]

theorem variables_lookup_assign (m : Variables) (k v : Str) :
    Variables.lookup (Variables.assign m k v) k = some v := by
  induction m with
  | nil => simp [Variables.assign, Variables.lookup, List.lookup]
  | cons kw m ih =>
    obtain ⟨k1, w⟩ := kw
    unfold Variables.assign
    by_cases h1 : k = k1
    · simp [h1, Variables.lookup, List.lookup]
    · simp only [h1, if_false]
      by_cases h2 : stringLess k k1 = true
      · simp [h2, Variables.lookup, List.lookup]
      · simp only [h2, if_false]
        have hne : (k == k1) = false := by simpa using h1
        simp only [Variables.lookup, List.lookup, hne]
        exact ih

theorem QuickVars.hash_lt (s : Str) : QuickVars.hash s < CACHE_SIZE := by
  unfold QuickVars.hash
  simp only []
  split
  · exact Nat.mod_lt _ (by decide)
  · split
    · rename_i hc
      have := hc.2.2.2
      simp only [CACHE_SIZE]
      omega
    · exact Nat.mod_lt _ (by decide)

theorem VarSpace.assign_false_iff (vs : VarSpace) (k v : Str) :
    (vs.assign k v).1 = false ↔ vs.cache.isSome = true ∧ k = [] := by
  unfold VarSpace.assign
  cases hc : vs.cache with
  | none => simp
  | some cache =>
    by_cases hk : k = []
    · simp [hk]
    · simp only [hk, if_false]
      split <;> simp [hk]

theorem VarSpace.assign_false_unchanged (vs : VarSpace) (k v : Str)
    (hf : (vs.assign k v).1 = false) : (vs.assign k v).2 = vs := by
  have hk := (VarSpace.assign_false_iff vs k v).mp hf
  unfold VarSpace.assign
  cases hc : vs.cache with
  | none => rw [hc] at hk; simp at hk
  | some cache => simp [hk.2]

theorem VarSpace.lookup_miss_unchanged (vs : VarSpace) (k : Str)
    (hf : (vs.lookup k).1 = none) : (vs.lookup k).2 = vs := by
  unfold VarSpace.lookup at hf ⊢
  cases hc : vs.cache with
  | none => rfl
  | some cache =>
    rw [hc] at hf
    simp only [] at hf ⊢
    by_cases hk : k = []
    · simp [hk]
    · simp only [hk, if_false] at hf ⊢
      split
      · rfl
      · rename_i hne
        simp only [hne, if_false] at hf
        cases hl : vs.vars.lookup k with
        | none => rfl
        | some value => rw [hl] at hf; simp at hf

theorem varSpace_lookup_assign (vs : VarSpace) (hwf : vs.WF) (k v : Str)
    (ht : (vs.assign k v).1 = true) : ((vs.assign k v).2.lookup k).1 = some v := by
  unfold VarSpace.assign at ht ⊢
  cases hc : vs.cache with
  | none =>
    simp only [VarSpace.lookup, hc]
    exact variables_lookup_assign vs.vars k v
  | some cache =>
    rw [hc] at ht
    simp only [] at ht ⊢
    have hlen : cache.length = CACHE_SIZE := hwf cache hc
    have hi : QuickVars.hash k < cache.length := hlen ▸ QuickVars.hash_lt k
    by_cases hk : k = []
    · simp [hk] at ht
    · have hget : (cache.set (QuickVars.hash k) (k, v)).getD (QuickVars.hash k) ([], []) = (k, v) := by
        rw [List.getD_eq_getElem?_getD, List.getElem?_set]
        simp [hi]
      simp only [hk, if_false]
      split
      · simp only [VarSpace.lookup, hk, if_false, hget, if_true]
      · simp only [VarSpace.lookup, hk, if_false, hget, if_true]

/-- C11: when `identifier` resolves from the frame `F` to the frame `T` and the
bare symbol `symbol`, and the `assign` of the variable space of `T` returns true,
`F.set(identifier, v)` returns `v` and a following `F.get(identifier)` (with or
without fallback) returns `v`; `set` fails with `Cannot modify` exactly when
that `assign` returns false, and then the heap, and with it every variable, is
as before. -/
theorem set_get (h : Heap) (F : Nat) (identifier v : Str) (T : Nat) (symbol : Str)
    (fr : Frame) (hres : resolveFrame h F identifier = .ok (T, symbol))
    (hT : h[T]? = some fr) (hwf : fr.vars.WF) :
    ((fr.vars.assign symbol v).1 = true →
        (set h F identifier v).1 = .ok v ∧
          ∀ fallback, (get (set h F identifier v).2 F identifier fallback).1 = .ok v) ∧
      ((set h F identifier v).1 = .error (.cannotModify identifier) ↔
        (fr.vars.assign symbol v).1 = false) ∧
      ((fr.vars.assign symbol v).1 = false → (set h F identifier v).2 = h) := by
  have hd : deref h T = .ok fr := by simp [deref, hT]
  have hset : set h F identifier v =
      (if (fr.vars.assign symbol v).1 then (.ok v, storeVars h T (fr.vars.assign symbol v).2)
       else (.error (.cannotModify identifier), storeVars h T (fr.vars.assign symbol v).2)) := by
    simp only [set, hres, hd]
  refine ⟨?_, ?_, ?_⟩
  · intro ht
    rw [hset]
    simp only [ht, if_true]
    refine ⟨trivial, ?_⟩
    intro fallback
    have hres2 : resolveFrame (storeVars h T (fr.vars.assign symbol v).2) F identifier =
        .ok (T, symbol) := by
      rw [resolveFrame_shape (storeVars_shape h T _) F identifier]
      exact hres
    have hd2 : deref (storeVars h T (fr.vars.assign symbol v).2) T =
        .ok { fr with vars := (fr.vars.assign symbol v).2 } := by
      simp [deref, storeVars_get h T fr _ hT]
    have hl := varSpace_lookup_assign fr.vars hwf symbol v ht
    simp only [get, hres2, hd2, hl]
  · rw [hset]
    cases ha : (fr.vars.assign symbol v).1 <;> simp
  · intro hf
    rw [hset]
    simp only [hf, Bool.false_eq_true, if_false]
    rw [VarSpace.assign_false_unchanged fr.vars symbol v hf]
    exact storeVars_self h T fr hT

/-- An instance of C11: in the frame `:2:` of the example heap, whose closure is
the frame `:1:`, setting `a` to `7` and getting it again gives `7`. -/
theorem set_get_witness :
    (set exampleHeap 2 [97] [55]).1 = .ok [55] ∧
      ∀ fallback, (get (set exampleHeap 2 [97] [55]).2 2 [97] fallback).1 = .ok [55] :=
  (set_get exampleHeap 2 [97] [55] 1 [97]
    { vars := { vars := [([36, 110], [48]), ([97], [49])] }, root := 0, previous := some 0,
      closure := 0, label := [58, 49, 58] } (by decide) (by decide)
    (by intro c hc; simp at hc)).1 (by decide)

/-- A `QuickVars` refuses the empty symbol: `::` resolves to the Root and the
empty symbol, `set` fails with `Cannot modify` and leaves the heap as it was, and
the same `set` succeeds on the `STLVariables` of the example heap. -/
theorem set_cannotModify_example :
    set quickHeap 0 [58, 58] [55] = (.error (.cannotModify [58, 58]), quickHeap) ∧
      (set exampleHeap 0 [58, 58] [55]).1 = .ok [55] := by
  decide

/-- The `assign` of a variable space returns false exactly for the empty
identifier on a `QuickVars`. -/
theorem assign_false_iff_quick_empty (vs : VarSpace) (k v : Str) :
    (vs.assign k v).1 = false ↔ vs.cache.isSome = true ∧ k = [] :=
  VarSpace.assign_false_iff vs k v

/-- The routine `get` on an identifier that resolves from the frame `F` to the
frame `T` and the bare symbol `symbol`. -/
theorem get_cases (h : Heap) (F : Nat) (identifier : Str) (fallback : Bool) (T : Nat)
    (symbol : Str) (fr me rt : Frame)
    (hres : resolveFrame h F identifier = .ok (T, symbol))
    (hT : h[T]? = some fr) (hF : h[F]? = some me) (hR : h[me.root]? = some rt) :
    (∀ v, (fr.vars.lookup symbol).1 = some v → (get h F identifier fallback).1 = .ok v) ∧
      (∀ v, (fr.vars.lookup symbol).1 = none → fallback = true →
        isSymbolChar (identifier.headD 0) = true → (rt.vars.lookup symbol).1 = some v →
        (get h F identifier fallback).1 = .ok v) ∧
      ((fr.vars.lookup symbol).1 = none →
        (fallback = false ∨ isSymbolChar (identifier.headD 0) = false ∨
          (rt.vars.lookup symbol).1 = none) →
        (get h F identifier fallback).1 = .error (.undefined identifier)) := by
  have hd : deref h T = .ok fr := by simp [deref, hT]
  have hdF : deref h F = .ok me := by simp [deref, hF]
  have hdR : deref h me.root = .ok rt := by simp [deref, hR]
  refine ⟨?_, ?_, ?_⟩
  · intro v hv
    simp only [get, hres, hd, hv]
  · intro v hn hfb hsym hv
    have h1 : storeVars h T (fr.vars.lookup symbol).2 = h := by
      rw [VarSpace.lookup_miss_unchanged fr.vars symbol hn]
      exact storeVars_self h T fr hT
    simp only [get, hres, hd, hn, h1, hfb, hsym, Bool.and_self, if_true, hdF, hdR, hv]
  · intro hn hor
    have h1 : storeVars h T (fr.vars.lookup symbol).2 = h := by
      rw [VarSpace.lookup_miss_unchanged fr.vars symbol hn]
      exact storeVars_self h T fr hT
    simp only [get, hres, hd, hn, h1]
    split
    · rename_i hc
      simp only [Bool.and_eq_true] at hc
      rcases hor with hf | hs | hr
      · rw [hf] at hc; simp at hc
      · rw [hs] at hc; simp at hc
      · simp only [hdF, hdR, hr]
    · rfl

/-- C12, counterexample: `get` of an identifier that does not resolve fails with
the error of the resolution, not with `Undefined`: on the Root of the example
heap `^x` fails with `Frame does not exist` and `:x` with `Invalid identifier`,
with and without fallback. -/
theorem get_counterexample :
    (get exampleHeap 0 [94, 120] true).1 = .error .frameDoesNotExist ∧
      (get exampleHeap 0 [94, 120] false).1 = .error .frameDoesNotExist ∧
      (get exampleHeap 0 [58, 120] true).1 = .error (.invalidIdentifier [58, 120]) ∧
      (get exampleHeap 0 [58, 120] false).1 = .error (.invalidIdentifier [58, 120]) := by
  decide

/-- C12, amended: `F.get(identifier, fallback)` fails with the error of the
resolution, and leaves the frames as they are, when `identifier` does not
resolve.  When it resolves to the frame `T` and the bare symbol `symbol`, it
returns the value bound to `symbol` in `T` when there is one; otherwise, when
`fallback` is set and `identifier` starts with a symbol character, it returns
the value bound to `symbol` in the space of the Root when there is one; in every
remaining case of an identifier that resolves it fails with `Undefined`. -/
theorem get_outcome (h : Heap) (F : Nat) (identifier : Str) (fallback : Bool) :
    (∀ x, resolveFrame h F identifier = .error x →
        get h F identifier fallback = (.error x, h)) ∧
      (∀ T symbol fr me rt, resolveFrame h F identifier = .ok (T, symbol) →
        h[T]? = some fr → h[F]? = some me → h[me.root]? = some rt →
        (∀ v, (fr.vars.lookup symbol).1 = some v → (get h F identifier fallback).1 = .ok v) ∧
          (∀ v, (fr.vars.lookup symbol).1 = none → fallback = true →
            isSymbolChar (identifier.headD 0) = true → (rt.vars.lookup symbol).1 = some v →
            (get h F identifier fallback).1 = .ok v) ∧
          ((fr.vars.lookup symbol).1 = none →
            (fallback = false ∨ isSymbolChar (identifier.headD 0) = false ∨
              (rt.vars.lookup symbol).1 = none) →
            (get h F identifier fallback).1 = .error (.undefined identifier))) := by
  refine ⟨?_, ?_⟩
  · intro x hx
    simp only [get, hx]
  · intro T symbol fr me rt hres hT hF hR
    exact get_cases h F identifier fallback T symbol fr me rt hres hT hF hR

/-- An instance of C12: from the frame `:2:` of the example heap, whose closure
is the frame `:1:`, `get` of `a` returns the `1` bound there, and `get` of `^^^a`
fails with `Frame does not exist`, as the resolution does. -/
theorem get_outcome_witness :
    (get exampleHeap 2 [97] false).1 = .ok [49] ∧
      get exampleHeap 2 [94, 94, 94, 97] false = (.error .frameDoesNotExist, exampleHeap) :=
  ⟨((get_outcome exampleHeap 2 [97] false).2 1 [97]
    { vars := { vars := [([36, 110], [48]), ([97], [49])] }, root := 0, previous := some 0,
      closure := 0, label := [58, 49, 58] }
    { vars := { vars := [([36, 110], [48])] }, root := 0, previous := some 1, closure := 1,
      label := [58, 50, 58] }
    { vars := { vars := [] }, root := 0, previous := none, closure := 0, label := [58, 58] }
    (by decide) (by decide) (by decide) (by decide)).1 [49] (by decide),
   (get_outcome exampleHeap 2 [94, 94, 94, 97] false).1 .frameDoesNotExist (by decide)⟩

/-- The fallback of `get` at work, and its limits: from the frame `:2:` of the
example heap with `b` bound in the Root only, `get` of `b` with fallback returns
the value of the Root, and fails with `Undefined` without fallback or for the
identifier `:2:b`, which starts with no symbol character. -/
theorem get_fallback_example :
    let h := (set exampleHeap 0 [98] [55]).2
    (get h 2 [98] true).1 = .ok [55] ∧
      (get h 2 [98] false).1 = .error (.undefined [98]) ∧
      (get h 2 [58, 50, 58, 98] true).1 = .error (.undefined [58, 50, 58, 98]) := by
  decide

/-- C13, counterexample: `getOptional` fails when the identifier does not
resolve: on the Root of the example heap `^x` fails with `Frame does not exist`
and `:x` with `Invalid identifier`. -/
theorem getOptional_counterexample :
    (getOptional exampleHeap 0 [94, 120] [100]).1 = .error .frameDoesNotExist ∧
      (getOptional exampleHeap 0 [58, 120] [100]).1 = .error (.invalidIdentifier [58, 120]) := by
  decide

/-- C13, amended: `F.getOptional(identifier, d)` fails with the error of the
resolution when `identifier` does not resolve; when it resolves to the frame `T`
and the bare symbol `symbol` it returns the value `T` binds to `symbol` when
there is one and `d` otherwise, whatever the Root binds, and only the variable
space of `T` is touched (by its `lookup`). -/
theorem getOptional_cases (h : Heap) (F : Nat) (identifier d : Str) :
    (∀ x, resolveFrame h F identifier = .error x →
        getOptional h F identifier d = (.error x, h)) ∧
      (∀ T symbol fr, resolveFrame h F identifier = .ok (T, symbol) → h[T]? = some fr →
        (getOptional h F identifier d).1 = .ok ((fr.vars.lookup symbol).1.getD d) ∧
          (getOptional h F identifier d).2 = storeVars h T (fr.vars.lookup symbol).2) := by
  refine ⟨?_, ?_⟩
  · intro x hx
    simp only [getOptional, hx]
  · intro T symbol fr hres hT
    have hd : deref h T = .ok fr := by simp [deref, hT]
    simp only [getOptional, hres, hd]
    cases (fr.vars.lookup symbol).1 <;> simp

/-- An instance of C13: from the frame `:2:` of the example heap `getOptional`
returns the `1` bound to `a` in the frame `:1:`, and the default for `b`. -/
theorem getOptional_cases_witness :
    (getOptional exampleHeap 2 [97] [100]).1 = .ok [49] ∧
      (getOptional exampleHeap 2 [98] [100]).1 = .ok [100] :=
  ⟨((getOptional_cases exampleHeap 2 [97] [100]).2 1 [97]
      { vars := { vars := [([36, 110], [48]), ([97], [49])] }, root := 0, previous := some 0,
        closure := 0, label := [58, 49, 58] } (by decide) (by decide)).1,
   ((getOptional_cases exampleHeap 2 [98] [100]).2 1 [98]
      { vars := { vars := [([36, 110], [48]), ([97], [49])] }, root := 0, previous := some 0,
        closure := 0, label := [58, 49, 58] } (by decide) (by decide)).1⟩

/-! ### Frame labels (C14, C15) -/

theorem getElem?_append_cons (P : List Nat) (c : Nat) (R : List Nat) :
    (P ++ c :: R)[P.length]? = some c := by
  induction P with
  | nil => simp
  | cons x P ih => simpa using ih

theorem getD_append_cons (P : List Nat) (c : Nat) (R : List Nat) :
    (P ++ c :: R).getD P.length 0 = c := by
  rw [List.getD_eq_getElem?_getD, getElem?_append_cons]
  rfl

theorem set_append_cons (P : List Nat) (c c1 : Nat) (R : List Nat) :
    (P ++ c :: R).set P.length c1 = P ++ c1 :: R := by
  induction P with
  | nil => rfl
  | cons x P ih => simp only [List.cons_append, List.length_cons, List.set_cons_succ, ih]


theorem skipZ_stop (c : Nat) (hc : c ≠ 122) (P : List Nat) :
    ∀ (j : Nat) (S : List Nat),
      skipZ (P ++ c :: (List.replicate j 122 ++ S)) (P.length + 1 + j) = some P.length := by
  intro j
  induction j with
  | zero =>
    intro S
    simp only [List.replicate_zero, List.nil_append, Nat.add_zero, skipZ, getD_append_cons, hc,
      if_false]
  | succ j ih =>
    intro S
    have hrw : P ++ c :: (List.replicate (j + 1) 122 ++ S) =
        (P ++ c :: List.replicate j 122) ++ 122 :: S := by
      rw [List.replicate_succ']
      simp
    have hlen : (P ++ c :: List.replicate j 122).length = P.length + 1 + j := by
      simp
      omega
    have hget : (P ++ c :: (List.replicate (j + 1) 122 ++ S)).getD (P.length + 1 + j) 0 = 122 := by
      rw [hrw, ← hlen]
      exact getD_append_cons _ _ _
    have hstep : skipZ (P ++ c :: (List.replicate (j + 1) 122 ++ S)) (P.length + 1 + (j + 1)) =
        skipZ (P ++ c :: (List.replicate (j + 1) 122 ++ S)) (P.length + 1 + j) := by
      show skipZ _ ((P.length + 1 + j) + 1) = _
      simp only [skipZ, hget, if_true]
    rw [hstep]
    have hrw2 : P ++ c :: (List.replicate (j + 1) 122 ++ S) =
        P ++ c :: (List.replicate j 122 ++ 122 :: S) := by
      rw [List.replicate_succ']
      simp
    rw [hrw2]
    exact ih (122 :: S)

theorem zeroFill_spec (S : List Nat) :
    ∀ (j : Nat) (Q : List Nat) (fuel : Nat), j < fuel →
      zeroFill (Q ++ (List.replicate j 122 ++ 58 :: S)) Q.length fuel =
        some (Q ++ (List.replicate j 48 ++ 58 :: S)) := by
  intro j
  induction j with
  | zero =>
    intro Q fuel hf
    obtain ⟨fuel, rfl⟩ : ∃ f, fuel = f + 1 := ⟨fuel - 1, by omega⟩
    simp only [List.replicate_zero, List.nil_append, zeroFill, getElem?_append_cons, if_true]
  | succ j ih =>
    intro Q fuel hf
    obtain ⟨fuel, rfl⟩ : ∃ f, fuel = f + 1 := ⟨fuel - 1, by omega⟩
    have hrw : Q ++ (List.replicate (j + 1) 122 ++ 58 :: S) =
        Q ++ 122 :: (List.replicate j 122 ++ 58 :: S) := by
      simp [List.replicate_succ]
    rw [hrw]
    simp only [zeroFill, getElem?_append_cons, set_append_cons]
    have h122 : ¬ ((122 : Nat) = 58) := by decide
    simp only [h122, if_false]
    have hrw2 : Q ++ 48 :: (List.replicate j 122 ++ 58 :: S) =
        (Q ++ [48]) ++ (List.replicate j 122 ++ 58 :: S) := by simp
    have hlen : Q.length + 1 = (Q ++ [48]).length := by simp
    rw [hrw2, hlen, ih (Q ++ [48]) fuel (by omega)]
    simp [List.replicate_succ]

theorem label_extract (ds : Str) (hk : ds.length ≤ 29) :
    ((List.replicate (30 - ds.length) 58 ++ ds ++ [58, 58]).drop (29 - ds.length)).take
      (31 - (29 - ds.length)) = 58 :: ds ++ [58] := by
  have h30 : 30 - ds.length = (29 - ds.length) + 1 := by omega
  have hsplit : List.replicate (30 - ds.length) 58 ++ ds ++ [58, 58] =
      List.replicate (29 - ds.length) 58 ++ ((58 :: ds ++ [58]) ++ [58]) := by
    rw [h30, List.replicate_succ']
    simp
  rw [hsplit, List.drop_left' (by simp)]
  apply List.take_left'
  simp
  omega

theorem labelNext_char (c : Nat) (hc : IsLabelChar c) (hz : c ≠ 122) :
    IsLabelChar (labelNext c) ∧ c < labelNext c := by
  unfold IsLabelChar at hc ⊢
  unfold labelNext
  split
  · omega
  · split
    · omega
    · omega

theorem generateLabel_bump (r : RootData) (D : Str) (c j : Nat)
    (hinv : LabelInv r (D ++ c :: List.replicate j 122)) (hc : c ≠ 122) :
    ∃ r1, generateLabel r = some (58 :: (D ++ labelNext c :: List.replicate j 48) ++ [58], r1) ∧
      LabelInv r1 (D ++ labelNext c :: List.replicate j 48) := by
  obtain ⟨hbuf, hstart, hlen, hchars⟩ := hinv
  have hk : (D ++ c :: List.replicate j 122).length = D.length + 1 + j := by
    simp
    omega
  have hk1 : (D ++ labelNext c :: List.replicate j 48).length = D.length + 1 + j := by
    simp
    omega
  have hcc : IsLabelChar c := hchars c (by simp)
  have hn := labelNext_char c hcc hc
  have hbuf2 : r.autoLabel = (List.replicate (30 - (D.length + 1 + j)) 58 ++ D) ++
      c :: (List.replicate j 122 ++ [58, 58]) := by
    rw [hbuf, hk]
    simp
  have hPlen : (List.replicate (30 - (D.length + 1 + j)) 58 ++ D).length + 1 + j = 30 := by
    rw [hk] at hlen
    simp
    omega
  generalize hP : List.replicate (30 - (D.length + 1 + j)) 58 ++ D = P at hbuf2 hPlen
  have hskip : skipZ r.autoLabel 30 = some P.length := by
    rw [hbuf2, ← hPlen]
    exact skipZ_stop c hc P j [58, 58]
  have hget : r.autoLabel.getD P.length 0 = c := by
    rw [hbuf2]
    exact getD_append_cons _ _ _
  have hset : ∀ c1, r.autoLabel.set P.length c1 = P ++ c1 :: (List.replicate j 122 ++ [58, 58]) := by
    intro c1
    rw [hbuf2]
    exact set_append_cons _ _ _ _
  have hfill : zeroFill (P ++ labelNext c :: (List.replicate j 122 ++ [58, 58])) (P.length + 1) 32 =
      some (P ++ labelNext c :: (List.replicate j 48 ++ [58, 58])) := by
    have h1 := zeroFill_spec [58] j (P ++ [labelNext c]) 32 (by omega)
    simpa using h1
  have hc58 : c ≠ 58 := by unfold IsLabelChar at hcc; omega
  have hmod : (c + 1) % 256 = c + 1 := by
    unfold IsLabelChar at hcc
    omega
  have hsw : (if c = 58 then
        if r.autoLabelStart = 0 then none
        else some ((r.autoLabel.set P.length 49).set (r.autoLabelStart - 1) 58, r.autoLabelStart - 1)
      else if c = 57 then some (r.autoLabel.set P.length 65, r.autoLabelStart)
      else if c = 90 then some (r.autoLabel.set P.length 97, r.autoLabelStart)
      else some (r.autoLabel.set P.length ((c + 1) % 256), r.autoLabelStart)) =
      some (P ++ labelNext c :: (List.replicate j 122 ++ [58, 58]), r.autoLabelStart) := by
    simp only [hc58, if_false, hset, hmod, labelNext]
    split
    · rfl
    · split <;> rfl
  have hfinal : P ++ labelNext c :: (List.replicate j 48 ++ [58, 58]) =
      List.replicate (30 - (D ++ labelNext c :: List.replicate j 48).length) 58 ++
        (D ++ labelNext c :: List.replicate j 48) ++ [58, 58] := by
    rw [hk1, ← hP]
    simp
  refine ⟨{ r with autoLabel := P ++ labelNext c :: (List.replicate j 48 ++ [58, 58]),
                   autoLabelStart := r.autoLabelStart }, ?_, ?_⟩
  · unfold generateLabel
    simp only [hskip, hget, hsw, hfill]
    congr 2
    rw [hfinal, hstart, hk, ← hk1]
    exact label_extract _ (by rw [hk1, ← hk]; exact hlen)
  · refine ⟨hfinal, ?_, ?_, ?_⟩
    · show r.autoLabelStart = _
      rw [hstart, hk, hk1]
    · rw [hk1, ← hk]
      exact hlen
    · intro x hx
      simp only [List.mem_append, List.mem_cons] at hx
      rcases hx with hx | hx | hx
      · exact hchars x (by simp [hx])
      · rw [hx]
        exact hn.1
      · have := List.eq_of_mem_replicate hx
        rw [this]
        unfold IsLabelChar
        omega

theorem labelBuf_allZ (k : Nat) (hk : k ≤ 29) :
    List.replicate (30 - (List.replicate k 122).length) 58 ++ List.replicate k 122 ++ [58, 58] =
      List.replicate (29 - k) 58 ++ 58 :: (List.replicate k 122 ++ [58, 58]) := by
  have h30 : 30 - k = (29 - k) + 1 := by omega
  simp only [List.length_replicate]
  rw [h30, List.replicate_succ']
  simp

theorem generateLabel_grow (r : RootData) (k : Nat) (hinv : LabelInv r (List.replicate k 122))
    (hk : k < 29) :
    ∃ r1, generateLabel r = some (58 :: (49 :: List.replicate k 48) ++ [58], r1) ∧
      LabelInv r1 (49 :: List.replicate k 48) := by
  obtain ⟨hbuf, hstart, hlen, hchars⟩ := hinv
  rw [labelBuf_allZ k (by omega)] at hbuf
  simp only [List.length_replicate] at hstart
  have hPlen : (List.replicate (29 - k) 58).length + 1 + k = 30 := by
    simp
    omega
  have hPl : (List.replicate (29 - k) 58).length = 29 - k := by simp
  have hskip : skipZ r.autoLabel 30 = some (29 - k) := by
    rw [hbuf, ← hPlen]
    have := skipZ_stop 58 (by decide) (List.replicate (29 - k) 58) k [58, 58]
    rw [hPl] at this ⊢
    exact this
  have hget : r.autoLabel.getD (29 - k) 0 = 58 := by
    rw [hbuf]
    have := getD_append_cons (List.replicate (29 - k) 58) 58 (List.replicate k 122 ++ [58, 58])
    rw [hPl] at this
    exact this
  have hset1 : r.autoLabel.set (29 - k) 49 =
      List.replicate (29 - k) 58 ++ 49 :: (List.replicate k 122 ++ [58, 58]) := by
    rw [hbuf]
    have := set_append_cons (List.replicate (29 - k) 58) 58 49 (List.replicate k 122 ++ [58, 58])
    rw [hPl] at this
    exact this
  have hset2 : (List.replicate (29 - k) 58 ++ 49 :: (List.replicate k 122 ++ [58, 58])).set
      (29 - k - 1) 58 = List.replicate (29 - k) 58 ++ 49 :: (List.replicate k 122 ++ [58, 58]) := by
    have h29 : 29 - k = (28 - k) + 1 := by omega
    have h28 : 29 - k - 1 = (List.replicate (28 - k) 58).length := by simp; omega
    have hsplit : List.replicate (29 - k) 58 ++ 49 :: (List.replicate k 122 ++ [58, 58]) =
        List.replicate (28 - k) 58 ++ 58 :: (49 :: (List.replicate k 122 ++ [58, 58])) := by
      rw [h29, List.replicate_succ']
      simp
    rw [hsplit, h28, set_append_cons]
  have hb0 : ¬ (29 - k = 0) := by omega
  have hfill : zeroFill (List.replicate (29 - k) 58 ++ 49 :: (List.replicate k 122 ++ [58, 58]))
      (29 - k + 1) 32 =
      some (List.replicate (29 - k) 58 ++ 49 :: (List.replicate k 48 ++ [58, 58])) := by
    have h1 := zeroFill_spec [58] k (List.replicate (29 - k) 58 ++ [49]) 32 (by omega)
    simpa using h1
  have hk1 : (49 :: List.replicate k 48).length = k + 1 := by simp
  have hfinal : List.replicate (29 - k) 58 ++ 49 :: (List.replicate k 48 ++ [58, 58]) =
      List.replicate (30 - (49 :: List.replicate k 48).length) 58 ++
        (49 :: List.replicate k 48) ++ [58, 58] := by
    rw [hk1]
    have : 30 - (k + 1) = 29 - k := by omega
    rw [this]
    simp
  refine ⟨{ r with autoLabel := List.replicate (29 - k) 58 ++ 49 :: (List.replicate k 48 ++ [58, 58]),
                   autoLabelStart := 29 - k - 1 }, ?_, ?_⟩
  · unfold generateLabel
    simp only [hskip, hget, if_true, hstart, hb0, if_false, hset1, hset2, hfill]
    congr 2
    rw [hfinal]
    have h := label_extract (49 :: List.replicate k 48) (by rw [hk1]; omega)
    rw [hk1] at h ⊢
    have e : 29 - k - 1 = 29 - (k + 1) := by omega
    rw [e]
    exact h
  · refine ⟨hfinal, ?_, ?_, ?_⟩
    · show 29 - k - 1 = _
      rw [hk1]
      omega
    · rw [hk1]
      omega
    · intro x hx
      simp only [List.mem_cons] at hx
      rcases hx with hx | hx
      · rw [hx]
        unfold IsLabelChar
        omega
      · have := List.eq_of_mem_replicate hx
        rw [this]
        unfold IsLabelChar
        omega

theorem generateLabel_exhausted (r : RootData) (hinv : LabelInv r (List.replicate 29 122)) :
    generateLabel r = none := by
  obtain ⟨hbuf, hstart, hlen, hchars⟩ := hinv
  rw [labelBuf_allZ 29 (by omega)] at hbuf
  simp only [List.length_replicate] at hstart
  have hskip : skipZ r.autoLabel 30 = some 0 := by
    rw [hbuf]
    exact skipZ_stop 58 (by decide) [] 29 [58, 58]
  have hget : r.autoLabel.getD 0 0 = 58 := by
    rw [hbuf]
    rfl
  unfold generateLabel
  simp only [hskip, hget, if_true, hstart]

theorem stringLess_trans {a b c : Str} (hab : stringLess a b = true)
    (hbc : stringLess b c = true) : stringLess a c = true := by
  rw [stringLess_iff] at hab hbc ⊢
  exact lt_trans hab hbc

theorem stringLess_irrefl (a : Str) : stringLess a a = false := by
  cases h : stringLess a a with
  | false => rfl
  | true =>
    rw [stringLess_iff] at h
    exact absurd h (lt_irrefl a)

theorem stringLess_append_left (P : Str) {a b : Str} (h : stringLess a b = true) :
    stringLess (P ++ a) (P ++ b) = true := by
  induction P with
  | nil => exact h
  | cons x P ih =>
    rw [stringLess_iff] at ih ⊢
    exact List.Lex.cons ih

theorem stringLess_cons_lt {x y : Nat} (hxy : x < y) (a b : Str) :
    stringLess (x :: a) (y :: b) = true := by
  rw [stringLess_iff]
  exact List.Lex.rel hxy

theorem ShortLex.trans {a b c : Str} (hab : ShortLex a b) (hbc : ShortLex b c) : ShortLex a c := by
  unfold ShortLex at *
  rcases hab with h1 | ⟨h1, l1⟩
  · rcases hbc with h2 | ⟨h2, _⟩
    · exact Or.inl (by omega)
    · exact Or.inl (by omega)
  · rcases hbc with h2 | ⟨h2, l2⟩
    · exact Or.inl (by omega)
    · exact Or.inr ⟨by omega, stringLess_trans l1 l2⟩

theorem ShortLex.ne {a b : Str} (hab : ShortLex a b) : a ≠ b := by
  intro he
  subst he
  unfold ShortLex at hab
  rcases hab with h | ⟨_, h⟩
  · omega
  · rw [stringLess_irrefl] at h
    exact absurd h (by decide)

theorem label_decompose (ds : Str) :
    (∃ D c j, ds = D ++ c :: List.replicate j 122 ∧ c ≠ 122) ∨
      ds = List.replicate ds.length 122 := by
  induction ds using List.reverseRecOn with
  | nil => exact Or.inr rfl
  | append_singleton ds a ih =>
    by_cases ha : a = 122
    · subst ha
      rcases ih with ⟨D, c, j, hds, hc⟩ | hall
      · refine Or.inl ⟨D, c, j + 1, ?_, hc⟩
        rw [hds, List.replicate_succ']
        simp
      · refine Or.inr ?_
        rw [List.length_append, List.length_singleton, List.replicate_succ', ← hall]
    · exact Or.inl ⟨ds, a, 0, by simp, ha⟩

/-- One call of `Root::generateLabel`: unless the label is 29 times `z`, the
call returns the next label, greater than the last in the order `ShortLex`. -/
theorem generateLabel_step (r : RootData) (ds : Str) (hinv : LabelInv r ds)
    (hne : ds ≠ List.replicate 29 122) :
    ∃ ds1 r1, generateLabel r = some (58 :: ds1 ++ [58], r1) ∧ LabelInv r1 ds1 ∧
      ShortLex (58 :: ds ++ [58]) (58 :: ds1 ++ [58]) := by
  rcases label_decompose ds with ⟨D, c, j, hds, hc⟩ | hall
  · subst hds
    obtain ⟨r1, hgen, hinv1⟩ := generateLabel_bump r D c j hinv hc
    refine ⟨_, r1, hgen, hinv1, Or.inr ⟨by simp, ?_⟩⟩
    have hcc : IsLabelChar c := hinv.chars c (by simp)
    have hlt := (labelNext_char c hcc hc).2
    have := stringLess_append_left (58 :: D)
      (stringLess_cons_lt hlt (List.replicate j 122 ++ [58]) (List.replicate j 48 ++ [58]))
    simpa using this
  · have hk : ds.length < 29 := by
      have := hinv.len
      rcases Nat.lt_or_ge ds.length 29 with h | h
      · exact h
      · have h29 : ds.length = 29 := by omega
        rw [h29] at hall
        exact absurd hall hne
    rw [hall] at hinv
    obtain ⟨r1, hgen, hinv1⟩ := generateLabel_grow r ds.length hinv hk
    refine ⟨_, r1, hgen, hinv1, Or.inl ?_⟩
    simp

theorem labelInv_init : LabelInv RootData.init [] :=
  ⟨by decide, by decide, by decide, by intro c hc; cases hc⟩

theorem labelExhausted_iff (r : RootData) (ds : Str) (hinv : LabelInv r ds) :
    labelExhausted r = true ↔ ds = List.replicate 29 122 := by
  obtain ⟨hbuf, hstart, hlen, hchars⟩ := hinv
  unfold labelExhausted
  constructor
  · intro h
    simp only [Bool.and_eq_true, decide_eq_true_eq] at h
    have hk : ds.length = 29 := by omega
    have hb : r.autoLabel = 58 :: (ds ++ [58, 58]) := by
      rw [hbuf, hk]
      rfl
    have hd : (r.autoLabel.drop 1).take 29 = ds := by
      rw [hb]
      simp only [List.drop_succ_cons, List.drop_zero]
      rw [← hk]
      exact List.take_left' rfl
    rw [hd] at h
    have hall := h.2
    rw [List.all_eq_true] at hall
    apply List.eq_replicate_iff.mpr
    exact ⟨hk, fun c hc => by simpa using hall c hc⟩
  · intro h
    subst h
    simp only [List.length_replicate] at hstart hbuf
    rw [hstart, hbuf]
    decide

theorem generateLabel_none_iff (r : RootData) (ds : Str) (hinv : LabelInv r ds) :
    generateLabel r = none ↔ labelExhausted r = true := by
  rw [labelExhausted_iff r ds hinv]
  constructor
  · intro h
    by_contra hne
    obtain ⟨ds1, r1, hgen, _, _⟩ := generateLabel_step r ds hinv hne
    rw [hgen] at h
    exact absurd h (by simp)
  · intro h
    subst h
    exact generateLabel_exhausted r hinv

/-- A run of `generateLabels` from members that hold the label `: ds :` returns
labels in the order `ShortLex`, all of them after `: ds :`. -/
theorem generateLabels_run :
    ∀ (n : Nat) (r : RootData) (ds : Str), LabelInv r ds →
      ∀ (ls : List Str) (r1 : RootData), generateLabels n r = some (ls, r1) →
        (∃ ds1, LabelInv r1 ds1) ∧ ls.length = n ∧
          (∀ l ∈ ls, ShortLex (58 :: ds ++ [58]) l) ∧ ls.Pairwise ShortLex := by
  intro n
  induction n with
  | zero =>
    intro r ds hinv ls r1 hrun
    simp only [generateLabels, Option.some.injEq, Prod.mk.injEq] at hrun
    obtain ⟨rfl, rfl⟩ := hrun
    exact ⟨⟨ds, hinv⟩, rfl, fun l hl => (by cases hl), List.Pairwise.nil⟩
  | succ n ih =>
    intro r ds hinv ls r1 hrun
    by_cases hne : ds = List.replicate 29 122
    · subst hne
      simp [generateLabels, generateLabel_exhausted r hinv] at hrun
    · obtain ⟨ds1, r2, hgen, hinv2, hlt⟩ := generateLabel_step r ds hinv hne
      simp only [generateLabels, hgen] at hrun
      cases hrest : generateLabels n r2 with
      | none => rw [hrest] at hrun; simp at hrun
      | some res =>
        obtain ⟨ls2, r3⟩ := res
        rw [hrest] at hrun
        simp only [Option.some.injEq, Prod.mk.injEq] at hrun
        obtain ⟨rfl, rfl⟩ := hrun
        obtain ⟨hex, hlen, hall, hpw⟩ := ih r2 ds1 hinv2 ls2 r3 hrest
        refine ⟨hex, by simp [hlen], ?_, ?_⟩
        · intro l hl
          rcases List.mem_cons.mp hl with h | h
          · rw [h]; exact hlt
          · exact ShortLex.trans hlt (hall l h)
        · exact List.Pairwise.cons hall hpw

/-- C15, counterexample: the 61st label is `:z:` and the 62nd is `:10:`, which is
before `:z:` in the order of the characters. -/
theorem generateLabel_order_counterexample :
    (generateLabels 62 RootData.init).map (fun x => (x.1.getD 60 [], x.1.getD 61 [])) =
        some ([58, 122, 58], [58, 49, 48, 58]) ∧
      stringLess [58, 122, 58] [58, 49, 48, 58] = false ∧
      stringLess [58, 49, 48, 58] [58, 122, 58] = true := by
  decide

/-- C15, amended: the labels of successive calls of `Root::generateLabel` on a
new Root are increasing in the order `ShortLex`: each label is longer than a
label returned before it, or as long and greater in the order of the characters. -/
theorem generateLabel_shortLex (n : Nat) (ls : List Str) (r : RootData)
    (hrun : generateLabels n RootData.init = some (ls, r)) :
    ls.length = n ∧ ls.Pairwise ShortLex := by
  obtain ⟨_, hlen, _, hpw⟩ := generateLabels_run n RootData.init [] labelInv_init ls r hrun
  exact ⟨hlen, hpw⟩

/-- An instance of C15: the first three labels are `:1:`, `:2:` and `:3:`. -/
theorem generateLabel_shortLex_witness :
    [[58, 49, 58], [58, 50, 58], [58, 51, 58]].Pairwise ShortLex :=
  (generateLabel_shortLex 3 [[58, 49, 58], [58, 50, 58], [58, 51, 58]]
    { RootData.init with autoLabel := List.replicate 29 58 ++ [51, 58, 58], autoLabelStart := 28 }
    (by decide)).2

/-! ### The single index `s\x7bi\x7d` (C20) -/

theorem postIndex_eq (s : Str) (i : Int) :
    postIndex s i = if 0 ≤ i ∧ i < (s.length : Int) then [s.getD i.toNat 0] else [] := by
  unfold postIndex substr
  by_cases h0 : 0 ≤ i
  · by_cases h1 : i < (s.length : Int)
    · have hlt : i.toNat < s.length := by omega
      have hle : i ≤ (s.length : Int) := by omega
      simp only [h0, h1, hle, and_self, if_true]
      rw [List.getD_eq_getElem?_getD, List.getElem?_eq_getElem hlt]
      simp only [Option.getD_some]
      rw [List.drop_eq_getElem_cons hlt]
      rfl
    · by_cases h2 : i = (s.length : Int)
      · have hn : i.toNat = s.length := by omega
        simp [h0, h1, h2, hn]
      · have h3 : ¬ (i ≤ (s.length : Int)) := by omega
        simp [h1, h3]
  · simp [h0]

/-- C20: the live evaluation of `s\x7bi\x7d` by `Frame::post`.  When the postfix
is admitted (`thres < POSTFIX`), the index expression is not empty and ends at
the closing brace, the operand has the value `s` and the index converts to the
integer `i`, the result is the rvalue holding the one character `s[i]` when
`0 <= i < |s|`, and void in every other case. -/
theorem index_live {D : Type} (env : Env D) (rec : Interp) (self : Nat) (st ix : St)
    (p1 p2 : Str) (thres : Precedence) (s : Str) (i : Int) (h1 h2 : Heap)
    (hp : st.p = 123 :: p1) (hthres : thres < POSTFIX)
    (hexpr : rec.expr self { p := p1, v := (false, []), h := st.h } true false BRACKETS =
      (.ok true, ix))
    (hclose : ix.p = 125 :: p2)
    (hs : rvalue ix.h self st.v true = (.ok s, h1))
    (hi : rvalueLong h1 self ix.v = (.ok i, h2)) :
    post env rec self st false thres =
      (.ok true, { p := p2, h := h2,
                   v := (false, if 0 ≤ i ∧ i < (s.length : Int) then [s.getD i.toNat 0] else []) }) := by
  have hsub : substringPostfix rec self st false p1 =
      (.ok true, { p := p2, v := (false, postIndex s i), h := h2 }) := by
    simp [substringPostfix, hexpr, hclose, liveIndex, hs, hi]
  unfold post
  rw [hp]
  simp only [hthres, if_true]
  rw [hsub, postIndex_eq]
  simp

set_option maxRecDepth 100000 in
/-- An instance of C20: on the value `hello`, the postfix with the index `1`
gives `e`. -/
theorem index_live_witness :
    post stdEnv (interp stdEnv 3) 0 { p := str "\x7b1\x7d", v := (false, str "hello"), h := stdRoot }
        false STATEMENT =
      (.ok true, { p := [], v := (false, str "e"), h := stdRoot }) :=
  index_live stdEnv (interp stdEnv 3) 0
    { p := str "\x7b1\x7d", v := (false, str "hello"), h := stdRoot }
    { p := str "\x7d", v := (false, str "1"), h := stdRoot } (str "1\x7d") [] STATEMENT
    (str "hello") 1 stdRoot stdRoot (by decide) (by decide) (by decide) (by decide) (by decide)
    (by decide)

set_option maxRecDepth 100000 in
/-- The single index in whole programs: inside the string the character, at the
length and outside void. -/
theorem index_examples :
    (evaluate stdEnv 5 0 (str "'hello'\x7b1\x7d") stdRoot).1 = .ok (str "e") ∧
      (evaluate stdEnv 5 0 (str "'hello'\x7b4\x7d") stdRoot).1 = .ok (str "o") ∧
      (evaluate stdEnv 5 0 (str "'hello'\x7b5\x7d") stdRoot).1 = .ok [] ∧
      (evaluate stdEnv 5 0 (str "'hello'\x7b-1\x7d") stdRoot).1 = .ok [] ∧
      (evaluate stdEnv 5 0 (str "'hello'\x7b7\x7d") stdRoot).1 = .ok [] := by
  decide
/-! ### Assignment (C18) -/

theorem set_ok_value (h : Heap) (self : Nat) (identifier v w : Str)
    (hset : (set h self identifier v).1 = .ok w) : w = v := by
  unfold set at hset
  split at hset
  · simp at hset
  · split at hset
    · simp at hset
    · simp only [] at hset
      split at hset
      · simp only [Except.ok.injEq] at hset
        exact hset.symm
      · simp at hset

theorem post_assign {D : Type} (env : Env D) (rec : Interp) (self : Nat) (st : St) (p1 : Str)
    (thres : Precedence) (hp : st.p = 61 :: p1) (hne : p1.head? ≠ some 61)
    (hthres : thres ≤ ASSIGN) :
    post env rec self st false thres = assignPostfix rec self st false := by
  unfold post
  rw [hp]
  simp [hne, hthres]

set_option maxRecDepth 100000 in
/-- C18, counterexample: in `1 = (x = 5)` the left side is no lvalue and the
assignment fails with `Invalid lvalue`, but the right side has been evaluated
before: `x`, undefined before, holds `5` afterwards.  And in `1 = y` with `y`
undefined the assignment fails with `Undefined`, not with `Invalid lvalue`: the
rvalue of the right side is taken before the left side is tested. -/
theorem assign_invalidLValue_counterexample :
    (evaluate stdEnv 8 0 (str "1 = (x = 5)") stdRoot).1 = .error .invalidLValue ∧
      (get stdRoot 0 (str "x") false).1 = .error (.undefined (str "x")) ∧
      (get (evaluate stdEnv 8 0 (str "1 = (x = 5)") stdRoot).2 0 (str "x") false).1 =
        .ok (str "5") ∧
      (evaluate stdEnv 8 0 (str "1 = y") stdRoot).1 = .error (.undefined (str "y")) := by
  decide

set_option maxRecDepth 100000 in
/-- C18, amended: a live assignment, `Frame::post` at an `=` that no `=` follows
with `thres <= ASSIGN`, first evaluates the right side and takes its rvalue;
when that fails (an undefined variable), the assignment fails with the same
error whatever the left operand is.  When the right side has the rvalue `val`
and the left operand is an lvalue, it calls `set` with the symbol of the left
operand and `val`, and yields as an rvalue what `set` returns, which is `val`;
when the left operand is no lvalue it fails with `Invalid lvalue`, and the
frames are as the right side left them: the assignment stores nothing, what
the right side stored stays.  The assignment groups to the right: `a = b = 7`
leaves `a` and `b` holding `7`. -/
theorem assign_live {D : Type} (env : Env D) (rec : Interp) (self : Nat) (st r : St)
    (p1 : Str) (thres : Precedence) (b : Bool) (hp : st.p = 61 :: p1)
    (hne : p1.head? ≠ some 61) (hthres : thres ≤ ASSIGN)
    (hexpr : rec.expr self { p := p1, v := (false, []), h := st.h } false false ASSIGN =
      (.ok b, r)) :
    (∀ x h1, rvalue r.h self r.v true = (.error x, h1) →
        post env rec self st false thres = (.error x, { p := r.p, v := st.v, h := h1 })) ∧
      (st.v.1 = true → ∀ val h1, rvalue r.h self r.v true = (.ok val, h1) →
        (post env rec self st false thres =
          (match (set h1 self st.v.2 val).1 with
           | .ok w => (.ok true, { p := r.p, v := (false, w), h := (set h1 self st.v.2 val).2 })
           | .error x => (.error x, { p := r.p, v := st.v, h := (set h1 self st.v.2 val).2 })) ∧
          ∀ w, (set h1 self st.v.2 val).1 = .ok w → w = val)) ∧
      (st.v.1 = false → ∀ val h1, rvalue r.h self r.v true = (.ok val, h1) →
        post env rec self st false thres = (.error .invalidLValue, { p := r.p, v := st.v, h := h1 })) ∧
      ((evaluate stdEnv 8 0 (str "a = b = 7; a # b") stdRoot).1 = .ok (str "77")) := by
  rw [post_assign env rec self st p1 thres hp hne hthres]
  refine ⟨?_, ?_, ?_, by decide⟩
  · intro x h1 hrv
    simp [assignPostfix, hp, hexpr, liveAssign, hrv]
  · intro hl val h1 hrv
    refine ⟨?_, fun w hw => set_ok_value h1 self st.v.2 val w hw⟩
    simp only [assignPostfix, hp, List.drop_succ_cons, List.drop_zero, hexpr, liveAssign, lvalue, hl,
      Bool.not_true, Bool.false_eq_true, if_false, hrv]
    cases (set h1 self st.v.2 val).1 <;> rfl
  · intro hl val h1 hrv
    simp [assignPostfix, hp, hexpr, liveAssign, lvalue, hl, hrv]

set_option maxRecDepth 100000 in
/-- An instance of C18: `Frame::post` at `= 5` with the lvalue `x` stores `5` in
`x` and yields `5`. -/
theorem assign_live_witness :
    post stdEnv (interp stdEnv 3) 0 { p := str "= 5", v := (true, str "x"), h := stdRoot } false
        STATEMENT =
      (match (set stdRoot 0 (str "x") (str "5")).1 with
       | .ok w => (.ok true, { p := [], v := (false, w), h := (set stdRoot 0 (str "x") (str "5")).2 })
       | .error x =>
         (.error x, { p := [], v := (true, str "x"), h := (set stdRoot 0 (str "x") (str "5")).2 })) :=
  ((assign_live stdEnv (interp stdEnv 3) 0
    { p := str "= 5", v := (true, str "x"), h := stdRoot }
    { p := [], v := (false, str "5"), h := stdRoot } (str " 5") STATEMENT true
    (by decide) (by decide) (by decide) (by decide)).2.1 rfl (str "5") stdRoot (by decide)).1
/-! ### The `for` loop (C19) -/

theorem tickIf_off (rec : Interp) (self : Nat) (cond : Bool) (p : Str) (v : XValue)
    (thres : Precedence) (exit : Bool) (h : Heap) (hoff : doTrace h self thres = false) :
    tickIf rec self cond p v thres exit h = (.ok (), h) := by
  simp [tickIf, hoff]

set_option maxRecDepth 1000000 in
/-- C19: a live `for`, `forStatement` with `p` at the parenthesis, when the three
parts parse.  The initialisation is evaluated live once, then the condition;
the step is parsed dry.  When the condition is false the first time, the body
is parsed dry and nothing else is evaluated.  When it is true, the loop is
entered, and one round of the loop evaluates live the body, then the step, then
the condition, and goes on exactly when the new value of the condition is true;
at the end `p` is after the body and `v` is the value of the last body.  So the
program `x = 0; for (i = 0; i < 5; ++i) x += i; x` gives `10`, and a program
that records the order of its evaluations gives the initialisation, the
condition, and twice body, step, condition. -/
theorem for_statement (rec : Interp) (self : Nat) (st init cond step : St) (p1 : Str)
    (bi bc bs : Bool) (hp : st.p = 40 :: p1)
    (hinit : termExpr rec self { p := p1, v := (false, []), h := st.h } true false ARGUMENT 59 =
      (.ok bi, init))
    (hcond : termExpr rec self init true false ARGUMENT 59 = (.ok bc, cond))
    (hstep : termExpr rec self cond true true ARGUMENT 41 = (.ok bs, step)) :
    (∀ h1 b body, rvalueBool step.h self step.v = (.ok false, h1) →
        rec.expr self { p := step.p, v := st.v, h := h1 } true true BODY = (.ok b, body) →
        doTrace body.h self TRACE_LOOP = false →
        forStatement rec self st false = (.ok true, body)) ∧
      (∀ h1 b last, rvalueBool step.h self step.v = (.ok true, h1) →
        forLoop rec self init.p cond.p step.p rec.fuel step.v { p := step.p, v := st.v, h := h1 } =
          (.ok b, last) →
        doTrace last.h self TRACE_LOOP = false →
        forStatement rec self st false = (.ok true, last)) ∧
      (∀ n xv s b1 b2 b3 body stp cnd cb h2,
        rec.expr self { s with p := step.p } true false BODY = (.ok b1, body) →
        doTrace body.h self TRACE_LOOP = false →
        rec.expr self { p := cond.p, v := xv, h := body.h } true false ARGUMENT = (.ok b2, stp) →
        rec.expr self { p := init.p, v := stp.v, h := stp.h } true false ARGUMENT = (.ok b3, cnd) →
        rvalueBool cnd.h self cnd.v = (.ok cb, h2) →
        forLoop rec self init.p cond.p step.p (n + 1) xv s =
          if cb then forLoop rec self init.p cond.p step.p n cnd.v { p := body.p, v := body.v, h := h2 }
          else (.ok true, { p := body.p, v := body.v, h := h2 })) ∧
      (evaluate stdEnv 10 0 (str "x = 0; for (i = 0; i < 5; ++i) x += i; x") stdRoot).1 =
        .ok (str "10") ∧
      (evaluate stdEnv 10 0
          (str "s = ''; n = 0; for (s #= 'i'; (s #= 'c') !== void && n < 2; s #= 's') \x7b s #= 'b'; ++n \x7d; s")
          stdRoot).1 = .ok (str "icbscbsc") := by
  refine ⟨?_, ?_, ?_, by decide, by decide⟩
  · intro h1 b body hcb hbody hoff
    simp [forStatement, hp, hinit, hcond, hstep, hcb, hbody, tickIf, hoff]
  · intro h1 b last hcb hloop hoff
    simp [forStatement, hp, hinit, hcond, hstep, hcb, hloop, tickIf, hoff]
  · intro n xv s b1 b2 b3 body stp cnd cb h2 hbody hoff hstp hcnd hcb
    cases cb <;> simp [forLoop, hbody, tickIf, hoff, hstp, hcnd, hcb]

set_option maxRecDepth 1000000 in
/-- An instance of C19: in `for (; false; ) 7` the condition is false the first
time, the body is parsed dry and `v` stays as it was. -/
theorem for_statement_witness :
    forStatement (interp stdEnv 5) 0 { p := str "(; false; ) 7", v := (false, []), h := stdRoot }
        false =
      (.ok true, { p := [], v := (false, []), h := stdRoot }) :=
  (for_statement (interp stdEnv 5) 0
    { p := str "(; false; ) 7", v := (false, []), h := stdRoot }
    { p := str " false; ) 7", v := (false, []), h := stdRoot }
    { p := str " ) 7", v := (false, str "false"), h := stdRoot }
    { p := str " 7", v := (false, str "false"), h := stdRoot }
    (str "; false; ) 7") false true false (by decide) (by decide) (by decide) (by decide)).1
    stdRoot true { p := [], v := (false, []), h := stdRoot } (by decide) (by decide) (by decide)

/-! ### Precedence and grouping of the binary operators (C17) -/

theorem whiteLoop_space_digit (fuel : Nat) (c0 : Nat) (q : Str) (hd : isDigit c0 = true) :
    whiteLoop (fuel + 2) (32 :: c0 :: q) = .ok (c0 :: q) := by
  have hb : 48 ≤ c0 ∧ c0 ≤ 57 := by simpa [isDigit] using hd
  have h1 : ¬ (c0 = 32 ∨ c0 = 9 ∨ c0 = 13 ∨ c0 = 10) := by omega
  have h2 : ¬ (c0 = 47) := by omega
  simp [whiteLoop, h1, h2]

theorem skipWhite_space_digit (c0 : Nat) (q : Str) (hd : isDigit c0 = true) :
    skipWhite (32 :: c0 :: q) = .ok (c0 :: q) := by
  have : maybeWhite 32 = true := by decide
  simp only [skipWhite, this, if_true, white, List.length_cons]
  exact whiteLoop_space_digit (q.length + 1) c0 q hd

theorem skipWhite_digit (c0 : Nat) (q : Str) (hd : isDigit c0 = true) :
    skipWhite (c0 :: q) = .ok (c0 :: q) := by
  have hb : 48 ≤ c0 ∧ c0 ≤ 57 := by simpa [isDigit] using hd
  have : maybeWhite c0 = false := by
    simp [maybeWhite]
    omega
  simp [skipWhite, this]

theorem pre_literal {D : Type} (env : Env D) (rec : Interp) (self : Nat) (a r : Str) (d : D)
    (A : Str) (v : XValue) (h : Heap) (ha : ReadsLiteral env.ops a d)
    (hA : ofDouble env.ops d = .ok A) (hr : r = [] ∨ r.head? = some 32) :
    pre env rec self { p := a ++ r, v := v, h := h } false =
      (.ok true, { p := r, v := (false, A), h := h }) := by
  obtain ⟨⟨c0, hc0, hd⟩, hread⟩ := ha
  obtain ⟨hx, hval⟩ := hread r hr
  obtain ⟨a1, rfl⟩ : ∃ a1, a = c0 :: a1 := by
    cases a with
    | nil => simp at hc0
    | cons x a1 => exact ⟨a1, by simp at hc0; rw [hc0]⟩
  have hb : 48 ≤ c0 ∧ c0 ≤ 57 := by simpa [isDigit] using hd
  obtain ⟨hlo, hhi⟩ := hb
  simp only [List.cons_append] at hx hval ⊢
  have hx1 : ¬ ((List.drop 1 (c0 :: (a1 ++ r))).head? = some 120) := hx
  simp only [List.drop_succ_cons, List.drop_zero] at hx1
  interval_cases c0 <;> simp [pre, numericLiteral, hval, hA]
  intro hc
  exact absurd (by simpa using hc) hx1

theorem readsLiteral_cons {D : Type} {ops : DoubleOps D} {a : Str} {d : D}
    (ha : ReadsLiteral ops a d) : ∃ c0 a1, a = c0 :: a1 ∧ isDigit c0 = true := by
  obtain ⟨⟨c0, hc0, hd⟩, _⟩ := ha
  cases a with
  | nil => simp at hc0
  | cons x a1 =>
    simp only [List.head?_cons, Option.some.injEq] at hc0
    exact ⟨c0, a1, by rw [hc0], hd⟩

theorem post_nil {D : Type} (env : Env D) (rec : Interp) (self : Nat) (v : XValue) (h : Heap)
    (dry : Bool) (thres : Precedence) :
    post env rec self { p := [], v := v, h := h } dry thres = (.ok false, { p := [], v := v, h := h }) := by
  simp [post]

theorem post_space {D : Type} (env : Env D) (rec : Interp) (self : Nat) (c : Nat) (q : Str)
    (v : XValue) (h : Heap) (dry : Bool) (thres : Precedence) (hc : c ≠ 32)
    (hthres : thres < DEFINITION) :
    post env rec self { p := 32 :: c :: q, v := v, h := h } dry thres =
      (.ok true, { p := c :: q, v := v, h := h }) := by
  simp [post, hthres, hc]

theorem post_plus {D : Type} (env : Env D) (rec : Interp) (self : Nat) (q : Str)
    (v : XValue) (h : Heap) (dry : Bool) (thres : Precedence) :
    post env rec self { p := 43 :: 32 :: q, v := v, h := h } dry thres =
      binaryOp env rec self { p := 43 :: 32 :: q, v := v, h := h } dry thres 1 ADD_SUB .plus := by
  simp [post, addSubOp, assignableOp]

theorem post_minus {D : Type} (env : Env D) (rec : Interp) (self : Nat) (q : Str)
    (v : XValue) (h : Heap) (dry : Bool) (thres : Precedence) :
    post env rec self { p := 45 :: 32 :: q, v := v, h := h } dry thres =
      binaryOp env rec self { p := 45 :: 32 :: q, v := v, h := h } dry thres 1 ADD_SUB .minus := by
  simp [post, addSubOp, assignableOp]

theorem post_times {D : Type} (env : Env D) (rec : Interp) (self : Nat) (q : Str)
    (v : XValue) (h : Heap) (dry : Bool) (thres : Precedence) :
    post env rec self { p := 42 :: 32 :: q, v := v, h := h } dry thres =
      binaryOp env rec self { p := 42 :: 32 :: q, v := v, h := h } dry thres 1 MUL_DIV .multiplies := by
  simp [post, assignableOp]

theorem rightArg_of_applyOp {D : Type} (ops : DoubleOps D) (op : Opr) (l r v : Str)
    (hop : applyOp ops op l r = .ok v) : rightArg ops op r = .ok () := by
  cases op <;> simp only [applyOp, applyDouble, applyULong, applyShift, rightArg] at hop ⊢ <;>
    split at hop <;> simp_all

theorem binaryOp_live {D : Type} (env : Env D) (rec : Interp) (self : Nat) (c : Nat) (q p1 : Str)
    (L R V : Str) (h : Heap) (b : Bool) (thres prec : Precedence) (op : Opr)
    (hthres : thres < prec)
    (hexpr : rec.expr self { p := q, v := (false, []), h := h } false false prec =
      (.ok b, { p := p1, v := (false, R), h := h }))
    (hop : applyOp env.ops op L R = .ok V) :
    binaryOp env rec self { p := c :: q, v := (false, L), h := h } false thres 1 prec op =
      (.ok true, { p := p1, v := (false, V), h := h }) := by
  have hn : ¬ (thres ≥ prec) := Nat.not_le.mpr hthres
  simp [binaryOp, hn, hexpr, liveBinary, rvalue, hop, rightArg_of_applyOp env.ops op L R V hop]

theorem binaryOp_refused {D : Type} (env : Env D) (rec : Interp) (self : Nat) (st : St)
    (dry : Bool) (thres prec : Precedence) (hop : Nat) (op : Opr) (hthres : prec ≤ thres) :
    binaryOp env rec self st dry thres hop prec op = (.ok false, st) := by
  simp [binaryOp, hthres]

/-- The routine `expr` on a space and a literal at the end of the source. -/
theorem exprBody_last_operand {D : Type} (env : Env D) (rec : Interp) (self : Nat) (c : Str)
    (dc : D) (C : Str) (v : XValue) (h : Heap) (emptyOk : Bool) (thres : Precedence)
    (hoff : TraceOff h self) (hthres : 0 < thres)
    (hc : ReadsLiteral env.ops c dc) (hC : ofDouble env.ops dc = .ok C) :
    exprBody env rec self { p := 32 :: c, v := v, h := h } emptyOk false thres =
      (.ok true, { p := [], v := (false, C), h := h }) := by
  obtain ⟨c0, c1, rfl, hd⟩ := readsLiteral_cons hc
  have hpre := pre_literal env rec self (c0 :: c1) [] dc C v h hc hC (Or.inl rfl)
  simp only [List.append_nil] at hpre
  simp [exprBody, skipWhite_space_digit c0 c1 hd, tickIf, hoff thres hthres, hpre, postLoop, post_nil]

theorem interp_expr_succ {D : Type} (env : Env D) (n : Nat) :
    (interp env (n + 1)).expr = exprBody env (interp env n) := rfl

/-- The routine `expr` at the level of `+` on `b * c`: the product. -/
theorem exprBody_product {D : Type} (env : Env D) (n : Nat) (self : Nat) (b c : Str)
    (db dc : D) (B C M : Str) (v : XValue) (h : Heap) (emptyOk : Bool)
    (hoff : TraceOff h self)
    (hb : ReadsLiteral env.ops b db) (hB : ofDouble env.ops db = .ok B)
    (hc : ReadsLiteral env.ops c dc) (hC : ofDouble env.ops dc = .ok C)
    (hM : applyOp env.ops .multiplies B C = .ok M) :
    exprBody env (interp env (n + 1)) self { p := 32 :: (b ++ 32 :: 42 :: 32 :: c), v := v, h := h }
        emptyOk false ADD_SUB =
      (.ok true, { p := [], v := (false, M), h := h }) := by
  obtain ⟨b0, b1, rfl, hd⟩ := readsLiteral_cons hb
  have hpre := pre_literal env (interp env (n + 1)) self (b0 :: b1) (32 :: 42 :: 32 :: c) db B v h
    hb hB (Or.inr rfl)
  have hright := exprBody_last_operand env (interp env n) self c dc C (false, []) h false MUL_DIV
    hoff (by decide) hc hC
  have hbin := binaryOp_live env (interp env (n + 1)) self 42 (32 :: c) [] B C M h true ADD_SUB MUL_DIV
    .multiplies (by decide) (by rw [interp_expr_succ]; exact hright) hM
  simp only [List.cons_append] at hpre
  simp [exprBody, skipWhite_space_digit b0 _ hd, tickIf, hoff ADD_SUB (by decide), hpre, postLoop,
    post_space env (interp env (n + 1)) self 42 (32 :: c) (false, B) h false ADD_SUB (by decide)
      (by decide),
    post_times, hbin, post_nil]

/-- The routine `expr` at the level of `-` on `b - c`: the operand `b` alone, the
second `-` is left unread. -/
theorem exprBody_left_operand {D : Type} (env : Env D) (rec : Interp) (self : Nat) (b c : Str)
    (db : D) (B : Str) (v : XValue) (h : Heap) (emptyOk : Bool)
    (hoff : TraceOff h self)
    (hb : ReadsLiteral env.ops b db) (hB : ofDouble env.ops db = .ok B) :
    exprBody env rec self { p := 32 :: (b ++ 32 :: 45 :: 32 :: c), v := v, h := h }
        emptyOk false ADD_SUB =
      (.ok true, { p := 45 :: 32 :: c, v := (false, B), h := h }) := by
  obtain ⟨b0, b1, rfl, hd⟩ := readsLiteral_cons hb
  have hpre := pre_literal env rec self (b0 :: b1) (32 :: 45 :: 32 :: c) db B v h
    hb hB (Or.inr rfl)
  simp only [List.cons_append] at hpre
  simp [exprBody, skipWhite_space_digit b0 _ hd, tickIf, hoff ADD_SUB (by decide), hpre, postLoop,
    post_space env rec self 45 (32 :: c) (false, B) h false ADD_SUB (by decide) (by decide),
    post_minus, binaryOp_refused env rec self _ false ADD_SUB ADD_SUB 1 .minus (Nat.le_refl _)]

/-- The routine `expr` on the statement `a + b * c`. -/
theorem exprBody_sum_product {D : Type} (env : Env D) (n : Nat) (self : Nat) (a b c : Str)
    (da db dc : D) (A B C M R : Str) (v : XValue) (h : Heap) (emptyOk : Bool)
    (hoff : TraceOff h self)
    (ha : ReadsLiteral env.ops a da) (hA : ofDouble env.ops da = .ok A)
    (hb : ReadsLiteral env.ops b db) (hB : ofDouble env.ops db = .ok B)
    (hc : ReadsLiteral env.ops c dc) (hC : ofDouble env.ops dc = .ok C)
    (hM : applyOp env.ops .multiplies B C = .ok M) (hR : applyOp env.ops .plus A M = .ok R) :
    exprBody env (interp env (n + 2)) self
        { p := a ++ 32 :: 43 :: 32 :: (b ++ 32 :: 42 :: 32 :: c), v := v, h := h }
        emptyOk false STATEMENT =
      (.ok true, { p := [], v := (false, R), h := h }) := by
  obtain ⟨a0, a1, rfl, hd⟩ := readsLiteral_cons ha
  have hpre := pre_literal env (interp env (n + 2)) self (a0 :: a1)
    (32 :: 43 :: 32 :: (b ++ 32 :: 42 :: 32 :: c)) da A v h ha hA (Or.inr rfl)
  have hright := exprBody_product env n self b c db dc B C M (false, []) h false hoff hb hB hc hC hM
  have hbin := binaryOp_live env (interp env (n + 2)) self 43 (32 :: (b ++ 32 :: 42 :: 32 :: c)) []
    A M R h true STATEMENT ADD_SUB .plus (by decide) (by rw [interp_expr_succ]; exact hright) hR
  simp only [List.cons_append] at hpre
  simp [exprBody, skipWhite_digit a0 _ hd, tickIf, hoff STATEMENT (by decide), hpre, postLoop,
    post_space env (interp env (n + 2)) self 43 _ (false, A) h false STATEMENT (by decide)
      (by decide),
    post_plus, hbin, post_nil]

/-- The routine `expr` on the statement `a - b - c`. -/
theorem exprBody_difference {D : Type} (env : Env D) (n : Nat) (self : Nat) (a b c : Str)
    (da db dc : D) (A B C M R : Str) (v : XValue) (h : Heap) (emptyOk : Bool)
    (hoff : TraceOff h self)
    (ha : ReadsLiteral env.ops a da) (hA : ofDouble env.ops da = .ok A)
    (hb : ReadsLiteral env.ops b db) (hB : ofDouble env.ops db = .ok B)
    (hc : ReadsLiteral env.ops c dc) (hC : ofDouble env.ops dc = .ok C)
    (hM : applyOp env.ops .minus A B = .ok M) (hR : applyOp env.ops .minus M C = .ok R) :
    exprBody env (interp env (n + 1)) self
        { p := a ++ 32 :: 45 :: 32 :: (b ++ 32 :: 45 :: 32 :: c), v := v, h := h }
        emptyOk false STATEMENT =
      (.ok true, { p := [], v := (false, R), h := h }) := by
  obtain ⟨a0, a1, rfl, hd⟩ := readsLiteral_cons ha
  have hpre := pre_literal env (interp env (n + 1)) self (a0 :: a1)
    (32 :: 45 :: 32 :: (b ++ 32 :: 45 :: 32 :: c)) da A v h ha hA (Or.inr rfl)
  have hmid := exprBody_left_operand env (interp env n) self b c db B (false, []) h false hoff hb hB
  have hlast := exprBody_last_operand env (interp env n) self c dc C (false, []) h false ADD_SUB
    hoff (by decide) hc hC
  have hbin1 := binaryOp_live env (interp env (n + 1)) self 45 (32 :: (b ++ 32 :: 45 :: 32 :: c))
    (45 :: 32 :: c) A B M h true STATEMENT ADD_SUB .minus (by decide)
    (by rw [interp_expr_succ]; exact hmid) hM
  have hbin2 := binaryOp_live env (interp env (n + 1)) self 45 (32 :: c) [] M C R h true STATEMENT
    ADD_SUB .minus (by decide) (by rw [interp_expr_succ]; exact hlast) hR
  simp only [List.cons_append] at hpre
  simp [exprBody, skipWhite_digit a0 _ hd, tickIf, hoff STATEMENT (by decide), hpre, postLoop,
    post_space env (interp env (n + 1)) self 45 _ (false, A) h false STATEMENT (by decide)
      (by decide),
    post_minus, hbin1, hbin2, post_nil]

theorem storeSource_get (h : Heap) (f : Nat) (s : Option Str) (i : Nat) :
    (storeSource h f s)[i]? =
      (h[i]?).map (fun fr => if i = f then { fr with source := s } else fr) := by
  unfold storeSource
  cases hf : h[f]? with
  | none =>
    simp only []
    cases hi : h[i]? with
    | none => rfl
    | some fr =>
      have hne : i ≠ f := by
        intro he
        rw [he, hf] at hi
        exact absurd hi (by simp)
      simp [hne]
  | some fr0 =>
    simp only [List.getElem?_set]
    by_cases he : f = i
    · subst he
      have hlt : f < h.length := (List.getElem?_eq_some_iff.mp hf).1
      simp [hlt, hf]
    · have he2 : ¬ (i = f) := fun x => he x.symm
      simp only [he, if_false, he2]
      cases h[i]? <;> rfl

theorem rootDataOf_storeSource (h : Heap) (f : Nat) (s : Option Str) (self : Nat) :
    rootDataOf (storeSource h f s) self = rootDataOf h self := by
  unfold rootDataOf
  rw [storeSource_get]
  cases h[self]? with
  | none => rfl
  | some fr =>
    have hroot : (if self = f then { fr with source := s } else fr).root = fr.root := by
      split <;> rfl
    simp only [Option.map_some', hroot]
    rw [storeSource_get]
    cases h[fr.root]? with
    | none => rfl
    | some rt =>
      simp only [Option.map_some']
      split <;> rfl

theorem traceOff_storeSource (h : Heap) (f : Nat) (s : Option Str) (self : Nat)
    (hoff : TraceOff h self) : TraceOff (storeSource h f s) self := by
  intro level hl
  have := hoff level hl
  unfold doTrace at this ⊢
  rw [rootDataOf_storeSource]
  exact this

/-- The routine `evaluate` on a source that is one expression with the rvalue
`R`, tracing being off: the value is `R`. -/
theorem evaluate_of_expr {D : Type} (env : Env D) (n : Nat) (self : Nat) (source R : Str)
    (h : Heap) (fr : Frame) (hself : h[self]? = some fr) (hoff : TraceOff h self)
    (hne : source ≠ [])
    (hexpr : (interp env n).expr self
        { p := source, v := (false, []), h := storeSource h self (some source) } true false
        STATEMENT =
      (.ok true, { p := [], v := (false, R), h := storeSource h self (some source) })) :
    (evaluate env n self source h).1 = .ok R := by
  have hoff0 := traceOff_storeSource h self (some source) self hoff
  obtain ⟨c0, rest, rfl⟩ : ∃ c0 rest, source = c0 :: rest := by
    cases source with
    | nil => exact absurd rfl hne
    | cons c0 rest => exact ⟨c0, rest, rfl⟩
  simp [evaluate, evaluateBody, hself, tickIf, hoff0 TRACE_CALL (by decide), evaluateLoop, hexpr,
    rvalue]

theorem stringToDoubleIt_digit {D : Type} (ops : DoubleOps D) (c : Nat) (r : Str)
    (hd : isDigit c = true) :
    stringToDoubleIt ops (c :: r) =
      (ops.mul (exponentStage ops (fractionStage ops (integerStage ops (c :: r)))).1 ops.one,
        (exponentStage ops (fractionStage ops (integerStage ops (c :: r)))).2) := by
  have hb : 48 ≤ c ∧ c ≤ 57 := by simpa [isDigit] using hd
  have hsign : ¬ (c = 43 ∨ c = 45) := by omega
  have hinf : INFINITY.isPrefixOf (c :: r) = false := by
    have : (105 == c) = false := by
      simp
      omega
    simp [INFINITY, List.isPrefixOf, this]
  cases r with
  | nil =>
    unfold stringToDoubleIt
    simp only [hinf, Bool.false_eq_true, if_false, hd, if_true]
    rfl
  | cons c1 r1 =>
    unfold stringToDoubleIt
    simp only [hsign, if_false, hinf, Bool.false_eq_true, hd, if_true]
    rfl

theorem integerLoop_append {D : Type} (ops : DoubleOps D) (ds t : Str)
    (hds : ∀ c ∈ ds, isDigit c = true) (ht : ∀ c, t.head? = some c → isDigit c = false) :
    ∀ d, integerLoop ops d (ds ++ t) = ((integerLoop ops d ds).1, t) := by
  induction ds with
  | nil =>
    intro d
    cases t with
    | nil => rfl
    | cons c t1 =>
      have := ht c rfl
      simp [integerLoop, this]
  | cons x ds ih =>
    intro d
    have hx : isDigit x = true := hds x (by simp)
    simp only [List.cons_append, integerLoop, hx, if_true]
    exact ih (fun c hc => hds c (by simp [hc])) _

theorem fractionLoop_append {D : Type} (ops : DoubleOps D) (ds t : Str)
    (hds : ∀ c ∈ ds, isDigit c = true) (ht : ∀ c, t.head? = some c → isDigit c = false) :
    ∀ d f, fractionLoop ops d f (ds ++ t) = ((fractionLoop ops d f ds).1, t) := by
  induction ds with
  | nil =>
    intro d f
    cases t with
    | nil => rfl
    | cons c t1 =>
      have := ht c rfl
      simp [fractionLoop, this]
  | cons x ds ih =>
    intro d f
    have hx : isDigit x = true := hds x (by simp)
    simp only [List.cons_append, fractionLoop, hx, if_true]
    exact ih (fun c hc => hds c (by simp [hc])) _ _

theorem stringToLongLoop_append (ds t : Str)
    (hds : ∀ c ∈ ds, isDigit c = true) (ht : ∀ c, t.head? = some c → isDigit c = false) :
    ∀ l, stringToLongLoop l (ds ++ t) = ((stringToLongLoop l ds).1, t) := by
  induction ds with
  | nil =>
    intro l
    cases t with
    | nil => rfl
    | cons c t1 =>
      have := ht c rfl
      simp [stringToLongLoop, this]
  | cons x ds ih =>
    intro l
    have hx : isDigit x = true := hds x (by simp)
    simp only [List.cons_append, stringToLongLoop, hx, if_true]
    exact ih (fun c hc => hds c (by simp [hc])) _

theorem integerStage_append {D : Type} (ops : DoubleOps D) (ip t : Str) (hip : IsIntegerPart ip)
    (ht : ∀ c, t.head? = some c → isDigit c = false) :
    integerStage ops (ip ++ t) = ((integerStage ops ip).1, t) := by
  rcases hip with rfl | ⟨⟨hne, hds⟩, hhead⟩
  · rfl
  · cases ip with
    | nil => exact absurd rfl hne
    | cons c r =>
      have hc : c ≠ 48 := by
        intro he
        exact hhead (by simp [he])
      simp only [integerStage, List.cons_append, hc, if_false]
      exact integerLoop_append ops (c :: r) t hds ht _

theorem fractionStage_append {D : Type} (ops : DoubleOps D) (d : D) (fr t : Str)
    (hfr : IsFraction fr) (ht : ∀ c, t.head? = some c → isDigit c = false ∧ c ≠ 46) :
    fractionStage ops (d, fr ++ t) = ((fractionStage ops (d, fr)).1, t) := by
  rcases hfr with rfl | ⟨ds, rfl, hne, hds⟩
  · cases t with
    | nil => rfl
    | cons c t1 =>
      have hc := (ht c rfl).2
      simp only [List.nil_append, fractionStage]
      split
      · rename_i heq
        simp only [List.cons.injEq] at heq
        exact absurd heq.1 hc
      · rfl
  · cases ds with
    | nil => exact absurd rfl hne
    | cons d1 ds1 =>
      have hd1 : isDigit d1 = true := hds d1 (by simp)
      simp only [fractionStage, List.cons_append, hd1, if_true]
      exact fractionLoop_append ops (d1 :: ds1) t hds (fun c hc => (ht c hc).1) _ _

theorem stringToLong_append (sg ds t : Str) (hsg : IsSign sg) (hds : IsDigits ds)
    (ht : ∀ c, t.head? = some c → isDigit c = false) :
    stringToLong (sg ++ (ds ++ t)) = ((stringToLong (sg ++ ds)).1, t) := by
  obtain ⟨hne, hall⟩ := hds
  cases ds with
  | nil => exact absurd rfl hne
  | cons d1 ds1 =>
    have hd1 : isDigit d1 = true := hall d1 (by simp)
    have hb : 48 ≤ d1 ∧ d1 ≤ 57 := by simpa [isDigit] using hd1
    have hsign : ¬ (d1 = 43 ∨ d1 = 45) := by omega
    have hloop := stringToLongLoop_append (d1 :: ds1) t hall ht 0
    rcases hsg with rfl | rfl | rfl
    · have e1 : stringToLong (d1 :: (ds1 ++ t)) =
          ((stringToLongLoop 0 (d1 :: (ds1 ++ t))).1, (stringToLongLoop 0 (d1 :: (ds1 ++ t))).2) := by
        unfold stringToLong
        cases hq : ds1 ++ t with
        | nil => rfl
        | cons x y => simp [hsign]
      have e2 : stringToLong (d1 :: ds1) =
          ((stringToLongLoop 0 (d1 :: ds1)).1, (stringToLongLoop 0 (d1 :: ds1)).2) := by
        unfold stringToLong
        cases ds1 with
        | nil => rfl
        | cons x y => simp [hsign]
      simp only [List.nil_append, List.cons_append] at hloop ⊢
      rw [e1, e2, hloop]
    · simp only [List.cons_append, List.nil_append] at hloop ⊢
      simp [stringToLong, hloop]
    · simp only [List.cons_append, List.nil_append] at hloop ⊢
      simp [stringToLong, hloop]

theorem exponentStage_append {D : Type} (ops : DoubleOps D) (d : D) (ex r : Str)
    (hex : IsExponent ex) (hr : r = [] ∨ r.head? = some 32) :
    exponentStage ops (d, ex ++ r) = ((exponentStage ops (d, ex)).1, r) := by
  have hnd : ∀ c, r.head? = some c → isDigit c = false := by
    intro c hc
    rcases hr with rfl | h32
    · simp at hc
    · rw [h32] at hc
      simp only [Option.some.injEq] at hc
      subst hc
      decide
  rcases hex with rfl | ⟨c, sg, ds, rfl, hc, hsg, hds⟩
  · rcases hr with rfl | h32
    · rfl
    · cases r with
      | nil => rfl
      | cons x r1 =>
        simp only [List.head?_cons, Option.some.injEq] at h32
        subst h32
        cases r1 with
        | nil => rfl
        | cons y r2 => simp [exponentStage]
  · have hlong := stringToLong_append sg ds r hsg hds hnd
    obtain ⟨hne, _⟩ := hds
    have hcons : ∃ x y, sg ++ ds = x :: y := by
      cases hq : sg ++ ds with
      | nil =>
        have := congrArg List.length hq
        simp at this
        exact absurd this.2 hne
      | cons x y => exact ⟨x, y, rfl⟩
    obtain ⟨x, y, hxy⟩ := hcons
    have hxy2 : sg ++ (ds ++ r) = x :: (y ++ r) := by
      rw [← List.append_assoc, hxy]
      rfl
    simp only [List.cons_append, List.append_assoc, exponentStage, hxy, hxy2, hc, if_true]
    rw [← hxy2, hlong, hxy]

theorem exponent_head (ex r : Str) (hex : IsExponent ex) (hr : r = [] ∨ r.head? = some 32) :
    ∀ c, (ex ++ r).head? = some c → c = 69 ∨ c = 101 ∨ c = 32 := by
  intro c hc
  rcases hex with rfl | ⟨c1, sg, ds, rfl, hc1, _, _⟩
  · rcases hr with rfl | h32
    · simp at hc
    · simp only [List.nil_append] at hc
      rw [h32] at hc
      simp only [Option.some.injEq] at hc
      exact Or.inr (Or.inr hc.symm)
  · simp only [List.cons_append, List.head?_cons, Option.some.injEq] at hc
    subst hc
    rcases hc1 with h | h
    · exact Or.inl h
    · exact Or.inr (Or.inl h)

theorem fraction_head (fr ex r : Str) (hfr : IsFraction fr) (hex : IsExponent ex)
    (hr : r = [] ∨ r.head? = some 32) :
    ∀ c, (fr ++ (ex ++ r)).head? = some c → c = 46 ∨ c = 69 ∨ c = 101 ∨ c = 32 := by
  intro c hc
  rcases hfr with rfl | ⟨ds, rfl, _⟩
  · exact Or.inr (exponent_head ex r hex hr c hc)
  · simp only [List.cons_append, List.head?_cons, Option.some.injEq] at hc
    exact Or.inl hc.symm

/-- A decimal literal is read as a whole by `stringToDouble(p, e)` when the
source ends after it or a space follows. -/
theorem decimal_readsLiteral {D : Type} (ops : DoubleOps D) (a : Str) (ha : IsDecimalLiteral a) :
    ReadsLiteral ops a (stringToDoubleIt ops a).1 := by
  obtain ⟨ip, fr, ex, rfl, hip, hfr, hex⟩ := ha
  obtain ⟨c0, ip1, hipc, hd0, hip1⟩ : ∃ c0 ip1, ip = c0 :: ip1 ∧ isDigit c0 = true ∧
      ∀ c ∈ ip1, isDigit c = true := by
    rcases hip with rfl | ⟨⟨hne, hds⟩, _⟩
    · exact ⟨48, [], rfl, by decide, by intro c hc; cases hc⟩
    · cases ip with
      | nil => exact absurd rfl hne
      | cons c r => exact ⟨c, r, rfl, hds c (by simp), fun x hx => hds x (by simp [hx])⟩
  have key : ∀ r : Str, (r = [] ∨ r.head? = some 32) →
      stringToDoubleIt ops (ip ++ (fr ++ (ex ++ r))) =
        (ops.mul (exponentStage ops ((fractionStage ops ((integerStage ops ip).1, fr)).1, ex)).1
          ops.one, r) := by
    intro r hr
    have H1 : ∀ c, (fr ++ (ex ++ r)).head? = some c → isDigit c = false := by
      intro c hc
      rcases fraction_head fr ex r hfr hex hr c hc with h | h | h | h <;> (subst h; decide)
    have H2 : ∀ c, (ex ++ r).head? = some c → isDigit c = false ∧ c ≠ 46 := by
      intro c hc
      rcases exponent_head ex r hex hr c hc with h | h | h <;> (subst h; decide)
    have e0 : ip ++ (fr ++ (ex ++ r)) = c0 :: (ip1 ++ (fr ++ (ex ++ r))) := by rw [hipc]; rfl
    rw [e0, stringToDoubleIt_digit ops c0 _ hd0, ← e0,
      integerStage_append ops ip _ hip H1,
      fractionStage_append ops _ fr _ hfr H2,
      exponentStage_append ops _ ex r hex hr]
  refine ⟨⟨c0, by rw [hipc]; rfl, hd0⟩, ?_⟩
  intro r hr
  have hbare := key [] (Or.inl rfl)
  simp only [List.append_nil] at hbare
  refine ⟨?_, ?_⟩
  · rw [hipc]
    simp only [List.cons_append, List.drop_succ_cons, List.drop_zero, List.append_assoc]
    intro hx
    cases ip1 with
    | nil =>
      simp only [List.nil_append] at hx
      rcases fraction_head fr ex r hfr hex hr 120 hx with h | h | h | h <;> exact absurd h (by decide)
    | cons x ip2 =>
      simp only [List.cons_append, List.head?_cons, Option.some.injEq] at hx
      have := hip1 x (by simp)
      rw [hx] at this
      exact absurd this (by decide)
  · rw [List.append_assoc, List.append_assoc, key r hr, hbare]

theorem traceOff_stdRoot : TraceOff stdRoot 0 := by
  intro level hl
  have hl1 : ¬ (level = 0) := Nat.pos_iff_ne_zero.mp hl
  simpa [doTrace, rootDataOf, stdRoot, newRoot, RootData.init] using hl1

theorem isDecimalLiteral_digit (c : Nat) (hc : 49 ≤ c ∧ c ≤ 57) : IsDecimalLiteral [c] := by
  refine ⟨[c], [], [], rfl, Or.inr ⟨⟨by simp, ?_⟩, ?_⟩, Or.inl rfl, Or.inl rfl⟩
  · intro x hx
    simp only [List.mem_singleton] at hx
    subst hx
    simp [isDigit]
    omega
  · simp only [List.head?_cons, ne_eq, Option.some.injEq]
    omega

set_option maxRecDepth 100000 in
/-- C17: the binary operators follow the ladder of precedence and group to the
left.  For decimal literals `a`, `b` and `c` with the values `A`, `B` and `C`,
on a frame whose Root does not trace: the source `a + b * c` evaluates to the
sum of `A` and the product of `B` and `C`, and the source `a - b - c` to the
difference of the difference of `A` and `B`, and `C`, whenever these operations
give values; so `3 + 4 * 2` evaluates to `11`. -/
theorem binary_grouping {D : Type} (env : Env D) (n : Nat) (self : Nat) (a b c A B C : Str)
    (h : Heap) (fr : Frame) (hself : h[self]? = some fr) (hoff : TraceOff h self)
    (ha : IsDecimalLiteral a) (hb : IsDecimalLiteral b) (hc : IsDecimalLiteral c)
    (hA : ofDouble env.ops (stringToDoubleIt env.ops a).1 = .ok A)
    (hB : ofDouble env.ops (stringToDoubleIt env.ops b).1 = .ok B)
    (hC : ofDouble env.ops (stringToDoubleIt env.ops c).1 = .ok C) :
    (∀ M R, applyOp env.ops .multiplies B C = .ok M → applyOp env.ops .plus A M = .ok R →
        (evaluate env (n + 3) self (a ++ str " + " ++ b ++ str " * " ++ c) h).1 = .ok R) ∧
      (∀ M R, applyOp env.ops .minus A B = .ok M → applyOp env.ops .minus M C = .ok R →
        (evaluate env (n + 2) self (a ++ str " - " ++ b ++ str " - " ++ c) h).1 = .ok R) ∧
      (evaluate stdEnv 5 0 (str "3 + 4 * 2") stdRoot).1 = .ok (str "11") := by
  have ra := decimal_readsLiteral env.ops a ha
  have rb := decimal_readsLiteral env.ops b hb
  have rc := decimal_readsLiteral env.ops c hc
  have hplus : str " + " = [32, 43, 32] := by decide
  have htimes : str " * " = [32, 42, 32] := by decide
  have hminus : str " - " = [32, 45, 32] := by decide
  obtain ⟨a0, a1, hacons, _⟩ := readsLiteral_cons ra
  refine ⟨?_, ?_, by decide⟩
  · intro M R hM hR
    have hsrc : a ++ str " + " ++ b ++ str " * " ++ c =
        a ++ 32 :: 43 :: 32 :: (b ++ 32 :: 42 :: 32 :: c) := by
      rw [hplus, htimes]
      simp
    rw [hsrc]
    apply evaluate_of_expr env (n + 3) self _ R h fr hself hoff
    · rw [hacons]
      simp
    · rw [interp_expr_succ]
      exact exprBody_sum_product env n self a b c _ _ _ A B C M R (false, []) _ true
        (traceOff_storeSource h self _ self hoff) ra hA rb hB rc hC hM hR
  · intro M R hM hR
    have hsrc : a ++ str " - " ++ b ++ str " - " ++ c =
        a ++ 32 :: 45 :: 32 :: (b ++ 32 :: 45 :: 32 :: c) := by
      rw [hminus]
      simp
    rw [hsrc]
    apply evaluate_of_expr env (n + 2) self _ R h fr hself hoff
    · rw [hacons]
      simp
    · rw [interp_expr_succ]
      exact exprBody_difference env n self a b c _ _ _ A B C M R (false, []) _ true
        (traceOff_storeSource h self _ self hoff) ra hA rb hB rc hC hM hR

set_option maxRecDepth 100000 in
/-- An instance of C17: `9 - 4 - 3` evaluates to `2`, the difference of `5` and
`3`, and not to `8`. -/
theorem binary_grouping_witness :
    (evaluate stdEnv 2 0 (str "9" ++ str " - " ++ str "4" ++ str " - " ++ str "3") stdRoot).1 =
      .ok (str "2") :=
  (binary_grouping stdEnv 0 0 (str "9") (str "4") (str "3") (str "9") (str "4") (str "3") stdRoot
    { vars := VarSpace.emptySTL, root := 0, previous := none, closure := 0, label := [58, 58],
      rootData := some RootData.init }
    (by decide) traceOff_stdRoot
    (isDecimalLiteral_digit 57 (by decide)) (isDecimalLiteral_digit 52 (by decide))
    (isDecimalLiteral_digit 51 (by decide)) (by decide) (by decide) (by decide)).2.1
    (str "5") (str "2") (by decide) (by decide)

/-! ### Short circuit of the logical operators (C16) -/

theorem SameVars.refl (h : Heap) : SameVars h h := rfl

theorem sameVars_trans {h h1 h2 : Heap} (a : SameVars h h1) (b : SameVars h1 h2) : SameVars h h2 :=
  Eq.trans a b

theorem DryOK.ok {α : Type} {h h1 : Heap} (hs : SameVars h h1) (a : α) :
    DryOK h (.ok a : Except Xception α) h1 :=
  ⟨hs, fun x hx => by cases hx⟩

theorem DryOK.err {α : Type} {h h1 : Heap} (hs : SameVars h h1) (x : Xception)
    (hx : (x.isParseError || x.isFault) = true) : DryOK h (.error x : Except Xception α) h1 :=
  ⟨hs, fun y hy => by cases hy; exact hx⟩

theorem DryOK.err_of {α β : Type} {h h1 : Heap} {out : Except Xception α} {x : Xception}
    (d : DryOK h out h1) (hx : out = .error x) : DryOK h (.error x : Except Xception β) h1 :=
  ⟨d.1, fun y hy => by cases hy; exact d.2 x hx⟩

theorem dryOK_trans {α : Type} {h h1 h2 : Heap} {out : Except Xception α}
    (a : SameVars h h1) (d : DryOK h1 out h2) : DryOK h out h2 :=
  ⟨sameVars_trans a d.1, d.2⟩

theorem DryRec.run {rec : Interp} (hrec : DryRec rec) (self : Nat) (st : St) (emptyOk : Bool)
    (thres : Precedence) (h0 : Heap) (hs : SameVars h0 st.h) :
    DryOK h0 (rec.expr self st emptyOk true thres).1 (rec.expr self st emptyOk true thres).2.h :=
  dryOK_trans hs (hrec self st emptyOk thres)

theorem termExpr_dry (rec : Interp) (hrec : DryRec rec) (self : Nat) (st : St) (emptyOk : Bool)
    (thres : Precedence) (term : Nat) (h0 : Heap) (hs : SameVars h0 st.h) :
    DryOK h0 (termExpr rec self st emptyOk true thres term).1
      (termExpr rec self st emptyOk true thres term).2.h := by
  have d := hrec.run self st emptyOk thres h0 hs
  unfold termExpr
  generalize rec.expr self st emptyOk true thres = r at d
  obtain ⟨out, s⟩ := r
  cases out with
  | error x => exact d
  | ok b =>
    simp only []
    split
    · split
      · exact DryOK.ok d.1 _
      · exact DryOK.err d.1 _ rfl
    · exact DryOK.err d.1 _ rfl

theorem prefixOp_dry (rec : Interp) (hrec : DryRec rec) (self : Nat) (st : St) (rest : Str)
    (live : XValue → Heap → Except Xception XValue × Heap) (h0 : Heap) (hs : SameVars h0 st.h) :
    DryOK h0 (prefixOp rec self st true rest live).1 (prefixOp rec self st true rest live).2.h := by
  have d := hrec.run self { st with p := rest } false PREFIX h0 hs
  unfold prefixOp
  generalize rec.expr self { st with p := rest } false true PREFIX = r at d
  obtain ⟨out, s⟩ := r
  cases out with
  | error x => exact d
  | ok b => exact DryOK.ok d.1 _

theorem binaryOp_dry {D : Type} (env : Env D) (rec : Interp) (hrec : DryRec rec) (self : Nat)
    (st : St) (thres : Precedence) (hop : Nat) (prec : Precedence) (op : Opr) (h0 : Heap)
    (hs : SameVars h0 st.h) :
    DryOK h0 (binaryOp env rec self st true thres hop prec op).1
      (binaryOp env rec self st true thres hop prec op).2.h := by
  unfold binaryOp
  split
  · exact DryOK.ok hs _
  · have d := hrec.run self { p := st.p.drop hop, v := (false, []), h := st.h } false prec h0 hs
    generalize rec.expr self { p := st.p.drop hop, v := (false, []), h := st.h } false true prec = r
      at d
    obtain ⟨out, s⟩ := r
    cases out with
    | error x => exact d
    | ok b => exact DryOK.ok d.1 _

theorem assignableOp_dry {D : Type} (env : Env D) (rec : Interp) (hrec : DryRec rec) (self : Nat)
    (st : St) (thres : Precedence) (hop : Nat) (prec : Precedence) (op : Opr) (h0 : Heap)
    (hs : SameVars h0 st.h) :
    DryOK h0 (assignableOp env rec self st true thres hop prec op).1
      (assignableOp env rec self st true thres hop prec op).2.h := by
  unfold assignableOp
  split
  · exact binaryOp_dry env rec hrec self st thres hop prec op h0 hs
  · split
    · exact DryOK.ok hs _
    · have d := hrec.run self { p := st.p.drop (hop + 1), v := (false, []), h := st.h } false ASSIGN
        h0 hs
      generalize rec.expr self { p := st.p.drop (hop + 1), v := (false, []), h := st.h } false true
        ASSIGN = r at d
      obtain ⟨out, s⟩ := r
      cases out with
      | error x => exact d
      | ok b => exact DryOK.ok d.1 _

theorem addSubOp_dry {D : Type} (env : Env D) (rec : Interp) (hrec : DryRec rec) (self : Nat)
    (st : St) (thres : Precedence) (op : Opr) (h0 : Heap) (hs : SameVars h0 st.h) :
    DryOK h0 (addSubOp env rec self st true thres op).1
      (addSubOp env rec self st true thres op).2.h := by
  unfold addSubOp
  split
  · exact assignableOp_dry env rec hrec self st thres 1 ADD_SUB op h0 hs
  · split
    · exact DryOK.ok hs _
    · exact DryOK.ok hs _

theorem lgtOp_dry {D : Type} (env : Env D) (rec : Interp) (hrec : DryRec rec) (self : Nat)
    (st : St) (thres : Precedence) (excl incl shift : Opr) (h0 : Heap) (hs : SameVars h0 st.h) :
    DryOK h0 (lgtOp env rec self st true thres excl incl shift).1
      (lgtOp env rec self st true thres excl incl shift).2.h := by
  unfold lgtOp
  split
  · exact assignableOp_dry env rec hrec self st thres 2 SHIFT shift h0 hs
  · split
    · exact binaryOp_dry env rec hrec self st thres 2 COMPARE incl h0 hs
    · exact binaryOp_dry env rec hrec self st thres 1 COMPARE excl h0 hs

theorem unescapeSingle_error : ∀ (fuel : Nat) (d b : Str) (x : Xception),
    unescapeSingle fuel d b = .error x → x.isParseError = true := by
  intro fuel
  induction fuel with
  | zero =>
    intro d b x hx
    simp only [unescapeSingle, Except.error.injEq] at hx
    subst hx
    rfl
  | succ fuel ih =>
    intro d b x hx
    unfold unescapeSingle at hx
    split at hx
    · exact ih _ _ x hx
    · cases hx
    · simp only [Except.error.injEq] at hx
      subst hx
      rfl

theorem unescapeCode_error (p : Str) (x : Xception) (hx : unescapeCode p = .error x) :
    x.isParseError = true := by
  unfold unescapeCode at hx
  split at hx
  · simp only [Except.error.injEq] at hx
    subst hx
    rfl
  · split at hx
    · cases hx
    · simp only [] at hx
      repeat' split at hx
      all_goals first
        | cases hx; done
        | (simp only [Except.error.injEq] at hx; subst hx; rfl)

theorem unescapeDouble_error : ∀ (fuel : Nat) (d seg p : Str) (x : Xception),
    unescapeDouble fuel d seg p = .error x → x.isParseError = true := by
  intro fuel
  induction fuel with
  | zero =>
    intro d seg p x hx
    simp only [unescapeDouble, Except.error.injEq] at hx
    subst hx
    rfl
  | succ fuel ih =>
    intro d seg p x hx
    cases p with
    | nil =>
      simp only [unescapeDouble, Except.error.injEq] at hx
      subst hx
      rfl
    | cons c p =>
      unfold unescapeDouble at hx
      split at hx
      · cases hx
      · split at hx
        · split at hx
          · rename_i y hy
            simp only [Except.error.injEq] at hx
            subst hx
            exact unescapeCode_error _ _ hy
          · exact ih _ _ _ x hx
        · exact ih _ _ _ x hx

theorem unescape_error (p : Str) (x : Xception) (hx : unescape p = .error x) :
    x.isParseError = true := by
  unfold unescape at hx
  split at hx
  · simp only [Except.error.injEq] at hx
    subst hx
    rfl
  · split at hx
    · exact unescapeSingle_error _ _ _ x hx
    · split at hx
      · exact unescapeDouble_error _ _ _ _ x hx
      · simp only [Except.error.injEq] at hx
        subst hx
        rfl

theorem whiteLoop_error : ∀ (fuel : Nat) (p : Str) (x : Xception),
    whiteLoop fuel p = .error x → x.isParseError = true := by
  intro fuel
  induction fuel with
  | zero =>
    intro p x hx
    simp [whiteLoop] at hx
  | succ fuel ih =>
    intro p x hx
    cases p with
    | nil => simp [whiteLoop] at hx
    | cons c r =>
      unfold whiteLoop at hx
      split at hx
      · exact ih _ x hx
      · split at hx
        · split at hx
          · exact ih _ x hx
          · split at hx
            · exact ih _ x hx
            · simp only [Except.error.injEq] at hx
              subst hx
              rfl
          · cases hx
        · cases hx

theorem skipWhite_error (p : Str) (x : Xception) (hx : skipWhite p = .error x) :
    x.isParseError = true := by
  unfold skipWhite at hx
  split at hx
  · split at hx
    · exact whiteLoop_error _ _ x hx
    · cases hx
  · cases hx

theorem token_error (p tok : Str) (x : Xception) (hx : token p tok = .error x) :
    (x.isParseError || x.isFault) = true := by
  unfold token at hx
  split at hx
  · simp only [Except.error.injEq] at hx
    subst hx
    rfl
  · split at hx
    · simp only [] at hx
      split at hx
      · split at hx
        · rename_i y hy
          simp only [Except.error.injEq] at hx
          subst hx
          simp [skipWhite_error _ _ hy]
        · cases hx
      · cases hx
    · cases hx

theorem symbolTail_dry (b : Str) (st : St) (dry : Bool) (h0 : Heap) (hs : SameVars h0 st.h) :
    DryOK h0 (symbolTail b st dry).1 (symbolTail b st dry).2.h := by
  unfold symbolTail
  simp only []
  split
  · exact DryOK.ok hs _
  · exact DryOK.ok hs _

theorem numericLiteral_dry {D : Type} (env : Env D) (b : Str) (st : St) (h0 : Heap)
    (hs : SameVars h0 st.h) :
    DryOK h0 (numericLiteral env b st true).1 (numericLiteral env b st true).2.h := by
  unfold numericLiteral
  split
  · simp only []
    split
    · exact DryOK.err hs _ rfl
    · exact DryOK.ok hs _
  · exact DryOK.ok hs _

theorem compoundLoop_dry (rec : Interp) (hrec : DryRec rec) (self : Nat) :
    ∀ (n : Nat) (st : St) (h0 : Heap), SameVars h0 st.h →
      DryOK h0 (compoundLoop rec self true n st).1 (compoundLoop rec self true n st).2.h := by
  intro n
  induction n with
  | zero =>
    intro st h0 hs
    exact DryOK.err hs _ rfl
  | succ n ih =>
    intro st h0 hs
    have d := hrec.run self { st with p := st.p.drop 1 } true STATEMENT h0 hs
    unfold compoundLoop
    generalize rec.expr self { st with p := st.p.drop 1 } true true STATEMENT = r at d
    obtain ⟨out, s⟩ := r
    cases out with
    | error x => exact d
    | ok b =>
      simp only []
      split
      · exact DryOK.err d.1 _ rfl
      · split
        · exact ih s h0 d.1
        · split
          · exact DryOK.err d.1 _ rfl
          · exact DryOK.ok d.1 _

theorem functionLiteral_dry (rec : Interp) (hrec : DryRec rec) (self : Nat) (st : St) (h0 : Heap)
    (hs : SameVars h0 st.h) :
    DryOK h0 (functionLiteral rec self st true).1 (functionLiteral rec self st true).2.h := by
  unfold functionLiteral
  split
  · have d := hrec.run self st false DEFINITION h0 hs
    generalize rec.expr self st false true DEFINITION = r at d
    obtain ⟨out, s⟩ := r
    cases out with
    | error x => exact d
    | ok b => exact DryOK.ok d.1 _
  · exact DryOK.err hs _ rfl

theorem lambdaLiteral_dry (rec : Interp) (hrec : DryRec rec) (self : Nat) (st : St) (h0 : Heap)
    (hs : SameVars h0 st.h) :
    DryOK h0 (lambdaLiteral rec self st true).1 (lambdaLiteral rec self st true).2.h := by
  unfold lambdaLiteral
  split
  · rename_i x hx
    exact DryOK.err hs _ (by simp [skipWhite_error _ _ hx])
  · rename_i b hb
    have d := hrec.run self { st with p := b } false STATEMENT h0 hs
    generalize rec.expr self { st with p := b } false true STATEMENT = r at d
    obtain ⟨out, s⟩ := r
    cases out with
    | error x => exact d
    | ok b => exact DryOK.ok d.1 _

theorem ifStatement_dry (rec : Interp) (hrec : DryRec rec) (self : Nat) (st : St) (h0 : Heap)
    (hs : SameVars h0 st.h) :
    DryOK h0 (ifStatement rec self st true).1 (ifStatement rec self st true).2.h := by
  unfold ifStatement
  split
  · rename_i p1 hp
    have dc := termExpr_dry rec hrec self { p := p1, v := (false, []), h := st.h } false ARGUMENT 41
      h0 hs
    generalize termExpr rec self { p := p1, v := (false, []), h := st.h } false true ARGUMENT 41 = c
      at dc
    obtain ⟨cout, cs⟩ := c
    cases cout with
    | error x => exact dc
    | ok b =>
      simp only [if_true, Bool.true_or]
      have dt := hrec.run self { p := cs.p, v := st.v, h := cs.h } false BODY h0 dc.1
      generalize rec.expr self { p := cs.p, v := st.v, h := cs.h } false true BODY = t at dt
      obtain ⟨tout, ts⟩ := t
      cases tout with
      | error x => exact dt
      | ok b2 =>
        simp only []
        split
        · split
          · rename_i x hx
            exact DryOK.err dt.1 _ (token_error _ _ x hx)
          · rename_i p2 hp2
            have df := hrec.run self { ts with p := p2 } false BODY h0 dt.1
            generalize rec.expr self { ts with p := p2 } false true BODY = f at df
            obtain ⟨fout, fs⟩ := f
            cases fout with
            | error x => exact df
            | ok b3 => exact DryOK.ok df.1 _
          · exact DryOK.ok dt.1 _
        · exact DryOK.ok dt.1 _
  · exact DryOK.err hs _ rfl

theorem tickIf_false (rec : Interp) (self : Nat) (p : Str) (v : XValue) (thres : Precedence)
    (exit : Bool) (h : Heap) : tickIf rec self false p v thres exit h = (.ok (), h) := by
  simp [tickIf]

theorem forStatement_dry (rec : Interp) (hrec : DryRec rec) (self : Nat) (st : St) (h0 : Heap)
    (hs : SameVars h0 st.h) :
    DryOK h0 (forStatement rec self st true).1 (forStatement rec self st true).2.h := by
  unfold forStatement
  split
  · rename_i p1 hp
    have di := termExpr_dry rec hrec self { p := p1, v := (false, []), h := st.h } true ARGUMENT 59
      h0 hs
    generalize termExpr rec self { p := p1, v := (false, []), h := st.h } true true ARGUMENT 59 = i
      at di
    obtain ⟨iout, is⟩ := i
    cases iout with
    | error x => exact di
    | ok b =>
      simp only []
      have dc := termExpr_dry rec hrec self is true ARGUMENT 59 h0 di.1
      generalize termExpr rec self is true true ARGUMENT 59 = c at dc
      obtain ⟨cout, cs⟩ := c
      cases cout with
      | error x => exact dc
      | ok b1 =>
        simp only []
        have dst := termExpr_dry rec hrec self cs true ARGUMENT 41 h0 dc.1
        generalize termExpr rec self cs true true ARGUMENT 41 = s at dst
        obtain ⟨sout, ss⟩ := s
        cases sout with
        | error x => exact dst
        | ok b2 =>
          simp only [if_true]
          have db := hrec.run self { p := ss.p, v := st.v, h := ss.h } true BODY h0 dst.1
          generalize rec.expr self { p := ss.p, v := st.v, h := ss.h } true true BODY = bd at db
          obtain ⟨bout, bs⟩ := bd
          cases bout with
          | error x => exact db
          | ok b3 =>
            simp only [Bool.not_true, tickIf_false]
            exact DryOK.ok db.1 _
  · exact DryOK.err hs _ rfl

theorem DryRes.ite {h0 : Heap} {c : Prop} [Decidable c] {a b : Res}
    (ha : c → DryRes h0 a) (hb : ¬ c → DryRes h0 b) : DryRes h0 (if c then a else b) := by
  split
  · exact ha ‹_›
  · exact hb ‹_›

theorem DryRes.of_termExpr (rec : Interp) (hrec : DryRec rec) (self : Nat) (st : St)
    (emptyOk : Bool) (thres : Precedence) (term : Nat) (h0 : Heap) (hs : SameVars h0 st.h) :
    DryRes h0
      (match (termExpr rec self st emptyOk true thres term).1 with
       | .error x => (.error x, (termExpr rec self st emptyOk true thres term).2)
       | .ok _ => (.ok true, (termExpr rec self st emptyOk true thres term).2)) := by
  have d := termExpr_dry rec hrec self st emptyOk thres term h0 hs
  generalize termExpr rec self st emptyOk true thres term = r at d
  obtain ⟨out, s⟩ := r
  cases out with
  | error x => exact d
  | ok b => exact DryOK.ok d.1 _

theorem DryRes.token {h0 : Heap} {st : St} (p tok : Str) (hs : SameVars h0 st.h)
    (yes no : Str → Res) (hyes : ∀ p2, DryRes h0 (yes p2)) (hno : ∀ p2, DryRes h0 (no p2)) :
    DryRes h0
      (match token p tok with
       | .error x => (.error x, { st with p := [] })
       | .ok (true, p2) => yes p2
       | .ok (false, p2) => no p2) := by
  split
  · rename_i x hx
    exact DryOK.err hs _ (token_error _ _ x hx)
  · exact hyes _
  · exact hno _

theorem pre_dry {D : Type} (env : Env D) (rec : Interp) (hrec : DryRec rec) (self : Nat)
    (st : St) (h0 : Heap) (hs : SameVars h0 st.h) : DryRes h0 (pre env rec self st true) := by
  have hsym : ∀ (b : Str) (s : St), s.h = st.h → DryRes h0 (symbolTail b s true) :=
    fun b s e => symbolTail_dry b s true h0 (e ▸ hs)
  have hpfx : ∀ (s : St) (rest : Str) (live : XValue → Heap → Except Xception XValue × Heap),
      s.h = st.h → DryRes h0 (prefixOp rec self s true rest live) :=
    fun s rest live e => prefixOp_dry rec hrec self s rest live h0 (e ▸ hs)
  have hnum : ∀ (b : Str) (s : St), s.h = st.h → DryRes h0 (numericLiteral env b s true) :=
    fun b s e => numericLiteral_dry env b s h0 (e ▸ hs)
  have htok : ∀ (p tok : Str) (yes no : Str → Res), (∀ p2, DryRes h0 (yes p2)) →
      (∀ p2, DryRes h0 (no p2)) →
      DryRes h0
        (match token p tok with
         | .error x => (.error x, { st with p := [] })
         | .ok (true, p2) => yes p2
         | .ok (false, p2) => no p2) :=
    fun p tok yes no hy hn => DryRes.token p tok hs yes no hy hn
  unfold pre
  split
  · exact DryOK.ok hs _
  · rename_i c p1 hp
    apply DryRes.ite
    · intro _
      exact DryOK.ok hs _
    intro _
    apply DryRes.ite
    · intro _
      exact hpfx _ _ _ rfl
    intro _
    apply DryRes.ite
    · intro _
      exact hpfx _ _ _ rfl
    intro _
    apply DryRes.ite
    · intro _
      exact DryRes.of_termExpr rec hrec self { st with p := p1 } false BRACKETS 41 h0 hs
    intro _
    apply DryRes.ite
    · intro _
      apply hsym
      split <;> rfl
    intro _
    apply DryRes.ite
    · intro _
      exact hsym _ _ rfl
    intro _
    apply DryRes.ite
    · intro _
      exact hpfx _ _ _ rfl
    intro _
    apply DryRes.ite
    · intro _
      have d := termExpr_dry rec hrec self { st with p := p1 } false BRACKETS 93 h0 hs
      generalize termExpr rec self { st with p := p1 } false true BRACKETS 93 = r at d
      obtain ⟨out, s⟩ := r
      cases out with
      | error x => exact d
      | ok b => exact DryOK.ok d.1 _
    intro _
    apply DryRes.ite
    · intro _
      exact DryOK.ok hs _
    intro _
    apply DryRes.ite
    · intro _
      split
      · rename_i x hx
        exact DryOK.err hs _ (by simp [unescape_error _ _ hx])
      · exact DryOK.ok hs _
    intro _
    apply DryRes.ite
    · intro _
      exact htok _ _ _ _ (fun _ => DryOK.err hs _ rfl) (fun _ => hsym _ _ rfl)
    intro _
    apply DryRes.ite
    · intro _
      exact htok _ _ _ _ (fun _ => DryOK.ok hs _) (fun _ => hsym _ _ rfl)
    intro _
    apply DryRes.ite
    · intro _
      exact htok _ _ _ _ (fun _ => DryOK.ok hs _) (fun _ => hsym _ _ rfl)
    intro _
    apply DryRes.ite
    · intro _
      exact lambdaLiteral_dry rec hrec self { st with p := p1 } h0 hs
    intro _
    apply DryRes.ite
    · intro _
      exact compoundLoop_dry rec hrec self _ st h0 hs
    intro _
    apply DryRes.ite
    · intro _
      refine htok _ _ _ _ (fun _ => hnum _ _ rfl) (fun _ => ?_)
      split
      · exact DryOK.ok hs _
      · apply DryRes.ite (fun _ => hpfx _ _ _ rfl)
        intro _
        apply DryRes.ite
        · intro _
          exact hpfx _ _ _ rfl
        intro _
        exact hnum _ _ rfl
    intro _
    apply DryRes.ite
    · intro _
      apply DryRes.ite
      · intro _
        exact hnum _ _ rfl
      intro _
      exact DryOK.ok hs _
    intro _
    apply DryRes.ite
    · intro _
      refine htok _ _ _ _ (fun _ => DryOK.ok hs _) (fun _ => ?_)
      refine htok _ _ _ _ (fun p2 => forStatement_dry rec hrec self { st with p := p2 } h0 hs)
        (fun _ => ?_)
      exact htok _ _ _ _ (fun p2 => functionLiteral_dry rec hrec self { st with p := p2 } h0 hs)
        (fun _ => hsym _ _ rfl)
    intro _
    apply DryRes.ite
    · intro _
      split
      · exact hsym _ _ rfl
      · exact htok _ _ _ _ (fun p2 => ifStatement_dry rec hrec self { st with p := p2 } h0 hs)
          (fun _ => hsym _ _ rfl)
    intro _
    exact hsym _ _ rfl

theorem storeRootData_core (h : Heap) (root : Nat) (rd : RootData) :
    (storeRootData h root rd).map Frame.core = h.map Frame.core := by
  unfold storeRootData
  cases hf : h[root]? with
  | none => rfl
  | some fr =>
    simp only []
    apply List.ext_getElem?
    intro i
    simp only [List.getElem?_map, List.getElem?_set]
    by_cases hi : root = i
    · subst hi
      have hlt : root < h.length := (List.getElem?_eq_some_iff.mp hf).1
      simp [hlt, hf, Frame.core]
    · simp [hi]

theorem newFrame_error (h : Heap) (vars : VarSpace) (previous : Nat) (x : Xception)
    (hx : newFrame h vars previous = .error x) : x.isFault = true := by
  unfold newFrame at hx
  repeat' split at hx
  all_goals first
    | (simp only [Except.error.injEq] at hx; subst hx; rfl)
    | cases hx

theorem newFrame_sameVars (h h1 h2 : Heap) (vars : VarSpace) (previous callee : Nat)
    (hn : newFrame h vars previous = .ok (callee, h1)) (hs : SameVars h1 h2) :
    SameVars h (deleteFrame h2 callee) := by
  unfold newFrame at hn
  repeat' split at hn
  all_goals first
    | cases hn; done
    | skip
  simp only [Except.ok.injEq, Prod.mk.injEq] at hn
  obtain ⟨hc, hh⟩ := hn
  subst hc
  subst hh
  have hlen : ∀ r rd, (storeRootData h r rd).length = (h.map Frame.core).length := by
    intro r rd
    rw [← storeRootData_core h r rd, List.length_map]
  unfold SameVars deleteFrame at *
  rw [List.map_take, ← hs, List.map_append, storeRootData_core, hlen]
  exact (List.take_left' rfl).symm

theorem argsLoop_dry (rec : Interp) (hrec : DryRec rec) (self callee : Nat) (h0 : Heap) :
    ∀ (fuel n : Nat) (p : Str) (h : Heap), SameVars h0 h →
      DryOK h0 (argsLoop rec self callee true fuel n p h).1
        (argsLoop rec self callee true fuel n p h).2.2 := by
  intro fuel
  induction fuel with
  | zero =>
    intro n p h hs
    exact DryOK.err hs _ rfl
  | succ fuel ih =>
    intro n p h hs
    unfold argsLoop
    split
    · rename_i x hx
      exact DryOK.err hs _ (by simp [skipWhite_error _ _ hx])
    · rename_i p1 hp1
      split
      · exact DryOK.ok hs _
      · have d := hrec.run self { p := p1, v := (false, []), h := h } true ARGUMENT h0 hs
        generalize rec.expr self { p := p1, v := (false, []), h := h } true true ARGUMENT = r at d
        obtain ⟨out, s⟩ := r
        cases out with
        | error x =>
          dsimp only at d ⊢
          exact DryOK.err_of d rfl
        | ok got =>
          simp only [Bool.not_true, Bool.and_false, Bool.false_eq_true, if_false]
          split
          · exact ih _ _ _ d.1
          · exact DryOK.ok d.1 _

theorem callPostfix_dry {D : Type} (env : Env D) (rec : Interp) (hrec : DryRec rec) (self : Nat)
    (st : St) (h0 : Heap) (hs : SameVars h0 st.h) :
    DryRes h0 (callPostfix env rec self st true) := by
  unfold callPostfix
  split
  · rename_i x hx
    exact DryOK.err hs _ (by simp [newFrame_error _ _ _ x hx])
  · rename_i callee h1 hn
    have d := argsLoop_dry rec hrec self callee h1 (st.p.length + 1) 0 st.p h1 (SameVars.refl h1)
    generalize argsLoop rec self callee true (st.p.length + 1) 0 st.p h1 = a at d
    obtain ⟨out, p2, h2⟩ := a
    have hback : SameVars h0 (deleteFrame h2 callee) :=
      sameVars_trans hs (newFrame_sameVars st.h h1 h2 env.locals self callee hn d.1)
    cases out with
    | error x =>
      dsimp only at d ⊢
      exact DryOK.err hback _ (d.2 x rfl)
    | ok n =>
      simp only []
      split
      · exact DryOK.ok hback _
      · exact DryOK.err hback _ rfl

theorem substringPostfix_dry (rec : Interp) (hrec : DryRec rec) (self : Nat) (st : St)
    (p1 : Str) (h0 : Heap) (hs : SameVars h0 st.h) :
    DryRes h0 (substringPostfix rec self st true p1) := by
  unfold substringPostfix
  have d := hrec.run self { p := p1, v := (false, []), h := st.h } true BRACKETS h0 hs
  generalize rec.expr self { p := p1, v := (false, []), h := st.h } true true BRACKETS = r at d
  obtain ⟨out, s⟩ := r
  cases out with
  | error x =>
    dsimp only at d ⊢
    exact d
  | ok got =>
    dsimp only at d ⊢
    split
    · exact DryOK.err d.1 _ rfl
    · rename_i c p2 hp
      apply DryRes.ite
      · intro _
        exact DryOK.err d.1 _ rfl
      intro _
      apply DryRes.ite
      · intro _
        have dc := termExpr_dry rec hrec self { p := p2, v := (false, []), h := s.h } true BRACKETS
          125 h0 d.1
        generalize termExpr rec self { p := p2, v := (false, []), h := s.h } true true BRACKETS 125 =
          cnt at dc
        obtain ⟨cout, cs⟩ := cnt
        cases cout with
        | error x =>
          dsimp only at dc ⊢
          exact dc
        | ok gotCount =>
          dsimp only at dc ⊢
          exact DryOK.ok dc.1 _
      intro _
      simp only [Bool.not_true, Bool.and_false, Bool.false_eq_true, if_false]
      exact DryOK.ok d.1 _

theorem assignPostfix_dry (rec : Interp) (hrec : DryRec rec) (self : Nat) (st : St) (h0 : Heap)
    (hs : SameVars h0 st.h) : DryRes h0 (assignPostfix rec self st true) := by
  unfold assignPostfix
  have d := hrec.run self { p := st.p.drop 1, v := (false, []), h := st.h } false ASSIGN h0 hs
  generalize rec.expr self { p := st.p.drop 1, v := (false, []), h := st.h } false true ASSIGN = r
    at d
  obtain ⟨out, s⟩ := r
  cases out with
  | error x =>
    dsimp only at d ⊢
    exact d
  | ok b =>
    dsimp only at d ⊢
    exact DryOK.ok d.1 _

theorem logicalPostfix_dry (rec : Interp) (hrec : DryRec rec) (self : Nat) (st : St)
    (isAnd : Bool) (h0 : Heap) (hs : SameVars h0 st.h) :
    DryRes h0 (logicalPostfix rec self st true isAnd) := by
  unfold logicalPostfix
  simp only [if_true]
  apply DryRes.ite
  · intro _
    exact DryOK.err hs _ rfl
  intro _
  have hdry : (if isAnd = true then !(!isAnd) else !isAnd) = true := by
    cases isAnd <;> rfl
  rw [hdry]
  have d := hrec.run self { p := st.p.drop 2, v := st.v, h := st.h } false
    (if isAnd = true then LOGICAL_AND else LOGICAL_OR) h0 hs
  generalize rec.expr self { p := st.p.drop 2, v := st.v, h := st.h } false true
    (if isAnd = true then LOGICAL_AND else LOGICAL_OR) = r at d
  obtain ⟨out, s⟩ := r
  cases out with
  | error x =>
    dsimp only at d ⊢
    exact d
  | ok b =>
    dsimp only at d ⊢
    exact DryOK.ok d.1 _

theorem memberPostfix_dry (st : St) (p1 : Str) (h0 : Heap) (hs : SameVars h0 st.h) :
    DryRes h0 (memberPostfix st true p1) := by
  unfold memberPostfix
  split
  · rename_i x hx
    exact DryOK.err hs _ (by simp [skipWhite_error _ _ hx])
  · exact DryOK.ok hs _

theorem subscriptPostfix_dry (rec : Interp) (hrec : DryRec rec) (self : Nat) (st : St)
    (p1 : Str) (h0 : Heap) (hs : SameVars h0 st.h) :
    DryRes h0 (subscriptPostfix rec self st true p1) := by
  unfold subscriptPostfix
  have d := termExpr_dry rec hrec self { p := p1, v := (false, []), h := st.h } false BRACKETS 93
    h0 hs
  generalize termExpr rec self { p := p1, v := (false, []), h := st.h } false true BRACKETS 93 = r
    at d
  obtain ⟨out, s⟩ := r
  cases out with
  | error x =>
    dsimp only at d ⊢
    exact d
  | ok b =>
    dsimp only at d ⊢
    exact DryOK.ok d.1 _

theorem post_dry {D : Type} (env : Env D) (rec : Interp) (hrec : DryRec rec) (self : Nat)
    (st : St) (thres : Precedence) (h0 : Heap) (hs : SameVars h0 st.h) :
    DryRes h0 (post env rec self st true thres) := by
  have hasg : ∀ (hop : Nat) (prec : Precedence) (op : Opr),
      DryRes h0 (assignableOp env rec self st true thres hop prec op) :=
    fun hop prec op => assignableOp_dry env rec hrec self st thres hop prec op h0 hs
  have hbin : ∀ (hop : Nat) (prec : Precedence) (op : Opr),
      DryRes h0 (binaryOp env rec self st true thres hop prec op) :=
    fun hop prec op => binaryOp_dry env rec hrec self st thres hop prec op h0 hs
  have hno : DryRes h0 (.ok false, st) := DryOK.ok hs _
  unfold post
  split
  · exact hno
  · rename_i c p1 hp
    apply DryRes.ite
    · intro _
      exact hno
    intro _
    apply DryRes.ite
    · intro _
      apply DryRes.ite
      · intro _
        exact DryOK.ok hs _
      intro _
      exact hno
    intro _
    apply DryRes.ite
    · intro _
      apply DryRes.ite
      · intro _
        split
        · rename_i x hx
          exact DryOK.err hs _ (by simp [whiteLoop_error _ _ x hx])
        · exact DryOK.ok hs _
      intro _
      exact hasg _ _ _
    intro _
    apply DryRes.ite
    · intro _
      exact addSubOp_dry env rec hrec self st thres _ h0 hs
    intro _
    apply DryRes.ite
    · intro _
      exact addSubOp_dry env rec hrec self st thres _ h0 hs
    intro _
    apply DryRes.ite
    · intro _
      exact hasg _ _ _
    intro _
    apply DryRes.ite
    · intro _
      exact hasg _ _ _
    intro _
    apply DryRes.ite
    · intro _
      exact hasg _ _ _
    intro _
    apply DryRes.ite
    · intro _
      exact hasg _ _ _
    intro _
    apply DryRes.ite
    · intro _
      exact hasg _ _ _
    intro _
    apply DryRes.ite
    · intro _
      exact lgtOp_dry env rec hrec self st thres _ _ _ h0 hs
    intro _
    apply DryRes.ite
    · intro _
      exact lgtOp_dry env rec hrec self st thres _ _ _ h0 hs
    intro _
    apply DryRes.ite
    · intro _
      apply DryRes.ite
      · intro _
        exact hbin _ _ _
      intro _
      apply DryRes.ite
      · intro _
        exact hbin _ _ _
      intro _
      exact hno
    intro _
    apply DryRes.ite
    · intro _
      apply DryRes.ite
      · intro _
        exact hbin _ _ _
      intro _
      apply DryRes.ite
      · intro _
        exact hbin _ _ _
      intro _
      apply DryRes.ite
      · intro _
        exact assignPostfix_dry rec hrec self st h0 hs
      intro _
      exact hno
    intro _
    apply DryRes.ite
    · intro _
      apply DryRes.ite
      · intro _
        exact hasg _ _ _
      intro _
      apply DryRes.ite
      · intro _
        exact logicalPostfix_dry rec hrec self st true h0 hs
      intro _
      exact hno
    intro _
    apply DryRes.ite
    · intro _
      apply DryRes.ite
      · intro _
        exact hasg _ _ _
      intro _
      apply DryRes.ite
      · intro _
        exact logicalPostfix_dry rec hrec self st false h0 hs
      intro _
      exact hno
    intro _
    apply DryRes.ite
    · intro _
      exact memberPostfix_dry st p1 h0 hs
    intro _
    apply DryRes.ite
    · intro _
      apply DryRes.ite
      · intro _
        exact subscriptPostfix_dry rec hrec self st p1 h0 hs
      intro _
      exact hno
    intro _
    apply DryRes.ite
    · intro _
      apply DryRes.ite
      · intro _
        exact substringPostfix_dry rec hrec self st p1 h0 hs
      intro _
      exact hno
    intro _
    apply DryRes.ite
    · intro _
      apply DryRes.ite
      · intro _
        exact callPostfix_dry env rec hrec self st h0 hs
      intro _
      exact hno
    intro _
    exact hno

theorem postLoop_dry {D : Type} (env : Env D) (rec : Interp) (hrec : DryRec rec) (self : Nat)
    (thres : Precedence) (h0 : Heap) :
    ∀ (n : Nat) (st : St), SameVars h0 st.h → DryRes h0 (postLoop env rec self true thres n st) := by
  intro n
  induction n with
  | zero =>
    intro st hs
    exact DryOK.err hs _ rfl
  | succ n ih =>
    intro st hs
    have d := post_dry env rec hrec self st thres h0 hs
    unfold postLoop
    generalize post env rec self st true thres = r at d
    obtain ⟨out, s⟩ := r
    cases out with
    | error x =>
      dsimp only at d ⊢
      exact d
    | ok b =>
      dsimp only at d ⊢
      cases b with
      | true => exact ih s d.1
      | false => exact DryOK.ok d.1 _

theorem exprBody_dry {D : Type} (env : Env D) (rec : Interp) (hrec : DryRec rec) :
    DryRec { fuel := rec.fuel + 1, expr := exprBody env rec, execute := executeBody env rec,
             call := callBody env rec } := by
  intro self st emptyOk thres
  show DryRes st.h (exprBody env rec self st emptyOk true thres)
  unfold exprBody
  split
  · rename_i x hx
    exact DryOK.err (SameVars.refl _) _ (by simp [skipWhite_error _ _ hx])
  · rename_i p1 hp1
    simp only [Bool.not_true, tickIf_false]
    have d := pre_dry env rec hrec self { st with p := p1 } st.h (SameVars.refl _)
    generalize pre env rec self { st with p := p1 } true = r at d
    obtain ⟨out, s⟩ := r
    cases out with
    | error x =>
      dsimp only at d ⊢
      exact d
    | ok b =>
      dsimp only at d ⊢
      cases b with
      | true =>
        dsimp only
        have dl := postLoop_dry env rec hrec self thres st.h (s.p.length + 1) s d.1
        generalize postLoop env rec self true thres (s.p.length + 1) s = l at dl
        obtain ⟨lout, ls⟩ := l
        cases lout with
        | error x =>
          dsimp only at dl ⊢
          exact dl
        | ok b2 =>
          dsimp only at dl ⊢
          exact DryOK.ok dl.1 _
      | false =>
        dsimp only
        split
        · exact DryOK.err d.1 _ rfl
        · exact DryOK.ok d.1 _

/-- In dry mode the routine `expr` changes no variable and throws no exception but
those of the syntax. -/
theorem interp_dryRec {D : Type} (env : Env D) : ∀ n, DryRec (interp env n) := by
  intro n
  induction n with
  | zero =>
    intro self st emptyOk thres
    exact DryOK.err (SameVars.refl _) _ rfl
  | succ n ih =>
    have h := exprBody_dry env (interp env n) ih
    intro self st emptyOk thres
    exact h self st emptyOk thres

theorem not_lookup_of_parse (x : Xception) (hx : (x.isParseError || x.isFault) = true) :
    x.isLookupOrConversion = false := by
  cases x <;> first | rfl | (simp [Xception.isParseError, Xception.isFault] at hx)

theorem post_logical {D : Type} (env : Env D) (rec : Interp) (self : Nat) (st : St) (c : Nat)
    (p2 : Str) (thres : Precedence) (hc : c = 38 ∨ c = 124) (hp : st.p = c :: c :: p2)
    (hthres : thres < (if c = 38 then LOGICAL_AND else LOGICAL_OR)) :
    post env rec self st false thres = logicalPostfix rec self st false (decide (c = 38)) := by
  unfold post
  rw [hp]
  rcases hc with rfl | rfl
  · simp only [if_true] at hthres
    simp [hthres]
  · have h2 : thres < LOGICAL_OR := hthres
    simp [h2]

/-- C16: the short circuit of `&&` and `||` in `Frame::post`, live, with `p` at
the operator and the left operand in `v`.  When the left operand of `&&`
converts to false, the right operand is parsed by `expr` in dry mode only, and
when that parse returns the result is the rvalue `false`; the dry parse leaves
every variable as it was and throws no exception of a lookup or of a
conversion.  Symmetrically, when the left operand of `||` converts to true, the
right operand is parsed dry only and the result is the rvalue `true`. -/
theorem logical_shortCircuit {D : Type} (env : Env D) (n : Nat) (self : Nat) (st : St)
    (p2 : Str) (thres : Precedence) (h1 : Heap) :
    (st.p = 38 :: 38 :: p2 → thres < LOGICAL_AND →
        rvalueBool st.h self st.v = (.ok false, h1) →
        post env (interp env n) self st false thres =
            (match ((interp env n).expr self { p := p2, v := st.v, h := h1 } false true
                LOGICAL_AND).1 with
             | .error x =>
               (.error x, ((interp env n).expr self { p := p2, v := st.v, h := h1 } false true
                 LOGICAL_AND).2)
             | .ok _ =>
               (.ok true,
                 { ((interp env n).expr self { p := p2, v := st.v, h := h1 } false true
                     LOGICAL_AND).2 with v := (false, ofBool false) })) ∧
          SameVars h1
            ((interp env n).expr self { p := p2, v := st.v, h := h1 } false true LOGICAL_AND).2.h ∧
          ∀ x, ((interp env n).expr self { p := p2, v := st.v, h := h1 } false true
              LOGICAL_AND).1 = .error x → x.isLookupOrConversion = false) ∧
      (st.p = 124 :: 124 :: p2 → thres < LOGICAL_OR →
        rvalueBool st.h self st.v = (.ok true, h1) →
        post env (interp env n) self st false thres =
            (match ((interp env n).expr self { p := p2, v := st.v, h := h1 } false true
                LOGICAL_OR).1 with
             | .error x =>
               (.error x, ((interp env n).expr self { p := p2, v := st.v, h := h1 } false true
                 LOGICAL_OR).2)
             | .ok _ =>
               (.ok true,
                 { ((interp env n).expr self { p := p2, v := st.v, h := h1 } false true
                     LOGICAL_OR).2 with v := (false, ofBool true) })) ∧
          SameVars h1
            ((interp env n).expr self { p := p2, v := st.v, h := h1 } false true LOGICAL_OR).2.h ∧
          ∀ x, ((interp env n).expr self { p := p2, v := st.v, h := h1 } false true
              LOGICAL_OR).1 = .error x → x.isLookupOrConversion = false) := by
  have hdry := interp_dryRec env n
  refine ⟨?_, ?_⟩
  · intro hp hthres hfalse
    have d := hdry self { p := p2, v := st.v, h := h1 } false LOGICAL_AND
    refine ⟨?_, d.1, fun x hx => not_lookup_of_parse x (d.2 x hx)⟩
    rw [post_logical env (interp env n) self st 38 p2 thres (Or.inl rfl) hp (by simpa using hthres)]
    simp only [logicalPostfix, hp, hfalse, decide_True, if_true, Bool.false_eq_true, if_false,
      List.length_cons, List.drop_succ_cons, List.drop_zero, Bool.not_false]
    have hlen : ¬ (p2.length + 1 + 1 < 2) := by omega
    simp only [hlen, if_false]
    cases ((interp env n).expr self { p := p2, v := st.v, h := h1 } false true LOGICAL_AND).1 <;> simp
  · intro hp hthres htrue
    have d := hdry self { p := p2, v := st.v, h := h1 } false LOGICAL_OR
    refine ⟨?_, d.1, fun x hx => not_lookup_of_parse x (d.2 x hx)⟩
    rw [post_logical env (interp env n) self st 124 p2 thres (Or.inr rfl) hp (by simpa using hthres)]
    have hdec : decide ((124 : Nat) = 38) = false := by decide
    simp only [logicalPostfix, hp, htrue, hdec, Bool.false_eq_true, if_false,
      List.length_cons, List.drop_succ_cons, List.drop_zero]
    have hlen : ¬ (p2.length + 1 + 1 < 2) := by omega
    simp only [hlen, if_false]
    cases ((interp env n).expr self { p := p2, v := st.v, h := h1 } false true LOGICAL_OR).1 <;> simp

set_option maxRecDepth 100000 in
/-- An instance of C16: with `false` on the left, `&& undefinedVariable` gives
`false`, although no variable `undefinedVariable` exists. -/
theorem logical_shortCircuit_witness :
    post stdEnv (interp stdEnv 3) 0
        { p := str "&& undefinedVariable", v := (false, str "false"), h := stdRoot } false STATEMENT =
      (.ok true, { p := [], v := (false, str "false"), h := stdRoot }) :=
  ((logical_shortCircuit stdEnv 3 0
      { p := str "&& undefinedVariable", v := (false, str "false"), h := stdRoot }
      (str " undefinedVariable") STATEMENT stdRoot).1 (by decide) (by decide) (by decide)).1.trans
    (by decide)

set_option maxRecDepth 100000 in
/-- The short circuit in whole programs: the right operand of `&&` after false and
of `||` after true is not evaluated, so that an undefined variable there is no
error and an assignment there does not happen; after true the right operand of
`&&` is evaluated. -/
theorem shortCircuit_examples :
    (evaluate stdEnv 8 0 (str "false && undefinedVariable") stdRoot).1 = .ok (str "false") ∧
      (evaluate stdEnv 8 0 (str "true || undefinedVariable") stdRoot).1 = .ok (str "true") ∧
      (evaluate stdEnv 8 0 (str "x = 1; false && (x = 5); x") stdRoot).1 = .ok (str "1") ∧
      (evaluate stdEnv 8 0 (str "x = 1; true || (x = 5); x") stdRoot).1 = .ok (str "1") ∧
      (evaluate stdEnv 8 0 (str "true && undefinedVariable") stdRoot).1 =
        .error (.undefined (str "undefinedVariable")) ∧
      (evaluate stdEnv 8 0 (str "x = 1; true && ((x = 5) == 5); x") stdRoot).1 = .ok (str "5") := by
  decide

/-! ### Frame labels: the frames of a heap (C14) -/

theorem labelInv_of_fields {r r1 : RootData} {ds : Str} (hinv : LabelInv r ds)
    (ha : r1.autoLabel = r.autoLabel) (hb : r1.autoLabelStart = r.autoLabelStart) :
    LabelInv r1 ds :=
  ⟨ha ▸ hinv.buf, hb ▸ hinv.start, hinv.len, hinv.chars⟩

theorem labelsOrdered_newRoot (vars : VarSpace) : LabelsOrdered (newRoot vars) := by
  refine ⟨[], ⟨_, RootData.init, rfl, rfl, labelInv_init⟩, ?_, ?_⟩
  · intro i fr hi
    cases i with
    | zero =>
      simp only [newRoot, List.getElem?_cons_zero, Option.some.injEq] at hi
      subst hi
      exact ⟨rfl, fun p hp => (by cases hp), Or.inl rfl⟩
    | succ i => simp [newRoot] at hi
  · intro i j fi fj hij hi hj
    cases j with
    | zero => omega
    | succ j => simp [newRoot] at hj

theorem getElem?_ident {h h1 : Heap} (he : h1.map Frame.ident = h.map Frame.ident) (i : Nat) :
    (h1[i]?).map Frame.ident = (h[i]?).map Frame.ident := by
  have := congrArg (fun l => l[i]?) he
  simpa [List.getElem?_map] using this

theorem ident_exists {h h1 : Heap} (he : h1.map Frame.ident = h.map Frame.ident) (i : Nat)
    (fr1 : Frame) (hi : h1[i]? = some fr1) : ∃ fr, h[i]? = some fr ∧ fr1.ident = fr.ident := by
  have hm := getElem?_ident he i
  rw [hi] at hm
  cases hf : h[i]? with
  | none => rw [hf] at hm; simp at hm
  | some fr =>
    rw [hf] at hm
    simp only [Option.map_some', Option.some.injEq] at hm
    exact ⟨fr, rfl, hm⟩

theorem ident_fields {fr1 fr : Frame} (he : fr1.ident = fr.ident) :
    fr1.label = fr.label ∧ fr1.previous = fr.previous ∧ fr1.root = fr.root ∧
      fr1.rootData.map (fun rd => (rd.autoLabel, rd.autoLabelStart)) =
        fr.rootData.map (fun rd => (rd.autoLabel, rd.autoLabelStart)) := by
  simp only [Frame.ident, Prod.mk.injEq] at he
  exact he

theorem labelsOrdered_update {h h1 : Heap} (he : h1.map Frame.ident = h.map Frame.ident)
    (ho : LabelsOrdered h) : LabelsOrdered h1 := by
  obtain ⟨ds, ⟨rt, rd, h0, hrd, hinv⟩, hall, hpair⟩ := ho
  have hsym : h.map Frame.ident = h1.map Frame.ident := he.symm
  refine ⟨ds, ?_, ?_, ?_⟩
  · obtain ⟨rt1, h10, hid⟩ := ident_exists hsym 0 rt h0
    obtain ⟨_, _, _, hr⟩ := ident_fields hid
    rw [hrd] at hr
    cases hrd1 : rt1.rootData with
    | none => rw [hrd1] at hr; simp at hr
    | some rd1 =>
      rw [hrd1] at hr
      simp only [Option.map_some', Option.some.injEq, Prod.mk.injEq] at hr
      exact ⟨rt1, rd1, h10, hrd1, labelInv_of_fields hinv hr.1.symm hr.2.symm⟩
  · intro i fr1 hi
    obtain ⟨fr, hfr, hid⟩ := ident_exists he i fr1 hi
    obtain ⟨hl, hp, hr, _⟩ := ident_fields hid
    obtain ⟨a, b, c⟩ := hall i fr hfr
    exact ⟨hr ▸ a, fun p hpp => b p (hp ▸ hpp), hl ▸ c⟩
  · intro i j fi fj hij hi hj
    obtain ⟨gi, hgi, hidi⟩ := ident_exists he i fi hi
    obtain ⟨gj, hgj, hidj⟩ := ident_exists he j fj hj
    have := hpair i j gi gj hij hgi hgj
    rw [(ident_fields hidi).1, (ident_fields hidj).1]
    exact this

theorem labelsOrdered_delete {h : Heap} (f : Nat) (hf : 0 < f) (ho : LabelsOrdered h) :
    LabelsOrdered (deleteFrame h f) := by
  obtain ⟨ds, ⟨rt, rd, h0, hrd, hinv⟩, hall, hpair⟩ := ho
  have hget : ∀ (i : Nat) (fr : Frame), (deleteFrame h f)[i]? = some fr → h[i]? = some fr := by
    intro i fr hi
    unfold deleteFrame at hi
    rw [List.getElem?_take] at hi
    split at hi
    · exact hi
    · cases hi
  refine ⟨ds, ⟨rt, rd, ?_, hrd, hinv⟩, ?_, ?_⟩
  · unfold deleteFrame
    rw [List.getElem?_take]
    simp [hf, h0]
  · intro i fr hi
    exact hall i fr (hget i fr hi)
  · intro i j fi fj hij hi hj
    exact hpair i j fi fj hij (hget i fi hi) (hget j fj hj)

theorem storeRootData_get (h : Heap) (r : Nat) (rd : RootData) (i : Nat) :
    (storeRootData h r rd)[i]? =
      (h[i]?).map (fun fr => if i = r then { fr with rootData := some rd } else fr) := by
  unfold storeRootData
  cases hf : h[r]? with
  | none =>
    simp only []
    cases hi : h[i]? with
    | none => rfl
    | some fr =>
      have hne : i ≠ r := by
        intro he
        rw [he, hf] at hi
        exact absurd hi (by simp)
      simp [hne]
  | some fr0 =>
    simp only [List.getElem?_set]
    by_cases he : r = i
    · subst he
      have hlt : r < h.length := (List.getElem?_eq_some_iff.mp hf).1
      simp [hlt, hf]
    · have he2 : ¬ (i = r) := fun x => he x.symm
      simp only [he, if_false, he2]
      cases h[i]? <;> rfl

theorem storeRootData_length (h : Heap) (r : Nat) (rd : RootData) :
    (storeRootData h r rd).length = h.length := by
  unfold storeRootData
  cases h[r]? with
  | none => rfl
  | some fr => simp

theorem storeRootData_old (h : Heap) (r : Nat) (rd : RootData) (i : Nat) (fr1 : Frame)
    (hi : (storeRootData h r rd)[i]? = some fr1) :
    ∃ fr, h[i]? = some fr ∧ fr1.label = fr.label ∧ fr1.previous = fr.previous ∧
      fr1.root = fr.root := by
  rw [storeRootData_get] at hi
  cases hf : h[i]? with
  | none => rw [hf] at hi; simp at hi
  | some fr =>
    rw [hf] at hi
    simp only [Option.map_some', Option.some.injEq] at hi
    subst hi
    refine ⟨fr, rfl, ?_, ?_, ?_⟩ <;> split <;> rfl

theorem labelsOrdered_newFrame {h h1 : Heap} (vars : VarSpace) (previous f : Nat)
    (hn : newFrame h vars previous = .ok (f, h1)) (ho : LabelsOrdered h) : LabelsOrdered h1 := by
  obtain ⟨ds, ⟨rt, rd, h0, hrd, hinv⟩, hall, hpair⟩ := ho
  unfold newFrame at hn
  cases hpf : h[previous]? with
  | none => rw [hpf] at hn; simp at hn
  | some pf =>
    have hroot : pf.root = 0 := (hall previous pf hpf).1
    have hplt : previous < h.length := (List.getElem?_eq_some_iff.mp hpf).1
    rw [hpf] at hn
    simp only [hroot, h0, hrd] at hn
    by_cases hex : ds = List.replicate 29 122
    · rw [hex] at hinv
      rw [generateLabel_exhausted rd hinv] at hn
      simp at hn
    · obtain ⟨ds1, rd1, hgen, hinv1, hlt⟩ := generateLabel_step rd ds hinv hex
      rw [hgen] at hn
      simp only [Except.ok.injEq, Prod.mk.injEq] at hn
      obtain ⟨hf, hh⟩ := hn
      subst hh
      have hlen := storeRootData_length h 0 rd1
      have hpos : 0 < h.length := (List.getElem?_eq_some_iff.mp h0).1
      have hle : ∀ (l : Str), (l = 58 :: ds ++ [58] ∨ ShortLex l (58 :: ds ++ [58])) →
          ShortLex l (58 :: ds1 ++ [58]) := by
        intro l hl
        rcases hl with rfl | hl
        · exact hlt
        · exact hl.trans hlt
      have hsplit : ∀ (i : Nat) (fr1 : Frame),
          (storeRootData h 0 rd1 ++
            [({ vars := vars, root := 0, previous := some previous,
                closure := (storeRootData h 0 rd1).length, label := 58 :: ds1 ++ [58] } : Frame)])[i]? =
              some fr1 →
          (i < h.length ∧ ∃ fr, h[i]? = some fr ∧ fr1.label = fr.label ∧
              fr1.previous = fr.previous ∧ fr1.root = fr.root) ∨
            (i = h.length ∧ fr1.label = 58 :: ds1 ++ [58] ∧ fr1.previous = some previous ∧
              fr1.root = 0) := by
        intro i fr1 hi
        by_cases hil : i < h.length
        · rw [List.getElem?_append_left (by rw [hlen]; exact hil)] at hi
          exact Or.inl ⟨hil, storeRootData_old h 0 rd1 i fr1 hi⟩
        · rw [List.getElem?_append_right (by rw [hlen]; omega), hlen] at hi
          have hi0 : i - h.length = 0 := by
            by_contra hne
            obtain ⟨k, hk⟩ : ∃ k, i - h.length = k + 1 := ⟨i - h.length - 1, by omega⟩
            rw [hk] at hi
            simp at hi
          rw [hi0] at hi
          simp only [List.getElem?_cons_zero, Option.some.injEq] at hi
          subst hi
          exact Or.inr ⟨by omega, rfl, rfl, rfl⟩
      refine ⟨ds1, ?_, ?_, ?_⟩
      · refine ⟨{ rt with rootData := some rd1 }, rd1, ?_, rfl, hinv1⟩
        rw [List.getElem?_append_left (by rw [hlen]; exact hpos), storeRootData_get, h0]
        simp
      · intro i fr1 hi
        rcases hsplit i fr1 hi with ⟨_, fr, hfr, hl, hp, hr⟩ | ⟨hil, hl, hp, hr⟩
        · obtain ⟨a, b, c⟩ := hall i fr hfr
          exact ⟨hr ▸ a, fun p hpp => b p (hp ▸ hpp), Or.inr (hl ▸ hle _ c)⟩
        · refine ⟨hr, ?_, Or.inl hl⟩
          intro p hpp
          rw [hp] at hpp
          simp only [Option.some.injEq] at hpp
          omega
      · intro i j fi fj hij hi hj
        rcases hsplit i fi hi with ⟨hil, gi, hgi, hli, _, _⟩ | ⟨hil, _, _, _⟩
        · rcases hsplit j fj hj with ⟨_, gj, hgj, hlj, _, _⟩ | ⟨_, hlj, _, _⟩
          · rw [hli, hlj]
            exact hpair i j gi gj hij hgi hgj
          · rw [hli, hlj]
            exact hle _ (hall i gi hgi).2.2
        · rcases hsplit j fj hj with ⟨hjl, _⟩ | ⟨hjl, _⟩ <;> omega

theorem labelsOrdered_of_built (h : Heap) (hb : Built h) : LabelsOrdered h := by
  induction hb with
  | root vars => exact labelsOrdered_newRoot vars
  | frame h vars previous f h1 _ hn ih => exact labelsOrdered_newFrame vars previous f hn ih
  | delete h f _ hf ih => exact labelsOrdered_delete f hf ih
  | update h h1 _ he ih => exact labelsOrdered_update he ih

theorem ancestor_lt (h : Heap)
    (hprev : ∀ (i : Nat) (fr : Frame), h[i]? = some fr → ∀ p, fr.previous = some p → p < i) :
    ∀ (k f g : Nat), ancestor h (k + 1) f = some g → g < f := by
  intro k
  induction k with
  | zero =>
    intro f g ha
    unfold ancestor at ha
    cases hf : h[f]? with
    | none => simp [hf] at ha
    | some fr =>
      simp only [hf] at ha
      cases hp : fr.previous with
      | none => simp [hp] at ha
      | some p =>
        simp only [hp] at ha
        simp only [ancestor, Option.some.injEq] at ha
        subst ha
        exact hprev f fr hf p hp
  | succ k ih =>
    intro f g ha
    unfold ancestor at ha
    cases hf : h[f]? with
    | none => simp [hf] at ha
    | some fr =>
      simp only [hf] at ha
      cases hp : fr.previous with
      | none => simp [hp] at ha
      | some p =>
        simp only [hp] at ha
        have := ih p g ha
        have := hprev f fr hf p hp
        omega

/-- C14: the labels of successive calls of `Root::generateLabel` on a new Root
are all different and none is `::`, and a call fails only when the buffer is
exhausted (the label has filled the array and consists of the character `z`
only).  So in every heap the constructors build, the label of a frame differs
from the label of each of its ancestors. -/
theorem generateLabel_unique :
    (∀ (n : Nat) (ls : List Str) (r : RootData),
        generateLabels n RootData.init = some (ls, r) →
        ls.length = n ∧ ls.Nodup ∧ [58, 58] ∉ ls ∧
          (generateLabel r = none ↔ labelExhausted r = true)) ∧
      (∀ (h : Heap), Built h → ∀ (f k g : Nat) (ff fg : Frame),
        h[f]? = some ff → ancestor h (k + 1) f = some g → h[g]? = some fg →
        ff.label ≠ fg.label) := by
  refine ⟨?_, ?_⟩
  · intro n ls r hrun
    obtain ⟨⟨ds1, hinv1⟩, hlen, hall, hpw⟩ :=
      generateLabels_run n RootData.init [] labelInv_init ls r hrun
    refine ⟨hlen, ?_, ?_, generateLabel_none_iff r ds1 hinv1⟩
    · exact hpw.imp (fun hab => ShortLex.ne hab)
    · intro hmem
      exact ShortLex.ne (hall _ hmem) rfl
  · intro h hb f k g ff fg hf ha hg
    obtain ⟨ds, _, hall, hpair⟩ := labelsOrdered_of_built h hb
    have hlt := ancestor_lt h (fun i fr hi => (hall i fr hi).2.1) k f g ha
    exact (ShortLex.ne (hpair g f fg ff hlt hg hf)).symm

/-- An instance of C14: the first three labels are different and none is `::`. -/
theorem generateLabel_unique_witness :
    [[58, 49, 58], [58, 50, 58], [58, 51, 58]].Nodup ∧
      ([58, 58] : Str) ∉ [[58, 49, 58], [58, 50, 58], [58, 51, 58]] :=
  ⟨(generateLabel_unique.1 3 [[58, 49, 58], [58, 50, 58], [58, 51, 58]]
      { RootData.init with autoLabel := List.replicate 29 58 ++ [51, 58, 58], autoLabelStart := 28 }
      (by decide)).2.1,
   (generateLabel_unique.1 3 [[58, 49, 58], [58, 50, 58], [58, 51, 58]]
      { RootData.init with autoLabel := List.replicate 29 58 ++ [51, 58, 58], autoLabelStart := 28 }
      (by decide)).2.2.1⟩

set_option maxRecDepth 100000 in
/-- The labels of frames in a program: a function called from a function sees its
own label `:3:`, the one of its caller `:2:` and the one of the Root; the label
`:1:` went to the frame the dry parse of the call in the definition of `f`
constructed. -/
theorem frame_labels_example :
    (evaluate stdEnv 12 0
        (str "g = function \x7b @x # ' ' # @^x # ' ' # @^^x \x7d; f = function \x7b g() \x7d; f()")
        stdRoot).1 = .ok (str ":3:x :2:x ::x") := by
  decide

/-! ### Integer text (C26, C27) -/

theorem digitTable_getD (d : Nat) (hd : d < 16) : digitTable.getD (15 + d) 0 = digitChar d := by
  interval_cases d <;> rfl

theorem digitTable_mirror (d : Nat) (hd : d < 16) : digitTable.getD (15 - d) 0 = digitChar d := by
  interval_cases d <;> rfl

theorem numeral_zero (r : Nat) : numeral r 0 = [] := by
  simp [numeral]

theorem numeral_step (r v : Nat) (hr : 2 ≤ r) (hv : 0 < v) :
    numeral r v = numeral r (v / r) ++ [digitChar (v % r)] := by
  unfold numeral
  rw [Nat.digits_def' (by omega) hv]
  simp

theorem numeral_length_lt_pow (r : Nat) (hr : 2 ≤ r) :
    ∀ (k v : Nat), v < r ^ k → (numeral r v).length ≤ k := by
  intro k
  induction k with
  | zero =>
    intro v hv
    have : v = 0 := by simpa using hv
    subst this
    simp [numeral_zero]
  | succ k ih =>
    intro v hv
    by_cases h0 : v = 0
    · subst h0; simp [numeral_zero]
    · rw [numeral_step r v hr (Nat.pos_of_ne_zero h0)]
      have hdiv : v / r < r ^ k := by
        apply Nat.div_lt_of_lt_mul
        rw [pow_succ] at hv
        rw [Nat.mul_comm]
        exact hv
      have := ih (v / r) hdiv
      simp
      exact this

theorem numeral_length_le (r v k : Nat) (hr : 2 ≤ r) (hv : v < 2 ^ k) : (numeral r v).length ≤ k :=
  numeral_length_lt_pow r hr k v (lt_of_lt_of_le hv (Nat.pow_le_pow_left hr k))

/-- The loop of `intToString` on a value that is not negative writes the zeros
owed to the minimum length and the numeral of the value. -/
theorem intToStringLoop_nat (r : Nat) (hr : 2 ≤ r) (hr16 : r ≤ 16) :
    ∀ (room v need : Nat) (acc : Str), need ≤ room → (numeral r v).length ≤ room →
      intToStringLoop room (v : Int) r need acc =
        List.replicate (need - (numeral r v).length) 48 ++ numeral r v ++ acc := by
  intro room
  induction room with
  | zero =>
    intro v need acc hn hl
    have h0 : numeral r v = [] := List.length_eq_zero.mp (Nat.le_zero.mp hl)
    have hn0 : need = 0 := Nat.le_zero.mp hn
    simp [intToStringLoop, h0, hn0]
  | succ room ih =>
    intro v need acc hn hl
    unfold intToStringLoop
    by_cases hv : v = 0
    · subst hv
      by_cases hneed : need = 0
      · subst hneed
        simp [numeral_zero]
      · have hpos : 0 < need := Nat.pos_of_ne_zero hneed
        simp only [hpos, true_or, if_true]
        have e1 : Int.tdiv ((0 : Nat) : Int) (r : Int) = ((0 : Nat) : Int) := by simp
        have e2 : (15 + Int.tmod ((0 : Nat) : Int) (r : Int)).toNat = 15 + 0 := by simp
        rw [e1, e2, ih 0 (need - 1) _ (by omega) (by simp [numeral_zero]), digitTable_getD 0 (by omega)]
        simp only [numeral_zero, List.length_nil, Nat.sub_zero, List.append_nil]
        have : need = (need - 1) + 1 := by omega
        conv_rhs => rw [this, List.replicate_succ']
        simp [digitChar]
    · have hvpos : 0 < v := Nat.pos_of_ne_zero hv
      have hne : ((v : Nat) : Int) ≠ 0 := by exact_mod_cast hv
      simp only [hne, ne_eq, not_false_eq_true, or_true, if_true]
      have e1 : Int.tdiv (v : Int) (r : Int) = ((v / r : Nat) : Int) := by
        rw [Int.tdiv_eq_ediv (by positivity) (by positivity)]; norm_cast
      have e2 : (15 + Int.tmod (v : Int) (r : Int)).toNat = 15 + v % r := by
        rw [Int.tmod_eq_emod (by positivity) (by positivity)]
        have : ((v : Int) % (r : Int)) = ((v % r : Nat) : Int) := by norm_cast
        rw [this]; omega
      have hstep := numeral_step r v hr hvpos
      have hlen : (numeral r v).length = (numeral r (v / r)).length + 1 := by
        rw [hstep]; simp
      have hmod : v % r < 16 := lt_of_lt_of_le (Nat.mod_lt _ (by omega)) hr16
      rw [e1, e2, ih (v / r) (need - 1) _ (by omega) (by omega), digitTable_getD _ hmod, hstep]
      have : need - 1 - (numeral r (v / r)).length =
          need - (numeral r (v / r) ++ [digitChar (v % r)]).length := by
        simp; omega
      rw [this]
      simp

theorem intToStringLoop_neg (r : Nat) (hr : 2 ≤ r) (hr16 : r ≤ 16) :
    ∀ (room v need : Nat) (acc : Str),
      intToStringLoop room (-(v : Int)) r need acc = intToStringLoop room (v : Int) r need acc := by
  intro room
  induction room with
  | zero => intro v need acc; rfl
  | succ room ih =>
    intro v need acc
    unfold intToStringLoop
    have hz : (-(v : Int) ≠ 0) ↔ ((v : Int) ≠ 0) := by simp
    have e1 : Int.tdiv (-(v : Int)) (r : Int) = -((v / r : Nat) : Int) := by
      rw [Int.neg_tdiv, Int.tdiv_eq_ediv (by positivity) (by positivity)]; norm_cast
    have e1p : Int.tdiv (v : Int) (r : Int) = ((v / r : Nat) : Int) := by
      rw [Int.tdiv_eq_ediv (by positivity) (by positivity)]; norm_cast
    have hmod : v % r < 16 := lt_of_lt_of_le (Nat.mod_lt _ (by omega)) hr16
    have e2 : (15 + Int.tmod (-(v : Int)) (r : Int)).toNat = 15 - v % r := by
      rw [Int.tmod_def, e1]
      have hd : (v : Int) = (r : Int) * ((v / r : Nat) : Int) + ((v % r : Nat) : Int) := by
        have := Nat.div_add_mod v r
        exact_mod_cast this.symm
      have : -(v : Int) - (r : Int) * -((v / r : Nat) : Int) = -((v % r : Nat) : Int) := by
        rw [hd]; push_cast; ring_nf
      rw [this]; omega
    have e2p : (15 + Int.tmod (v : Int) (r : Int)).toNat = 15 + v % r := by
      rw [Int.tmod_eq_emod (by positivity) (by positivity)]
      have : ((v : Int) % (r : Int)) = ((v % r : Nat) : Int) := by norm_cast
      rw [this]; omega
    simp only [hz, e1, e1p, e2, e2p, ih, digitTable_getD _ hmod, digitTable_mirror _ hmod]

theorem digitChar_range (d : Nat) (hd : d < 16) :
    (48 ≤ digitChar d ∧ digitChar d ≤ 57) ∨ (97 ≤ digitChar d ∧ digitChar d ≤ 102) := by
  interval_cases d <;> simp [digitChar]

theorem numeral_chars (r v : Nat) (hr : 2 ≤ r) (hr16 : r ≤ 16) :
    ∀ c ∈ numeral r v, ∃ d, d < r ∧ c = digitChar d := by
  intro c hc
  unfold numeral at hc
  simp only [List.mem_map, List.mem_reverse] at hc
  obtain ⟨d, hd, rfl⟩ := hc
  exact ⟨d, Nat.digits_lt_base (by omega) hd, rfl⟩

/-- The text `intToString<S, T>(v, r, m)` for an unsigned type `T` of `bits`
bits: zeros up to the minimum length, then the numeral. -/
theorem intToString_bits (bits v r m : Nat) (hv : v < 2 ^ bits) (hr : 2 ≤ r) (hr16 : r ≤ 16)
    (hm : m ≤ bits) :
    intToString bits false (v : Int) r m =
      List.replicate (m - (numeral r v).length) 48 ++ numeral r v := by
  unfold intToString
  simp only [Bool.false_and, Bool.false_eq_true, if_false]
  rw [intToStringLoop_nat r hr hr16 bits v m [] hm (numeral_length_le r v bits hr hv)]
  simp

/-- The text `intToString<S, ulong>(v, r, m)`: zeros up to the minimum length,
then the numeral. -/
theorem intToString_unsigned (v r m : Nat) (hv : v < 2 ^ 64) (hr : 2 ≤ r) (hr16 : r ≤ 16)
    (hm : m ≤ 64) :
    intToString 64 false (v : Int) r m =
      List.replicate (m - (numeral r v).length) 48 ++ numeral r v :=
  intToString_bits 64 v r m hv hr hr16 hm

/-- The text `intToString<S, long>(i, 10, 1)`: the sign, then the numeral of the
magnitude, or `0`. -/
theorem intToString_signed (i : Int) (hlo : -(2 : Int) ^ 63 ≤ i) (hhi : i < 2 ^ 63) :
    intToString 64 true i 10 1 =
      (if i < 0 then [45] else []) ++
        (List.replicate (1 - (numeral 10 i.natAbs).length) 48 ++ numeral 10 i.natAbs) := by
  unfold intToString
  have habs : i.natAbs < 2 ^ 64 := by omega
  have hl := numeral_length_le 10 i.natAbs 64 (by omega) habs
  by_cases hneg : i < 0
  · have hi : i = -((i.natAbs : Nat) : Int) := by omega
    have key := intToStringLoop_neg 10 (by omega) (by omega) 64 i.natAbs 1 []
    rw [← hi] at key
    have key2 := intToStringLoop_nat 10 (by omega) (by omega) 64 i.natAbs 1 [] (by omega) hl
    simp only [Nat.cast_ofNat] at key key2
    rw [key2] at key
    simp only [hneg, decide_True, Bool.and_self, if_true, key]
    simp
  · have hi : i = ((i.natAbs : Nat) : Int) := by omega
    have key2 := intToStringLoop_nat 10 (by omega) (by omega) 64 i.natAbs 1 [] (by omega) hl
    rw [← hi] at key2
    simp [hneg, key2]

theorem wrapLong_step (a d : Int) : wrapLong (wrapLong a * 10 + d) = wrapLong (a * 10 + d) := by
  unfold wrapLong
  omega

theorem stringToLongLoop_digits (ds : Str) (hds : ∀ c ∈ ds, isDigit c = true) :
    ∀ a : Int, stringToLongLoop (wrapLong a) ds =
      (wrapLong (ds.foldl (fun (a : Int) (c : Nat) => a * 10 + ((c : Int) - 48)) a), []) := by
  induction ds with
  | nil => intro a; rfl
  | cons c ds ih =>
    intro a
    have hc : isDigit c = true := hds c (List.mem_cons_self _ _)
    unfold stringToLongLoop
    simp only [hc, if_true, List.foldl_cons]
    rw [wrapLong_step]
    exact ih (fun x hx => hds x (List.mem_cons_of_mem _ hx)) _

theorem digitChar_decimal (d : Nat) (hd : d < 10) :
    isDigit (digitChar d) = true ∧ ((digitChar d : Nat) : Int) - 48 = (d : Int) := by
  interval_cases d <;> simp [digitChar, isDigit]

theorem digitChar_hexadecimal (d : Nat) (hd : d < 16) :
    isHexDigit (digitChar d) = true ∧ hexValue (digitChar d) = d := by
  interval_cases d <;> decide

theorem foldl_numeral_decimal : ∀ (v : Nat) (a : Int),
    (numeral 10 v).foldl (fun (a : Int) (c : Nat) => a * 10 + ((c : Int) - 48)) a =
      a * 10 ^ (numeral 10 v).length + (v : Int) := by
  intro v
  induction v using Nat.strong_induction_on with
  | _ v ih =>
    intro a
    by_cases hv : v = 0
    · subst hv; simp [numeral_zero]
    · rw [numeral_step 10 v (by omega) (Nat.pos_of_ne_zero hv)]
      rw [List.foldl_append, ih (v / 10) (Nat.div_lt_self (Nat.pos_of_ne_zero hv) (by omega))]
      simp only [List.foldl_cons, List.foldl_nil, List.length_append, List.length_singleton]
      rw [(digitChar_decimal (v % 10) (Nat.mod_lt _ (by omega))).2]
      have := Nat.div_add_mod v 10
      have h2 : (v : Int) = 10 * ((v / 10 : Nat) : Int) + ((v % 10 : Nat) : Int) := by
        exact_mod_cast this.symm
      rw [pow_succ]
      push_cast at h2 ⊢
      linarith

theorem foldl_numeral_hexadecimal : ∀ (v a : Nat),
    (numeral 16 v).foldl (fun (a : Nat) (c : Nat) => a * 16 + hexValue c) a =
      a * 16 ^ (numeral 16 v).length + v := by
  intro v
  induction v using Nat.strong_induction_on with
  | _ v ih =>
    intro a
    by_cases hv : v = 0
    · subst hv; simp [numeral_zero]
    · rw [numeral_step 16 v (by omega) (Nat.pos_of_ne_zero hv)]
      rw [List.foldl_append, ih (v / 16) (Nat.div_lt_self (Nat.pos_of_ne_zero hv) (by omega))]
      simp only [List.foldl_cons, List.foldl_nil, List.length_append, List.length_singleton]
      rw [(digitChar_hexadecimal (v % 16) (Nat.mod_lt _ (by omega))).2]
      have := Nat.div_add_mod v 16
      rw [pow_succ]
      nlinarith

theorem foldl_zeros_decimal (z : Nat) :
    (List.replicate z 48).foldl (fun (a : Int) (c : Nat) => a * 10 + ((c : Int) - 48)) 0 = 0 := by
  induction z with
  | zero => rfl
  | succ z ih => simp [List.replicate_succ, ih]

theorem foldl_zeros_hexadecimal (z : Nat) :
    (List.replicate z 48).foldl (fun (a : Nat) (c : Nat) => a * 16 + hexValue c) 0 = 0 := by
  induction z with
  | zero => rfl
  | succ z ih =>
    simp only [List.replicate_succ, List.foldl_cons]
    have : (0 * 16 + hexValue 48) = 0 := by decide
    rw [this]; exact ih

theorem hexToLongLoop_digits (ds : Str) (hds : ∀ c ∈ ds, isHexDigit c = true) :
    ∀ a : Nat, hexToLongLoop (wrapULong a) ds =
      (wrapULong (ds.foldl (fun (a : Nat) (c : Nat) => a * 16 + hexValue c) a), []) := by
  induction ds with
  | nil => intro a; rfl
  | cons c ds ih =>
    intro a
    have hc : isHexDigit c = true := hds c (List.mem_cons_self _ _)
    unfold hexToLongLoop
    simp only [hc, if_true, List.foldl_cons]
    have : wrapULong (wrapULong a * 16 + hexValue c) = wrapULong (a * 16 + hexValue c) := by
      unfold wrapULong; omega
    rw [this]
    exact ih (fun x hx => hds x (List.mem_cons_of_mem _ hx)) _

theorem padded_digits (z n : Nat) :
    ∀ c ∈ List.replicate z 48 ++ numeral 10 n, isDigit c = true := by
  intro c hc
  rcases List.mem_append.mp hc with h | h
  · rw [(List.mem_replicate.mp h).2]; rfl
  · obtain ⟨d, hd, rfl⟩ := numeral_chars 10 n (by omega) (by omega) c h
    exact (digitChar_decimal d hd).1

theorem stringToLongLoop_numeral (z n : Nat) :
    stringToLongLoop 0 (List.replicate z 48 ++ numeral 10 n) = (wrapLong n, []) := by
  have hval : (List.replicate z 48 ++ numeral 10 n).foldl
      (fun (a : Int) (c : Nat) => a * 10 + ((c : Int) - 48)) 0 = (n : Int) := by
    rw [List.foldl_append, foldl_zeros_decimal, foldl_numeral_decimal]; simp
  have hloop := stringToLongLoop_digits _ (padded_digits z n) 0
  have hw0 : wrapLong 0 = 0 := by decide
  rw [hw0, hval] at hloop
  exact hloop

/-- The routine `stringToLong` on zeros and a decimal numeral. -/
theorem stringToLong_numeral (z n : Nat) :
    stringToLong (List.replicate z 48 ++ numeral 10 n) = (wrapLong n, []) := by
  have hloop := stringToLongLoop_numeral z n
  generalize hs : List.replicate z 48 ++ numeral 10 n = s at hloop
  have hdig := padded_digits z n
  rw [hs] at hdig
  unfold stringToLong
  match s, hloop, hdig with
  | [], hloop, _ => simp only [hloop]; simp
  | [c0], hloop, _ => simp only [hloop]; simp
  | c0 :: c1 :: r, hloop, hdig =>
    have hc0 : isDigit c0 = true := hdig c0 (List.mem_cons_self _ _)
    have hc0n : ¬ (c0 = 43 ∨ c0 = 45) := by
      simp only [isDigit, Bool.and_eq_true, decide_eq_true_eq] at hc0; omega
    simp only [hc0n, if_false, hloop]; simp

/-- The routine `stringToLong` on a minus sign, zeros and a decimal numeral. -/
theorem stringToLong_minus_numeral (z n : Nat) (hne : 0 < z + (numeral 10 n).length) :
    stringToLong (45 :: (List.replicate z 48 ++ numeral 10 n)) = (wrapLong (-wrapLong n), []) := by
  have hloop := stringToLongLoop_numeral z n
  generalize hs : List.replicate z 48 ++ numeral 10 n = s at hloop
  have hlen : s.length = z + (numeral 10 n).length := by rw [← hs]; simp
  unfold stringToLong
  match s, hloop, hlen with
  | [], _, hlen => simp at hlen; omega
  | c0 :: r, hloop, _ => simp only [true_or, or_true, if_true, beq_self_eq_true, hloop]

/-- The signed half of the round trip. -/
theorem stringToLong_intToString (i : Int) (hlo : -(2 : Int) ^ 63 ≤ i) (hhi : i < 2 ^ 63) :
    stringToLong (intToString 64 true i 10 1) = (i, []) := by
  rw [intToString_signed i hlo hhi]
  have hlo1 : -9223372036854775808 ≤ i := by norm_num at hlo; exact hlo
  have hhi1 : i < 9223372036854775808 := by norm_num at hhi; exact hhi
  have hn : ∃ n : Nat, i.natAbs = n ∧ (0 ≤ i → (n : Int) = i) ∧ (i < 0 → (n : Int) = -i) :=
    ⟨i.natAbs, rfl, by omega, by omega⟩
  obtain ⟨n, hnat, hpos, hnegv⟩ := hn
  rw [hnat]
  by_cases hneg : i < 0
  · simp only [hneg, if_true, List.singleton_append]
    rw [stringToLong_minus_numeral _ _ (by omega)]
    have hv := hnegv hneg
    have : wrapLong (-wrapLong (n : Int)) = i := by unfold wrapLong; norm_num; omega
    rw [this]
  · simp only [hneg, if_false, List.nil_append]
    rw [stringToLong_numeral]
    have hv := hpos (by omega)
    have : wrapLong (n : Int) = i := by unfold wrapLong; norm_num; omega
    rw [this]

/-- The hexadecimal half of the round trip. -/
theorem hexToLong_intToString (u m : Nat) (hu : u < 2 ^ 64) (hm : m ≤ 64) :
    hexToLong (intToString 64 false (u : Int) 16 m) = (u, []) := by
  rw [intToString_unsigned u 16 m hu (by omega) (by omega) hm]
  have hdig : ∀ c ∈ List.replicate (m - (numeral 16 u).length) 48 ++ numeral 16 u,
      isHexDigit c = true := by
    intro c hc
    rcases List.mem_append.mp hc with h | h
    · rw [(List.mem_replicate.mp h).2]; rfl
    · obtain ⟨d, hd, rfl⟩ := numeral_chars 16 u (by omega) (by omega) c h
      exact (digitChar_hexadecimal d hd).1
  have hloop := hexToLongLoop_digits _ hdig 0
  rw [List.foldl_append, foldl_zeros_hexadecimal, foldl_numeral_hexadecimal] at hloop
  unfold hexToLong
  have hw0 : wrapULong 0 = 0 := by decide
  rw [hw0] at hloop
  rw [hloop]
  simp only [wrapULong, Nat.zero_mul, Nat.zero_add, Nat.mod_eq_of_lt hu]

/-- Claim C26.  Integer text round-trips through the parser of the same radix:
for every `long` `i`, `stringToLong` reads `intToString(i, 10)` to its end and
returns `i`; for every `ulong` `u` and minimum length `m` from 1 to the 64
characters of the buffer of `intToString`, `hexToLong` reads
`intToString(u, 16, m)` to its end and returns `u`. -/
theorem integer_roundTrip :
    (∀ i : Int, -(2 : Int) ^ 63 ≤ i → i < 2 ^ 63 →
        stringToLong (intToString 64 true i 10 1) = (i, [])) ∧
      (∀ u m : Nat, u < 2 ^ 64 → 1 ≤ m → m ≤ 64 →
        hexToLong (intToString 64 false (u : Int) 16 m) = (u, [])) :=
  ⟨stringToLong_intToString, fun u m hu _ hm => hexToLong_intToString u m hu hm⟩

theorem integer_roundTrip_witness :
    stringToLong (intToString 64 true (-9223372036854775808) 10 1) = (-9223372036854775808, []) ∧
      hexToLong (intToString 64 false ((3735928559 : Nat) : Int) 16 4) = (3735928559, []) :=
  ⟨integer_roundTrip.1 (-9223372036854775808) (by norm_num) (by norm_num),
    integer_roundTrip.2 3735928559 4 (by norm_num) (by norm_num) (by norm_num)⟩

theorem toLong_ofULong (v : Nat) (hv : v < 2 ^ 64) : toLong (ofULong v) = .ok (wrapLong v) := by
  unfold ofULong
  rw [intToString_unsigned v 10 1 hv (by omega) (by omega) (by omega)]
  unfold toLong
  rw [stringToLong_numeral]
  have hne : List.replicate (1 - (numeral 10 v).length) 48 ++ numeral 10 v ≠ [] := by
    intro he
    have h2 := congrArg List.length he
    simp only [List.length_append, List.length_replicate, List.length_nil] at h2
    omega
  have hl : (List.replicate (1 - (numeral 10 v).length) 48 ++ numeral 10 v).length ≠ 0 := by
    intro h0; exact hne (List.length_eq_zero.mp h0)
  simp only [List.length_nil, ne_eq, not_true_eq_false, or_false]
  rw [if_neg (fun h => hl h.symm)]

theorem toLong_ofLong (i : Int) (hlo : -(2 : Int) ^ 63 ≤ i) (hhi : i < 2 ^ 63) :
    toLong (ofLong i) = .ok i := by
  have hs := stringToLong_intToString i hlo hhi
  unfold toLong ofLong
  rw [hs]
  have hl : (intToString 64 true i 10 1).length ≠ 0 := by
    rw [intToString_signed i hlo hhi]
    simp only [List.length_append, List.length_replicate]
    omega
  simp only [List.length_nil, ne_eq, not_true_eq_false, or_false]
  rw [if_neg (fun h => hl h.symm)]

theorem get_argsRoot (a0 a1 a2 : Str) :
    get (argsRoot a0 a1 a2) 0 [36, 48] false = (.ok a0, argsRoot a0 a1 a2) ∧
      get (argsRoot a0 a1 a2) 0 [36, 49] false = (.ok a1, argsRoot a0 a1 a2) ∧
      getOptional (argsRoot a0 a1 a2) 0 [36, 50] (ofLong 1) = (.ok a2, argsRoot a0 a1 a2) := by
  refine ⟨?_, ?_, ?_⟩ <;>
    simp [get, getOptional, argsRoot, newRoot, resolveFrame, deref, VarSpace.lookup,
      Variables.lookup, storeVars, List.lookup]

theorem toInt_ofLong (i : Int) (hlo : 0 ≤ i) (hhi : i ≤ 64) : toInt (ofLong i) = .ok i := by
  unfold toInt
  rw [toLong_ofLong i (by norm_num; omega) (by norm_num; omega)]
  have : wrapInt i = i := by unfold wrapInt; norm_num; omega
  simp only [this]

theorem toULong_ofULong (v : Nat) (hv : v < 2 ^ 64) : toULong (ofULong v) = .ok v := by
  unfold toULong
  rw [toLong_ofULong v hv]
  have hv1 : v < 18446744073709551616 := by norm_num at hv; exact hv
  have : (wrapLong (v : Int) % 2 ^ 64).toNat = v := by unfold wrapLong; norm_num; omega
  simp only [this]

/-- Claim C27.  For every unsigned value `v`, radix `r` from 2 to 16 and minimum
length `m` from 0 to 32, `intToString(v, r, m)`, which the native `radix`
returns for these arguments, is the numeral of `v` in the base `r` with the
digits `0`..`9` and `a`..`f`, after as many zeros as the minimum length asks
for: its length is the larger of `m` and the number of digits of `v` (none for
0) and at most 64. -/
theorem intToString_radix (v r m : Nat) (hv : v < 2 ^ 64) (hr : 2 ≤ r ∧ r ≤ 16) (hm : m ≤ 32) :
    intToString 64 false (v : Int) r m =
        List.replicate (m - (Nat.digits r v).length) 48 ++ (Nat.digits r v).reverse.map digitChar ∧
      (intToString 64 false (v : Int) r m).length = max m (Nat.digits r v).length ∧
      (intToString 64 false (v : Int) r m).length ≤ 64 ∧
      (∀ c ∈ intToString 64 false (v : Int) r m, (48 ≤ c ∧ c ≤ 57) ∨ (97 ≤ c ∧ c ≤ 102)) ∧
      (radix (argsRoot (ofULong v) (ofLong r) (ofLong m)) 0).1 =
        .ok (intToString 64 false (v : Int) r m) := by
  have heq := intToString_unsigned v r m hv hr.1 hr.2 (by omega)
  have hlen : (numeral r v).length = (Nat.digits r v).length := by simp [numeral]
  have hl64 := numeral_length_le r v 64 hr.1 hv
  refine ⟨?_, ?_, ?_, ?_, ?_⟩
  · rw [heq, hlen]; rfl
  · rw [heq]; simp only [List.length_append, List.length_replicate]; omega
  · rw [heq]; simp only [List.length_append, List.length_replicate]; omega
  · intro c hc
    rw [heq] at hc
    rcases List.mem_append.mp hc with h | h
    · rw [(List.mem_replicate.mp h).2]; omega
    · obtain ⟨d, hd, rfl⟩ := numeral_chars r v hr.1 hr.2 c h
      exact digitChar_range d (by omega)
  · obtain ⟨g0, g1, g2⟩ := get_argsRoot (ofULong v) (ofLong r) (ofLong m)
    have hri : toInt (ofLong (r : Int)) = .ok (r : Int) := toInt_ofLong r (by omega) (by omega)
    have hmi : toInt (ofLong (m : Int)) = .ok (m : Int) := toInt_ofLong m (by omega) (by omega)
    have hvi := toULong_ofULong v hv
    have hr1 : ¬ ((r : Int) < 2 ∨ (r : Int) > 16) := by omega
    have hm1 : ¬ ((m : Int) < 0 ∨ (m : Int) > 32) := by omega
    unfold radix
    simp only [g0, g1, g2, hri, hmi, hvi, hr1, hm1, if_false, Int.toNat_ofNat]

theorem intToString_radix_witness :
    (intToString 64 false ((170 : Nat) : Int) 2 12).length = max 12 (Nat.digits 2 170).length ∧
      (radix (argsRoot (ofULong 170) (ofLong ((2 : Nat) : Int)) (ofLong ((12 : Nat) : Int))) 0).1 =
        .ok (intToString 64 false ((170 : Nat) : Int) 2 12) :=
  ⟨(intToString_radix 170 2 12 (by norm_num) (by omega) (by omega)).2.1,
    (intToString_radix 170 2 12 (by norm_num) (by omega) (by omega)).2.2.2.2⟩

/-- The examples of the help text of `radix`, and its two exceptions. -/
theorem radix_examples :
    (radix (argsRoot (str "170") (str "2") (str "12")) 0).1 = .ok (str "000010101010") ∧
      (radix (newRoot { vars := [([36, 48], str "3735928559"), ([36, 49], str "16")] }) 0).1 =
        .ok (str "deadbeef") ∧
      (radix (argsRoot (str "10000") (str "10") (str "0")) 0).1 = .ok (str "10000") ∧
      (radix (argsRoot (str "0") (str "10") (str "0")) 0).1 = .ok [] ∧
      (radix (argsRoot (str "5") (str "17") (str "1")) 0).1 =
        .error (.native (str "Radix out of range: 17")) ∧
      (radix (argsRoot (str "5") (str "2") (str "33")) 0).1 =
        .error (.native (str "Minimum length out of range: 33")) := by
  decide

/-! ### The escape writer (C28, C29) -/

theorem dropWhile_single_nil_iff (s : Str) :
    s.dropWhile isPlainSingle = [] ↔ ∀ c ∈ s, 32 ≤ c ∧ c ≤ 126 ∧ c ≠ 39 := by
  rw [List.dropWhile_eq_nil_iff]
  constructor
  · intro h c hc
    have := h c hc
    simp only [isPlainSingle, Bool.and_eq_true, decide_eq_true_eq, bne_iff_ne, ne_eq] at this
    omega
  · intro h c hc
    have := h c hc
    simp only [isPlainSingle, Bool.and_eq_true, decide_eq_true_eq, bne_iff_ne, ne_eq]
    omega

/-- Claim C28.  For every string `s`, `escape(s)` is `s` unchanged between two
apostrophes exactly when every character of `s` is printable ASCII (32 to 126)
and no apostrophe, the empty string included; in every other case the result
begins and ends with a double quote.  So `escape("hi")` is `'hi'` and
`escape("it's")` is `"it's"`. -/
theorem escape_quotes (s : Str) :
    (escape s = [39] ++ s ++ [39] ↔ ∀ c ∈ s, 32 ≤ c ∧ c ≤ 126 ∧ c ≠ 39) ∧
      ((¬ ∀ c ∈ s, 32 ≤ c ∧ c ≤ 126 ∧ c ≠ 39) → ∃ body, escape s = [34] ++ body ++ [34]) ∧
      escape [] = [39, 39] ∧
      escape (str "hi") = str "'hi'" ∧
      escape (str "it's") = [34] ++ str "it's" ++ [34] := by
  refine ⟨?_, ?_, by decide, by decide, by decide⟩
  · rw [escape_eq, ← dropWhile_single_nil_iff]
    constructor
    · intro h
      by_contra hne
      rw [if_neg hne] at h
      simp at h
    · intro h
      rw [if_pos h]
  · intro h
    rw [← dropWhile_single_nil_iff] at h
    rw [escape_eq, if_neg h]
    exact ⟨escBody s, rfl⟩

theorem escape_quotes_witness :
    ∃ body, escape [105, 116, 39, 115] = [34] ++ body ++ [34] :=
  (escape_quotes [105, 116, 39, 115]).2.1 (by decide)

theorem hexToLongLoop_snd (p : Str) : ∀ l, (hexToLongLoop l p).2 = p.dropWhile isHexDigit := by
  induction p with
  | nil => intro l; rfl
  | cons c p ih =>
    intro l
    unfold hexToLongLoop
    by_cases hc : isHexDigit c = true
    · simp only [hc, if_true, List.dropWhile_cons_of_pos]
      exact ih _
    · simp only [hc, if_false, Bool.false_eq_true]
      rw [List.dropWhile_cons_of_neg hc]

theorem dropWhile_ne_cons (p : Nat → Bool) (l : Str) (x : Nat) (r : Str) (hx : p x = true) :
    l.dropWhile p ≠ x :: r := by
  induction l with
  | nil => simp
  | cons c l ih =>
    by_cases hc : p c = true
    · rw [List.dropWhile_cons_of_pos hc]; exact ih
    · rw [List.dropWhile_cons_of_neg hc]
      intro he
      injection he with h1 _
      exact hc (h1 ▸ hx)

theorem indexOf_escapeChars (a k : Nat) (h : ESCAPE_CHARS.indexOf? a = some k) : k < 10 := by
  unfold List.indexOf? at h
  obtain ⟨hlt, -⟩ := List.findIdx?_eq_some_iff_getElem.mp h
  exact hlt

theorem escapeCodes_getD (k : Nat) (hk : k < 10) :
    ESCAPE_CODES.getD k 0 ∈ ESCAPE_CODES ∧
      toChar ((ESCAPE_CODES.getD k 0 : Nat) : Int) = ESCAPE_CODES.getD k 0 := by
  interval_cases k <;> decide

/-- An escape sequence that stands for its character wherever it is written is
neither empty nor a decimal code, and after `x` or `u` it has two characters
more, unless it is one of the ten sequences of `ESCAPE_CHARS`. -/
theorem decodesTo_length (e : Str) (c : Nat) (hd : DecodesTo e c) :
    (1 ≤ e.length ∧ c ∈ ESCAPE_CODES) ∨ 3 ≤ e.length := by
  obtain ⟨l, hl, hc⟩ := hd [48]
  match e, hl with
  | [], hl =>
    have h0 : unescapeCode [48] = .ok (0, []) := by decide
    rw [List.nil_append, h0] at hl
    simp at hl
  | a :: rest, hl =>
    by_cases hlen : 3 ≤ (a :: rest).length
    · exact Or.inr hlen
    · left
      refine ⟨by simp, ?_⟩
      have hrest : rest.length ≤ 1 := by simp at hlen; omega
      simp only [List.cons_append, unescapeCode] at hl
      cases hk : ESCAPE_CHARS.indexOf? a with
      | some k =>
        rw [hk] at hl
        simp only [Except.ok.injEq, Prod.mk.injEq] at hl
        have hklt : k < 10 := indexOf_escapeChars a k hk
        obtain ⟨hmem, hto⟩ := escapeCodes_getD k hklt
        rw [← hc, ← hl.1, hto]
        exact hmem
      | none =>
        rw [hk] at hl
        exfalso
        simp only at hl
        by_cases hx : a = 120
        · simp only [hx, if_true] at hl
          have htake : (rest ++ [48]).take 2 = rest ++ [48] := by
            apply List.take_of_length_le; simp; omega
          have hdrop : (rest ++ [48]).drop 2 = [] := by
            apply List.drop_of_length_le; simp; omega
          rw [htake, hdrop] at hl
          split at hl
          · cases hl
          · simp only [Except.ok.injEq, Prod.mk.injEq, List.append_nil] at hl
            have h2 := hl.2
            rw [hexToLong, hexToLongLoop_snd] at h2
            exact dropWhile_ne_cons isHexDigit _ 48 [] (by decide) h2
        · simp only [hx, if_false] at hl
          by_cases hu : a = 117
          · simp only [hu, if_true] at hl
            have htake : (rest ++ [48]).take 4 = rest ++ [48] := by
              apply List.take_of_length_le; simp; omega
            have hdrop : (rest ++ [48]).drop 4 = [] := by
              apply List.drop_of_length_le; simp; omega
            rw [htake, hdrop] at hl
            split at hl
            · cases hl
            · simp only [Except.ok.injEq, Prod.mk.injEq, List.append_nil] at hl
              have h2 := hl.2
              rw [hexToLong, hexToLongLoop_snd] at h2
              exact dropWhile_ne_cons isHexDigit _ 48 [] (by decide) h2
          · simp only [hu, if_false] at hl
            split at hl
            · cases hl
            · have h2 : (stringToLong (a :: (rest ++ [48]))).2 = [48] := by
                have := congrArg (fun r => match r with | .ok (x : Int × Str) => x.2 | .error _ => []) hl
                simpa using this
              rw [stringToLong_snd] at h2
              exact dropWhile_ne_cons isDigit _ 48 [] (by decide) h2

theorem escBody_eq_flatMap (s : Str) :
    escBody s =
      s.flatMap (fun c => if c = 92 ∨ c = 34 ∨ c < 32 ∨ 126 < c then escapeChar c else [c]) := by
  induction s with
  | nil => rfl
  | cons c s ih =>
    unfold escBody
    rw [List.flatMap_cons, ← ih]
    congr 1
    by_cases hp : isPlainDouble c = true
    · have hp2 := hp
      simp only [isPlainDouble, Bool.and_eq_true, decide_eq_true_eq, bne_iff_ne, ne_eq] at hp2
      rw [if_pos hp, if_neg (by omega)]
    · have hp2 := hp
      simp only [isPlainDouble, Bool.and_eq_true, decide_eq_true_eq, bne_iff_ne, ne_eq] at hp2
      rw [if_neg hp, if_pos (by omega)]

theorem escapeChar_hex_length (c : Nat) (hc : c < 256) :
    (intToString 32 false (c : Int) 16 2).length = 2 := by
  rw [intToString_bits 32 c 16 2 (by omega) (by omega) (by omega) (by omega)]
  have := numeral_length_lt_pow 16 (by omega) 2 c (by omega)
  simp only [List.length_append, List.length_replicate]
  omega

/-- The sequence `escape` writes for a character is the shortest one that stands
for the character wherever it is written. -/
theorem escapeChar_shortest (c : Nat) (hc : c < 256) (hp : isPlainDouble c = false) :
    ∃ e, escapeChar c = 92 :: e ∧ DecodesTo e c ∧ ∀ e1, DecodesTo e1 c → e.length ≤ e1.length := by
  obtain ⟨e, he, -⟩ := unescapeCode_escapeChar c hc hp []
  refine ⟨e, he, ?_, ?_⟩
  · intro t
    obtain ⟨e2, he2, hdec⟩ := unescapeCode_escapeChar c hc hp t
    rw [he] at he2
    injection he2 with _ h2
    subst h2
    refine ⟨(c : Int), hdec, ?_⟩
    unfold toChar
    omega
  · intro e1 hd
    have hlen := decodesTo_length e1 c hd
    cases hk : ESCAPE_CODES.indexOf? c with
    | some k =>
      have h2 : escapeChar c = [92, ESCAPE_CHARS.getD k 0] := by
        unfold escapeChar; rw [hk]
      rw [h2] at he
      injection he with _ h3
      subst h3
      simp only [List.length_singleton]
      omega
    | none =>
      have hnot : c ∉ ESCAPE_CODES :=
        fun hmem => (List.indexOf?_eq_none_iff.mp hk) c hmem (by simp)
      have h2 : escapeChar c = [92, 120] ++ intToString 32 false (c : Int) 16 2 := by
        unfold escapeChar; rw [hk]
      rw [h2] at he
      have hl : e.length = 3 := by
        have := congrArg List.length he
        simp only [List.length_append, List.length_cons, List.length_nil,
          escapeChar_hex_length c hc] at this
        omega
      rcases hlen with ⟨_, hmem⟩ | h3
      · exact absurd hmem hnot
      · omega

/-- The literal reading of claim C29 fails: for the character with the code 1
`escape` writes `\x01`, four characters, while `unescape` decodes the two
characters `\1` to the same character, as it does the three characters `\x1`. -/
theorem escape_shortest_counterexample :
    escape [1] = [34, 92, 120, 48, 49, 34] ∧
      unescape [34, 92, 49, 34] = .ok ([1], []) ∧
      unescape [34, 92, 120, 49, 34] = .ok ([1], []) ∧
      unescape [34, 92, 49, 50, 34] = .ok ([12], []) := by
  decide

/-- Claim C29, amended.  In the double-quoted form of `escape`, every backslash,
double quote and character outside 32..126 of the input is written as a
backslash and the shortest escape sequence among those that `unescape` decodes
to that character whatever text follows the sequence; every other character is
copied unchanged. -/
theorem escape_sequences (s : Str) (h8 : ∀ c ∈ s, c < 256)
    (hq : ¬ ∀ c ∈ s, 32 ≤ c ∧ c ≤ 126 ∧ c ≠ 39) :
    escape s = [34] ++
        s.flatMap (fun c => if c = 92 ∨ c = 34 ∨ c < 32 ∨ 126 < c then escapeChar c else [c]) ++
        [34] ∧
      ∀ c ∈ s, (c = 92 ∨ c = 34 ∨ c < 32 ∨ 126 < c) →
        ∃ e, escapeChar c = 92 :: e ∧ DecodesTo e c ∧
          ∀ e1, DecodesTo e1 c → e.length ≤ e1.length := by
  constructor
  · rw [← dropWhile_single_nil_iff] at hq
    rw [escape_eq, if_neg hq, escBody_eq_flatMap]
  · intro c hc hesc
    apply escapeChar_shortest c (h8 c hc)
    cases hp : isPlainDouble c with
    | false => rfl
    | true =>
      simp only [isPlainDouble, Bool.and_eq_true, decide_eq_true_eq, bne_iff_ne, ne_eq] at hp
      omega

theorem escape_sequences_witness :
    escape [97, 10, 200] = [34] ++
        [97, 10, 200].flatMap
          (fun c => if c = 92 ∨ c = 34 ∨ c < 32 ∨ 126 < c then escapeChar c else [c]) ++
        [34] ∧
      ∀ c ∈ [97, 10, 200], (c = 92 ∨ c = 34 ∨ c < 32 ∨ 126 < c) →
        ∃ e, escapeChar c = 92 :: e ∧ DecodesTo e c ∧
          ∀ e1, DecodesTo e1 c → e.length ≤ e1.length :=
  escape_sequences [97, 10, 200] (by decide) (by decide)

/-! ### The listing of a variable space (C30) -/

theorem stringLess_prefix_false (key x : Str) : stringLess (key ++ x) key = false := by
  induction key with
  | nil => cases x <;> rfl
  | cons k ks ih =>
    simp only [List.cons_append, stringLess, Nat.lt_irrefl, if_false]
    exact ih

theorem stringLess_gap : ∀ (key a : Str), stringLess a key = false → ¬ key <+: a →
    ∀ x, stringLess (key ++ x) a = true := by
  intro key
  induction key with
  | nil => intro a _ hp; exact absurd (List.nil_prefix) hp
  | cons k ks ih =>
    intro a hl hp x
    cases a with
    | nil => simp [stringLess] at hl
    | cons c as =>
      simp only [stringLess] at hl
      simp only [List.cons_append, stringLess]
      by_cases h1 : c < k
      · simp [h1] at hl
      · by_cases h2 : k < c
        · simp [h2]
        · have hck : c = k := by omega
          subst hck
          simp only [Nat.lt_irrefl, if_false] at hl ⊢
          apply ih as hl
          intro hpre
          exact hp ((List.cons_prefix_cons).mpr ⟨rfl, hpre⟩)

theorem stringLess_total : ∀ (a b : Str), a ≠ b → stringLess a b = false → stringLess b a = true := by
  intro a
  induction a with
  | nil =>
    intro b hne hl
    cases b with
    | nil => exact absurd rfl hne
    | cons y b => simp [stringLess] at hl
  | cons x a ih =>
    intro b hne hl
    cases b with
    | nil => rfl
    | cons y b =>
      simp only [stringLess] at hl ⊢
      by_cases h1 : x < y
      · simp [h1] at hl
      · by_cases h2 : y < x
        · simp [h2]
        · have hxy : x = y := by omega
          subst hxy
          simp only [Nat.lt_irrefl, if_false] at hl ⊢
          exact ih b (fun h => hne (by rw [h])) hl

theorem prefix_iff_take_beq (key a : Str) : (a.take key.length == key) = true ↔ key <+: a := by
  rw [beq_iff_eq, List.prefix_iff_eq_take]
  exact eq_comm

/-- On an ordered map, the loop of `list` finds the entries whose symbol begins
with the key. -/
theorem lowerBound_takeWhile (key : Str) :
    ∀ (vars : Variables), vars.Ordered →
      (vars.lowerBound key).takeWhile (fun kv => kv.1.take key.length == key) =
        vars.filter (fun kv => kv.1.take key.length == key) := by
  intro vars
  induction vars with
  | nil => intro _; rfl
  | cons kv rest ih =>
    intro hord
    have hord2 : Variables.Ordered rest := (List.pairwise_cons.mp hord).2
    have hall : ∀ b ∈ rest, stringLess kv.1 b.1 = true := (List.pairwise_cons.mp hord).1
    have ih2 := ih hord2
    unfold Variables.lowerBound at ih2 ⊢
    by_cases hP : stringLess kv.1 key = true
    · have hQ : (kv.1.take key.length == key) = false := by
        cases hq : (kv.1.take key.length == key) with
        | false => rfl
        | true =>
          obtain ⟨x, hx⟩ := (prefix_iff_take_beq key kv.1).mp hq
          rw [← hx, stringLess_prefix_false] at hP
          exact absurd hP (by simp)
      simp only [List.dropWhile_cons, hP, if_true]
      rw [ih2, List.filter_cons_of_neg (by simp [hQ])]
    · have hPf : stringLess kv.1 key = false := by simpa using hP
      simp only [List.dropWhile_cons, hPf, Bool.false_eq_true, if_false]
      have hrestP : ∀ b ∈ rest, stringLess b.1 key = false := by
        intro b hb
        cases hb2 : stringLess b.1 key with
        | false => rfl
        | true =>
          have := stringLess_trans (hall b hb) hb2
          rw [hPf] at this
          exact absurd this (by simp)
      have hdrop : rest.dropWhile (fun kv => stringLess kv.1 key) = rest := by
        cases rest with
        | nil => rfl
        | cons b r =>
          simp only [List.dropWhile_cons, hrestP b (List.mem_cons_self _ _), Bool.false_eq_true,
            if_false]
      rw [hdrop] at ih2
      by_cases hQ : (kv.1.take key.length == key) = true
      · simp only [List.takeWhile_cons, List.filter_cons, hQ, if_true]
        rw [ih2]
      · have hQf : (kv.1.take key.length == key) = false := by simpa using hQ
        simp only [List.takeWhile_cons, List.filter_cons, hQf, Bool.false_eq_true, if_false]
        symm
        rw [List.filter_eq_nil_iff]
        intro b hb hq
        obtain ⟨x, hx⟩ := (prefix_iff_take_beq key b.1).mp hq
        have hnp : ¬ key <+: kv.1 := fun h => hQ ((prefix_iff_take_beq key kv.1).mpr h)
        have hgap := stringLess_gap key kv.1 hPf hnp x
        rw [hx] at hgap
        have := stringLess_trans (hall b hb) hgap
        rw [stringLess_irrefl] at this
        exact absurd this (by simp)

theorem ordered_nodup (vars : Variables) (hord : vars.Ordered) : vars.Nodup := by
  unfold Variables.Ordered at hord
  refine hord.imp ?_
  intro a b hab he
  rw [he, stringLess_irrefl] at hab
  exact absurd hab (by simp)

theorem assign_mem (vars : Variables) (symbol value : Str) :
    ∀ b ∈ Variables.assign vars symbol value, b ∈ vars ∨ b = (symbol, value) := by
  induction vars with
  | nil => intro b hb; simp [Variables.assign] at hb; exact Or.inr hb
  | cons kv rest ih =>
    intro b hb
    obtain ⟨k, w⟩ := kv
    unfold Variables.assign at hb
    split at hb
    · rcases List.mem_cons.mp hb with h | h
      · exact Or.inr h
      · exact Or.inl (List.mem_cons_of_mem _ h)
    · split at hb
      · rcases List.mem_cons.mp hb with h | h
        · exact Or.inr h
        · exact Or.inl h
      · rcases List.mem_cons.mp hb with h | h
        · exact Or.inl (h ▸ List.mem_cons_self _ _)
        · rcases ih b h with h2 | h2
          · exact Or.inl (List.mem_cons_of_mem _ h2)
          · exact Or.inr h2

/-- The assignment `vars[symbol] = value` keeps the map ordered. -/
theorem assign_ordered (vars : Variables) (symbol value : Str) (hord : vars.Ordered) :
    (Variables.assign vars symbol value).Ordered := by
  induction vars with
  | nil => simp [Variables.assign, Variables.Ordered]
  | cons kv rest ih =>
    obtain ⟨k, w⟩ := kv
    have hord2 : Variables.Ordered rest := (List.pairwise_cons.mp hord).2
    have hall : ∀ b ∈ rest, stringLess k b.1 = true := (List.pairwise_cons.mp hord).1
    unfold Variables.assign
    split
    · rename_i hsk
      subst hsk
      exact List.pairwise_cons.mpr ⟨hall, hord2⟩
    · split
      · rename_i hne hlt
        refine List.pairwise_cons.mpr ⟨?_, hord⟩
        intro b hb
        rcases List.mem_cons.mp hb with h | h
        · rw [h]; exact hlt
        · exact stringLess_trans hlt (hall b h)
      · rename_i hne hnl
        refine List.pairwise_cons.mpr ⟨?_, ih hord2⟩
        intro b hb
        rcases assign_mem rest symbol value b hb with h | h
        · exact hall b h
        · rw [h]
          exact stringLess_total symbol k hne (by simpa using hnl)

/-- Claim C30.  For every variable space (a map, its symbols in order) and every
prefix, `STLVariables::list(prefix, out)` appends to `out` the entries of the
space whose symbol begins with the prefix, each once and no other, and leaves
the earlier contents of `out` in place; the routine only reads the space. -/
theorem list_spec (vars : Variables) (hord : vars.Ordered) (key : Str)
    (out : List (Str × Str)) :
    ∃ found, Variables.list vars key out = out ++ found ∧
      found = vars.filter (fun kv => decide (key <+: kv.1)) ∧
      (∀ kv, kv ∈ found ↔ kv ∈ vars ∧ key <+: kv.1) ∧ found.Nodup := by
  have hf : (fun kv : Str × Str => kv.1.take key.length == key) =
      (fun kv : Str × Str => decide (key <+: kv.1)) := by
    funext kv
    rw [Bool.eq_iff_iff, prefix_iff_take_beq, decide_eq_true_iff]
  refine ⟨vars.filter (fun kv => decide (key <+: kv.1)), ?_, rfl, ?_, ?_⟩
  · unfold Variables.list
    rw [lowerBound_takeWhile key vars hord, hf]
  · intro kv
    simp [List.mem_filter]
  · exact (ordered_nodup vars hord).filter _

theorem list_spec_witness :
    ∃ found,
      Variables.list [(str "a", str "1"), (str "ab", str "2"), (str "abc", str "3"), (str "b", str "4")]
          (str "ab") [(str "z", str "0")] = [(str "z", str "0")] ++ found ∧
        found = [(str "a", str "1"), (str "ab", str "2"), (str "abc", str "3"),
          (str "b", str "4")].filter (fun kv => decide (str "ab" <+: kv.1)) ∧
        (∀ kv, kv ∈ found ↔
          kv ∈ [(str "a", str "1"), (str "ab", str "2"), (str "abc", str "3"), (str "b", str "4")] ∧
            str "ab" <+: kv.1) ∧
        found.Nodup :=
  list_spec _ (by decide) _ _

/-- An example of `list`: the entries under `ab` of a space built by assignments. -/
theorem list_example :
    Variables.list
        (Variables.assign (Variables.assign (Variables.assign (Variables.assign []
          (str "b") (str "4")) (str "abc") (str "3")) (str "a") (str "1")) (str "ab") (str "2"))
        (str "ab") [(str "z", str "0")] =
      [(str "z", str "0"), (str "ab", str "2"), (str "abc", str "3")] := by
  decide

/-! ### The frame of a call (C21) -/

theorem variables_lookup_assign_ne (m : Variables) (k v k1 : Str) (hne : k1 ≠ k) :
    Variables.lookup (Variables.assign m k v) k1 = Variables.lookup m k1 := by
  induction m with
  | nil =>
    have : (k1 == k) = false := by simpa using hne
    simp [Variables.assign, Variables.lookup, List.lookup, this]
  | cons kw m ih =>
    obtain ⟨k2, w⟩ := kw
    have hb : (k1 == k) = false := by simpa using hne
    unfold Variables.assign
    by_cases h1 : k = k2
    · subst h1
      simp only [if_true, Variables.lookup, List.lookup, hb]
    · simp only [h1, if_false]
      by_cases h2 : stringLess k k2 = true
      · simp only [h2, if_true, Variables.lookup, List.lookup, hb]
      · simp only [h2, if_false, Bool.false_eq_true]
        simp only [Variables.lookup, List.lookup] at ih ⊢
        cases hk : (k1 == k2) with
        | true => rfl
        | false => exact ih

theorem getD_set_self {α : Type} (l : List α) (i : Nat) (x d : α) (hi : i < l.length) :
    (l.set i x).getD i d = x := by
  rw [List.getD_eq_getElem?_getD, List.getElem?_set]
  simp [hi]

theorem getD_set_ne {α : Type} (l : List α) (i j : Nat) (x d : α) (hij : i ≠ j) :
    (l.set i x).getD j d = l.getD j d := by
  rw [List.getD_eq_getElem?_getD, List.getD_eq_getElem?_getD, List.getElem?_set]
  simp [hij]

theorem getD_mem_hashed {entries : List (Str × Str)} {j : Nat}
    (hh : ∀ (i : Nat) (e : Str × Str), entries[i]? = some e → e.1 ≠ [] → QuickVars.hash e.1 = i)
    (hj : j < entries.length) (hne : (entries.getD j ([], [])).1 ≠ []) :
    QuickVars.hash (entries.getD j ([], [])).1 = j := by
  have hget : entries[j]? = some (entries.getD j ([], [])) := by
    rw [List.getD_eq_getElem?_getD, List.getElem?_eq_getElem hj]
    rfl
  exact hh j _ hget hne

theorem value_stl (vars : Variables) (natives : NativeMap) (k : Str) :
    VarSpace.value { vars := vars, natives := natives, cache := none } k =
      Variables.lookup vars k := rfl

theorem value_quick (vars : Variables) (natives : NativeMap) (entries : List (Str × Str))
    (k : Str) :
    VarSpace.value { vars := vars, natives := natives, cache := some entries } k =
      if k = [] then none
      else if (entries.getD (QuickVars.hash k) ([], [])).1 = k then
        some (entries.getD (QuickVars.hash k) ([], [])).2
      else Variables.lookup vars k := by
  unfold VarSpace.value VarSpace.lookup
  simp only
  split
  · rfl
  · split
    · rfl
    · cases Variables.lookup vars k <;> rfl

/-- The state `QuickVars::assign` and `QuickVars::lookup` leave when they move a
symbol into the cache. -/
theorem value_cached (vars : Variables) (natives : NativeMap) (entries : List (Str × Str))
    (hlen : entries.length = CACHE_SIZE)
    (hh : ∀ (i : Nat) (e : Str × Str), entries[i]? = some e → e.1 ≠ [] → QuickVars.hash e.1 = i)
    (id v : Str) (hid : id ≠ []) (k : Str) :
    VarSpace.value
        { vars := if (entries.getD (QuickVars.hash id) ([], [])).1 = id then vars
            else if (entries.getD (QuickVars.hash id) ([], [])).1 ≠ [] then
              vars.assign (entries.getD (QuickVars.hash id) ([], [])).1
                (entries.getD (QuickVars.hash id) ([], [])).2
            else vars,
          natives := natives,
          cache := some (entries.set (QuickVars.hash id) (id, v)) } k =
      if k = id then some v
      else VarSpace.value { vars := vars, natives := natives, cache := some entries } k := by
  have hi : QuickVars.hash id < entries.length := hlen ▸ QuickVars.hash_lt id
  have hj : QuickVars.hash k < entries.length := hlen ▸ QuickVars.hash_lt k
  rw [value_quick, value_quick]
  generalize hentry : entries.getD (QuickVars.hash id) ([], []) = entry
  by_cases hk0 : k = []
  · subst hk0
    have : ([] : Str) ≠ id := fun h => hid h.symm
    simp [this]
  by_cases hkid : k = id
  · subst hkid
    simp only [hk0, if_false, if_true, getD_set_self entries _ _ _ hi]
  simp only [hkid, hk0, if_false]
  by_cases hji : QuickVars.hash id = QuickVars.hash k
  · -- the same slot
    have hnew : (entries.set (QuickVars.hash id) (id, v)).getD (QuickVars.hash k) ([], []) =
        (id, v) := by
      rw [← hji]; exact getD_set_self entries _ _ _ hi
    have hold : entries.getD (QuickVars.hash k) ([], []) = entry := by rw [← hji]; exact hentry
    have hidk : ¬ id = k := fun h => hkid h.symm
    simp only [hnew, hold, hidk, if_false]
    by_cases he : entry.1 = k
    · have hne : entry.1 ≠ id := fun h => hkid (he ▸ h)
      have hne0 : entry.1 ≠ [] := fun h => hk0 (he ▸ h)
      simp only [he, if_true, hk0, hkid, if_false, ne_eq, not_false_eq_true]
      rw [variables_lookup_assign]
    · simp only [he, if_false]
      split
      · rfl
      · split
        · exact variables_lookup_assign_ne vars _ _ k (fun h => he h.symm)
        · rfl
  · -- another slot
    have hnew : (entries.set (QuickVars.hash id) (id, v)).getD (QuickVars.hash k) ([], []) =
        entries.getD (QuickVars.hash k) ([], []) := getD_set_ne entries _ _ _ _ hji
    simp only [hnew]
    by_cases he : (entries.getD (QuickVars.hash k) ([], [])).1 = k
    · simp only [he, if_true]
    · simp only [he, if_false]
      split
      · rfl
      · split
        · rename_i hne0
          apply variables_lookup_assign_ne
          intro hke
          have := getD_mem_hashed hh hi (by rw [hentry]; exact hne0)
          rw [hentry, ← hke] at this
          exact hji this.symm
        · rfl

theorem hashed_cached (vars vars1 : Variables) (natives : NativeMap) (entries : List (Str × Str))
    (hh : VarSpace.Hashed { vars := vars, natives := natives, cache := some entries })
    (id v : Str) :
    VarSpace.Hashed
      { vars := vars1, natives := natives,
        cache := some (entries.set (QuickVars.hash id) (id, v)) } := by
  intro e2 he2
  simp only [Option.some.injEq] at he2
  subst he2
  obtain ⟨hlen, hall⟩ := hh entries rfl
  refine ⟨by simpa using hlen, ?_⟩
  intro i e hie hne
  rw [List.getElem?_set] at hie
  split at hie
  · rename_i heq
    split at hie
    · simp only [Option.some.injEq] at hie
      rw [← hie]; exact heq
    · cases hie
  · exact hall i e hie hne

/-- The assignment to a variable space: the symbol gets the value, every other
symbol keeps its own, and the invariant of the cache holds again. -/
theorem assign_value (vs : VarSpace) (hh : vs.Hashed) (id v : Str) (hid : id ≠ []) :
    (vs.assign id v).2.Hashed ∧
      ∀ k, (vs.assign id v).2.value k = if k = id then some v else vs.value k := by
  obtain ⟨vars, natives, cache⟩ := vs
  cases cache with
  | none =>
    refine ⟨fun e he => (by cases he), ?_⟩
    intro k
    simp only [VarSpace.assign, value_stl]
    by_cases hk : k = id
    · subst hk; simp only [if_true]; exact variables_lookup_assign vars k v
    · simp only [hk, if_false]; exact variables_lookup_assign_ne vars id v k hk
  | some entries =>
    obtain ⟨hlen, hall⟩ := hh entries rfl
    have key := value_cached vars natives entries hlen hall id v hid
    unfold VarSpace.assign
    simp only [hid, if_false]
    by_cases he : (entries.getD (QuickVars.hash id) ([], [])).1 = id
    · simp only [he, if_true] at key ⊢
      exact ⟨hashed_cached vars vars natives entries hh id v, key⟩
    · simp only [he, if_false] at key ⊢
      exact ⟨hashed_cached vars _ natives entries hh id v, key⟩

/-- A lookup leaves every symbol of a variable space with its value. -/
theorem lookup_value (vs : VarSpace) (hh : vs.Hashed) (id : Str) :
    (vs.lookup id).2.Hashed ∧ ∀ k, (vs.lookup id).2.value k = vs.value k := by
  obtain ⟨vars, natives, cache⟩ := vs
  cases cache with
  | none => exact ⟨hh, fun k => rfl⟩
  | some entries =>
    obtain ⟨hlen, hall⟩ := hh entries rfl
    unfold VarSpace.lookup
    simp only
    by_cases hid : id = []
    · simp only [hid, if_true]; exact ⟨hh, fun _ => trivial⟩
    · simp only [hid, if_false]
      by_cases he : (entries.getD (QuickVars.hash id) ([], [])).1 = id
      · simp only [he, if_true]; exact ⟨hh, fun _ => trivial⟩
      · simp only [he, if_false]
        cases hl : Variables.lookup vars id with
        | none => exact ⟨hh, fun k => rfl⟩
        | some value =>
          have key := value_cached vars natives entries hlen hall id value hid
          simp only [he, if_false] at key
          refine ⟨hashed_cached vars _ natives entries hh id value, ?_⟩
          intro k
          have hk := key k
          simp only at hk ⊢
          rw [hk]
          by_cases hkid : k = id
          · subst hkid
            simp only [if_true]
            rw [value_quick]
            simp only [hid, he, if_false, hl]
          · simp only [hkid, if_false]

theorem assignLocal_last (h : Heap) (fr : Frame) (id v : Str) :
    assignLocal (h ++ [fr]) h.length id v = h ++ [{ fr with vars := (fr.vars.assign id v).2 }] := by
  unfold assignLocal storeVars
  simp

theorem assignArgs_last (h : Heap) : ∀ (argv : List Str) (i : Nat) (fr : Frame),
    assignArgs h.length i argv (h ++ [fr]) =
      h ++ [{ fr with vars := assignArgsVars i argv fr.vars }] := by
  intro argv
  induction argv with
  | nil => intro i fr; rfl
  | cons a rest ih =>
    intro i fr
    unfold assignArgs assignArgsVars
    have : (36 :: intToString 64 true (i : Int) 10 1) = argName i := rfl
    rw [this, assignLocal_last, ih]

theorem argName_digits (i : Nat) (hi : (i : Int) < 2 ^ 63) :
    ∃ ds, argName i = 36 :: ds ∧ ds ≠ [] ∧ ∀ c ∈ ds, isDigit c = true := by
  refine ⟨intToString 64 true (i : Int) 10 1, rfl, ?_, ?_⟩
  · rw [intToString_signed (i : Int) (by have : (0 : Int) ≤ i := Int.ofNat_nonneg i; norm_num; omega) hi]
    intro he
    have h2 := congrArg List.length he
    simp only [List.length_append, List.length_replicate, List.length_nil] at h2
    omega
  · rw [intToString_signed (i : Int) (by have : (0 : Int) ≤ i := Int.ofNat_nonneg i; norm_num; omega) hi]
    have hneg : ¬ ((i : Int) < 0) := by omega
    simp only [hneg, if_false, List.nil_append, Int.natAbs_ofNat]
    exact padded_digits _ _

theorem argName_injective (i j : Nat) (hi : (i : Int) < 2 ^ 63) (hj : (j : Int) < 2 ^ 63)
    (he : argName i = argName j) : i = j := by
  unfold argName at he
  injection he with _ h2
  have h0 : ∀ n : Nat, -(2 : Int) ^ 63 ≤ (n : Int) := by
    intro n; have : (0 : Int) ≤ n := Int.ofNat_nonneg n; norm_num; omega
  have a := stringToLong_intToString (i : Int) (h0 i) hi
  have b := stringToLong_intToString (j : Int) (h0 j) hj
  rw [h2, b] at a
  have := congrArg Prod.fst a
  simp only at this
  exact_mod_cast this.symm

theorem argName_ne_named (i : Nat) (hi : (i : Int) < 2 ^ 63) :
    argName i ≠ [36, 110] ∧ argName i ≠ [36, 99, 97, 108, 108, 101, 101] := by
  obtain ⟨ds, he, hne, hd⟩ := argName_digits i hi
  rw [he]
  constructor
  · intro h
    injection h with _ h2
    have := hd 110 (by rw [h2]; simp)
    simp [isDigit] at this
  · intro h
    injection h with _ h2
    have := hd 99 (by rw [h2]; simp)
    simp [isDigit] at this

theorem argName_ne_nil (i : Nat) : argName i ≠ [] := by
  unfold argName; simp

/-- The loop of `Frame::call` gives every argument its name and leaves the other
symbols with their values. -/
theorem assignArgsVars_value : ∀ (argv : List Str) (i : Nat) (vs : VarSpace), vs.Hashed →
    ((i + argv.length : Nat) : Int) ≤ 2 ^ 63 →
    (assignArgsVars i argv vs).Hashed ∧
      (∀ j (hj : j < argv.length), (assignArgsVars i argv vs).value (argName (i + j)) =
        some (argv.get ⟨j, hj⟩)) ∧
      (∀ k, (∀ j, j < argv.length → k ≠ argName (i + j)) →
        (assignArgsVars i argv vs).value k = vs.value k) := by
  intro argv
  induction argv with
  | nil =>
    intro i vs hh _
    exact ⟨hh, fun j hj => absurd hj (by simp), fun k _ => rfl⟩
  | cons a rest ih =>
    intro i vs hh hlen
    simp only [List.length_cons] at hlen
    obtain ⟨hh1, hv1⟩ := assign_value vs hh (argName i) a (argName_ne_nil i)
    have hlen2 : ((i + 1 + rest.length : Nat) : Int) ≤ 2 ^ 63 := by
      have : i + 1 + rest.length = i + (rest.length + 1) := by omega
      rw [this]; exact hlen
    obtain ⟨hh2, harg, hoth⟩ := ih (i + 1) _ hh1 hlen2
    unfold assignArgsVars
    refine ⟨hh2, ?_, ?_⟩
    · intro j hj
      cases j with
      | zero =>
        rw [hoth (argName (i + 0))]
        · rw [hv1]; simp
        · intro j2 hj2 he
          have hb1 : ((i + 0 : Nat) : Int) < 2 ^ 63 := by push_cast at hlen ⊢; omega
          have hb2 : ((i + 1 + j2 : Nat) : Int) < 2 ^ 63 := by push_cast at hlen ⊢; omega
          have := argName_injective _ _ hb1 hb2 he
          omega
      | succ j2 =>
        have hj2 : j2 < rest.length := by simpa using hj
        have := harg j2 hj2
        have e : i + 1 + j2 = i + (j2 + 1) := by omega
        rw [e] at this
        rw [this]
        rfl
    · intro k hk
      rw [hoth k]
      · rw [hv1]
        have : k ≠ argName i := by
          have := hk 0 (by simp)
          simpa using this
        simp [this]
      · intro j hj
        have := hk (j + 1) (by simpa using hj)
        have e : i + (j + 1) = i + 1 + j := by omega
        rw [e] at this
        exact this

/-- The variable space of the frame of a call holds `$n`, the arguments and
`$callee`, and nothing else. -/
theorem callVars_value (locals : VarSpace) (hh : locals.Hashed)
    (hempty : ∀ k, locals.value k = none) (callee : Str) (argv : List Str)
    (hargc : (argv.length : Int) < 2 ^ 63) :
    (callVars locals callee argv).Hashed ∧
      (callVars locals callee argv).value [36, 110] = some (ofLong argv.length) ∧
      (∀ i (hi : i < argv.length),
        (callVars locals callee argv).value (argName i) = some (argv.get ⟨i, hi⟩)) ∧
      (callee ≠ [] →
        (callVars locals callee argv).value [36, 99, 97, 108, 108, 101, 101] = some callee) ∧
      (∀ k v, (callVars locals callee argv).value k = some v →
        k = [36, 110] ∨ (∃ i, i < argv.length ∧ k = argName i) ∨
          (k = [36, 99, 97, 108, 108, 101, 101] ∧ callee ≠ [])) := by
  obtain ⟨hh1, hv1⟩ := assign_value locals hh [36, 110] (ofLong argv.length) (by simp)
  have hlen : ((0 + argv.length : Nat) : Int) ≤ 2 ^ 63 := by
    rw [Nat.zero_add]; exact le_of_lt hargc
  obtain ⟨hh2, harg, hoth⟩ := assignArgsVars_value argv 0 _ hh1 hlen
  have hbound : ∀ i, i < argv.length → ((i : Nat) : Int) < 2 ^ 63 := by
    intro i hi
    have : (i : Int) < (argv.length : Int) := by exact_mod_cast hi
    exact lt_trans this hargc
  have hn2 : (assignArgsVars 0 argv (locals.assign [36, 110] (ofLong argv.length)).2).value
      [36, 110] = some (ofLong argv.length) := by
    rw [hoth]
    · rw [hv1]; simp
    · intro j hj he
      rw [Nat.zero_add] at he
      exact (argName_ne_named j (hbound j hj)).1 he.symm
  have harg2 : ∀ i (hi : i < argv.length),
      (assignArgsVars 0 argv (locals.assign [36, 110] (ofLong argv.length)).2).value (argName i) =
        some (argv.get ⟨i, hi⟩) := by
    intro i hi
    have := harg i hi
    rw [Nat.zero_add] at this
    exact this
  have hex2 : ∀ k v,
      (assignArgsVars 0 argv (locals.assign [36, 110] (ofLong argv.length)).2).value k = some v →
        k = [36, 110] ∨ ∃ i, i < argv.length ∧ k = argName i := by
    intro k v hkv
    by_cases hex : ∃ i, i < argv.length ∧ k = argName i
    · exact Or.inr hex
    · left
      rw [hoth k] at hkv
      · rw [hv1] at hkv
        by_contra hk
        simp only [hk, if_false] at hkv
        rw [hempty] at hkv
        cases hkv
      · intro j hj he
        rw [Nat.zero_add] at he
        exact hex ⟨j, hj, he⟩
  unfold callVars
  simp only
  by_cases hc : callee = []
  · rw [if_neg (not_not.mpr hc)]
    refine ⟨hh2, hn2, harg2, fun h => absurd hc h, ?_⟩
    intro k v hkv
    rcases hex2 k v hkv with h | h
    · exact Or.inl h
    · exact Or.inr (Or.inl h)
  · rw [if_pos hc]
    obtain ⟨hh3, hv3⟩ := assign_value _ hh2 [36, 99, 97, 108, 108, 101, 101] callee (by simp)
    refine ⟨hh3, ?_, ?_, ?_, ?_⟩
    · rw [hv3]; simp only [List.cons.injEq, OfNat.ofNat_ne_one]
      rw [if_neg (by decide)]
      exact hn2
    · intro i hi
      rw [hv3, if_neg (argName_ne_named i (hbound i hi)).2]
      exact harg2 i hi
    · intro _
      rw [hv3]; simp
    · intro k v hkv
      rw [hv3] at hkv
      by_cases hk : k = [36, 99, 97, 108, 108, 101, 101]
      · exact Or.inr (Or.inr ⟨hk, hc⟩)
      · simp only [hk, if_false] at hkv
        rcases hex2 k v hkv with h | h
        · exact Or.inl h
        · exact Or.inr (Or.inl h)

theorem newFrame_ok {h h1 : Heap} {vars : VarSpace} {previous cf : Nat}
    (hn : newFrame h vars previous = .ok (cf, h1)) :
    ∃ (h0 : Heap) (fr : Frame), h1 = h0 ++ [fr] ∧ cf = h0.length ∧ h0.length = h.length ∧
      SameVars h h0 ∧ fr.vars = vars ∧ fr.previous = some previous ∧ fr.closure = cf := by
  unfold newFrame at hn
  split at hn
  · cases hn
  · rename_i pf _
    split at hn
    · cases hn
    · rename_i rt _
      split at hn
      · cases hn
      · rename_i rd _
        split at hn
        · cases hn
        · rename_i label rd1 _
          simp only [Except.ok.injEq, Prod.mk.injEq] at hn
          obtain ⟨h2, h3⟩ := hn
          refine ⟨storeRootData h pf.root rd1, _, h3.symm, h2.symm, storeRootData_length _ _ _,
            (storeRootData_core _ _ _).symm, rfl, rfl, ?_⟩
          simp only
          exact h2

theorem getElem?_append_last {α : Type} (l : List α) (x : α) : (l ++ [x])[l.length]? = some x := by
  simp

/-- The frames of a heap hold, in a second heap, variable spaces with the same
values. -/
theorem storeVars_lookup_values (h : Heap) (f : Nat) (fr : Frame) (id : Str)
    (hf : h[f]? = some fr) :
    ∀ (g : Nat) (fr0 : Frame), h[g]? = some fr0 → fr0.vars.Hashed →
      ∃ fr1, (storeVars h f (fr.vars.lookup id).2)[g]? = some fr1 ∧ fr1.vars.Hashed ∧
        ∀ k, fr1.vars.value k = fr0.vars.value k := by
  intro g fr0 hg hh
  unfold storeVars
  rw [hf]
  simp only
  rw [List.getElem?_set]
  by_cases hfg : f = g
  · subst hfg
    rw [hf] at hg
    injection hg with hg
    subst hg
    have hlt : f < h.length := by
      rcases Nat.lt_or_ge f h.length with h1 | h1
      · exact h1
      · rw [List.getElem?_eq_none h1] at hf; cases hf
    simp only [if_true, hlt]
    exact ⟨_, rfl, (lookup_value fr.vars hh id).1, (lookup_value fr.vars hh id).2⟩
  · simp only [hfg, if_false]
    exact ⟨fr0, hg, hh, fun k => rfl⟩

/-- A `get` leaves every symbol of every frame with its value. -/
theorem get_values (h : Heap) (self : Nat) (identifier : Str) (fallback : Bool) :
    ∀ (g : Nat) (fr0 : Frame), h[g]? = some fr0 →
      (∀ (f : Nat) (fr : Frame), h[f]? = some fr → fr.vars.Hashed) →
      ∃ fr1, (get h self identifier fallback).2[g]? = some fr1 ∧
        ∀ k, fr1.vars.value k = fr0.vars.value k := by
  intro g fr0 hg hall
  have hsame : ∃ fr1, h[g]? = some fr1 ∧ ∀ k, fr1.vars.value k = fr0.vars.value k :=
    ⟨fr0, hg, fun k => rfl⟩
  unfold get
  split
  · exact hsame
  · rename_i f symbol _
    split
    · exact hsame
    · rename_i fr hfr
      have hf : h[f]? = some fr := deref_eq_ok.mp hfr
      have step1 := storeVars_lookup_values h f fr symbol hf
      obtain ⟨fr1, hg1, hh1, hv1⟩ := step1 g fr0 hg (hall g fr0 hg)
      simp only
      split
      · exact ⟨fr1, hg1, hv1⟩
      · split
        · split
          · exact ⟨fr1, hg1, hv1⟩
          · rename_i me _
            split
            · exact ⟨fr1, hg1, hv1⟩
            · rename_i rt hrt
              have hr : (storeVars h f (fr.vars.lookup symbol).2)[me.root]? = some rt :=
                deref_eq_ok.mp hrt
              obtain ⟨fr2, hg2, _, hv2⟩ :=
                storeVars_lookup_values _ me.root rt symbol hr g fr1 hg1 hh1
              have hres : ∃ fr2, (storeVars (storeVars h f (fr.vars.lookup symbol).2) me.root
                  (rt.vars.lookup symbol).2)[g]? = some fr2 ∧
                  ∀ k, fr2.vars.value k = fr0.vars.value k :=
                ⟨fr2, hg2, fun k => (hv2 k).trans (hv1 k)⟩
              split
              · exact hres
              · exact hres
        · exact ⟨fr1, hg1, hv1⟩

theorem callBody_setup {D : Type} (env : Env D) (rec : Interp) (self : Nat) (callee body : Str)
    (argv : List Str) (h h0 : Heap) (fr : Frame)
    (hn : newFrame h env.locals self = .ok (h0.length, h0 ++ [fr])) (hv : fr.vars = env.locals) :
    callBody env rec self callee body argv h =
      (match (if body = [] then
          get (h0 ++ [{ fr with vars := callVars env.locals callee argv }]) self callee true
        else (.ok body, h0 ++ [{ fr with vars := callVars env.locals callee argv }])) with
       | (.error x, hb) => (.error x, deleteFrame hb h0.length)
       | (.ok code, hb) =>
         ((rec.execute h0.length code hb).1, deleteFrame (rec.execute h0.length code hb).2 h0.length)) := by
  have h4 : (if callee ≠ [] then
        assignLocal (assignArgs h0.length 0 argv
          (assignLocal (h0 ++ [fr]) h0.length [36, 110] (ofLong argv.length)))
          h0.length [36, 99, 97, 108, 108, 101, 101] callee
      else assignArgs h0.length 0 argv
          (assignLocal (h0 ++ [fr]) h0.length [36, 110] (ofLong argv.length))) =
      h0 ++ [{ fr with vars := callVars env.locals callee argv }] := by
    rw [assignLocal_last, assignArgs_last, assignLocal_last]
    unfold callVars
    simp only [hv]
    split <;> rfl
  unfold callBody
  rw [hn]
  simp only
  rw [h4]
  generalize (if body = [] then
      get (h0 ++ [{ fr with vars := callVars env.locals callee argv }]) self callee true
    else (.ok body, h0 ++ [{ fr with vars := callVars env.locals callee argv }])) = b
  obtain ⟨o, hb⟩ := b
  cases o <;> rfl

/-- Claim C21.  `Frame::call(callee, body, argc, argv)` executes in a new frame
whose caller is the frame of the call and whose variable space, a new one, holds
when the execution starts `$n` with the value `argc`, `$i` with `argv[i]` for
every `i` below `argc`, `$callee` with the callee when this is not empty, and
nothing else; the text executed is `body`, or for a void body the value of
`callee`, looked up with the fallback to the Root; the frames that were there
keep their variables. -/
theorem call_frame {D : Type} (env : Env D) (rec : Interp) (self : Nat) (callee body : Str)
    (argv : List Str) (h h1 : Heap) (cf : Nat)
    (hnew : newFrame h env.locals self = .ok (cf, h1))
    (hfresh : env.locals.Hashed ∧ ∀ k, env.locals.value k = none)
    (hargc : (argv.length : Int) < 2 ^ 63) :
    ∃ (h4 : Heap) (fr : Frame),
      (cf = h.length ∧ h4.length = h.length + 1 ∧ h4[cf]? = some fr ∧ fr.previous = some self ∧
        SameVars h (h4.take h.length)) ∧
      (fr.vars.value (str "$n") = some (ofLong argv.length) ∧
        (∀ i (hi : i < argv.length),
          fr.vars.value (str "$" ++ intToString 64 true (i : Int) 10 1) = some (argv.get ⟨i, hi⟩)) ∧
        (callee ≠ [] → fr.vars.value (str "$callee") = some callee) ∧
        (∀ k v, fr.vars.value k = some v →
          k = str "$n" ∨ (∃ i, i < argv.length ∧ k = str "$" ++ intToString 64 true (i : Int) 10 1) ∨
            (k = str "$callee" ∧ callee ≠ []))) ∧
      callBody env rec self callee body argv h =
        (match (if body = [] then get h4 self callee true else (.ok body, h4)) with
         | (.error x, hb) => (.error x, deleteFrame hb cf)
         | (.ok code, hb) =>
           ((rec.execute cf code hb).1, deleteFrame (rec.execute cf code hb).2 cf)) ∧
      ((∀ (f : Nat) (fr0 : Frame), h[f]? = some fr0 → fr0.vars.Hashed) →
        ∀ (g : Nat) (fr0 : Frame), h4[g]? = some fr0 →
          ∃ fr1, (get h4 self callee true).2[g]? = some fr1 ∧
            ∀ k, fr1.vars.value k = fr0.vars.value k) := by
  obtain ⟨h0, fr, he, hcf, hlen, hsame, hvars, hprev, -⟩ := newFrame_ok hnew
  subst he hcf
  obtain ⟨hh, hn, harg, hcallee, hex⟩ :=
    callVars_value env.locals hfresh.1 hfresh.2 callee argv hargc
  have e1 : str "$n" = [36, 110] := by decide
  have e2 : str "$callee" = [36, 99, 97, 108, 108, 101, 101] := by decide
  have e3 : ∀ i : Nat, str "$" ++ intToString 64 true (i : Int) 10 1 = argName i := by
    intro i
    have : str "$" = [36] := by decide
    rw [this]; rfl
  simp only [e1, e2, e3]
  refine ⟨h0 ++ [{ fr with vars := callVars env.locals callee argv }],
    { fr with vars := callVars env.locals callee argv }, ⟨hlen, ?_, ?_, hprev, ?_⟩,
    ⟨hn, harg, hcallee, hex⟩, ?_, ?_⟩
  · simp [hlen]
  · exact getElem?_append_last h0 _
  · rw [← hlen, List.take_left']
    · exact hsame
    · rfl
  · rw [callBody_setup env rec self callee body argv h h0 fr hnew hvars]
  · intro hall g fr0 hg
    apply get_values _ self callee true g fr0 hg
    intro f fr2 hf
    by_cases hlt : f < h0.length
    · rw [List.getElem?_append_left hlt] at hf
      have hm : (h.map Frame.core)[f]? = (h0.map Frame.core)[f]? := by rw [hsame]
      rw [List.getElem?_map, List.getElem?_map, hf] at hm
      cases hf0 : h[f]? with
      | none => rw [hf0] at hm; cases hm
      | some fr3 =>
        rw [hf0] at hm
        simp only [Option.map_some', Option.some.injEq, Frame.core, Prod.mk.injEq] at hm
        rw [← hm.1]
        exact hall f fr3 hf0
    · have hge : h0.length ≤ f := Nat.le_of_not_lt hlt
      rw [List.getElem?_append_right hge] at hf
      cases hd : f - h0.length with
      | zero =>
        rw [hd] at hf
        simp only [List.getElem?_cons_zero, Option.some.injEq] at hf
        rw [← hf]
        exact hh
      | succ n =>
        rw [hd] at hf
        simp at hf

theorem emptySTL_fresh : VarSpace.emptySTL.Hashed ∧ ∀ k, VarSpace.emptySTL.value k = none :=
  ⟨fun _ he => (by cases he), fun _ => rfl⟩

theorem emptyQuick_fresh : VarSpace.emptyQuick.Hashed ∧ ∀ k, VarSpace.emptyQuick.value k = none := by
  constructor
  · intro entries he
    simp only [VarSpace.emptyQuick, Option.some.injEq] at he
    subst he
    refine ⟨by simp, ?_⟩
    intro i e hie hne
    rw [List.getElem?_replicate] at hie
    split at hie
    · simp only [Option.some.injEq] at hie
      rw [← hie] at hne
      exact absurd rfl hne
    · cases hie
  · intro k
    unfold VarSpace.emptyQuick
    rw [value_quick]
    split
    · rfl
    · have hlt := QuickVars.hash_lt k
      have : (List.replicate CACHE_SIZE (([], []) : Str × Str)).getD (QuickVars.hash k) ([], []) =
          ([], []) := by
        rw [List.getD_eq_getElem?_getD, List.getElem?_replicate]
        split <;> rfl
      rw [this]
      rename_i hk
      have : ¬ (([] : Str) = k) := fun h => hk h.symm
      simp only [this, if_false]
      rfl

theorem call_frame_witness :
    ∃ (h4 : Heap) (fr : Frame),
      h4[1]? = some fr ∧ fr.previous = some 0 ∧
        fr.vars.value (str "$n") = some (ofLong ((([str "7", str "8"] : List Str).length : Nat) : Int)) ∧
        (str "f" ≠ [] → fr.vars.value (str "$callee") = some (str "f")) := by
  obtain ⟨h1, hn⟩ : ∃ h1, newFrame stdRoot stdEnv.locals 0 = .ok (1, h1) := ⟨_, rfl⟩
  obtain ⟨h4, fr, ha, hb, -, -⟩ :=
    call_frame stdEnv (interp stdEnv 5) 0 (str "f") (str "\x7b $0 \x7d") [str "7", str "8"] stdRoot h1 1
      hn emptySTL_fresh (by norm_num)
  exact ⟨h4, fr, ha.2.2.1, ha.2.2.2.1, hb.1, hb.2.2.1⟩

set_option maxRecDepth 100000 in
/-- Calls through the interpreter: the frame of the call holds `$callee`, `$n` and
the arguments, with `STLVariables` and with `QuickVars` for the locals; a call of
a value that is no variable has no `$callee`. -/
theorem call_examples :
    (evaluate stdEnv 12 0
        (str "f = function \x7b $callee # ':' # $n # ':' # $0 # ':' # $1 \x7d; f('a', 'b')")
        stdRoot).1 = .ok (str "f:2:a:b") ∧
      (evaluate { stdEnv with locals := VarSpace.emptyQuick } 12 0
        (str "f = function \x7b $callee # ':' # $n # ':' # $0 # ':' # $1 \x7d; f('a', 'b')")
        stdRoot).1 = .ok (str "f:2:a:b") ∧
      (evaluate stdEnv 12 0 (str "(function \x7b $callee \x7d)()") stdRoot).1 =
        .error (.undefined (str "$callee")) ∧
      (evaluate stdEnv 12 0 (str "(function \x7b $2 \x7d)(1, 2)") stdRoot).1 =
        .error (.undefined (str "$2")) := by
  decide

/-! ### `Frame::execute` (C22) -/

set_option maxRecDepth 100000 in
/-- The literal reading of claim C22 fails in two places: a body that begins with
a brace fails with `Illegal call` when the text it evaluates calls a value that
is no function (here the number `1`), and the body `<:x>`, which names no
native, fails with `Invalid identifier`, since the frame prefix of the name is
resolved before the native is looked up. -/
theorem execute_counterexample :
    (execute stdEnv 12 0 (str "\x7b 1() \x7d") stdRoot).1 = .error (.illegalCall (str "1")) ∧
      (execute stdEnv 12 0 (str "<:x>") stdRoot).1 = .error (.invalidIdentifier (str ":x")) ∧
      (execute stdEnv 12 0 (str "<:9:f>") stdRoot).1 =
        .error (.frameDoesNotExistLabel (str ":9:")) := by
  decide

theorem dropLast_append_singleton (l : Str) (c : Nat) : (l ++ [c]).dropLast = l := by
  simp

/-- Claim C22, amended.  `Frame::execute(body)` fails at once with `Illegal call`
on `body`, the frames untouched, when `body` is empty or begins with none of the
brace, `>` and `<`, and in no other case raises this exception itself: a body
that begins with a brace is evaluated as source text in that same frame; a body
that begins with `>` is evaluated, after the frame prefix that follows `>` has
become the closure; a body `<id>` whose `id` has no frame prefix is the native
registered as `id` in the Root and fails with `Unknown native function` when
there is none, as it does when `id` is empty; when `id` begins with a colon its
frame prefix is resolved first, and a failure of that resolution is the failure
of `execute`. -/
theorem execute_cases {D : Type} (env : Env D) (rec : Interp) (self : Nat) (body : Str)
    (h : Heap) :
    ((body = [] ∨ ∃ c r, body = c :: r ∧ c ≠ 123 ∧ c ≠ 62 ∧ c ≠ 60) →
        executeBody env rec self body h = (.error (.illegalCall body), h)) ∧
      (∀ r, body = 123 :: r → executeBody env rec self body h = evaluateBody rec self body h) ∧
      (∀ r, body = 62 :: r → executeBody env rec self body h =
        match resolveFrameIt h self r with
        | .error x => (.error x, h)
        | .ok (f, rest) => evaluateBody rec self rest (storeClosure h self f)) ∧
      (∀ id c fr rt, body = 60 :: (id ++ [c]) → id ≠ [] → id.head? ≠ some 58 →
        h[self]? = some fr → h[fr.root]? = some rt →
        (rt.vars.lookupNative id = none →
            executeBody env rec self body h = (.error (.unknownNative body), h)) ∧
          (∀ n, rt.vars.lookupNative id = some n →
            executeBody env rec self body h = env.pikaCall n h self)) ∧
      (∀ id c, body = 60 :: (id ++ [c]) → id.head? = some 58 →
        (∀ x, resolveFrameIt h self id = .error x →
            executeBody env rec self body h = (.error x, h)) ∧
          (∀ f name nf, resolveFrameIt h self id = .ok (f, name) → h[f]? = some nf →
            (nf.vars.lookupNative name = none →
              executeBody env rec self body h = (.error (.unknownNative body), h)) ∧
            (∀ n, nf.vars.lookupNative name = some n →
              executeBody env rec self body h = env.pikaCall n h self))) ∧
      ((body = [60] ∨ ∃ c, body = [60, c]) →
        executeBody env rec self body h = (.error (.unknownNative body), h)) := by
  refine ⟨?_, ?_, ?_, ?_, ?_, ?_⟩
  · rintro (rfl | ⟨c, r, rfl, h1, h2, h3⟩)
    · rfl
    · unfold executeBody
      split
      · rename_i heq; injection heq with hc _; exact absurd hc h1
      · rename_i heq; injection heq with hc _; exact absurd hc h2
      · rename_i heq; injection heq with hc _; exact absurd hc h3
      · rfl
  · rintro r rfl
    rfl
  · rintro r rfl
    rfl
  · rintro id c fr rt rfl hne hhead hself hroot
    have hlen : (id ++ [c]).length > 1 := by
      cases id with
      | nil => exact absurd rfl hne
      | cons x id => simp
    have hd : deref h self = .ok fr := deref_eq_ok.mpr hself
    have hr : deref h fr.root = .ok rt := deref_eq_ok.mpr hroot
    constructor
    · intro hnone
      simp only [executeBody, dropLast_append_singleton, hlen, if_true, hhead, if_false, hd, hr,
        hnone]
    · intro n hsome
      simp only [executeBody, dropLast_append_singleton, hlen, if_true, hhead, if_false, hd, hr,
        hsome]
  · rintro id c rfl hhead
    have hlen : (id ++ [c]).length > 1 := by
      cases id with
      | nil => simp at hhead
      | cons x id => simp
    constructor
    · intro x hx
      simp only [executeBody, dropLast_append_singleton, hlen, if_true, hhead, hx]
    · intro f name nf hres hf
      have hd : deref h f = .ok nf := deref_eq_ok.mpr hf
      constructor
      · intro hnone
        simp only [executeBody, dropLast_append_singleton, hlen, if_true, hhead, hres, hd, hnone]
      · intro n hsome
        simp only [executeBody, dropLast_append_singleton, hlen, if_true, hhead, hres, hd, hsome]
  · rintro (rfl | ⟨c, rfl⟩) <;> simp [executeBody]

theorem execute_cases_witness :
    executeBody stdEnv (interp stdEnv 3) 0 (str "nonsense") stdRoot =
        (.error (.illegalCall (str "nonsense")), stdRoot) ∧
      executeBody stdEnv (interp stdEnv 3) 0 (str "<nope>") stdRoot =
        (.error (.unknownNative (str "<nope>")), stdRoot) :=
  ⟨(execute_cases stdEnv (interp stdEnv 3) 0 (str "nonsense") stdRoot).1
      (Or.inr ⟨110, str "onsense", by decide, by decide, by decide, by decide⟩),
    ((execute_cases stdEnv (interp stdEnv 3) 0 (str "<nope>") stdRoot).2.2.2.1
      (str "nope") 62 _ _ (by decide) (by decide) (by decide) rfl rfl).1 (by decide)⟩

/-! ### The function literal (C23) -/

set_option maxRecDepth 100000 in
/-- The literal reading of claim C23 fails: the value of `function \x7b 1 \x7d` is
the text from the brace on, `\x7b 1 \x7d`, without the word `function`; this is
the text `execute` takes for a function. -/
theorem function_counterexample :
    (evaluate stdEnv 8 0 (str "function \x7b 1 \x7d") stdRoot).1 = .ok (str "\x7b 1 \x7d") ∧
      (evaluate stdEnv 8 0 (str "function \x7b 1 \x7d") stdRoot).1 ≠
        .ok (str "function \x7b 1 \x7d") ∧
      (evaluate stdEnv 12 0 (str "(function \x7b $0 + $1 \x7d)(10, 32)") stdRoot).1 =
        .ok (str "42") := by
  decide

theorem whiteLoop_blanks (rest : Str) (hrest : ∀ c, rest.head? = some c → maybeWhite c = false) :
    ∀ (w : Str), (∀ c ∈ w, c = 32 ∨ c = 9 ∨ c = 13 ∨ c = 10) →
      ∀ fuel, w.length < fuel → whiteLoop fuel (w ++ rest) = .ok rest := by
  intro w
  induction w with
  | nil =>
    intro _ fuel hf
    cases fuel with
    | zero => exact absurd hf (by simp)
    | succ fuel =>
      cases rest with
      | nil => rfl
      | cons c r =>
        have hc := hrest c rfl
        simp only [maybeWhite, Bool.or_eq_false_iff, beq_eq_false_iff_ne, ne_eq] at hc
        simp only [List.nil_append, whiteLoop]
        rw [if_neg (by omega), if_neg (by omega)]
  | cons x w ih =>
    intro hw fuel hf
    cases fuel with
    | zero => exact absurd hf (by simp)
    | succ fuel =>
      have hx := hw x (List.mem_cons_self _ _)
      simp only [List.cons_append, whiteLoop, hx, if_true]
      exact ih (fun c hc => hw c (List.mem_cons_of_mem _ hc)) fuel (by simpa using hf)

theorem skipWhite_blanks (w rest : Str) (hw : ∀ c ∈ w, c = 32 ∨ c = 9 ∨ c = 13 ∨ c = 10)
    (hrest : ∀ c, rest.head? = some c → maybeWhite c = false) :
    skipWhite (w ++ rest) = .ok rest := by
  cases w with
  | nil =>
    cases rest with
    | nil => rfl
    | cons c r => simp [skipWhite, hrest c rfl]
  | cons x w =>
    have hx := hw x (List.mem_cons_self _ _)
    have hm : maybeWhite x = true := by
      rcases hx with h | h | h | h <;> subst h <;> rfl
    simp only [List.cons_append, skipWhite, hm, if_true, white]
    rw [← List.cons_append]
    exact whiteLoop_blanks rest hrest (x :: w) hw _ (by simp only [List.length_cons, List.length_append]; omega)

theorem token_function (w code : Str) (hw : ∀ c ∈ w, c = 32 ∨ c = 9 ∨ c = 13 ∨ c = 10) :
    token (str "function" ++ w ++ 123 :: code) [97, 108, 115, 101] =
        .ok (false, str "function" ++ w ++ 123 :: code) ∧
      token (str "function" ++ w ++ 123 :: code) [111, 114] =
        .ok (false, str "function" ++ w ++ 123 :: code) ∧
      token (str "function" ++ w ++ 123 :: code) [117, 110, 99, 116, 105, 111, 110] =
        .ok (true, 123 :: code) := by
  have hs : str "function" = [102, 117, 110, 99, 116, 105, 111, 110] := by decide
  rw [hs]
  refine ⟨by simp [token, List.isPrefixOf], by simp [token, List.isPrefixOf], ?_⟩
  have hsk := skipWhite_blanks w (123 :: code) hw (by intro c hc; simp at hc; subst hc; rfl)
  have hpre : List.isPrefixOf [117, 110, 99, 116, 105, 111, 110]
      ([117, 110, 99, 116, 105, 111, 110] ++ w ++ 123 :: code) = true := by
    simp [List.isPrefixOf]
  have hdrop : ([117, 110, 99, 116, 105, 111, 110] ++ w ++ 123 :: code).drop
      ([117, 110, 99, 116, 105, 111, 110] : Str).length = w ++ 123 :: code := by
    simp
  show token (102 :: ([117, 110, 99, 116, 105, 111, 110] ++ w ++ 123 :: code))
    [117, 110, 99, 116, 105, 111, 110] = _
  unfold token
  simp only
  rw [if_pos hpre, hdrop]
  split
  · rw [hsk]
  · rename_i hn
    exfalso
    apply hn
    cases w with
    | nil => rfl
    | cons x w =>
      have hx := hw x (List.mem_cons_self _ _)
      rcases hx with h | h | h | h <;> subst h <;> rfl

/-- Claim C23, amended.  Live evaluation of `function`, optional blanks and a
compound `\x7b body \x7d` whose dry parse succeeds yields the value whose text is
the compound from its opening brace to the place where the dry parse stops: the
text `\x7b body \x7d`, without the word `function`. -/
theorem function_literal {D : Type} (env : Env D) (rec : Interp) (self : Nat) (st r : St)
    (w code : Str) (b : Bool) (hw : ∀ c ∈ w, c = 32 ∨ c = 9 ∨ c = 13 ∨ c = 10)
    (hp : st.p = str "function" ++ w ++ 123 :: code)
    (hexpr : rec.expr self { st with p := 123 :: code } false true DEFINITION = (.ok b, r)) :
    pre env rec self st false =
      (.ok true, { r with v := (false, (123 :: code).take ((123 :: code).length - r.p.length)) }) := by
  obtain ⟨t1, t2, t3⟩ := token_function w code hw
  rw [← hp] at t1 t2 t3
  have hs : str "function" = [102, 117, 110, 99, 116, 105, 111, 110] := by decide
  have hp2 : st.p = 102 :: ([117, 110, 99, 116, 105, 111, 110] ++ w ++ 123 :: code) := by
    rw [hp, hs]; rfl
  unfold pre
  simp only
  rw [hp2] at t1 t2 t3 ⊢
  simp only [t1, t2, t3]
  simp [functionLiteral, hexpr]

set_option maxRecDepth 100000 in
theorem function_literal_witness :
    pre stdEnv (interp stdEnv 3) 0
        { p := str "function \x7b 1 \x7d", v := (false, []), h := stdRoot } false =
      (.ok true, { p := [], v := (false, str "\x7b 1 \x7d"), h := stdRoot }) :=
  (function_literal stdEnv (interp stdEnv 3) 0
    { p := str "function \x7b 1 \x7d", v := (false, []), h := stdRoot }
    { p := [], v := (false, []), h := stdRoot } [32] (str " 1 \x7d") true
    (by decide) (by decide) (by decide)).trans (by decide)

/-! ### Lambda values (C24) -/

set_option maxRecDepth 100000 in
/-- The literal reading of claim C24 fails.  The white space after `>` is no part
of the value: `> 1` yields `>::1`.  A text that begins with a caret is not
evaluated as it stands when the value is executed, since `execute` reads the
carets with the label as the frame prefix: the value of `>^x` made in a function
with `x = 3`, called from the Root with `x = 7`, yields 7 when it is called
there, where `>(^x)` yields 3; made in the Root, it fails. -/
theorem lambda_counterexample :
    (evaluate stdEnv 12 0 (str "> 1") stdRoot).1 = .ok (str ">::1") ∧
      (evaluate stdEnv 12 0 (str ">^x") stdRoot).1 = .ok (str ">::^x") ∧
      (evaluate stdEnv 12 0 (str "x = 7; f = >^x; f()") stdRoot).1 = .error .frameDoesNotExist ∧
      (evaluate stdEnv 12 0
        (str "x = 7; g = function \x7b x = 3; f = >^x; f() \x7d; g()") stdRoot).1 = .ok (str "7") ∧
      (evaluate stdEnv 12 0
        (str "x = 7; g = function \x7b x = 3; f = >(^x); f() \x7d; g()") stdRoot).1 =
          .ok (str "3") := by
  decide

/-- The lambda of `Frame::pre`, live: the value is `>`, the label of the closure
and the text the dry parse has read, from the first character after `>` that is
no white space. -/
theorem lambda_value {D : Type} (env : Env D) (rec : Interp) (self : Nat) (st r : St)
    (p1 B : Str) (b : Bool) (fr cl : Frame) (hp : st.p = 62 :: p1) (hw : skipWhite p1 = .ok B)
    (hexpr : rec.expr self { st with p := B } false true STATEMENT = (.ok b, r))
    (hself : r.h[self]? = some fr) (hcl : r.h[fr.closure]? = some cl) :
    pre env rec self st false =
      (.ok true,
        { r with v := (false, [62] ++ cl.label ++ B.take (B.length - r.p.length)) }) := by
  have hd1 : deref r.h self = .ok fr := deref_eq_ok.mpr hself
  have hd2 : deref r.h fr.closure = .ok cl := deref_eq_ok.mpr hcl
  unfold pre
  simp only
  rw [hp]
  simp [lambdaLiteral, hw, hexpr, hd1, hd2]

/-- The execution of a lambda value: the label designates the closure and the
text after it is evaluated. -/
theorem lambda_execute {D : Type} (env : Env D) (rec : Interp) (h : Heap) (hwf : WellFormed h)
    (F : Nat) (hF : F < h.length) (C : Nat) (cl : Frame) (P : Prefix) (B : Str)
    (hC : h[C]? = some cl) (hP : P.Valid) (hPne : P ≠ .none) (hlabel : cl.label = P.text)
    (hstart : StartsAt h F P C) (hB : B.head? ≠ some 94)
    (hclos : B.head? = some 36 ∨ cl.closure = C) :
    executeBody env rec F ([62] ++ cl.label ++ B) h =
      evaluateBody rec F B (storeClosure h F C) := by
  have hid : IsIdentifier (P.text ++ B) P 0 B :=
    ⟨by simp, hP, hB, fun hp => absurd hp hPne⟩
  have hit : resolveFrameIt h F (P.text ++ B) = .ok (C, B) := by
    rcases resolveFrameIt_cases h hwf F hF _ P 0 B hid with ⟨hmiss, _⟩ | ⟨_, t, hok⟩
    · exact absurd hmiss (not_missing_of_reached hstart rfl)
    · obtain ⟨_, start, up, hs, ha, ht⟩ := resolveFrameIt_ok h F _ P 0 B t B hid hok
      have h1 : start = C := startsAt_unique hs hstart
      subst h1
      simp only [ancestor, Option.some.injEq] at ha
      subst ha
      have : t = start := by
        unfold IsTarget at ht
        split at ht
        · exact ht
        · obtain ⟨fr1, hfr1, rfl⟩ := ht
          rw [hC] at hfr1
          cases hfr1
          rcases hclos with hc | hc
          · rename_i hne
            exact absurd hc hne
          · exact hc
      rw [hok, this]
  rw [hlabel]
  simp only [List.singleton_append, List.cons_append, List.nil_append, executeBody, hit]

/-- Claim C24, amended.  Live evaluation of `>` and a text in a frame whose
closure is the frame `cl` yields `>`, the label of `cl` and the text `B` that the
dry parse reads after the white space following `>`.  Executing the value
`>` ++ label ++ `B` in a frame from which the label designates the frame `C` (the
Root for `::`, else the nearest frame of the caller chain with the label)
evaluates exactly the text `B` with the closure of the executing frame set to
`C`, provided `B` does not begin with a caret and either begins with `$` or `C`
is its own closure. -/
theorem lambda_closure {D : Type} (env : Env D) (rec : Interp) :
    (∀ (self : Nat) (st r : St) (p1 B : Str) (b : Bool) (fr cl : Frame),
        st.p = 62 :: p1 → skipWhite p1 = .ok B →
        rec.expr self { st with p := B } false true STATEMENT = (.ok b, r) →
        r.h[self]? = some fr → r.h[fr.closure]? = some cl →
        pre env rec self st false =
            (.ok true,
              { r with v := (false, [62] ++ cl.label ++ B.take (B.length - r.p.length)) }) ∧
          (r.p = [] → B.take (B.length - r.p.length) = B)) ∧
      (∀ (h : Heap) (F C : Nat) (cl : Frame) (P : Prefix) (B : Str),
        WellFormed h → F < h.length → h[C]? = some cl → P.Valid → P ≠ .none →
        cl.label = P.text → StartsAt h F P C → B.head? ≠ some 94 →
        (B.head? = some 36 ∨ cl.closure = C) →
        executeBody env rec F ([62] ++ cl.label ++ B) h =
          evaluateBody rec F B (storeClosure h F C)) := by
  constructor
  · intro self st r p1 B b fr cl hp hw hexpr hself hcl
    refine ⟨lambda_value env rec self st r p1 B b fr cl hp hw hexpr hself hcl, ?_⟩
    intro hnil
    rw [hnil]
    simp
  · intro h F C cl P B hwf hF hC hP hPne hlabel hstart hB hclos
    exact lambda_execute env rec h hwf F hF C cl P B hC hP hPne hlabel hstart hB hclos

set_option maxRecDepth 100000 in
theorem lambda_closure_witness :
    pre stdEnv (interp stdEnv 3) 0 { p := str ">$0 + 1", v := (false, []), h := stdRoot } false =
        (.ok true, { p := [], v := (false, str ">::$0 + 1"), h := stdRoot }) ∧
      executeBody stdEnv (interp stdEnv 3) 2 (str ">:1:$0 + 1") exampleHeap =
        evaluateBody (interp stdEnv 3) 2 (str "$0 + 1") (storeClosure exampleHeap 2 1) :=
  ⟨(((lambda_closure stdEnv (interp stdEnv 3)).1 0
        { p := str ">$0 + 1", v := (false, []), h := stdRoot }
        { p := [], v := (false, []), h := stdRoot } (str "$0 + 1") (str "$0 + 1") true
        { vars := VarSpace.emptySTL, root := 0, previous := none, closure := 0, label := [58, 58],
          rootData := some RootData.init }
        { vars := VarSpace.emptySTL, root := 0, previous := none, closure := 0, label := [58, 58],
          rootData := some RootData.init }
        (by decide) (by decide) (by decide) (by decide) (by decide)).1).trans (by decide),
    (lambda_closure stdEnv (interp stdEnv 3)).2 exampleHeap 2 1
      { vars := { vars := [([36, 110], [48]), ([97], [49])] }, root := 0, previous := some 0,
        closure := 0, label := [58, 49, 58] }
      (Prefix.label [49]) (str "$0 + 1") exampleHeap_wellFormed (by decide) (by decide)
      ⟨by decide, by decide⟩ (by decide) (by decide)
      ⟨1, { vars := { vars := [([36, 110], [48]), ([97], [49])] }, root := 0,
            previous := some 0, closure := 0, label := [58, 49, 58] },
        by decide, by decide, by decide, fun m hm g1 fr1 hg hf => by
        have hm0 : m = 0 := by omega
        subst hm0
        simp only [ancestor, Option.some.injEq] at hg
        subst hg
        simp only [exampleHeap, List.getElem?_cons_succ, List.getElem?_cons_zero,
          Option.some.injEq] at hf
        subst hf
        decide⟩
      (by decide) (Or.inl (by decide))⟩

/-! ### `Frame::parse` (C25) -/

set_option maxRecDepth 100000 in
/-- The literal reading of claim C25 fails: `parse("x", false)` succeeds and stops
at the end of the source, and the evaluation of this text fails, `x` being
undefined; `parse` also accepts the text `'abc'\x7b\x7d`, for which the live run
alone raises `Syntax error`.  The examples of the help text of `parse` stop
where it says. -/
theorem parse_counterexample :
    parse stdEnv 8 0 (str "x") stdRoot = (.ok true, { p := [], v := (false, []), h := stdRoot }) ∧
      (evaluate stdEnv 8 0 (str "x") stdRoot).1 = .error (.undefined (str "x")) ∧
      parse stdEnv 8 0 (str "'abc'\x7b\x7d") stdRoot =
        (.ok true, { p := [], v := (false, []), h := stdRoot }) ∧
      (evaluate stdEnv 8 0 (str "'abc'\x7b\x7d") stdRoot).1 = .error .syntaxError ∧
      (parse stdEnv 8 0 (str "3+3") stdRoot).2.p = [] ∧
      (evaluate stdEnv 8 0 (str "3+3") stdRoot).1 = .ok (str "6") ∧
      (parse stdEnv 8 0 (str "1 + 2 * 3 ; stop at semicolon") stdRoot).2.p =
        str "; stop at semicolon" ∧
      (evaluate stdEnv 8 0 (str "1 + 2 * 3 ") stdRoot).1 = .ok (str "7") ∧
      (parse stdEnv 8 0 (str "x + x * 3 ) * 7 /* stop at unbalanced ) */") stdRoot).2.p =
        str ") * 7 /* stop at unbalanced ) */" ∧
      (parse stdEnv 8 0 (str "1 + (2") stdRoot).1 = .error (.missing 41) := by
  decide

/-- Claim C25, amended.  `parse(source, false)` is a dry run of `expr` over the
source: whatever the source, it leaves every variable of every frame as it was,
and when it fails it fails with an exception of the syntax (or, in the
embedding, for want of fuel).  That it succeeds says nothing more about the
evaluation of the text it has read than that this text parses. -/
theorem parse_dry {D : Type} (env : Env D) (n : Nat) (self : Nat) (source : Str) (h : Heap) :
    SameVars h (parse env n self source h).2.h ∧
      ∀ x, (parse env n self source h).1 = .error x → (x.isParseError || x.isFault) = true :=
  interp_dryRec env n self { p := source, v := (false, []), h := h } true STATEMENT

set_option maxRecDepth 100000 in
theorem parse_dry_witness :
    ((Xception.missing 41).isParseError || (Xception.missing 41).isFault) = true :=
  (parse_dry stdEnv 8 0 (str "1 + (2") stdRoot).2 (.missing 41) (by decide)

/-! ### The characters `escape` writes (C40) -/

set_option maxRecDepth 100000 in
theorem escapeChar_printable : ∀ c < 256, ∀ x ∈ escapeChar c, 32 ≤ x ∧ x ≤ 126 := by
  decide

theorem escBody_printable : ∀ (s : Str), (∀ c ∈ s, c < 256) →
    ∀ x ∈ escBody s, 32 ≤ x ∧ x ≤ 126 := by
  intro s
  induction s with
  | nil => intro _ x hx; simp [escBody] at hx
  | cons c s ih =>
    intro h8 x hx
    unfold escBody at hx
    rw [List.mem_append] at hx
    rcases hx with hx | hx
    · by_cases hp : isPlainDouble c = true
      · rw [if_pos hp] at hx
        simp only [List.mem_singleton] at hx
        subst hx
        simp only [isPlainDouble, Bool.and_eq_true, decide_eq_true_eq, bne_iff_ne, ne_eq] at hp
        omega
      · rw [if_neg hp] at hx
        exact escapeChar_printable c (h8 c (List.mem_cons_self _ _)) x hx
    · exact ih (fun y hy => h8 y (List.mem_cons_of_mem _ hy)) x hx

/-- Claim C40.  For every string `s` of 8-bit characters, every character of
`escape(s)` is printable ASCII (32 to 126), `escape(s)` has at least two
characters, and its first and its last character are the same quote: both an
apostrophe or both a double quote. -/
theorem escape_printable (s : Str) (h8 : ∀ c ∈ s, c < 256) :
    (∀ x ∈ escape s, 32 ≤ x ∧ x ≤ 126) ∧ 2 ≤ (escape s).length ∧
      ∃ q body, (q = 39 ∨ q = 34) ∧ escape s = [q] ++ body ++ [q] := by
  rw [escape_eq]
  by_cases hq : s.dropWhile isPlainSingle = []
  · rw [if_pos hq]
    refine ⟨?_, by simp, 39, s, Or.inl rfl, rfl⟩
    intro x hx
    simp only [List.mem_append, List.mem_singleton] at hx
    rcases hx with (hx | hx) | hx
    · omega
    · have := (dropWhile_single_nil_iff s).mp hq x hx
      omega
    · omega
  · rw [if_neg hq]
    refine ⟨?_, by simp, 34, escBody s, Or.inr rfl, rfl⟩
    intro x hx
    simp only [List.mem_append, List.mem_singleton] at hx
    rcases hx with (hx | hx) | hx
    · omega
    · exact escBody_printable s h8 x hx
    · omega

theorem escape_printable_witness :
    (∀ x ∈ escape [7, 200, 39], 32 ≤ x ∧ x ≤ 126) ∧ 2 ≤ (escape [7, 200, 39]).length ∧
      ∃ q body, (q = 39 ∨ q = 34) ∧ escape [7, 200, 39] = [q] ++ body ++ [q] :=
  escape_printable [7, 200, 39] (by decide)

/-! ### The native `random`: the sign of the result -/

theorem inf_or_finite (c : Prop) [Decidable c] (a : Nat) (b : Int) :
    (∃ m e, (if c then F64.inf false else F64.finite false a b) = .finite false m e) ∨
      (if c then F64.inf false else F64.finite false a b) = .inf false := by
  by_cases h : c
  · rw [if_pos h]; exact Or.inr rfl
  · rw [if_neg h]; exact Or.inl ⟨_, _, rfl⟩

theorem round_nonneg (n d : Nat) :
    (∃ m e, F64.round false n d = .finite false m e) ∨ F64.round false n d = .inf false := by
  unfold F64.round
  by_cases hn : n = 0
  · rw [if_pos hn]; exact Or.inl ⟨_, _, rfl⟩
  · rw [if_neg hn]
    exact inf_or_finite _ _ _

theorem round_zero (neg : Bool) (d : Nat) : F64.round neg 0 d = .finite neg 0 0 := by
  unfold F64.round
  simp

theorem scale_zero (d : Nat) (e : Int) : (F64.scale 0 d e).1 = 0 := by
  unfold F64.scale
  split <;> simp

theorem f64_pos_finite (m : F64) (hpos : F64.lt (F64.ofInt 0) m = true) (hfin : m ≠ .inf false) :
    ∃ mm me, m = .finite false mm me ∧ mm ≠ 0 := by
  have h0 : F64.ofInt 0 = .finite false 0 0 := by decide
  rw [h0] at hpos
  cases m with
  | nan => simp [F64.lt] at hpos
  | inf b =>
    cases b with
    | false => exact absurd rfl hfin
    | true => simp [F64.lt] at hpos
  | finite n mm me =>
    refine ⟨mm, me, ?_, ?_⟩
    · cases n with
      | false => rfl
      | true =>
        exfalso
        simp only [F64.lt, F64.aligned, if_true, decide_eq_true_eq] at hpos
        have : (0 : Int) ≤ ((mm <<< (me - me).toNat : Nat) : Int) := Int.ofNat_nonneg _
        simp at hpos
        omega
    · intro hm
      subst hm
      simp [F64.lt, F64.aligned] at hpos

theorem f64_zero_le (r : F64)
    (hr : (∃ m e, r = .finite false m e) ∨ r = .inf false) :
    F64.le (F64.ofInt 0) r = true := by
  have h0 : F64.ofInt 0 = .finite false 0 0 := by decide
  rw [h0]
  rcases hr with ⟨m, e, rfl⟩ | rfl
  · unfold F64.le F64.lt F64.eq
    simp only [F64.aligned, if_true, Bool.or_eq_true, decide_eq_true_eq]
    have : (0 : Int) ≤ ((m <<< (e - e).toNat : Nat) : Int) := Int.ofNat_nonneg _
    simp
    omega
  · rfl

theorem ofInt_nat (n : Nat) : F64.ofInt (n : Int) = F64.round false n 1 := by
  unfold F64.ofInt
  have : decide ((n : Int) < 0) = false := by simp
  rw [this, Int.natAbs_ofNat]

theorem mul_nonneg_finite (mm : Nat) (me : Int) (hmm : mm ≠ 0) (x : F64)
    (hx : (∃ m e, x = .finite false m e) ∨ x = .inf false) :
    (∃ m e, F64.mul (.finite false mm me) x = .finite false m e) ∨
      F64.mul (.finite false mm me) x = .inf false := by
  rcases hx with ⟨m, e, rfl⟩ | rfl
  · exact round_nonneg _ _
  · right
    simp [F64.mul, hmm]

theorem div_nonneg_finite (mb : Nat) (eb : Int) (hmb : mb ≠ 0) (x : F64)
    (hx : (∃ m e, x = .finite false m e) ∨ x = .inf false) :
    (∃ m e, F64.div x (.finite false mb eb) = .finite false m e) ∨
      F64.div x (.finite false mb eb) = .inf false := by
  rcases hx with ⟨m, e, rfl⟩ | rfl
  · simp only [F64.div, if_neg hmb]
    exact round_nonneg _ _
  · right
    simp [F64.div]


/-! ### The registration of natives (C33) -/

theorem nativeMap_lookup_assign (m : NativeMap) (k : Str) (n : Option Nat) :
    List.lookup k (NativeMap.assign m k n) = some n := by
  induction m with
  | nil => simp [NativeMap.assign, List.lookup]
  | cons kv m ih =>
    obtain ⟨k1, w⟩ := kv
    unfold NativeMap.assign
    by_cases h1 : k = k1
    · simp [h1, List.lookup]
    · rw [if_neg h1]
      by_cases h2 : stringLess k k1 = true
      · rw [if_pos h2]; simp [List.lookup]
      · rw [if_neg h2]
        have : (k == k1) = false := by simpa using h1
        simp only [List.lookup, this]
        exact ih

theorem resolveFrame_plain (h : Heap) (r : Nat) (rt : Frame) (id : Str)
    (hr : h[r]? = some rt) (hcl : rt.closure = r)
    (hid : id ≠ []) (hsym : ∀ c ∈ id, isSymbolChar c = true) :
    resolveFrame h r id = .ok (r, id) := by
  cases id with
  | nil => exact absurd rfl hid
  | cons c p =>
    have hc := hsym c (List.mem_cons_self _ _)
    have h58 : c ≠ 58 := by rintro rfl; simp [isSymbolChar] at hc
    have h94 : c ≠ 94 := by rintro rfl; simp [isSymbolChar] at hc
    by_cases h36 : c = 36
    · subst h36; rfl
    · unfold resolveFrame
      split
      · rename_i heq; injection heq with a _; exact absurd a h36
      · rename_i heq; injection heq with a _; exact absurd a h58
      · rename_i heq; injection heq with a _; exact absurd a h94
      · simp only [deref, hr, hcl]

theorem assign_natives (vs : VarSpace) (id v : Str) (hid : id ≠ []) :
    (vs.assign id v).1 = true ∧ (vs.assign id v).2.natives = vs.natives := by
  unfold VarSpace.assign
  split
  · exact ⟨rfl, rfl⟩
  · rw [if_neg hid]
    simp only
    split <;> exact ⟨rfl, rfl⟩

theorem value_natives (vs : VarSpace) (m : NativeMap) (k : Str) :
    VarSpace.value { vs with natives := m } k = vs.value k := by
  obtain ⟨vars, natives, cache⟩ := vs
  cases cache with
  | none => rfl
  | some entries =>
    simp only [VarSpace.value, VarSpace.lookup]
    split
    · rfl
    · split
      · rfl
      · split <;> rfl

theorem hashed_natives (vs : VarSpace) (m : NativeMap) (hh : vs.Hashed) :
    VarSpace.Hashed { vs with natives := m } := hh

theorem lookupNative_assign (vs : VarSpace) (id : Str) (native : Option Nat) :
    VarSpace.lookupNative { vs with natives := vs.natives.assign id native } id = native := by
  unfold VarSpace.lookupNative
  simp only [nativeMap_lookup_assign]

theorem storeVars_root (h : Heap) (r : Nat) (rt : Frame) (vs : VarSpace) (hr : h[r]? = some rt) :
    storeVars h r vs = h.set r { rt with vars := vs } ∧
      (storeVars h r vs)[r]? = some { rt with vars := vs } := by
  have hlt : r < h.length := by
    rcases Nat.lt_or_ge r h.length with h1 | h1
    · exact h1
    · rw [List.getElem?_eq_none h1] at hr; cases hr
  unfold storeVars
  rw [hr]
  simp [hlt]

/-- The registration of a native on a Root under a plain identifier: the heap
holds the Root with the native in its map and the identifier as a variable. -/
theorem registerNative_some (h : Heap) (r : Nat) (rt : Frame) (id : Str) (n : Nat)
    (hr : h[r]? = some rt) (hroot : rt.root = r) (hcl : rt.closure = r)
    (hid : id ≠ []) (hsym : ∀ c ∈ id, isSymbolChar c = true) :
    registerNative h r id (some n) =
      (.ok (), storeVars h r
        (VarSpace.assign { rt.vars with natives := rt.vars.natives.assign id (some n) } id
          ([60] ++ id ++ [62])).2) := by
  have hres := resolveFrame_plain h r rt id hr hcl hid hsym
  have hs := storeVars_root h r rt { rt.vars with natives := rt.vars.natives.assign id (some n) } hr
  have hres1 := resolveFrame_plain _ r _ id hs.2 hcl hid hsym
  have ha := assign_natives { rt.vars with natives := rt.vars.natives.assign id (some n) } id
    ([60] ++ id ++ [62]) hid
  unfold registerNative
  rw [hres]
  simp only [deref, hr, VarSpace.assignNative, Bool.not_true, Bool.false_eq_true, if_false,
    ne_eq, not_false_eq_true, if_true, hroot, reduceCtorEq]
  unfold set
  rw [hres1]
  simp only [deref, hs.2, ha.1, if_true]
  rw [hs.1]
  unfold storeVars
  have hlt : r < h.length := by
    rcases Nat.lt_or_ge r h.length with h1 | h1
    · exact h1
    · rw [List.getElem?_eq_none h1] at hr; cases hr
  simp [hlt, hr]

theorem registerNative_none (h : Heap) (r : Nat) (rt : Frame) (id : Str)
    (hr : h[r]? = some rt) (hcl : rt.closure = r)
    (hid : id ≠ []) (hsym : ∀ c ∈ id, isSymbolChar c = true) :
    registerNative h r id none =
      (.ok (), storeVars h r { rt.vars with natives := rt.vars.natives.assign id none }) := by
  have hres := resolveFrame_plain h r rt id hr hcl hid hsym
  unfold registerNative
  rw [hres]
  simp only [deref, hr, VarSpace.assignNative, Bool.not_true, Bool.false_eq_true, if_false,
    ne_eq, not_true_eq_false]

theorem executeBody_unknown {D : Type} (env : Env D) (rec : Interp) (h : Heap) (self : Nat)
    (fr rt : Frame) (id : Str) (hf : h[self]? = some fr) (hr : h[fr.root]? = some rt)
    (hn : rt.vars.lookupNative id = none)
    (hid : id ≠ []) (hsym : ∀ c ∈ id, isSymbolChar c = true) :
    executeBody env rec self ([60] ++ id ++ [62]) h =
      (.error (.unknownNative ([60] ++ id ++ [62])), h) := by
  have hlen : (id ++ [62]).length > 1 := by
    cases id with
    | nil => exact absurd rfl hid
    | cons c p => simp
  have hhead : id.head? ≠ some 58 := by
    cases id with
    | nil => exact absurd rfl hid
    | cons c p =>
      have hc := hsym c (List.mem_cons_self _ _)
      simp only [List.head?_cons, ne_eq, Option.some.injEq]
      rintro rfl
      simp [isSymbolChar] at hc
  show executeBody env rec self (60 :: (id ++ [62])) h = _
  unfold executeBody
  simp only [hlen, if_true, deref, hf, dropLast_append_singleton, hhead, if_false, hr, hn]
  rfl

/-- Claim C33.  On a Root, with a native `n` that is not null and an identifier
of symbol characters: after `registerNative(id, n)` the lookup of the native
`id` yields `n` and the variable `id` holds the text `<id>`; after
`unregisterNative(id)` the variable still holds `<id>`, the lookup of the native
yields the null pointer, and the execution of `<id>` throws "Unknown native
function". -/
theorem native_registration {D : Type} (env : Env D) (rec : Interp) (h : Heap) (r : Nat)
    (rt : Frame) (id : Str) (n : Nat)
    (hr : h[r]? = some rt) (hroot : rt.root = r) (hcl : rt.closure = r) (hh : rt.vars.Hashed)
    (hid : id ≠ []) (hsym : ∀ c ∈ id, isSymbolChar c = true) :
    ∃ rt1 rt2,
      (registerNative h r id (some n)).1 = .ok () ∧
      (registerNative h r id (some n)).2[r]? = some rt1 ∧
      rt1.vars.lookupNative id = some n ∧
      rt1.vars.value id = some ([60] ++ id ++ [62]) ∧
      (unregisterNative (registerNative h r id (some n)).2 r id).1 = .ok () ∧
      (unregisterNative (registerNative h r id (some n)).2 r id).2[r]? = some rt2 ∧
      rt2.vars.value id = some ([60] ++ id ++ [62]) ∧
      rt2.vars.lookupNative id = none ∧
      executeBody env rec r ([60] ++ id ++ [62])
          (unregisterNative (registerNative h r id (some n)).2 r id).2 =
        (.error (.unknownNative ([60] ++ id ++ [62])),
          (unregisterNative (registerNative h r id (some n)).2 r id).2) := by
  have hreg := registerNative_some h r rt id n hr hroot hcl hid hsym
  have hs1 := storeVars_root h r rt
    (VarSpace.assign { rt.vars with natives := rt.vars.natives.assign id (some n) } id
      ([60] ++ id ++ [62])).2 hr
  have ha := assign_natives { rt.vars with natives := rt.vars.natives.assign id (some n) } id
    ([60] ++ id ++ [62]) hid
  have hv := assign_value { rt.vars with natives := rt.vars.natives.assign id (some n) }
    (hashed_natives rt.vars _ hh) id ([60] ++ id ++ [62]) hid
  rw [hreg]
  simp only
  have hun := registerNative_none _ r _ id hs1.2 hcl hid hsym
  have hs2 := storeVars_root _ r _
    { (VarSpace.assign { rt.vars with natives := rt.vars.natives.assign id (some n) } id
        ([60] ++ id ++ [62])).2 with
      natives := (VarSpace.assign { rt.vars with natives := rt.vars.natives.assign id (some n) } id
        ([60] ++ id ++ [62])).2.natives.assign id none } hs1.2
  unfold unregisterNative
  rw [hun]
  simp only
  refine ⟨_, _, trivial, hs1.2, ?_, ?_, trivial, hs2.2, ?_, ?_, ?_⟩
  · show VarSpace.lookupNative (VarSpace.assign _ id _).2 id = some n
    unfold VarSpace.lookupNative
    rw [ha.2]
    simp only [nativeMap_lookup_assign]
  · have := hv.2 id
    simpa using this
  · show VarSpace.value _ id = _
    rw [value_natives]
    have := hv.2 id
    simpa using this
  · exact lookupNative_assign _ id none
  · exact executeBody_unknown env rec _ r _ _ id hs2.2 (by simpa [hroot] using hs2.2)
      (lookupNative_assign _ id none) hid hsym

theorem native_registration_witness :
    ∃ rt1 rt2,
      (registerNative (newRoot VarSpace.emptyQuick) 0 (str "abs") (some 7)).1 = .ok () ∧
      (registerNative (newRoot VarSpace.emptyQuick) 0 (str "abs") (some 7)).2[0]? = some rt1 ∧
      rt1.vars.lookupNative (str "abs") = some 7 ∧
      rt1.vars.value (str "abs") = some ([60] ++ str "abs" ++ [62]) ∧
      (unregisterNative (registerNative (newRoot VarSpace.emptyQuick) 0 (str "abs") (some 7)).2
        0 (str "abs")).1 = .ok () ∧
      (unregisterNative (registerNative (newRoot VarSpace.emptyQuick) 0 (str "abs") (some 7)).2
        0 (str "abs")).2[0]? = some rt2 ∧
      rt2.vars.value (str "abs") = some ([60] ++ str "abs" ++ [62]) ∧
      rt2.vars.lookupNative (str "abs") = none ∧
      executeBody stdEnv (interp stdEnv 0) 0 ([60] ++ str "abs" ++ [62])
          (unregisterNative (registerNative (newRoot VarSpace.emptyQuick) 0 (str "abs")
            (some 7)).2 0 (str "abs")).2 =
        (.error (.unknownNative ([60] ++ str "abs" ++ [62])),
          (unregisterNative (registerNative (newRoot VarSpace.emptyQuick) 0 (str "abs")
            (some 7)).2 0 (str "abs")).2) :=
  native_registration stdEnv (interp stdEnv 0) (newRoot VarSpace.emptyQuick) 0 _ (str "abs") 7
    rfl rfl rfl emptyQuick_fresh.1 (by decide) (by decide)

/-! ### The cache of `QuickVars` (C37) -/

theorem stringLess_asymm {a b : Str} (hab : stringLess a b = true) : stringLess b a = false := by
  cases h : stringLess b a with
  | false => rfl
  | true =>
    have := stringLess_trans hab h
    rw [stringLess_irrefl] at this
    cases this

theorem lookup_none_of_less (vars : Variables) (k : Str)
    (h : ∀ b ∈ vars, stringLess k b.1 = true) : Variables.lookup vars k = none := by
  induction vars with
  | nil => rfl
  | cons kv rest ih =>
    obtain ⟨k1, v1⟩ := kv
    have h1 := h (k1, v1) (List.mem_cons_self _ _)
    have hne : (k == k1) = false := by
      cases hb : (k == k1) with
      | false => rfl
      | true =>
        have : k = k1 := by simpa using hb
        subst this
        rw [stringLess_irrefl] at h1
        cases h1
    simp only [Variables.lookup, List.lookup, hne]
    exact ih (fun b hb => h b (List.mem_cons_of_mem _ hb))

theorem lookup_head (k v : Str) (rest : Variables) :
    Variables.lookup ((k, v) :: rest) k = some v := by
  simp [Variables.lookup, List.lookup]

theorem lookup_tail (k v k1 : Str) (rest : Variables) (hne : k1 ≠ k) :
    Variables.lookup ((k, v) :: rest) k1 = Variables.lookup rest k1 := by
  have : (k1 == k) = false := by simpa using hne
  simp [Variables.lookup, List.lookup, this]

/-- Two ordered maps with the same value for every symbol are the same map. -/
theorem ordered_ext : ∀ (a b : Variables), a.Ordered → b.Ordered →
    (∀ k, Variables.lookup a k = Variables.lookup b k) → a = b := by
  intro a
  induction a with
  | nil =>
    intro b _ _ h
    cases b with
    | nil => rfl
    | cons kv rest =>
      have := h kv.1
      rw [show kv :: rest = (kv.1, kv.2) :: rest from rfl, lookup_head] at this
      cases this
  | cons kv a ih =>
    intro b ha hb h
    obtain ⟨k1, v1⟩ := kv
    have halla : ∀ x ∈ a, stringLess k1 x.1 = true := (List.pairwise_cons.mp ha).1
    cases b with
    | nil =>
      have := h k1
      rw [lookup_head] at this
      cases this
    | cons kw b =>
      obtain ⟨k2, v2⟩ := kw
      have hallb : ∀ x ∈ b, stringLess k2 x.1 = true := (List.pairwise_cons.mp hb).1
      have hk : k1 = k2 := by
        by_contra hne
        by_cases hl : stringLess k1 k2 = true
        · have h1 := h k1
          rw [lookup_head, lookup_tail k2 v2 k1 b hne,
            lookup_none_of_less b k1 (fun x hx => stringLess_trans hl (hallb x hx))] at h1
          cases h1
        · have hl2 := stringLess_total k1 k2 hne (by simpa using hl)
          have h2 := h k2
          rw [lookup_head, lookup_tail k1 v1 k2 a (fun e => hne e.symm),
            lookup_none_of_less a k2 (fun x hx => stringLess_trans hl2 (halla x hx))] at h2
          cases h2
      subst hk
      have hv : v1 = v2 := by
        have := h k1
        rw [lookup_head, lookup_head] at this
        exact Option.some.inj this
      subst hv
      congr 1
      apply ih b (List.pairwise_cons.mp ha).2 (List.pairwise_cons.mp hb).2
      intro k
      by_cases hkk : k = k1
      · subst hkk
        rw [lookup_none_of_less a k halla, lookup_none_of_less b k hallb]
      · have := h k
        rwa [lookup_tail k1 v1 k a hkk, lookup_tail k1 v1 k b hkk] at this

theorem erase_ordered (vars : Variables) (symbol : Str) (hord : vars.Ordered) :
    (vars.erase symbol).Ordered :=
  List.Pairwise.sublist (List.filter_sublist _) hord

theorem lookup_erase (vars : Variables) (symbol k : Str) :
    Variables.lookup (vars.erase symbol) k =
      if k = symbol then none else Variables.lookup vars k := by
  induction vars with
  | nil => simp [Variables.erase, Variables.lookup, List.lookup]
  | cons kv rest ih =>
    obtain ⟨k1, v1⟩ := kv
    unfold Variables.erase at ih ⊢
    by_cases h1 : k1 = symbol
    · subst h1
      have : ((k1, v1).1 != k1) = false := by simp
      rw [List.filter_cons_of_neg (by simp)]
      rw [ih]
      by_cases hk : k = k1
      · simp [hk]
      · simp only [hk, if_false]
        rw [lookup_tail k1 v1 k rest hk]
    · rw [List.filter_cons_of_pos (by simpa using h1)]
      by_cases hk : k = k1
      · subst hk
        rw [lookup_head, lookup_head, if_neg h1]
      · rw [lookup_tail k1 v1 k _ hk, lookup_tail k1 v1 k _ hk]
        exact ih

theorem flushCache_ordered : ∀ (es : List (Str × Str)) (vars : Variables), vars.Ordered →
    (flushCache vars es).Ordered := by
  intro es
  induction es with
  | nil => intro vars h; exact h
  | cons e rest ih =>
    intro vars h
    unfold flushCache
    apply ih
    split
    · exact assign_ordered vars _ _ h
    · exact h

theorem flushCache_append : ∀ (a b : List (Str × Str)) (vars : Variables),
    flushCache vars (a ++ b) = flushCache (flushCache vars a) b := by
  intro a
  induction a with
  | nil => intro b vars; rfl
  | cons e rest ih =>
    intro b vars
    simp only [List.cons_append, flushCache]
    exact ih b _

theorem flushCache_other : ∀ (es : List (Str × Str)) (vars : Variables) (k : Str),
    (∀ e ∈ es, e.1 = [] ∨ e.1 ≠ k) →
    Variables.lookup (flushCache vars es) k = Variables.lookup vars k := by
  intro es
  induction es with
  | nil => intro vars k _; rfl
  | cons e rest ih =>
    intro vars k h
    unfold flushCache
    rw [ih _ k (fun x hx => h x (List.mem_cons_of_mem _ hx))]
    split
    · rename_i hne
      rcases h e (List.mem_cons_self _ _) with h1 | h1
      · exact absurd h1 hne
      · exact variables_lookup_assign_ne vars _ _ k (fun hk => h1 hk.symm)
    · rfl

theorem mem_index {α : Type} (l : List α) (x : α) (hx : x ∈ l) : ∃ i : Nat, l[i]? = some x := by
  obtain ⟨i, hi, h⟩ := List.mem_iff_getElem.mp hx
  exact ⟨i, by rw [List.getElem?_eq_getElem hi, h]⟩

/-- What the map holds for a symbol once the cache is written back. -/
theorem lookup_flushCache (vars : Variables) (entries : List (Str × Str))
    (hlen : entries.length = CACHE_SIZE)
    (hh : ∀ (i : Nat) (e : Str × Str), entries[i]? = some e → e.1 ≠ [] → QuickVars.hash e.1 = i)
    (k : Str) :
    Variables.lookup (flushCache vars entries) k =
      if k ≠ [] ∧ (entries.getD (QuickVars.hash k) ([], [])).1 = k then
        some (entries.getD (QuickVars.hash k) ([], [])).2
      else Variables.lookup vars k := by
  have hi : QuickVars.hash k < entries.length := hlen ▸ QuickVars.hash_lt k
  have hget : entries[QuickVars.hash k]? = some (entries.getD (QuickVars.hash k) ([], [])) := by
    rw [List.getD_eq_getElem?_getD, List.getElem?_eq_getElem hi]
    rfl
  generalize hentry : entries.getD (QuickVars.hash k) ([], []) = entry at hget
  by_cases hc : k ≠ [] ∧ entry.1 = k
  · rw [if_pos hc]
    obtain ⟨hk, hek⟩ := hc
    have hsplit : entries = entries.take (QuickVars.hash k) ++
        (entry :: entries.drop (QuickVars.hash k + 1)) := by
      have h1 := (List.take_append_drop (QuickVars.hash k) entries).symm
      have h2 : entries.drop (QuickVars.hash k) =
          entry :: entries.drop (QuickVars.hash k + 1) := by
        rw [List.drop_eq_getElem_cons hi]
        congr 1
        rw [List.getElem?_eq_getElem hi] at hget
        exact Option.some.inj hget
      rw [h2] at h1
      exact h1
    rw [hsplit, flushCache_append]
    unfold flushCache
    have hne : entry.1 ≠ [] := by rw [hek]; exact hk
    rw [if_pos hne]
    rw [flushCache_other]
    · rw [hek]; exact variables_lookup_assign _ k _
    · intro e he
      by_cases h0 : e.1 = []
      · exact Or.inl h0
      · right
        intro hke
        obtain ⟨j, hj⟩ := mem_index _ e he
        rw [List.getElem?_drop] at hj
        have := hh _ e hj h0
        rw [hke] at this
        omega
  · rw [if_neg hc]
    apply flushCache_other
    intro e he
    by_cases h0 : e.1 = []
    · exact Or.inl h0
    · right
      intro hke
      apply hc
      obtain ⟨j, hj⟩ := mem_index _ e he
      have hjk := hh j e hj h0
      rw [hke] at hjk
      rw [← hjk] at hj
      rw [hget] at hj
      have : entry = e := Option.some.inj hj
      rw [this]
      exact ⟨hke ▸ h0, hke⟩

theorem content_lookup (q : VarSpace) (hq : q.Hashed) (k : Str) :
    Variables.lookup q.content k =
      if k = [] then Variables.lookup q.vars [] else q.value k := by
  obtain ⟨vars, natives, cache⟩ := q
  cases cache with
  | none =>
    simp only [VarSpace.content, value_stl]
    split
    · rename_i h; rw [h]
    · rfl
  | some entries =>
    obtain ⟨hlen, hall⟩ := hq entries rfl
    simp only [VarSpace.content]
    rw [lookup_flushCache vars entries hlen hall k, value_quick]
    by_cases hk : k = []
    · simp [hk]
    · simp only [hk, if_false, ne_eq, not_false_eq_true, true_and]

theorem content_ordered (q : VarSpace) (hord : q.vars.Ordered) : q.content.Ordered := by
  obtain ⟨vars, natives, cache⟩ := q
  cases cache with
  | none => exact hord
  | some entries => exact flushCache_ordered entries vars hord

theorem assign_vars (q : VarSpace) (hord : q.vars.Ordered) (id v : Str) :
    (q.assign id v).2.vars.Ordered ∧
      (id ≠ [] → Variables.lookup (q.assign id v).2.vars [] = Variables.lookup q.vars []) := by
  obtain ⟨vars, natives, cache⟩ := q
  cases cache with
  | none =>
    refine ⟨assign_ordered vars id v hord, fun hid => ?_⟩
    exact variables_lookup_assign_ne vars id v [] (fun h => hid h.symm)
  | some entries =>
    unfold VarSpace.assign
    simp only
    split
    · exact ⟨hord, fun _ => rfl⟩
    · split
      · exact ⟨hord, fun _ => rfl⟩
      · split
        · rename_i hne
          exact ⟨assign_ordered vars _ _ hord,
            fun _ => variables_lookup_assign_ne vars _ _ [] (fun h => hne h.symm)⟩
        · exact ⟨hord, fun _ => rfl⟩

theorem lookup_vars (q : VarSpace) (hord : q.vars.Ordered) (id : Str) :
    (q.lookup id).2.vars.Ordered ∧
      Variables.lookup (q.lookup id).2.vars [] = Variables.lookup q.vars [] := by
  obtain ⟨vars, natives, cache⟩ := q
  cases cache with
  | none => exact ⟨hord, rfl⟩
  | some entries =>
    unfold VarSpace.lookup
    simp only
    split
    · exact ⟨hord, rfl⟩
    · split
      · exact ⟨hord, rfl⟩
      · split
        · exact ⟨hord, rfl⟩
        · split
          · rename_i hne
            exact ⟨assign_ordered vars _ _ hord,
              variables_lookup_assign_ne vars _ _ [] (fun h => hne h.symm)⟩
          · exact ⟨hord, rfl⟩

theorem hashed_cleared (vars vars1 : Variables) (natives : NativeMap) (entries : List (Str × Str))
    (hh : VarSpace.Hashed { vars := vars, natives := natives, cache := some entries }) (i : Nat) :
    VarSpace.Hashed
      { vars := vars1, natives := natives, cache := some (entries.set i ([], [])) } := by
  intro e2 he2
  simp only [Option.some.injEq] at he2
  subst he2
  obtain ⟨hlen, hall⟩ := hh entries rfl
  refine ⟨by simpa using hlen, ?_⟩
  intro j e hje hne
  rw [List.getElem?_set] at hje
  split at hje
  · split at hje
    · simp only [Option.some.injEq] at hje
      rw [← hje] at hne
      exact absurd rfl hne
    · cases hje
  · exact hall j e hje hne

/-- The erasure in a variable space: what `erase` returns, the symbol has no
value afterwards, every other symbol keeps its own, and the invariants hold
again. -/
theorem erase_value (q : VarSpace) (hq : q.Hashed) (hord : q.vars.Ordered) (id : Str)
    (hid : id ≠ []) :
    (q.erase id).1 = (q.value id).isSome ∧ (q.erase id).2.Hashed ∧
      (q.erase id).2.vars.Ordered ∧
      Variables.lookup (q.erase id).2.vars [] = Variables.lookup q.vars [] ∧
      ∀ k, (q.erase id).2.value k = if k = id then none else q.value k := by
  obtain ⟨vars, natives, cache⟩ := q
  have h0 : Variables.lookup (vars.erase id) [] = Variables.lookup vars [] := by
    rw [lookup_erase, if_neg (fun h => hid h.symm)]
  cases cache with
  | none =>
    refine ⟨rfl, fun e he => (by cases he), erase_ordered vars id hord, h0, ?_⟩
    intro k
    simp only [VarSpace.erase, value_stl]
    exact lookup_erase vars id k
  | some entries =>
    obtain ⟨hlen, hall⟩ := hq entries rfl
    have hi : QuickVars.hash id < entries.length := hlen ▸ QuickVars.hash_lt id
    unfold VarSpace.erase
    simp only
    by_cases he : (entries.getD (QuickVars.hash id) ([], [])).1 = id
    · simp only [he, if_true]
      refine ⟨?_, hashed_cleared vars _ natives entries hq _, erase_ordered vars id hord, h0, ?_⟩
      · rw [value_quick]
        simp only [hid, he, if_false, if_true, Option.isSome_some]
      · intro k
        rw [value_quick, value_quick]
        by_cases hk0 : k = []
        · simp only [hk0, if_true]
          split <;> rfl
        · simp only [hk0, if_false]
          by_cases hji : QuickVars.hash id = QuickVars.hash k
          · have hnew : (entries.set (QuickVars.hash id) ([], [])).getD (QuickVars.hash k)
                ([], []) = ([], []) := by
              rw [← hji]; exact getD_set_self entries _ _ _ hi
            have hne : ¬ ([] : Str) = k := fun h => hk0 h.symm
            simp only [hnew, hne, if_false]
            rw [lookup_erase, ← hji, he]
            by_cases hkid : k = id
            · simp only [hkid, if_true]
            · have : ¬ id = k := fun h => hkid h.symm
              simp only [hkid, this, if_false]
          · have hnew : (entries.set (QuickVars.hash id) ([], [])).getD (QuickVars.hash k)
                ([], []) = entries.getD (QuickVars.hash k) ([], []) :=
              getD_set_ne entries _ _ _ _ hji
            have hkid : k ≠ id := fun h => hji (by rw [h])
            simp only [hnew, hkid, if_false]
            rw [lookup_erase, if_neg hkid]
    · simp only [he, if_false]
      refine ⟨?_, hq, erase_ordered vars id hord, h0, ?_⟩
      · rw [value_quick]
        simp only [hid, he, if_false]
      · intro k
        rw [value_quick, value_quick]
        by_cases hk0 : k = []
        · simp only [hk0, if_true]
          split <;> rfl
        · simp only [hk0, if_false]
          by_cases hkid : k = id
          · subst hkid
            simp only [he, if_false, if_true]
            rw [lookup_erase, if_pos rfl]
          · simp only [hkid, if_false]
            rw [lookup_erase, if_neg hkid]

theorem content_flushed (vars : Variables) (natives : NativeMap) (entries : List (Str × Str))
    (hq : VarSpace.Hashed { vars := vars, natives := natives, cache := some entries })
    (hord : vars.Ordered) :
    flushCache (flushCache vars entries) entries = flushCache vars entries := by
  obtain ⟨hlen, hall⟩ := hq entries rfl
  apply ordered_ext
  · exact flushCache_ordered _ _ (flushCache_ordered _ _ hord)
  · exact flushCache_ordered _ _ hord
  · intro k
    rw [lookup_flushCache _ entries hlen hall k, lookup_flushCache _ entries hlen hall k]
    split <;> rfl

/-- One call on a variable space gives back what the same call gives back on the
plain map with the same contents, and the contents after the call are those of
the plain map after it. -/
theorem step_refines (q : VarSpace) (op : VarOp) (hq : q.Hashed) (hord : q.vars.Ordered)
    (hop : op.NonEmpty) :
    (q.step op).1 = (VarSpace.step { vars := q.content } op).1 ∧
      (q.step op).2.Hashed ∧ (q.step op).2.vars.Ordered ∧
      (q.step op).2.content = (VarSpace.step { vars := q.content } op).2.vars := by
  cases op with
  | assign id v =>
    have hid : id ≠ [] := hop
    have hv := assign_value q hq id v hid
    have hvars := assign_vars q hord id v
    refine ⟨?_, hv.1, hvars.1, ?_⟩
    · simp only [VarSpace.step, VarSpace.assign]
      congr 1
      exact (assign_natives q id v hid).1
    · show (q.assign id v).2.content = Variables.assign q.content id v
      apply ordered_ext
      · exact content_ordered _ hvars.1
      · exact assign_ordered _ _ _ (content_ordered q hord)
      · intro k
        rw [content_lookup _ hv.1, hv.2 k, hvars.2 hid]
        by_cases hk : k = id
        · subst hk
          rw [variables_lookup_assign]
          simp only [hid, if_false, if_true]
        · rw [variables_lookup_assign_ne _ _ _ _ hk, content_lookup q hq]
          simp only [hk, if_false]
  | lookup id =>
    have hid : id ≠ [] := hop
    have hv := lookup_value q hq id
    have hvars := lookup_vars q hord id
    refine ⟨?_, hv.1, hvars.1, ?_⟩
    · show VarResult.found (q.lookup id).1 = VarResult.found (Variables.lookup q.content id)
      rw [content_lookup q hq, if_neg hid]
      rfl
    · show (q.lookup id).2.content = q.content
      apply ordered_ext
      · exact content_ordered _ hvars.1
      · exact content_ordered q hord
      · intro k
        rw [content_lookup _ hv.1, content_lookup q hq, hv.2 k, hvars.2]
  | erase id =>
    have hid : id ≠ [] := hop
    obtain ⟨h1, h2, h3, h4, h5⟩ := erase_value q hq hord id hid
    refine ⟨?_, h2, h3, ?_⟩
    · show VarResult.erased (q.erase id).1 =
        VarResult.erased (Variables.lookup q.content id).isSome
      rw [h1, content_lookup q hq, if_neg hid]
    · show (q.erase id).2.content = Variables.erase q.content id
      apply ordered_ext
      · exact content_ordered _ h3
      · exact erase_ordered _ _ (content_ordered q hord)
      · intro k
        rw [content_lookup _ h2, h5 k, h4, lookup_erase, content_lookup q hq]
        by_cases hk : k = id
        · have : k ≠ [] := hk ▸ hid
          simp only [hk, hid, if_true, if_false]
        · simp only [hk, if_false]
  | list key =>
    obtain ⟨vars, natives, cache⟩ := q
    cases cache with
    | none => exact ⟨rfl, hq, hord, rfl⟩
    | some entries =>
      refine ⟨rfl, hq, flushCache_ordered entries vars hord, ?_⟩
      exact content_flushed vars natives entries hq hord

theorem step_plain (vars : Variables) (op : VarOp) :
    (VarSpace.step { vars := vars } op).2 = { vars := (VarSpace.step { vars := vars } op).2.vars } := by
  cases op <;> rfl

theorem run_refines : ∀ (ops : List VarOp) (q : VarSpace), q.Hashed → q.vars.Ordered →
    (∀ op ∈ ops, op.NonEmpty) → q.run ops = VarSpace.run { vars := q.content } ops := by
  intro ops
  induction ops with
  | nil => intro q _ _ _; rfl
  | cons op ops ih =>
    intro q hq hord hne
    obtain ⟨h1, h2, h3, h4⟩ := step_refines q op hq hord (hne op (List.mem_cons_self _ _))
    unfold VarSpace.run
    rw [h1, ih _ h2 h3 (fun o ho => hne o (List.mem_cons_of_mem _ ho)), h4, ← step_plain]

/-- Claim C37.  For every sequence of calls of `assign`, `lookup`, `erase` and
`list` with identifiers that are not empty, a new `QuickVars` gives back what a
new `STLVariables` gives back for the same sequence: the same results of
`assign`, the same found flags and values, the same results of `erase`, and the
same lists of pairs, in the same order. -/
theorem quickVars_refines (ops : List VarOp) (hne : ∀ op ∈ ops, op.NonEmpty) :
    VarSpace.emptyQuick.run ops = VarSpace.emptySTL.run ops :=
  run_refines ops VarSpace.emptyQuick emptyQuick_fresh.1 List.Pairwise.nil hne

theorem quickVars_refines_witness :
    VarSpace.emptyQuick.run
        [.assign [97] [49], .assign [108] [50], .lookup [97], .list [], .erase [97],
          .lookup [97], .assign [108, 46, 120] [51], .list [108], .erase [122]] =
      VarSpace.emptySTL.run
        [.assign [97] [49], .assign [108] [50], .lookup [97], .list [], .erase [97],
          .lookup [97], .assign [108, 46, 120] [51], .list [108], .erase [122]] :=
  quickVars_refines _ (by decide)

/-! ### The read position of the parser (C38) -/

set_option maxRecDepth 100000 in
/-- Claim C38, which the code does not meet.  When `&` or `|` is the last
character of the source and the logical operator is admitted, `Frame::post`
executes `p += 2` with one character left, so that `expr` is entered with `p`
beyond `e`: the evaluation of `true&` and of `false|`, the dry parse of `a&` and
of `a|`, and the branch `a&` that `if (false)` skips all reach this state. -/
theorem readPosition_overrun :
    (evaluate stdEnv 5 0 (str "true&") stdRoot).1 = .error .undefinedBehaviour ∧
      (evaluate stdEnv 5 0 (str "false|") stdRoot).1 = .error .undefinedBehaviour ∧
      (parse stdEnv 5 0 (str "a&") stdRoot).1 = .error .undefinedBehaviour ∧
      (parse stdEnv 5 0 (str "a|") stdRoot).1 = .error .undefinedBehaviour ∧
      (evaluate stdEnv 5 0 (str "if (false) a&") stdRoot).1 = .error .undefinedBehaviour ∧
      (∀ (rec : Interp) (self : Nat) (v : XValue) (h : Heap),
        (post stdEnv rec self { p := [38], v := v, h := h } true STATEMENT).1 =
          .error .undefinedBehaviour) ∧
      (∀ (rec : Interp) (self : Nat) (v : XValue) (h : Heap),
        (post stdEnv rec self { p := [124], v := v, h := h } true STATEMENT).1 =
          .error .undefinedBehaviour) := by
  refine ⟨by decide, by decide, by decide, by decide, by decide, ?_, ?_⟩
  · intro rec self v h; rfl
  · intro rec self v h; rfl

/-! ### The links between the frames -/

set_option linter.unusedTactic false
set_option linter.unreachableTactic false

theorem map_set_same {α β : Type} (g : α → β) (l : List α) (i : Nat) (x y : α)
    (hi : l[i]? = some x) (hxy : g y = g x) : (l.set i y).map g = l.map g := by
  apply List.ext_getElem?
  intro j
  simp only [List.getElem?_map, List.getElem?_set]
  by_cases hij : i = j
  · subst hij
    have hlt : i < l.length := (List.getElem?_eq_some_iff.mp hi).1
    simp [hlt, hi, hxy]
  · simp [hij]

@[simp] theorem links_storeVars (h : Heap) (f : Nat) (vs : VarSpace) :
    links (storeVars h f vs) = links h := by
  unfold storeVars
  cases hf : h[f]? with
  | none => rfl
  | some fr => exact map_set_same Frame.shape h f fr _ hf rfl

@[simp] theorem links_storeRootData (h : Heap) (r : Nat) (rd : RootData) :
    links (storeRootData h r rd) = links h := by
  unfold storeRootData
  cases hf : h[r]? with
  | none => rfl
  | some fr => exact map_set_same Frame.shape h r fr _ hf rfl

@[simp] theorem links_storeSource (h : Heap) (f : Nat) (src : Option Str) :
    links (storeSource h f src) = links h := by
  unfold storeSource
  cases hf : h[f]? with
  | none => rfl
  | some fr => exact map_set_same Frame.shape h f fr _ hf rfl

@[simp] theorem links_deleteFrame (h : Heap) (f : Nat) :
    links (deleteFrame h f) = (links h).take f := by
  unfold deleteFrame links
  exact List.map_take _ _ _

@[simp] theorem links_get (h : Heap) (self : Nat) (identifier : Str) (fallback : Bool) :
    links (get h self identifier fallback).2 = links h := by
  unfold get
  repeat' (first | split | (simp only []; split))
  all_goals simp

@[simp] theorem links_getOptional (h : Heap) (self : Nat) (identifier d : Str) :
    links (getOptional h self identifier d).2 = links h := by
  unfold getOptional
  repeat' (first | split | (simp only []; split))
  all_goals simp

@[simp] theorem links_set (h : Heap) (self : Nat) (identifier v : Str) :
    links (set h self identifier v).2 = links h := by
  unfold set
  repeat' (first | split | (simp only []; split))
  all_goals simp

@[simp] theorem links_rvalue (h : Heap) (self : Nat) (v : XValue) (fallback : Bool) :
    links (rvalue h self v fallback).2 = links h := by
  unfold rvalue
  split <;> simp

@[simp] theorem links_assignLocal (h : Heap) (f : Nat) (identifier value : Str) :
    links (assignLocal h f identifier value) = links h := by
  unfold assignLocal
  split <;> simp

@[simp] theorem links_assignArgs (callee : Nat) : ∀ (argv : List Str) (i : Nat) (h : Heap),
    links (assignArgs callee i argv h) = links h := by
  intro argv
  induction argv with
  | nil => intro i h; rfl
  | cons a rest ih => intro i h; unfold assignArgs; rw [ih]; simp

theorem links_of_sameVars {h h1 : Heap} (hs : SameVars h h1) : links h1 = links h := by
  unfold SameVars at hs
  have hl : ∀ g : Heap, links g =
      (g.map Frame.core).map (fun c => (c.2.1, c.2.2.1, c.2.2.2.1, c.2.2.2.2.1)) := by
    intro g
    unfold links
    rw [List.map_map]
    rfl
  rw [hl, hl, hs]

theorem links_newFrame {h h1 : Heap} {vars : VarSpace} {previous cf : Nat}
    (hn : newFrame h vars previous = .ok (cf, h1)) :
    (links h1).take cf = links h ∧ cf = h.length := by
  obtain ⟨h0, fr, rfl, rfl, hlen, hs, _, _, _⟩ := newFrame_ok hn
  refine ⟨?_, hlen⟩
  unfold links
  rw [List.map_append, List.take_left' (by simp)]
  exact links_of_sameVars hs

@[simp] theorem links_liveBinary {D : Type} (env : Env D) (self : Nat) (op : Opr) (v r : XValue)
    (h : Heap) : links (liveBinary env self op v r h).2 = links h := by
  unfold liveBinary
  repeat' (first | split | (simp only []; split))
  all_goals simp

@[simp] theorem links_liveAssignOp {D : Type} (env : Env D) (self : Nat) (op : Opr) (v r : XValue)
    (h : Heap) : links (liveAssignOp env self op v r h).2 = links h := by
  unfold liveAssignOp
  repeat' (first | split | (simp only []; split))
  all_goals simp

@[simp] theorem links_livePostStep {D : Type} (env : Env D) (self : Nat) (op : Opr) (v : XValue)
    (h : Heap) : links (livePostStep env self op v h).2 = links h := by
  unfold livePostStep
  repeat' (first | split | (simp only []; split))
  all_goals simp

@[simp] theorem links_liveNot (self : Nat) (v : XValue) (h : Heap) :
    links (liveNot self v h).2 = links h := by
  unfold liveNot
  repeat' (first | split | (simp only []; split))
  all_goals simp

@[simp] theorem links_liveBitNot (self : Nat) (v : XValue) (h : Heap) :
    links (liveBitNot self v h).2 = links h := by
  unfold liveBitNot
  repeat' (first | split | (simp only []; split))
  all_goals simp

@[simp] theorem links_liveReference (self : Nat) (v : XValue) (h : Heap) :
    links (liveReference self v h).2 = links h := by
  unfold liveReference
  repeat' (first | split | (simp only []; split))
  all_goals simp

@[simp] theorem links_livePreStep (self : Nat) (step : Int) (v : XValue) (h : Heap) :
    links (livePreStep self step v h).2 = links h := by
  unfold livePreStep
  repeat' (first | split | (simp only []; split))
  all_goals simp

@[simp] theorem links_liveSign {D : Type} (env : Env D) (self : Nat) (negative : Bool)
    (v : XValue) (h : Heap) : links (liveSign env self negative v h).2 = links h := by
  unfold liveSign
  repeat' (first | split | (simp only []; split))
  all_goals simp

@[simp] theorem links_rvalueBool (h : Heap) (self : Nat) (xv : XValue) :
    links (rvalueBool h self xv).2 = links h := by
  unfold rvalueBool
  repeat' (first | split | (simp only []; split))
  all_goals simp

@[simp] theorem links_rvalueLong (h : Heap) (self : Nat) (x : XValue) :
    links (rvalueLong h self x).2 = links h := by
  unfold rvalueLong
  repeat' (first | split | (simp only []; split))
  all_goals simp

@[simp] theorem links_liveSubstring (self : Nat) (v : XValue) (index count : Option XValue)
    (h : Heap) : links (liveSubstring self v index count h).2 = links h := by
  unfold liveSubstring
  repeat' (first | split | (simp only []; split))
  all_goals simp

@[simp] theorem links_liveIndex (self : Nat) (v index : XValue) (h : Heap) :
    links (liveIndex self v index h).2 = links h := by
  unfold liveIndex
  repeat' (first | split | (simp only []; split))
  all_goals simp

@[simp] theorem links_liveAssign (self : Nat) (v r : XValue) (h : Heap) :
    links (liveAssign self v r h).2 = links h := by
  unfold liveAssign
  repeat' (first | split | (simp only []; split))
  all_goals simp

theorem links_tick (rec : Interp) (hrec : LinkRec rec) (self : Nat) (p : Str) (v : XValue)
    (thres : Precedence) (exit : Bool) (h : Heap) :
    links (tick rec self p v thres exit h).2 = links h := by
  unfold tick
  repeat' (first | split | (simp only []; split))
  all_goals simp [hrec.call]

theorem links_tickIf (rec : Interp) (hrec : LinkRec rec) (self : Nat) (cond : Bool) (p : Str)
    (v : XValue) (thres : Precedence) (exit : Bool) (h : Heap) :
    links (tickIf rec self cond p v thres exit h).2 = links h := by
  unfold tickIf
  split
  · exact links_tick rec hrec self p v thres exit h
  · rfl

theorem links_liveCall (rec : Interp) (hrec : LinkRec rec) (self callee n : Nat) (v : XValue)
    (h : Heap) :
    (links (liveCall rec self callee n v h).2).take callee = (links h).take callee := by
  unfold liveCall
  repeat' (first | split | (simp only []; split))
  all_goals simp [hrec.execute]

theorem links_termExpr (rec : Interp) (hrec : LinkRec rec) (self : Nat) (st : St)
    (emptyOk dry : Bool) (thres : Precedence) (term : Nat) :
    links (termExpr rec self st emptyOk dry thres term).2.h = links st.h := by
  unfold termExpr
  repeat' (first | split | (simp only []; split))
  all_goals simp [hrec.expr]

theorem links_binaryOp {D : Type} (env : Env D) (rec : Interp) (hrec : LinkRec rec) (self : Nat)
    (st : St) (dry : Bool) (thres : Precedence) (hop : Nat) (prec : Precedence) (op : Opr) :
    links (binaryOp env rec self st dry thres hop prec op).2.h = links st.h := by
  unfold binaryOp
  repeat' (first | split | (simp only []; split))
  all_goals simp [hrec.expr]

theorem links_assignableOp {D : Type} (env : Env D) (rec : Interp) (hrec : LinkRec rec)
    (self : Nat) (st : St) (dry : Bool) (thres : Precedence) (hop : Nat) (prec : Precedence)
    (op : Opr) :
    links (assignableOp env rec self st dry thres hop prec op).2.h = links st.h := by
  unfold assignableOp
  repeat' (first | split | (simp only []; split))
  all_goals simp [hrec.expr, links_binaryOp env rec hrec]

theorem links_addSubOp {D : Type} (env : Env D) (rec : Interp) (hrec : LinkRec rec) (self : Nat)
    (st : St) (dry : Bool) (thres : Precedence) (op : Opr) :
    links (addSubOp env rec self st dry thres op).2.h = links st.h := by
  unfold addSubOp
  repeat' (first | split | (simp only []; split))
  all_goals simp [links_assignableOp env rec hrec]

theorem links_lgtOp {D : Type} (env : Env D) (rec : Interp) (hrec : LinkRec rec) (self : Nat)
    (st : St) (dry : Bool) (thres : Precedence) (excl incl shift : Opr) :
    links (lgtOp env rec self st dry thres excl incl shift).2.h = links st.h := by
  unfold lgtOp
  repeat' (first | split | (simp only []; split))
  all_goals simp [links_assignableOp env rec hrec, links_binaryOp env rec hrec]

@[simp] theorem links_symbolTail (b : Str) (st : St) (dry : Bool) :
    links (symbolTail b st dry).2.h = links st.h := by
  unfold symbolTail
  repeat' (first | split | (simp only []; split))
  all_goals simp

theorem links_prefixOp (rec : Interp) (hrec : LinkRec rec) (self : Nat) (st : St) (dry : Bool)
    (rest : Str) (live : XValue → Heap → Except Xception XValue × Heap)
    (hlive : ∀ v h, links (live v h).2 = links h) :
    links (prefixOp rec self st dry rest live).2.h = links st.h := by
  unfold prefixOp
  repeat' (first | split | (simp only []; split))
  all_goals simp [hrec.expr, hlive]

@[simp] theorem links_numericLiteral {D : Type} (env : Env D) (b : Str) (st : St) (dry : Bool) :
    links (numericLiteral env b st dry).2.h = links st.h := by
  unfold numericLiteral
  repeat' (first | split | (simp only []; split))
  all_goals simp

theorem links_compoundLoop (rec : Interp) (hrec : LinkRec rec) (self : Nat) (dry : Bool) :
    ∀ (n : Nat) (st : St), links (compoundLoop rec self dry n st).2.h = links st.h := by
  intro n
  induction n with
  | zero => intro st; rfl
  | succ n ih =>
    intro st
    unfold compoundLoop
    repeat' (first | split | (simp only []; split))
    all_goals simp [hrec.expr, ih]

theorem links_forLoop (rec : Interp) (hrec : LinkRec rec) (self : Nat) (cp ip bp : Str) :
    ∀ (n : Nat) (xv : XValue) (st : St),
      links (forLoop rec self cp ip bp n xv st).2.h = links st.h := by
  intro n
  induction n with
  | zero => intro xv st; rfl
  | succ n ih =>
    intro xv st
    unfold forLoop
    repeat' (first | split | (simp only []; split))
    all_goals simp [hrec.expr, ih, links_tickIf rec hrec]

theorem links_forStatement (rec : Interp) (hrec : LinkRec rec) (self : Nat) (st : St)
    (dry : Bool) : links (forStatement rec self st dry).2.h = links st.h := by
  unfold forStatement
  repeat' (first | split | (simp only []; split))
  all_goals simp [hrec.expr, links_termExpr rec hrec, links_forLoop rec hrec,
    links_tickIf rec hrec]

theorem links_ifStatement (rec : Interp) (hrec : LinkRec rec) (self : Nat) (st : St)
    (dry : Bool) : links (ifStatement rec self st dry).2.h = links st.h := by
  unfold ifStatement
  repeat' (first | split | (simp only []; split))
  all_goals simp [hrec.expr, links_termExpr rec hrec]

theorem links_functionLiteral (rec : Interp) (hrec : LinkRec rec) (self : Nat) (st : St)
    (dry : Bool) : links (functionLiteral rec self st dry).2.h = links st.h := by
  unfold functionLiteral
  repeat' (first | split | (simp only []; split))
  all_goals simp [hrec.expr]

theorem links_lambdaLiteral (rec : Interp) (hrec : LinkRec rec) (self : Nat) (st : St)
    (dry : Bool) : links (lambdaLiteral rec self st dry).2.h = links st.h := by
  unfold lambdaLiteral
  repeat' (first | split | (simp only []; split))
  all_goals simp [hrec.expr]

@[simp] theorem links_literalToken (st : St) (dry : Bool) (p1 value : Str) :
    links (literalToken st dry p1 value).2.h = links st.h := rfl

theorem links_ite {c : Prop} [Decidable c] {a b : Res} {l : List (Nat × Option Nat × Nat × Str)}
    (ha : c → links a.2.h = l) (hb : ¬ c → links b.2.h = l) :
    links (if c then a else b).2.h = l := by
  by_cases h : c
  · rw [if_pos h]; exact ha h
  · rw [if_neg h]; exact hb h

theorem links_pre {D : Type} (env : Env D) (rec : Interp) (hrec : LinkRec rec) (self : Nat)
    (st : St) (dry : Bool) : links (pre env rec self st dry).2.h = links st.h := by
  unfold pre
  repeat' (first | (with_reducible apply links_ite <;> intro _) | split | (simp only []; split))
  all_goals simp [hrec.expr, links_termExpr rec hrec, links_prefixOp rec hrec,
    links_compoundLoop rec hrec, links_forStatement rec hrec, links_ifStatement rec hrec,
    links_functionLiteral rec hrec, links_lambdaLiteral rec hrec]

theorem links_substringPostfix (rec : Interp) (hrec : LinkRec rec) (self : Nat) (st : St)
    (dry : Bool) (p1 : Str) : links (substringPostfix rec self st dry p1).2.h = links st.h := by
  unfold substringPostfix
  repeat' (first | split | (simp only []; split))
  all_goals simp [hrec.expr, links_termExpr rec hrec]

theorem links_argsLoop (rec : Interp) (hrec : LinkRec rec) (self callee : Nat) (dry : Bool) :
    ∀ (fuel n : Nat) (p : Str) (h : Heap),
      links (argsLoop rec self callee dry fuel n p h).2.2 = links h := by
  intro fuel
  induction fuel with
  | zero => intro n p h; rfl
  | succ fuel ih =>
    intro n p h
    unfold argsLoop
    repeat' (first | split | (simp only []; split))
    all_goals simp [hrec.expr, ih]

theorem links_callPostfix {D : Type} (env : Env D) (rec : Interp) (hrec : LinkRec rec)
    (self : Nat) (st : St) (dry : Bool) :
    links (callPostfix env rec self st dry).2.h = links st.h := by
  unfold callPostfix
  split
  · rfl
  · rename_i callee h1 hn
    have hnew := (links_newFrame hn).1
    repeat' (first | split | (simp only []; split))
    all_goals simp [links_argsLoop rec hrec, links_liveCall rec hrec, hnew]

theorem links_assignPostfix (rec : Interp) (hrec : LinkRec rec) (self : Nat) (st : St)
    (dry : Bool) : links (assignPostfix rec self st dry).2.h = links st.h := by
  unfold assignPostfix
  repeat' (first | split | (simp only []; split))
  all_goals simp [hrec.expr]

theorem links_logicalPostfix (rec : Interp) (hrec : LinkRec rec) (self : Nat) (st : St)
    (dry isAnd : Bool) : links (logicalPostfix rec self st dry isAnd).2.h = links st.h := by
  unfold logicalPostfix
  repeat' (first | split | (simp only []; split))
  all_goals simp [hrec.expr]

@[simp] theorem links_memberPostfix (st : St) (dry : Bool) (p1 : Str) :
    links (memberPostfix st dry p1).2.h = links st.h := by
  unfold memberPostfix
  repeat' (first | split | (simp only []; split))
  all_goals simp

theorem links_subscriptPostfix (rec : Interp) (hrec : LinkRec rec) (self : Nat) (st : St)
    (dry : Bool) (p1 : Str) : links (subscriptPostfix rec self st dry p1).2.h = links st.h := by
  unfold subscriptPostfix
  repeat' (first | split | (simp only []; split))
  all_goals simp [links_termExpr rec hrec]

theorem links_post {D : Type} (env : Env D) (rec : Interp) (hrec : LinkRec rec) (self : Nat)
    (st : St) (dry : Bool) (thres : Precedence) :
    links (post env rec self st dry thres).2.h = links st.h := by
  unfold post
  repeat' (first | (with_reducible apply links_ite <;> intro _) | split | (simp only []; split))
  all_goals simp [links_assignableOp env rec hrec, links_addSubOp env rec hrec,
    links_lgtOp env rec hrec, links_binaryOp env rec hrec, links_assignPostfix rec hrec,
    links_logicalPostfix rec hrec, links_subscriptPostfix rec hrec,
    links_substringPostfix rec hrec, links_callPostfix env rec hrec]

theorem links_postLoop {D : Type} (env : Env D) (rec : Interp) (hrec : LinkRec rec) (self : Nat)
    (dry : Bool) (thres : Precedence) :
    ∀ (n : Nat) (st : St), links (postLoop env rec self dry thres n st).2.h = links st.h := by
  intro n
  induction n with
  | zero => intro st; rfl
  | succ n ih =>
    intro st
    unfold postLoop
    repeat' (first | split | (simp only []; split))
    all_goals simp [ih, links_post env rec hrec]

theorem links_exprBody {D : Type} (env : Env D) (rec : Interp) (hrec : LinkRec rec) (self : Nat)
    (st : St) (emptyOk dry : Bool) (thres : Precedence) :
    links (exprBody env rec self st emptyOk dry thres).2.h = links st.h := by
  unfold exprBody
  repeat' (first | split | (simp only []; split))
  all_goals simp [links_tickIf rec hrec, links_pre env rec hrec, links_postLoop env rec hrec]

theorem links_evaluateLoop (rec : Interp) (hrec : LinkRec rec) (self : Nat) :
    ∀ (n : Nat) (st : St), links (evaluateLoop rec self n st).2.h = links st.h := by
  intro n
  induction n with
  | zero => intro st; rfl
  | succ n ih =>
    intro st
    unfold evaluateLoop
    repeat' (first | split | (simp only []; split))
    all_goals simp [ih, hrec.expr]

theorem links_evaluateCatch (rec : Interp) (hrec : LinkRec rec) (self : Nat) (isRoot : Bool)
    (x : Xception) (st : St) :
    links (evaluateCatch rec self isRoot x st).2 = links st.h := by
  unfold evaluateCatch
  repeat' (first | split | (simp only []; split))
  all_goals simp [links_tickIf rec hrec]

theorem links_evaluateBody (rec : Interp) (hrec : LinkRec rec) (self : Nat) (source : Str)
    (h : Heap) : links (evaluateBody rec self source h).2 = links h := by
  unfold evaluateBody
  repeat' (first | split | (simp only []; split))
  all_goals simp [links_tickIf rec hrec, links_evaluateLoop rec hrec,
    links_evaluateCatch rec hrec]

theorem shape_getElem? {h h1 : Heap} (hl : links h1 = links h) (f : Nat) :
    (h1[f]?).map Frame.shape = (h[f]?).map Frame.shape := by
  unfold links at hl
  rw [← List.getElem?_map, ← List.getElem?_map, hl]

theorem links_length {h h1 : Heap} (hl : links h1 = links h) : h1.length = h.length := by
  have := congrArg List.length hl
  simpa [links] using this

theorem links_frame {h h1 : Heap} (hl : links h1 = links h) {f : Nat} {fr1 : Frame}
    (hf : h1[f]? = some fr1) : ∃ fr, h[f]? = some fr ∧ fr.shape = fr1.shape := by
  have := shape_getElem? hl f
  rw [hf] at this
  cases hh : h[f]? with
  | none => rw [hh] at this; cases this
  | some fr =>
    rw [hh] at this
    exact ⟨fr, rfl, (Option.some.inj this).symm⟩

theorem ancestor_links {h h1 : Heap} (hl : links h1 = links h) :
    ∀ (k f : Nat), ancestor h1 k f = ancestor h k f := by
  intro k
  induction k with
  | zero => intro f; rfl
  | succ k ih =>
    intro f
    unfold ancestor
    have := shape_getElem? hl f
    cases h1f : h1[f]? with
    | none =>
      rw [h1f] at this
      cases hf : h[f]? with
      | none => rfl
      | some fr => rw [hf] at this; cases this
    | some fr1 =>
      obtain ⟨fr, hf, hs⟩ := links_frame hl h1f
      rw [hf]
      have hp : fr.previous = fr1.previous := (shape_fields hs).2.1
      simp only [hp]
      cases fr1.previous with
      | none => rfl
      | some g => exact ih g

theorem chainOK_links {h h1 : Heap} (hl : links h1 = links h) (hok : ChainOK h) :
    ChainOK h1 := by
  obtain ⟨hwf, hon⟩ := hok
  refine ⟨⟨?_, ?_⟩, ?_⟩
  · intro i fr1 hi j hj
    obtain ⟨fr, hf, hs⟩ := links_frame hl hi
    have hp : fr.previous = fr1.previous := (shape_fields hs).2.1
    exact hwf.previous_lt i fr hf j (hp ▸ hj)
  · intro i fr1 hi
    obtain ⟨fr, hf, hs⟩ := links_frame hl hi
    have hr : fr.root = fr1.root := (shape_fields hs).1
    rw [links_length hl, ← hr]
    exact hwf.root_valid i fr hf
  · intro f fr1 hf1
    obtain ⟨fr, hf, hs⟩ := links_frame hl hf1
    have hr : fr.root = fr1.root := (shape_fields hs).1
    have hc : fr.closure = fr1.closure := (shape_fields hs).2.2.1
    obtain ⟨⟨k1, h1⟩, ⟨k2, h2⟩⟩ := hon f fr hf
    exact ⟨⟨k1, by rw [ancestor_links hl, ← hr]; exact h1⟩,
      ⟨k2, by rw [ancestor_links hl, ← hc]; exact h2⟩⟩

theorem ancestor_trans (h : Heap) : ∀ (k j f g g2 : Nat), ancestor h k f = some g →
    ancestor h j g = some g2 → ancestor h (k + j) f = some g2 := by
  intro k
  induction k with
  | zero =>
    intro j f g g2 h1 h2
    simp only [ancestor, Option.some.injEq] at h1
    subst h1
    simpa using h2
  | succ k ih =>
    intro j f g g2 h1 h2
    unfold ancestor at h1
    rw [show k + 1 + j = (k + j) + 1 by omega]
    unfold ancestor
    cases hf : h[f]? with
    | none => rw [hf] at h1; cases h1
    | some fr =>
      rw [hf] at h1
      simp only at h1 ⊢
      cases hp : fr.previous with
      | none => rw [hp] at h1; cases h1
      | some p =>
        rw [hp] at h1
        simp only at h1 ⊢
        exact ih j p g g2 h1 h2

theorem climb_ancestor (h : Heap) : ∀ (p : Str) (f up : Nat) (rest : Str),
    climb h f p = .ok (up, rest) → ∃ k, ancestor h k f = some up := by
  intro p
  induction p with
  | nil =>
    intro f up rest hc
    simp only [climb, Except.ok.injEq, Prod.mk.injEq] at hc
    exact ⟨0, by rw [← hc.1]; rfl⟩
  | cons c p ih =>
    intro f up rest hc
    unfold climb at hc
    split at hc
    · split at hc
      · cases hc
      · rename_i fr hfr
        split at hc
        · cases hc
        · rename_i g hg
          obtain ⟨k, hk⟩ := ih g up rest hc
          exact ⟨k + 1, by rw [ancestor_succ_of_previous (deref_eq_ok.mp hfr) hg]; exact hk⟩
    · simp only [Except.ok.injEq, Prod.mk.injEq] at hc
      exact ⟨0, by rw [← hc.1]; rfl⟩

/-- The frame `resolveFrame(p, e)` finds lies on the caller chain of the frame
it is called on. -/
theorem resolveFrameIt_ancestor (h : Heap) (hok : ChainOK h) (self : Nat) (p : Str) (f : Nat)
    (rest : Str) (hr : resolveFrameIt h self p = .ok (f, rest)) :
    ∃ k, ancestor h k self = some f := by
  unfold resolveFrameIt at hr
  split at hr
  · cases hr
  · rename_i f0 p1 hlab
    have h0 : ∃ k, ancestor h k self = some f0 := by
      unfold resolveLabel at hlab
      split at hlab
      · split at hlab
        · cases hlab
        · split at hlab
          · split at hlab
            · cases hlab
            · rename_i g hg
              simp only [Except.ok.injEq, Prod.mk.injEq] at hlab
              obtain ⟨n, _, hn, _⟩ := findLabel_ok h _ _ _ _ hg
              exact ⟨n, by rw [← hlab.1]; exact hn⟩
          · split at hlab
            · cases hlab
            · rename_i fr hfr
              simp only [Except.ok.injEq, Prod.mk.injEq] at hlab
              rw [← hlab.1]
              exact (hok.2 self fr (deref_eq_ok.mp hfr)).1
      · simp only [Except.ok.injEq, Prod.mk.injEq] at hlab
        exact ⟨0, by rw [← hlab.1]; rfl⟩
    obtain ⟨k0, hk0⟩ := h0
    split at hr
    · cases hr
    · rename_i f2 p2 hcl
      obtain ⟨k1, hk1⟩ := climb_ancestor h p1 f0 f2 p2 hcl
      have h2 := ancestor_trans h k0 k1 self f0 f2 hk0 hk1
      split at hr
      · split at hr
        · cases hr
        · rename_i fr hfr
          simp only [Except.ok.injEq, Prod.mk.injEq] at hr
          obtain ⟨k2, hk2⟩ := (hok.2 f2 fr (deref_eq_ok.mp hfr)).2
          exact ⟨k0 + k1 + k2, by rw [← hr.1]; exact ancestor_trans h _ _ self f2 _ h2 hk2⟩
      · simp only [Except.ok.injEq, Prod.mk.injEq] at hr
        exact ⟨k0 + k1, by rw [← hr.1]; exact h2⟩

theorem storeClosure_get (h : Heap) (self c : Nat) (i : Nat) :
    (storeClosure h self c)[i]? =
      (h[i]?).map (fun fr => if i = self then { fr with closure := c } else fr) := by
  unfold storeClosure
  cases hf : h[self]? with
  | none =>
    simp only []
    cases hi : h[i]? with
    | none => rfl
    | some fr =>
      have : i ≠ self := by rintro rfl; rw [hf] at hi; cases hi
      simp [this]
  | some fr0 =>
    simp only [List.getElem?_set]
    by_cases his : self = i
    · subst his
      have hlt : self < h.length := (List.getElem?_eq_some_iff.mp hf).1
      simp [hlt, hf]
    · have : i ≠ self := fun e => his e.symm
      simp only [his, if_false, this]
      cases h[i]? <;> rfl

theorem storeClosure_length (h : Heap) (self c : Nat) :
    (storeClosure h self c).length = h.length := by
  unfold storeClosure
  cases h[self]? <;> simp

theorem links_storeClosure_take (h : Heap) (self c : Nat) :
    (links (storeClosure h self c)).take self = (links h).take self := by
  apply List.ext_getElem?
  intro i
  simp only [List.getElem?_take, links, List.getElem?_map, storeClosure_get]
  split
  · rename_i hi
    have : i ≠ self := by omega
    cases h[i]? <;> simp [this]
  · rfl

theorem ancestor_storeClosure (h : Heap) (self c : Nat) :
    ∀ (k f : Nat), ancestor (storeClosure h self c) k f = ancestor h k f := by
  intro k
  induction k with
  | zero => intro f; rfl
  | succ k ih =>
    intro f
    unfold ancestor
    rw [storeClosure_get]
    cases hf : h[f]? with
    | none => rfl
    | some fr =>
      simp only [Option.map_some']
      by_cases hfs : f = self
      · simp only [hfs, if_true]
        cases fr.previous with
        | none => rfl
        | some g => exact ih g
      · simp only [hfs, if_false]
        cases fr.previous with
        | none => rfl
        | some g => exact ih g

/-- The assignment of `closure` in `Frame::execute` keeps the invariant of the
frames when the new closure lies on the caller chain. -/
theorem chainOK_storeClosure (h : Heap) (hok : ChainOK h) (self c : Nat)
    (hanc : ∃ k, ancestor h k self = some c) : ChainOK (storeClosure h self c) := by
  obtain ⟨hwf, hon⟩ := hok
  have hframe : ∀ (i : Nat) (fr1 : Frame), (storeClosure h self c)[i]? = some fr1 →
      ∃ fr, h[i]? = some fr ∧ fr1.previous = fr.previous ∧ fr1.root = fr.root ∧
        fr1.closure = if i = self then c else fr.closure := by
    intro i fr1 hi
    rw [storeClosure_get] at hi
    cases hf : h[i]? with
    | none => rw [hf] at hi; cases hi
    | some fr =>
      rw [hf] at hi
      simp only [Option.map_some', Option.some.injEq] at hi
      refine ⟨fr, rfl, ?_⟩
      rw [← hi]
      split <;> simp
  refine ⟨⟨?_, ?_⟩, ?_⟩
  · intro i fr1 hi j hj
    obtain ⟨fr, hf, hp, _, _⟩ := hframe i fr1 hi
    exact hwf.previous_lt i fr hf j (hp ▸ hj)
  · intro i fr1 hi
    obtain ⟨fr, hf, _, hr, _⟩ := hframe i fr1 hi
    rw [storeClosure_length, hr]
    exact hwf.root_valid i fr hf
  · intro f fr1 hf1
    obtain ⟨fr, hf, _, hr, hc⟩ := hframe f fr1 hf1
    obtain ⟨⟨k1, h1⟩, ⟨k2, h2⟩⟩ := hon f fr hf
    refine ⟨⟨k1, by rw [ancestor_storeClosure, hr]; exact h1⟩, ?_⟩
    by_cases hfs : f = self
    · obtain ⟨k, hk⟩ := hanc
      exact ⟨k, by rw [ancestor_storeClosure, hc, if_pos hfs, hfs]; exact hk⟩
    · exact ⟨k2, by rw [ancestor_storeClosure, hc, if_neg hfs]; exact h2⟩

theorem links_executeBody {D : Type} (env : Env D) (henv : NativeOK env) (rec : Interp)
    (hrec : LinkRec rec) (self : Nat) (body : Str) (h : Heap) :
    (links (executeBody env rec self body h).2).take self = (links h).take self := by
  unfold executeBody
  repeat' (first | split | (simp only []; split))
  all_goals simp [links_evaluateBody rec hrec, links_storeClosure_take, (henv _ _ _).1]

theorem chainOK_executeBody {D : Type} (env : Env D) (henv : NativeOK env) (rec : Interp)
    (hrec : LinkRec rec) (self : Nat) (body : Str) (h : Heap) (hok : ChainOK h) :
    ChainOK (executeBody env rec self body h).2 := by
  unfold executeBody
  split
  · exact chainOK_links (links_evaluateBody rec hrec _ _ _) hok
  · split
    · exact hok
    · rename_i f rest heq
      exact chainOK_links (links_evaluateBody rec hrec _ _ _)
        (chainOK_storeClosure h hok self f (resolveFrameIt_ancestor h hok self _ f rest heq))
  · simp only []
    split
    · split
      · exact hok
      · split
        · exact hok
        · split
          · exact (henv _ _ _).2 hok
          · exact hok
    · exact hok
  · exact hok

theorem links_callBody {D : Type} (env : Env D) (rec : Interp) (hrec : LinkRec rec) (self : Nat)
    (callee body : Str) (argv : List Str) (h : Heap) :
    links (callBody env rec self callee body argv h).2 = links h := by
  unfold callBody
  split
  · rfl
  · rename_i cf h1 hn
    have hnew := (links_newFrame hn).1
    repeat' (first | split | (simp only []; split))
    all_goals simp [hrec.execute, hnew]

/-- The interpreter keeps the links of the frames, at every depth of calls. -/
theorem interp_linkRec {D : Type} (env : Env D) (henv : NativeOK env) :
    ∀ n, LinkRec (interp env n) := by
  intro n
  induction n with
  | zero =>
    exact ⟨fun _ _ _ _ _ => rfl, fun _ _ _ => rfl, fun _ _ _ hok => hok, fun _ _ _ _ _ => rfl⟩
  | succ n ih =>
    exact ⟨fun self st emptyOk dry thres => links_exprBody env _ ih self st emptyOk dry thres,
      fun self body h => links_executeBody env henv _ ih self body h,
      fun self body h hok => chainOK_executeBody env henv _ ih self body h hok,
      fun self callee body argv h => links_callBody env _ ih self callee body argv h⟩

theorem stdEnv_nativeOK : NativeOK stdEnv := fun _ _ _ => ⟨rfl, fun hok => hok⟩

/-! ### The closure links (C39) -/

theorem ancestor_le (h : Heap) (hwf : WellFormed h) :
    ∀ (k f g : Nat), ancestor h k f = some g → g ≤ f := by
  intro k f g ha
  cases k with
  | zero =>
    simp only [ancestor, Option.some.injEq] at ha
    omega
  | succ k => exact Nat.le_of_lt (ancestor_lt h hwf.previous_lt k f g ha)

theorem chainOK_newRoot (vars : VarSpace) : ChainOK (newRoot vars) := by
  have hget : ∀ (i : Nat) (fr : Frame), (newRoot vars)[i]? = some fr →
      i = 0 ∧ fr.root = 0 ∧ fr.previous = none ∧ fr.closure = 0 := by
    intro i fr hi
    cases i with
    | zero =>
      simp only [newRoot, List.getElem?_cons_zero, Option.some.injEq] at hi
      rw [← hi]
      exact ⟨rfl, rfl, rfl, rfl⟩
    | succ i => simp [newRoot] at hi
  refine ⟨⟨?_, ?_⟩, ?_⟩
  · intro i fr hi j hj
    rw [(hget i fr hi).2.2.1] at hj
    cases hj
  · intro i fr hi
    rw [(hget i fr hi).2.1]
    simp [newRoot]
  · intro f fr hf
    obtain ⟨h0, h1, _, h3⟩ := hget f fr hf
    subst h0
    exact ⟨⟨0, by rw [h1]; rfl⟩, ⟨0, by rw [h3]; rfl⟩⟩

/-- The frame an identifier resolves to lies on the caller chain of the frame
that resolves it, and is a frame of the heap. -/
theorem resolveFrame_alive (h : Heap) (hok : ChainOK h) (self : Nat) (hself : self < h.length)
    (identifier : Str) (f : Nat) (symbol : Str)
    (hr : resolveFrame h self identifier = .ok (f, symbol)) :
    f < h.length ∧ ∃ k, ancestor h k self = some f := by
  have hanc : ∃ k, ancestor h k self = some f := by
    unfold resolveFrame at hr
    split at hr
    · simp only [Except.ok.injEq, Prod.mk.injEq] at hr
      exact ⟨0, by rw [← hr.1]; rfl⟩
    · exact resolveFrameIt_ancestor h hok self _ f symbol hr
    · exact resolveFrameIt_ancestor h hok self _ f symbol hr
    · split at hr
      · cases hr
      · rename_i fr hfr
        simp only [Except.ok.injEq, Prod.mk.injEq] at hr
        rw [← hr.1]
        exact (hok.2 self fr (deref_eq_ok.mp hfr)).2
  obtain ⟨k, hk⟩ := hanc
  exact ⟨Nat.lt_of_le_of_lt (ancestor_le h hok.1 k self f hk) hself, k, hk⟩

/-- Claim C39.  A new Root satisfies the invariant of the frames: every closure
link (and every root pointer) designates the frame itself or one of the callers
above it, and callers lie below their callees.  Every routine of the
interpreter, at every depth of calls and with natives that keep the invariant,
leaves a heap that satisfies it when it was entered on one; and in such a heap
the frame an identifier resolves to is a frame of the heap on the caller chain
of the resolving frame, not one that has terminated. -/
theorem closure_on_chain {D : Type} (env : Env D) (henv : NativeOK env) (n : Nat) :
    (∀ vars, ChainOK (newRoot vars)) ∧
      (∀ self st emptyOk dry thres, ChainOK st.h →
        ChainOK (expr env n self st emptyOk dry thres).2.h) ∧
      (∀ self source h, ChainOK h → ChainOK (evaluate env n self source h).2) ∧
      (∀ self body h, ChainOK h → ChainOK (execute env n self body h).2) ∧
      (∀ self callee body argv h, ChainOK h → ChainOK (call env n self callee body argv h).2) ∧
      (∀ h self identifier f symbol, ChainOK h → self < h.length →
        resolveFrame h self identifier = .ok (f, symbol) →
        f < h.length ∧ ∃ k, ancestor h k self = some f) := by
  have hrec := interp_linkRec env henv
  refine ⟨chainOK_newRoot, ?_, ?_, ?_, ?_, ?_⟩
  · intro self st emptyOk dry thres hok
    exact chainOK_links ((hrec n).expr self st emptyOk dry thres) hok
  · intro self source h hok
    exact chainOK_links (links_evaluateBody _ (hrec n) self source h) hok
  · intro self body h hok
    exact (hrec n).executeOK self body h hok
  · intro self callee body argv h hok
    exact chainOK_links ((hrec n).call self callee body argv h) hok
  · intro h self identifier f symbol hok hself hr
    exact resolveFrame_alive h hok self hself identifier f symbol hr

theorem closure_on_chain_witness :
    ChainOK (evaluate stdEnv 9 0 (str "f = >x; f()") stdRoot).2 :=
  (closure_on_chain stdEnv stdEnv_nativeOK 9).2.2.1 0 _ _
    ((closure_on_chain stdEnv stdEnv_nativeOK 9).1 _)

/-! ### Dry parsing and the members of the frames (C36) -/

theorem generateLabel_tracer (rd rd1 : RootData) (label : Str)
    (hg : generateLabel rd = some (label, rd1)) :
    rd1.traceLevel = rd.traceLevel ∧ rd1.tracerFunction = rd.tracerFunction ∧
      rd1.isInsideTracer = rd.isInsideTracer := by
  unfold generateLabel at hg
  split at hg
  · cases hg
  · simp only [] at hg
    split at hg
    · cases hg
    · split at hg
      · cases hg
      · simp only [Option.some.injEq, Prod.mk.injEq] at hg
        rw [← hg.2]
        exact ⟨rfl, rfl, rfl⟩

theorem steadies_newFrame {h h1 : Heap} {vars : VarSpace} {previous cf : Nat}
    (hn : newFrame h vars previous = .ok (cf, h1)) :
    (steadies h1).take cf = steadies h := by
  unfold newFrame at hn
  split at hn
  · cases hn
  · rename_i pf hpf
    split at hn
    · cases hn
    · rename_i rt hrt
      split at hn
      · cases hn
      · rename_i rd hrd
        split at hn
        · cases hn
        · rename_i label rd1 hg
          simp only [Except.ok.injEq, Prod.mk.injEq] at hn
          obtain ⟨h2, h3⟩ := hn
          obtain ⟨t1, t2, t3⟩ := generateLabel_tracer rd rd1 label hg
          have hst : steadies (storeRootData h pf.root rd1) = steadies h := by
            unfold storeRootData
            rw [hrt]
            exact map_set_same Frame.steady h pf.root rt _ hrt (by simp [Frame.steady, hrd, t1, t2, t3])
          rw [← h3, ← h2]
          unfold steadies at hst ⊢
          rw [List.map_append, List.take_left' (by simp)]
          exact hst

@[simp] theorem steadies_deleteFrame (h : Heap) (f : Nat) :
    steadies (deleteFrame h f) = (steadies h).take f := by
  unfold deleteFrame steadies
  exact List.map_take _ _ _

@[simp] theorem steadies_tickIf_false (rec : Interp) (self : Nat) (p : Str) (v : XValue)
    (thres : Precedence) (exit : Bool) (h : Heap) :
    steadies (tickIf rec self false p v thres exit h).2 = steadies h := by
  simp [tickIf]

theorem steadies_ite {c : Prop} [Decidable c] {a b : Res}
    {l : List (VarSpace × Nat × Option Nat × Nat × Str × Option Str × Option (Nat × Str × Bool))}
    (ha : c → steadies a.2.h = l) (hb : ¬ c → steadies b.2.h = l) :
    steadies (if c then a else b).2.h = l := by
  by_cases h : c
  · rw [if_pos h]; exact ha h
  · rw [if_neg h]; exact hb h

theorem steadies_termExpr (rec : Interp) (hrec : SteadyRec rec) (self : Nat) (st : St)
    (emptyOk : Bool) (thres : Precedence) (term : Nat) :
    steadies (termExpr rec self st emptyOk true thres term).2.h = steadies st.h := by
  unfold termExpr
  repeat' (first | split | (simp only []; split))
  all_goals simp [hrec _ _ _ _]

theorem steadies_binaryOp {D : Type} (env : Env D) (rec : Interp) (hrec : SteadyRec rec)
    (self : Nat) (st : St) (thres : Precedence) (hop : Nat) (prec : Precedence) (op : Opr) :
    steadies (binaryOp env rec self st true thres hop prec op).2.h = steadies st.h := by
  unfold binaryOp
  simp only [↓reduceIte]
  repeat' (first | split | (simp only []; split))
  all_goals simp [hrec _ _ _ _]

theorem steadies_assignableOp {D : Type} (env : Env D) (rec : Interp) (hrec : SteadyRec rec)
    (self : Nat) (st : St) (thres : Precedence) (hop : Nat) (prec : Precedence) (op : Opr) :
    steadies (assignableOp env rec self st true thres hop prec op).2.h = steadies st.h := by
  unfold assignableOp
  simp only [↓reduceIte]
  repeat' (first | split | (simp only []; split))
  all_goals simp [hrec _ _ _ _, steadies_binaryOp env rec hrec]

theorem steadies_addSubOp {D : Type} (env : Env D) (rec : Interp) (hrec : SteadyRec rec)
    (self : Nat) (st : St) (thres : Precedence) (op : Opr) :
    steadies (addSubOp env rec self st true thres op).2.h = steadies st.h := by
  unfold addSubOp
  simp only [↓reduceIte]
  repeat' (first | split | (simp only []; split))
  all_goals simp [steadies_assignableOp env rec hrec]

theorem steadies_lgtOp {D : Type} (env : Env D) (rec : Interp) (hrec : SteadyRec rec)
    (self : Nat) (st : St) (thres : Precedence) (excl incl shift : Opr) :
    steadies (lgtOp env rec self st true thres excl incl shift).2.h = steadies st.h := by
  unfold lgtOp
  repeat' (first | split | (simp only []; split))
  all_goals simp [steadies_assignableOp env rec hrec, steadies_binaryOp env rec hrec]

@[simp] theorem steadies_symbolTail (b : Str) (st : St) (dry : Bool) :
    steadies (symbolTail b st dry).2.h = steadies st.h := by
  unfold symbolTail
  repeat' (first | split | (simp only []; split))
  all_goals simp

theorem steadies_prefixOp (rec : Interp) (hrec : SteadyRec rec) (self : Nat) (st : St)
    (rest : Str) (live : XValue → Heap → Except Xception XValue × Heap) :
    steadies (prefixOp rec self st true rest live).2.h = steadies st.h := by
  unfold prefixOp
  simp only [↓reduceIte]
  repeat' (first | split | (simp only []; split))
  all_goals simp [hrec _ _ _ _]

@[simp] theorem steadies_numericLiteral {D : Type} (env : Env D) (b : Str) (st : St) :
    steadies (numericLiteral env b st true).2.h = steadies st.h := by
  unfold numericLiteral
  simp only [↓reduceIte]
  repeat' (first | split | (simp only []; split))
  all_goals simp

theorem steadies_compoundLoop (rec : Interp) (hrec : SteadyRec rec) (self : Nat) :
    ∀ (n : Nat) (st : St), steadies (compoundLoop rec self true n st).2.h = steadies st.h := by
  intro n
  induction n with
  | zero => intro st; rfl
  | succ n ih =>
    intro st
    unfold compoundLoop
    repeat' (first | split | (simp only []; split))
    all_goals simp [hrec _ _ _ _, ih]

theorem steadies_forStatement (rec : Interp) (hrec : SteadyRec rec) (self : Nat) (st : St) :
    steadies (forStatement rec self st true).2.h = steadies st.h := by
  unfold forStatement
  simp only [↓reduceIte, Bool.not_true]
  repeat' (first | split | (simp only []; split))
  all_goals simp [hrec _ _ _ _, steadies_termExpr rec hrec]

theorem steadies_ifStatement (rec : Interp) (hrec : SteadyRec rec) (self : Nat) (st : St) :
    steadies (ifStatement rec self st true).2.h = steadies st.h := by
  unfold ifStatement
  simp only [↓reduceIte, Bool.true_or]
  repeat' (first | split | (simp only []; split))
  all_goals simp [hrec _ _ _ _, steadies_termExpr rec hrec]

theorem steadies_functionLiteral (rec : Interp) (hrec : SteadyRec rec) (self : Nat) (st : St)
    (dry : Bool) : steadies (functionLiteral rec self st dry).2.h = steadies st.h := by
  unfold functionLiteral
  repeat' (first | split | (simp only []; split))
  all_goals simp [hrec _ _ _ _]

theorem steadies_lambdaLiteral (rec : Interp) (hrec : SteadyRec rec) (self : Nat) (st : St)
    (dry : Bool) : steadies (lambdaLiteral rec self st dry).2.h = steadies st.h := by
  unfold lambdaLiteral
  repeat' (first | split | (simp only []; split))
  all_goals simp [hrec _ _ _ _]

@[simp] theorem steadies_literalToken (st : St) (dry : Bool) (p1 value : Str) :
    steadies (literalToken st dry p1 value).2.h = steadies st.h := rfl

theorem steadies_pre {D : Type} (env : Env D) (rec : Interp) (hrec : SteadyRec rec) (self : Nat)
    (st : St) : steadies (pre env rec self st true).2.h = steadies st.h := by
  unfold pre
  simp only [↓reduceIte]
  repeat' (first | (with_reducible apply steadies_ite <;> intro _) | split | (simp only []; split))
  all_goals simp [hrec _ _ _ _, steadies_termExpr rec hrec, steadies_prefixOp rec hrec,
    steadies_compoundLoop rec hrec, steadies_forStatement rec hrec, steadies_ifStatement rec hrec,
    steadies_functionLiteral rec hrec, steadies_lambdaLiteral rec hrec]

theorem steadies_substringPostfix (rec : Interp) (hrec : SteadyRec rec) (self : Nat) (st : St)
    (p1 : Str) : steadies (substringPostfix rec self st true p1).2.h = steadies st.h := by
  unfold substringPostfix
  simp only [↓reduceIte, Bool.not_true, Bool.and_false, Bool.false_eq_true]
  repeat' (first | split | (simp only []; split))
  all_goals simp [hrec _ _ _ _, steadies_termExpr rec hrec]

theorem steadies_argsLoop (rec : Interp) (hrec : SteadyRec rec) (self callee : Nat) :
    ∀ (fuel n : Nat) (p : Str) (h : Heap),
      steadies (argsLoop rec self callee true fuel n p h).2.2 = steadies h := by
  intro fuel
  induction fuel with
  | zero => intro n p h; rfl
  | succ fuel ih =>
    intro n p h
    unfold argsLoop
    simp only [Bool.not_true, Bool.and_false, Bool.false_eq_true, ↓reduceIte]
    repeat' (first | split | (simp only []; split))
    all_goals simp [hrec _ _ _ _, ih]

theorem steadies_callPostfix {D : Type} (env : Env D) (rec : Interp) (hrec : SteadyRec rec)
    (self : Nat) (st : St) :
    steadies (callPostfix env rec self st true).2.h = steadies st.h := by
  unfold callPostfix
  split
  · rfl
  · rename_i callee h1 hn
    have hnew := steadies_newFrame hn
    simp only [↓reduceIte]
    repeat' (first | split | (simp only []; split))
    all_goals simp [steadies_argsLoop rec hrec, hnew]

theorem steadies_assignPostfix (rec : Interp) (hrec : SteadyRec rec) (self : Nat) (st : St) :
    steadies (assignPostfix rec self st true).2.h = steadies st.h := by
  unfold assignPostfix
  simp only [↓reduceIte]
  repeat' (first | split | (simp only []; split))
  all_goals simp [hrec _ _ _ _]

theorem steadies_logicalPostfix (rec : Interp) (hrec : SteadyRec rec) (self : Nat) (st : St)
    (isAnd : Bool) : steadies (logicalPostfix rec self st true isAnd).2.h = steadies st.h := by
  cases isAnd
  all_goals
    unfold logicalPostfix
    simp only [↓reduceIte, Bool.not_true, Bool.not_false, Bool.false_eq_true]
    repeat' (first | split | (simp only []; split))
    all_goals simp [hrec _ _ _ _]

@[simp] theorem steadies_memberPostfix (st : St) (dry : Bool) (p1 : Str) :
    steadies (memberPostfix st dry p1).2.h = steadies st.h := by
  unfold memberPostfix
  repeat' (first | split | (simp only []; split))
  all_goals simp

theorem steadies_subscriptPostfix (rec : Interp) (hrec : SteadyRec rec) (self : Nat) (st : St)
    (p1 : Str) : steadies (subscriptPostfix rec self st true p1).2.h = steadies st.h := by
  unfold subscriptPostfix
  simp only [↓reduceIte]
  repeat' (first | split | (simp only []; split))
  all_goals simp [steadies_termExpr rec hrec]

theorem steadies_post {D : Type} (env : Env D) (rec : Interp) (hrec : SteadyRec rec) (self : Nat)
    (st : St) (thres : Precedence) :
    steadies (post env rec self st true thres).2.h = steadies st.h := by
  unfold post
  repeat' (first | (with_reducible apply steadies_ite <;> intro _) | split | (simp only []; split))
  all_goals simp [steadies_assignableOp env rec hrec, steadies_addSubOp env rec hrec,
    steadies_lgtOp env rec hrec, steadies_binaryOp env rec hrec, steadies_assignPostfix rec hrec,
    steadies_logicalPostfix rec hrec, steadies_subscriptPostfix rec hrec,
    steadies_substringPostfix rec hrec, steadies_callPostfix env rec hrec]

theorem steadies_postLoop {D : Type} (env : Env D) (rec : Interp) (hrec : SteadyRec rec)
    (self : Nat) (thres : Precedence) :
    ∀ (n : Nat) (st : St), steadies (postLoop env rec self true thres n st).2.h = steadies st.h := by
  intro n
  induction n with
  | zero => intro st; rfl
  | succ n ih =>
    intro st
    unfold postLoop
    repeat' (first | split | (simp only []; split))
    all_goals simp [ih, steadies_post env rec hrec]

theorem steadies_exprBody {D : Type} (env : Env D) (rec : Interp) (hrec : SteadyRec rec)
    (self : Nat) (st : St) (emptyOk : Bool) (thres : Precedence) :
    steadies (exprBody env rec self st emptyOk true thres).2.h = steadies st.h := by
  unfold exprBody
  simp only [Bool.not_true]
  repeat' (first | split | (simp only []; split))
  all_goals simp [steadies_pre env rec hrec, steadies_postLoop env rec hrec]

/-- The interpreter, when it parses dry, changes no member of a frame but the
label generator, at every depth of calls. -/
theorem interp_steadyRec {D : Type} (env : Env D) : ∀ n, SteadyRec (interp env n) := by
  intro n
  induction n with
  | zero => intro self st emptyOk thres; rfl
  | succ n ih => intro self st emptyOk thres; exact steadies_exprBody env _ ih self st emptyOk thres

set_option maxRecDepth 100000 in
/-- Counterexample to C36: the dry parse of `f()` on a new Root succeeds and
leaves the label generator of the Root advanced, so that the next label is `:2:`
instead of `:1:`; the branch `f()` that `if (false)` skips does the same. -/
theorem dry_counterexample :
    (parse stdEnv 5 0 (str "f()") stdRoot).1 = .ok true ∧
      (rootDataOf stdRoot 0).bind (fun rd => (generateLabel rd).map (fun r => r.1)) =
        some (str ":1:") ∧
      (rootDataOf (parse stdEnv 5 0 (str "f()") stdRoot).2.h 0).bind
          (fun rd => (generateLabel rd).map (fun r => r.1)) = some (str ":2:") ∧
      (evaluate stdEnv 5 0 (str "if (false) f()") stdRoot).1 = .ok [] ∧
      (rootDataOf (evaluate stdEnv 5 0 (str "if (false) f()") stdRoot).2 0).bind
          (fun rd => (generateLabel rd).map (fun r => r.1)) = some (str ":2:") := by
  decide

/-- Claim C36, amended.  Parsing in dry mode (through `Frame::parse`, or as any
call of `expr` with `dry` set, which is how `if`, `for`, `&&` and `||` skip a
branch) leaves every frame with its variable space, its links, its label and its
source, and the Root with its trace level, tracer function and in-tracer flag;
only the label generator of the Root may have advanced. -/
theorem dry_steady {D : Type} (env : Env D) (n : Nat) :
    (∀ self source h, steadies (parse env n self source h).2.h = steadies h) ∧
      (∀ self st emptyOk thres,
        steadies (expr env n self st emptyOk true thres).2.h = steadies st.h) :=
  ⟨fun self _ _ => interp_steadyRec env n self _ true STATEMENT,
    fun self st emptyOk thres => interp_steadyRec env n self st emptyOk thres⟩

/-! ### The guard of the tracer (C34) -/

theorem rootDataOf_some {h : Heap} {self : Nat} {rd : RootData}
    (hrd : rootDataOf h self = some rd) :
    ∃ fr rt, h[self]? = some fr ∧ h[fr.root]? = some rt ∧ rt.rootData = some rd := by
  unfold rootDataOf at hrd
  split at hrd
  · cases hrd
  · rename_i fr hfr
    split at hrd
    · cases hrd
    · rename_i rt hrt
      exact ⟨fr, rt, hfr, hrt, hrd⟩

theorem rootDataOf_storeRootData {h : Heap} {self : Nat} {fr rt : Frame} (rd1 : RootData)
    (hf : h[self]? = some fr) (hr : h[fr.root]? = some rt) :
    rootDataOf (storeRootData h fr.root rd1) self = some rd1 := by
  unfold rootDataOf
  rw [storeRootData_get, hf]
  simp only [Option.map_some']
  have hroot : (if self = fr.root then { fr with rootData := some rd1 } else fr).root = fr.root := by
    split <;> rfl
  rw [hroot, storeRootData_get, hr]
  simp

/-- Claim C34.  `Root::trace`, as `Frame::tick` calls it on a frame whose Root has
the members `rd`, with a routine `call` that keeps the links of the frames:
while the flag `isInsideTracer` is set it returns at once and changes nothing;
it calls the tracer function only on a heap where the flag is set; when it
returns or throws an exception of the program the flag is as it was on entry,
so false for every call made outside an invocation of the tracer; and when it
throws such an exception the trace level is `NO_TRACE` and the tracer function
void. -/
theorem trace_guard (rec : Interp) (hrec : LinkRec rec) (self : Nat) (p : Str) (v : XValue)
    (thres : Precedence) (exit : Bool) (h : Heap) (rd : RootData)
    (hrd : rootDataOf h self = some rd) :
    (rd.isInsideTracer = true → tick rec self p v thres exit h = (.ok (), h)) ∧
      (∀ rec1 : Interp,
        (∀ (callee body : Str) (argv : List Str) (h1 : Heap),
          (∃ rd1, rootDataOf h1 self = some rd1 ∧ rd1.isInsideTracer = true) →
            rec1.call self callee body argv h1 = rec.call self callee body argv h1) →
        tick rec1 self p v thres exit h = tick rec self p v thres exit h) ∧
      ((tick rec self p v thres exit h).1 = .ok () →
        ∃ rd1, rootDataOf (tick rec self p v thres exit h).2 self = some rd1 ∧
          rd1.isInsideTracer = rd.isInsideTracer) ∧
      (∀ x, (tick rec self p v thres exit h).1 = .error x → x.isFault = false →
        ∃ rd1, rootDataOf (tick rec self p v thres exit h).2 self = some rd1 ∧
          rd1.isInsideTracer = rd.isInsideTracer ∧ rd.isInsideTracer = false ∧
          rd1.traceLevel = NO_TRACE ∧ rd1.tracerFunction = []) := by
  obtain ⟨fr, rt, hf, hr, hrt⟩ := rootDataOf_some hrd
  have hflag : rootDataOf (storeRootData h fr.root { rd with isInsideTracer := true }) self =
      some { rd with isInsideTracer := true } := rootDataOf_storeRootData _ hf hr
  have hafter : ∀ (h2 : Heap) (rd2 rd3 : RootData), links h2 = links h →
      rootDataOf h2 self = some rd2 → rootDataOf (storeRootData h2 fr.root rd3) self = some rd3 := by
    intro h2 rd2 rd3 hl h2rd
    obtain ⟨fr2, rt2, hf2, hr2, _⟩ := rootDataOf_some h2rd
    obtain ⟨fr0, hf0, hs⟩ := links_frame hl hf2
    rw [hf] at hf0
    have hfr : fr = fr0 := Option.some.inj hf0
    have hroot : fr2.root = fr.root := by rw [hfr]; exact ((shape_fields hs).1).symm
    rw [← hroot]
    exact rootDataOf_storeRootData rd3 hf2 hr2
  refine ⟨?_, ?_, ?_, ?_⟩
  · intro hin
    unfold tick
    simp only [hf, hrd, hin, Bool.true_eq_false, and_false, if_false]
  · intro rec1 hagree
    unfold tick
    simp only [hf, hrd]
    split
    · split
      · rfl
      · rw [hagree _ _ _ _ ⟨_, hflag, rfl⟩]
    · rfl
  · intro hok
    unfold tick at hok ⊢
    simp only [hf, hrd] at hok ⊢
    by_cases hc : rd.tracerFunction ≠ [] ∧ rd.isInsideTracer = false
    · rw [if_pos hc] at hok ⊢
      cases hsrc : fr.source with
      | none => simp only [hsrc] at hok; cases hok
      | some source =>
        simp only [hsrc] at hok ⊢
        have hl := (hrec.call self [] rd.tracerFunction
          [source, ofULong (source.length - p.length), ofBool v.1, v.2, ofLong thres, ofBool exit]
          (storeRootData h fr.root { rd with isInsideTracer := true })).trans
          (links_storeRootData _ _ _)
        generalize rec.call self [] rd.tracerFunction
          [source, ofULong (source.length - p.length), ofBool v.1, v.2, ofLong thres, ofBool exit]
          (storeRootData h fr.root { rd with isInsideTracer := true }) = r at hok hl ⊢
        obtain ⟨o, h2⟩ := r
        cases o with
        | error x =>
          simp only at hok
          split at hok
          · cases hok
          · split at hok <;> cases hok
        | ok val =>
          simp only at hok hl ⊢
          cases h2rd : rootDataOf h2 self with
          | none => simp only [h2rd] at hok; cases hok
          | some rd2 =>
            simp only [h2rd]
            exact ⟨_, hafter h2 rd2 _ hl h2rd, hc.2.symm⟩
    · rw [if_neg hc]
      exact ⟨rd, hrd, rfl⟩
  · intro x hx hnf
    unfold tick at hx ⊢
    simp only [hf, hrd] at hx ⊢
    by_cases hc : rd.tracerFunction ≠ [] ∧ rd.isInsideTracer = false
    · rw [if_pos hc] at hx ⊢
      cases hsrc : fr.source with
      | none =>
        simp only [hsrc, Prod.mk.injEq, Except.error.injEq] at hx
        rw [← hx] at hnf
        cases hnf
      | some source =>
        simp only [hsrc] at hx ⊢
        have hl := (hrec.call self [] rd.tracerFunction
          [source, ofULong (source.length - p.length), ofBool v.1, v.2, ofLong thres, ofBool exit]
          (storeRootData h fr.root { rd with isInsideTracer := true })).trans
          (links_storeRootData _ _ _)
        generalize rec.call self [] rd.tracerFunction
          [source, ofULong (source.length - p.length), ofBool v.1, v.2, ofLong thres, ofBool exit]
          (storeRootData h fr.root { rd with isInsideTracer := true }) = r at hx hl ⊢
        obtain ⟨o, h2⟩ := r
        cases o with
        | ok val =>
          simp only at hx
          split at hx
          · simp only [Except.error.injEq] at hx
            rw [← hx] at hnf
            cases hnf
          · cases hx
        | error y =>
          simp only at hx hl ⊢
          by_cases hyf : y.isFault = true
          · rw [if_pos hyf] at hx
            simp only [Except.error.injEq] at hx
            rw [← hx, hyf] at hnf
            cases hnf
          · rw [if_neg hyf] at hx ⊢
            cases h2rd : rootDataOf h2 self with
            | none =>
              simp only [h2rd, Except.error.injEq] at hx
              rw [← hx] at hnf
              cases hnf
            | some rd2 =>
              simp only [h2rd]
              exact ⟨_, hafter h2 rd2 _ hl h2rd, hc.2.symm, hc.2, rfl, rfl⟩
    · rw [if_neg hc] at hx
      cases hx

set_option maxRecDepth 100000 in
theorem trace_guard_witness :
    ∃ rd1, rootDataOf (tick (interp stdEnv 3) 0 [] (false, []) STATEMENT false tracedRoot).2 0 =
        some rd1 ∧
      rd1.isInsideTracer = false ∧ false = false ∧ rd1.traceLevel = NO_TRACE ∧
      rd1.tracerFunction = [] :=
  (trace_guard (interp stdEnv 3) (interp_linkRec stdEnv stdEnv_nativeOK 3) 0 [] (false, [])
    STATEMENT false tracedRoot
    { RootData.init with traceLevel := STATEMENT, tracerFunction := [60, 116, 62] } rfl).2.2.2
    (.native []) (by decide) rfl

/-! ### The native `try` (C32) -/

/-- A property that holds of the element chosen as a counterexample holds of
every element. -/
theorem forall_of_generic {α : Type} [Nonempty α] (P : α → Prop)
    (h : P (Classical.epsilon (fun a => ¬ P a))) : ∀ a, P a := by
  by_contra hne
  rw [not_forall] at hne
  exact Classical.epsilon_spec hne h

set_option maxRecDepth 1000000 in
/-- The call `try(>throw(m))` on a Root whose variable `m` holds the string `m`
returns `m`. -/
theorem try_throw : ∀ m : Str,
    (tryer (interp throwEnv 6) (tryHeap (str ">::throw(m)") m) 1).1 = .ok m := by
  refine forall_of_generic
    (fun m : Str => (tryer (interp throwEnv 6) (tryHeap (str ">::throw(m)") m) 1).1 = .ok m) ?_
  beta_reduce
  conv =>
    lhs
    whnf
  refine congrArg Except.ok ?_
  conv =>
    lhs
    whnf
  conv =>
    rhs
    whnf

theorem tryer_cases (rec : Interp) (h : Heap) (f : Nat) (body : Str) (h1 : Heap)
    (hget : get h f [36, 48] false = (.ok body, h1)) :
    (∀ x h2, rec.call f [] body [] h1 = (.error x, h2) → x.isFault = false →
        tryer rec h f = (.ok x.getError, h2)) ∧
      (∀ val h2, rec.call f [] body [] h1 = (.ok val, h2) → tryer rec h f = (.ok [], h2)) := by
  constructor
  · intro x h2 hc hx
    unfold tryer
    simp only [hget, hc, hx, Bool.false_eq_true, if_false]
  · intro val h2 hc
    unfold tryer
    simp only [hget, hc]

set_option maxRecDepth 1000000 in
/-- Claim C32.  The native `try` on a frame whose `$0` is `body`: when the call of
`body` throws an exception of the program, `try` returns its error text, and
when the call returns, `try` returns void, whatever the call returned.  On a
Root whose variable `m` holds the string `m`, `try(>throw(m))` returns `m`, for
every string `m`; `try(>1+1)` returns void and `try(>1+'a')` returns
`Invalid number: 'a'`. -/
theorem try_spec (rec : Interp) (h : Heap) (f : Nat) :
    (∀ body h1, get h f [36, 48] false = (.ok body, h1) →
      (∀ x h2, rec.call f [] body [] h1 = (.error x, h2) → x.isFault = false →
        tryer rec h f = (.ok x.getError, h2)) ∧
      (∀ val h2, rec.call f [] body [] h1 = (.ok val, h2) → tryer rec h f = (.ok [], h2))) ∧
    (∀ m : Str, (tryer (interp throwEnv 6) (tryHeap (str ">::throw(m)") m) 1).1 = .ok m) ∧
    (tryer (interp throwEnv 6) (tryHeap (str ">::1+1") []) 1).1 = .ok [] ∧
    (call throwEnv 6 1 [] (str ">::1+1") [] (tryHeap (str ">::1+1") [])).1 = .ok (str "2") ∧
    (tryer (interp throwEnv 6) (tryHeap (str ">::1+'a'") []) 1).1 =
      .ok (str "Invalid number: 'a'") :=
  ⟨fun body h1 hget => tryer_cases rec h f body h1 hget, try_throw, by decide, by decide,
    by decide⟩

/-! ### The native `foreach` (C31) -/

theorem reference_links {h h1 : Heap} (hl : links h1 = links h) (t : Nat) (k : Str) :
    reference h1 t k = reference h t k := by
  unfold reference
  rw [resolveFrame_shape hl t k]
  split
  · rfl
  · rename_i f symbol _
    rcases deref_shape hl f with ⟨x, h1x, h2x⟩ | ⟨fr1, fr2, h1f, h2f, hs⟩
    · rw [h1x, h2x]
    · rw [h1f, h2f]
      simp only [(shape_fields hs).2.2.2]

theorem reference_own (h : Heap) (target : Nat) (tf : Frame) (k : Str)
    (htf : h[target]? = some tf) (hk : isSymbolChar (k.headD 0) = true) (hne : k ≠ [])
    (hown : k.head? = some 36 ∨ tf.closure = target) :
    reference h target k = .ok (tf.label ++ k) := by
  cases k with
  | nil => exact absurd rfl hne
  | cons c p =>
    simp only [List.headD_cons] at hk
    have h58 : c ≠ 58 := by rintro rfl; simp [isSymbolChar] at hk
    have h94 : c ≠ 94 := by rintro rfl; simp [isSymbolChar] at hk
    have hres : resolveFrame h target (c :: p) = .ok (target, c :: p) := by
      by_cases h36 : c = 36
      · subst h36; rfl
      · have hcl : tf.closure = target := by
          rcases hown with h1 | h1
          · simp only [List.head?_cons, Option.some.injEq] at h1
            exact absurd h1 h36
          · exact h1
        unfold resolveFrame
        split
        · rename_i heq; injection heq with a _; exact absurd a h36
        · rename_i heq; injection heq with a _; exact absurd a h58
        · rename_i heq; injection heq with a _; exact absurd a h94
        · simp only [deref, htf, hcl]
    unfold reference
    rw [hres]
    simp only [deref, htf]

theorem foreachLoop_callEach (rec : Interp) (hrec : LinkRec rec) (f : Nat) (fn : Str)
    (target : Nat) (tf : Frame) (key : Str) (h0 : Heap) (htf : h0[target]? = some tf)
    (hkey : key ≠ []) (hsym : isSymbolChar (key.headD 0) = true)
    (hown : key.head? = some 36 ∨ tf.closure = target) :
    ∀ (es : List (Str × Str)) (h : Heap), links h = links h0 → (∀ kv ∈ es, key <+: kv.1) →
      foreachLoop rec f fn target key.length es h =
        callEach rec f fn (es.map (fun kv => [tf.label ++ kv.1, kv.1.drop key.length, kv.2])) h := by
  intro es
  induction es with
  | nil => intro h _ _; rfl
  | cons kv rest ih =>
    intro h hl hpre
    obtain ⟨t, ht⟩ := hpre kv (List.mem_cons_self _ _)
    have hhead : kv.1.head? = key.head? ∧ kv.1.headD 0 = key.headD 0 ∧ kv.1 ≠ [] := by
      rw [← ht]
      cases key with
      | nil => exact absurd rfl hkey
      | cons c p => simp
    have href : reference h target kv.1 = .ok (tf.label ++ kv.1) := by
      rw [reference_links hl]
      exact reference_own h0 target tf kv.1 htf (hhead.2.1 ▸ hsym) hhead.2.2 (hhead.1 ▸ hown)
    unfold foreachLoop
    rw [href]
    simp only [List.map_cons, callEach]
    have hl2 := (hrec.call f [] fn [tf.label ++ kv.1, kv.1.drop key.length, kv.2] h).trans hl
    generalize rec.call f [] fn [tf.label ++ kv.1, kv.1.drop key.length, kv.2] h = r at hl2 ⊢
    obtain ⟨o, h2⟩ := r
    cases o with
    | error x => rfl
    | ok val => exact ih h2 hl2 (fun x hx => hpre x (List.mem_cons_of_mem _ hx))

theorem mem_iff_lookup (vars : Variables) (hord : vars.Ordered) (k v : Str) :
    (k, v) ∈ vars ↔ Variables.lookup vars k = some v := by
  induction vars with
  | nil => simp [Variables.lookup, List.lookup]
  | cons kw rest ih =>
    obtain ⟨k1, v1⟩ := kw
    have hall : ∀ b ∈ rest, stringLess k1 b.1 = true := (List.pairwise_cons.mp hord).1
    have ih2 := ih (List.pairwise_cons.mp hord).2
    by_cases hk : k = k1
    · subst hk
      rw [lookup_head]
      constructor
      · intro hm
        rcases List.mem_cons.mp hm with h1 | h1
        · injection h1 with _ h2; rw [h2]
        · have := hall (k, v) h1
          rw [stringLess_irrefl] at this
          cases this
      · intro hv
        injection hv with hv
        rw [hv]
        exact List.mem_cons_self _ _
    · rw [lookup_tail k1 v1 k rest hk, ← ih2]
      constructor
      · intro hm
        rcases List.mem_cons.mp hm with h1 | h1
        · injection h1 with h2 _; exact absurd h2 hk
        · exact h1
      · intro hm
        exact List.mem_cons_of_mem _ hm

theorem list_content (vs : VarSpace) (key : Str) (out : List (Str × Str)) :
    (vs.list key out).1 = Variables.list vs.content key out := by
  obtain ⟨vars, natives, cache⟩ := vs
  cases cache <;> rfl

set_option maxRecDepth 100000 in
/-- Counterexample to C31: in the frame `:2:` of a lambda whose closure `:1:` runs
itself a lambda of the Root, `@a` is `:1:a`, the variable `a` of the frame `:1:`,
which also holds `a.y`; but `foreach(@a, fn)` called there resolves `:1:a.` to the
closure of `:1:`, the Root, and calls `fn` once, for the variable `a.x` of the
Root, and not for `a.y`. -/
theorem foreach_counterexample :
    reference foreachLambdaHeap 2 (str "a") = .ok (str ":1:a") ∧
      resolveFrame foreachLambdaHeap 2 (str "a") = .ok (1, str "a") ∧
      (foreachLambdaHeap.map (fun fr => fr.vars.value (str "a.y"))) =
        [none, some (str "s"), none, none] ∧
      (foreach (interp stdEnv 8) foreachLambdaHeap 3).1 = .ok [] ∧
      (get (foreach (interp stdEnv 8) foreachLambdaHeap 3).2 0 (str "log") false).1 =
        .ok (str "::a.x ") := by
  decide

/-- Claim C31, amended.  On the frame of `foreach` with the function `fn` in `$1`
and in `$0` a reference `ref` that is no bare frame prefix and resolves, with a
period appended, on the caller to the frame `target` and the symbol `c` with the
period, where `c` begins with a symbol character and `target` is its own closure
unless `c` begins with `$`: `foreach` is the sequence of the calls of `fn`, one
for each entry of a list without repetition that holds exactly the variables of
`target` whose symbol begins with `c` and the period, with their values when
`foreach` starts; the arguments of a call are the label of `target` with the
symbol, the symbol after `c` and the period, and the value. -/
theorem foreach_calls (rec : Interp) (hrec : LinkRec rec) (h h1 h2 : Heap) (f previous target : Nat)
    (fr tf : Frame) (fn ref c : Str)
    (hfn : get h f [36, 49] false = (.ok fn, h1))
    (href : get h1 f [36, 48] false = (.ok ref, h2))
    (hf : h2[f]? = some fr) (hprev : fr.previous = some previous)
    (hvar : ¬ IsFramePrefix ref)
    (hres : resolveFrame h2 previous (ref ++ [46]) = .ok (target, c ++ [46]))
    (htf : h2[target]? = some tf)
    (hc : c ≠ [] ∧ isSymbolChar (c.headD 0) = true)
    (hown : c.head? = some 36 ∨ tf.closure = target)
    (hh : tf.vars.Hashed) (hord : tf.vars.vars.Ordered) :
    ∃ entries : List (Str × Str),
      foreach rec h f =
        callEach rec f fn
          (entries.map (fun kv => [tf.label ++ kv.1, kv.1.drop (c.length + 1), kv.2]))
          (storeVars h2 target (tf.vars.list (c ++ [46]) []).2) ∧
      entries.Nodup ∧
      ∀ k v, (k, v) ∈ entries ↔ (tf.vars.value k = some v ∧ (c ++ [46]) <+: k) := by
  obtain ⟨found, hlist, _, hmem, hnodup⟩ :=
    list_spec tf.vars.content (content_ordered tf.vars hord) (c ++ [46]) []
  rw [List.nil_append] at hlist
  have hsub : STLValue.subscript ref [] = ref ++ [46] := by
    have := ((subscript_eq ref []).2).mpr hvar
    simpa using this
  have hkey : (c ++ [46]) ≠ [] := by simp
  have hheadD : (c ++ [46]).headD 0 = c.headD 0 := by
    cases c with
    | nil => exact absurd rfl hc.1
    | cons a p => rfl
  have hhead : (c ++ [46]).head? = c.head? := by
    cases c with
    | nil => exact absurd rfl hc.1
    | cons a p => rfl
  refine ⟨found, ?_, hnodup, ?_⟩
  · unfold foreach
    simp only [hfn, href, deref, hf, hprev, hsub, hres, htf]
    rw [list_content, hlist]
    have hloop := foreachLoop_callEach rec hrec f fn target tf (c ++ [46]) h2 htf hkey
      (hheadD ▸ hc.2) (hhead ▸ hown) found
      (storeVars h2 target (tf.vars.list (c ++ [46]) []).2) (links_storeVars _ _ _)
      (fun kv hkv => ((hmem kv).mp hkv).2)
    simpa using hloop
  · intro k v
    rw [hmem (k, v), mem_iff_lookup _ (content_ordered tf.vars hord), content_lookup _ hh]
    constructor
    · rintro ⟨hl, hp⟩
      have hk : k ≠ [] := by
        obtain ⟨t, ht⟩ := hp
        have ht2 : c ++ [46] ++ t = k := ht
        rw [← ht2]
        simp
      rw [if_neg hk] at hl
      exact ⟨hl, hp⟩
    · rintro ⟨hl, hp⟩
      have hk : k ≠ [] := by
        obtain ⟨t, ht⟩ := hp
        have ht2 : c ++ [46] ++ t = k := ht
        rw [← ht2]
        simp
      rw [if_neg hk]
      exact ⟨hl, hp⟩

set_option maxRecDepth 100000 in
theorem foreach_calls_witness :
    ∃ entries : List (Str × Str),
      foreach (interp stdEnv 8) foreachHeap 1 =
        callEach (interp stdEnv 8) 1 (str ">::log = log # $0 # '=' # $2 # ' '")
          (entries.map (fun kv => [str "::" ++ kv.1, kv.1.drop ((str "a").length + 1), kv.2]))
          (storeVars foreachHeap 0
            (VarSpace.list { vars := [(str "a.p", str "1"), (str "a.q", str "2"),
              (str "b", str "3"), (str "log", [])] } (str "a" ++ [46]) []).2) ∧
      entries.Nodup ∧
      ∀ k v, (k, v) ∈ entries ↔
        (VarSpace.value { vars := [(str "a.p", str "1"), (str "a.q", str "2"),
            (str "b", str "3"), (str "log", [])] } k = some v ∧ (str "a" ++ [46]) <+: k) :=
  foreach_calls (interp stdEnv 8) (interp_linkRec stdEnv stdEnv_nativeOK 8) foreachHeap
    foreachHeap foreachHeap 1 0 0 _ _ (str ">::log = log # $0 # '=' # $2 # ' '") (str "::a")
    (str "a") (by decide) (by decide) rfl rfl
    (by
      intro hp
      have h1 := ((subscript_eq (str "::a") []).1).mpr hp
      revert h1
      decide)
    (by decide) rfl (by decide) (Or.inr rfl) (fun _ he => by cases he) (by decide)

set_option maxRecDepth 100000 in
/-- An example of `foreach`: on a Root with the variables `a.p = 1`, `a.q = 2` and
`b = 3`, `foreach(@a, >log = log # $0 # '=' # $2 # ' ')` leaves `::a.p=1 ::a.q=2 `
in `log`. -/
theorem foreach_example :
    (foreach (interp stdEnv 8) foreachHeap 1).1 = .ok [] ∧
      (get (foreach (interp stdEnv 8) foreachHeap 1).2 0 (str "log") false).1 =
        .ok (str "::a.p=1 ::a.q=2 ") := by
  decide

/-! ### The numbers that `double`s denote: comparison and rounding -/

theorem shiftLeft_cast (m k : Nat) : ((m <<< k : Nat) : ℚ) = m * 2 ^ k := by
  rw [Nat.shiftLeft_eq]; push_cast; rfl

theorem aligned_spec (na : Bool) (ma : Nat) (ea : Int) (nb : Bool) (mb : Nat) (eb : Int) :
    ((F64.aligned na ma ea nb mb eb).1 : ℚ) * 2 ^ (F64.aligned na ma ea nb mb eb).2.2 =
        (F64.finite na ma ea).toRat ∧
      ((F64.aligned na ma ea nb mb eb).2.1 : ℚ) * 2 ^ (F64.aligned na ma ea nb mb eb).2.2 =
        (F64.finite nb mb eb).toRat := by
  have key : ∀ (s : Bool) (m : Nat) (e k : Int), (m = 0 ∨ k ≤ e) →
      ((((if s then -1 else 1) * ((m <<< (e - k).toNat : Nat) : Int) : Int) : ℚ)) * 2 ^ k =
        (F64.finite s m e).toRat := by
    intro s m e k hk
    simp only [F64.toRat]
    rcases hk with hm | hk
    · subst hm
      simp
    · push_cast
      rw [shiftLeft_cast]
      have h2 : ((2 : ℚ) ^ (e - k).toNat) * 2 ^ k = 2 ^ e := by
        rw [← zpow_natCast, ← zpow_add₀ (by norm_num)]
        congr 1
        rw [Int.toNat_of_nonneg (by omega)]
        omega
      rw [← h2]
      split <;> ring
  unfold F64.aligned
  simp only []
  constructor
  · apply key
    by_cases ha : ma = 0
    · exact Or.inl ha
    · right
      rw [if_neg ha]
      split
      · exact le_refl _
      · exact min_le_left _ _
  · apply key
    by_cases hb : mb = 0
    · exact Or.inl hb
    · right
      split
      · exact le_refl _
      · exact min_le_right _ _

theorem f64_eq_iff (a b : F64) : F64.eq a b = true ↔ F64.SameValue a b := by
  cases a with
  | nan => cases b <;> simp [F64.eq, F64.SameValue]
  | inf s => cases b <;> simp [F64.eq, F64.SameValue]
  | finite na ma ea =>
    cases b with
    | nan => simp [F64.eq, F64.SameValue]
    | inf s => simp [F64.eq, F64.SameValue]
    | finite nb mb eb =>
      simp only [F64.eq, F64.SameValue, decide_eq_true_eq]
      have h := aligned_spec na ma ea nb mb eb
      rw [← h.1, ← h.2]
      have hp : (2 : ℚ) ^ (F64.aligned na ma ea nb mb eb).2.2 ≠ 0 := by positivity
      constructor
      · intro he
        rw [he]
      · intro he
        have := mul_right_cancel₀ hp he
        exact_mod_cast this

theorem f64_lt_iff (na : Bool) (ma : Nat) (ea : Int) (nb : Bool) (mb : Nat) (eb : Int) :
    F64.lt (.finite na ma ea) (.finite nb mb eb) = true ↔
      (F64.finite na ma ea).toRat < (F64.finite nb mb eb).toRat := by
  simp only [F64.lt, decide_eq_true_eq]
  have h := aligned_spec na ma ea nb mb eb
  rw [← h.1, ← h.2]
  have hp : (0 : ℚ) < 2 ^ (F64.aligned na ma ea nb mb eb).2.2 := by positivity
  rw [mul_lt_mul_right hp]
  exact_mod_cast Iff.rfl

theorem log2Loop_spec : ∀ (fuel n : Nat), 0 < n → n ≤ fuel →
    2 ^ F64.log2Loop fuel n ≤ n ∧ n < 2 ^ (F64.log2Loop fuel n + 1) := by
  intro fuel
  induction fuel with
  | zero => intro n hn hle; omega
  | succ fuel ih =>
    intro n hn hle
    unfold F64.log2Loop
    by_cases h2 : n < 2
    · simp only [h2, if_true]
      omega
    · simp only [h2, if_false]
      have hpos : 0 < n / 2 := Nat.div_pos (by omega) (by norm_num)
      have hle2 : n / 2 ≤ fuel := by omega
      obtain ⟨h1, h3⟩ := ih (n / 2) hpos hle2
      constructor
      · rw [pow_succ]
        omega
      · rw [pow_succ]
        omega

theorem log2_spec (n : Nat) (hn : 0 < n) :
    2 ^ F64.log2 n ≤ n ∧ n < 2 ^ (F64.log2 n + 1) :=
  log2Loop_spec n n hn (le_refl n)

theorem scale_spec (n d : Nat) (e : Int) (hd : 0 < d) :
    0 < (F64.scale n d e).2 ∧
      ((F64.scale n d e).1 : ℚ) / ((F64.scale n d e).2 : ℚ) = (n : ℚ) / d * 2 ^ e := by
  have hd0 : (d : ℚ) ≠ 0 := by positivity
  unfold F64.scale
  split
  · rename_i he
    refine ⟨hd, ?_⟩
    simp only [shiftLeft_cast]
    rw [← zpow_natCast, Int.toNat_of_nonneg he]
    ring
  · rename_i he
    constructor
    · simp only [Nat.shiftLeft_eq]
      positivity
    · simp only [shiftLeft_cast]
      have h2 : (2 : ℚ) ^ e = ((2 : ℚ) ^ (-e).toNat)⁻¹ := by
        rw [← zpow_natCast, Int.toNat_of_nonneg (by omega), zpow_neg, inv_inv]
      rw [h2]
      field_simp

theorem round_eq (neg : Bool) (n d : Nat) (hn : n ≠ 0) :
    F64.round neg n d =
      (let e3 : Int := max (F64.exponent n d) (-1074)
       let s := F64.scale n d (-e3)
       let m := F64.nearest s.1 s.2
       let me : Nat × Int := if m = 2 ^ 53 then (2 ^ 52, e3 + 1) else (m, e3)
       if 971 < me.2 then .inf neg else .finite neg me.1 me.2) := by
  unfold F64.round F64.exponent F64.nearest
  simp only [hn, if_false]

theorem exponent_spec (n d : Nat) (hn : 0 < n) (hd : 0 < d) :
    (2 : ℚ) ^ (52 : ℕ) * 2 ^ F64.exponent n d ≤ (n : ℚ) / d ∧
      (n : ℚ) / d < 2 ^ (53 : ℕ) * 2 ^ F64.exponent n d := by
  obtain ⟨hn1, hn2⟩ := log2_spec n hn
  obtain ⟨hd1, hd2⟩ := log2_spec d hd
  have hdq : (0 : ℚ) < d := by exact_mod_cast hd
  have hn1q : (2 : ℚ) ^ F64.log2 n ≤ n := by exact_mod_cast hn1
  have hn2q : (n : ℚ) < 2 ^ (F64.log2 n + 1) := by exact_mod_cast hn2
  have hd1q : (2 : ℚ) ^ F64.log2 d ≤ d := by exact_mod_cast hd1
  have hd2q : (d : ℚ) < 2 ^ (F64.log2 d + 1) := by exact_mod_cast hd2
  set e1 : Int := (F64.log2 n : Int) - (F64.log2 d : Int) - 52 with he1
  have hP : (0 : ℚ) < 2 ^ e1 := by positivity
  -- the bounds of `x` by powers of two
  have hup : (n : ℚ) / d < 2 ^ (53 : ℕ) * 2 ^ e1 := by
    rw [div_lt_iff₀ hdq]
    have h1 : (2 : ℚ) ^ (53 : ℕ) * 2 ^ e1 * 2 ^ F64.log2 d = 2 ^ (F64.log2 n + 1) := by
      rw [← zpow_natCast, ← zpow_natCast, ← zpow_natCast, ← zpow_add₀ (by norm_num),
        ← zpow_add₀ (by norm_num)]
      congr 1
      push_cast
      omega
    calc (n : ℚ) < 2 ^ (F64.log2 n + 1) := hn2q
      _ = 2 ^ (53 : ℕ) * 2 ^ e1 * 2 ^ F64.log2 d := h1.symm
      _ ≤ 2 ^ (53 : ℕ) * 2 ^ e1 * d :=
        mul_le_mul_of_nonneg_left hd1q (by positivity)
  have hlow : (2 : ℚ) ^ (51 : ℕ) * 2 ^ e1 ≤ (n : ℚ) / d := by
    rw [le_div_iff₀ hdq]
    have h1 : (2 : ℚ) ^ (51 : ℕ) * 2 ^ e1 * 2 ^ (F64.log2 d + 1) = 2 ^ F64.log2 n := by
      rw [← zpow_natCast, ← zpow_natCast, ← zpow_natCast, ← zpow_add₀ (by norm_num),
        ← zpow_add₀ (by norm_num)]
      congr 1
      push_cast
      omega
    calc (2 : ℚ) ^ (51 : ℕ) * 2 ^ e1 * d
        ≤ 2 ^ (51 : ℕ) * 2 ^ e1 * 2 ^ (F64.log2 d + 1) :=
          mul_le_mul_of_nonneg_left hd2q.le (by positivity)
      _ = 2 ^ F64.log2 n := h1
      _ ≤ n := hn1q
  obtain ⟨hs2, hs⟩ := scale_spec n d (-e1) hd
  have hs2q : (0 : ℚ) < ((F64.scale n d (-e1)).2 : ℚ) := by exact_mod_cast hs2
  have hx : (n : ℚ) / d = ((F64.scale n d (-e1)).1 : ℚ) / ((F64.scale n d (-e1)).2 : ℚ) * 2 ^ e1 := by
    rw [hs, zpow_neg, mul_assoc, inv_mul_cancel₀ hP.ne', mul_one]
  have hm1 : (2 : ℚ) ^ (e1 - 1) = 2 ^ e1 / 2 := by
    rw [zpow_sub₀ (by norm_num), zpow_one]
  have hp1 : (2 : ℚ) ^ (e1 + 1) = 2 ^ e1 * 2 := by
    rw [zpow_add₀ (by norm_num), zpow_one]
  unfold F64.exponent
  simp only [← he1]
  split
  · rename_i hq
    rw [Nat.div_lt_iff_lt_mul hs2] at hq
    have hq2 : ((F64.scale n d (-e1)).1 : ℚ) / ((F64.scale n d (-e1)).2 : ℚ) < 2 ^ (52 : ℕ) := by
      rw [div_lt_iff₀ hs2q]
      exact_mod_cast hq
    rw [hm1]
    constructor
    · calc (2 : ℚ) ^ (52 : ℕ) * (2 ^ e1 / 2) = 2 ^ (51 : ℕ) * 2 ^ e1 := by ring
        _ ≤ _ := hlow
    · rw [hx]
      calc ((F64.scale n d (-e1)).1 : ℚ) / ((F64.scale n d (-e1)).2 : ℚ) * 2 ^ e1
          < 2 ^ (52 : ℕ) * 2 ^ e1 := mul_lt_mul_of_pos_right hq2 hP
        _ = 2 ^ (53 : ℕ) * (2 ^ e1 / 2) := by ring
  · rename_i hq
    have hq1 : 2 ^ 52 ≤ (F64.scale n d (-e1)).1 / (F64.scale n d (-e1)).2 := Nat.le_of_not_lt hq
    rw [Nat.le_div_iff_mul_le hs2] at hq1
    have hq2 : (2 : ℚ) ^ (52 : ℕ) ≤
        ((F64.scale n d (-e1)).1 : ℚ) / ((F64.scale n d (-e1)).2 : ℚ) := by
      rw [le_div_iff₀ hs2q]
      exact_mod_cast hq1
    split
    · rename_i hq3
      exfalso
      rw [Nat.le_div_iff_mul_le hs2] at hq3
      have hq4 : (2 : ℚ) ^ (53 : ℕ) ≤
          ((F64.scale n d (-e1)).1 : ℚ) / ((F64.scale n d (-e1)).2 : ℚ) := by
        rw [le_div_iff₀ hs2q]
        exact_mod_cast hq3
      have : (2 : ℚ) ^ (53 : ℕ) * 2 ^ e1 ≤ (n : ℚ) / d := by
        rw [hx]
        exact mul_le_mul_of_nonneg_right hq4 hP.le
      exact absurd hup (not_lt.mpr this)
    · refine ⟨?_, hup⟩
      rw [hx]
      exact mul_le_mul_of_nonneg_right hq2 hP.le

theorem nearest_spec (a b : Nat) (hb : 0 < b) :
    |(F64.nearest a b : ℚ) - (a : ℚ) / b| ≤ 1 / 2 := by
  have hbq : (0 : ℚ) < b := by exact_mod_cast hb
  have hdm : (a : ℚ) = b * (a / b : ℕ) + (a % b : ℕ) := by exact_mod_cast (Nat.div_add_mod a b).symm
  have hr : a % b < b := Nat.mod_lt a hb
  have hrq : ((a % b : ℕ) : ℚ) < b := by exact_mod_cast hr
  have hr0 : (0 : ℚ) ≤ ((a % b : ℕ) : ℚ) := by positivity
  have hx : (a : ℚ) / b = (a / b : ℕ) + ((a % b : ℕ) : ℚ) / b := by
    rw [hdm]
    field_simp
    ring
  have hf0 : (0 : ℚ) ≤ ((a % b : ℕ) : ℚ) / b := by positivity
  have hf1 : ((a % b : ℕ) : ℚ) / b < 1 := by
    rw [div_lt_one hbq]
    exact hrq
  unfold F64.nearest
  split
  · rename_i hc
    have h2 : b ≤ 2 * (a % b) := by omega
    have h2q : (b : ℚ) ≤ 2 * ((a % b : ℕ) : ℚ) := by exact_mod_cast h2
    have hf2 : 1 / 2 ≤ ((a % b : ℕ) : ℚ) / b := by
      rw [le_div_iff₀ hbq]
      linarith
    rw [hx, abs_le]
    push_cast
    constructor <;> linarith
  · rename_i hc
    have h2 : 2 * (a % b) ≤ b := by omega
    have h2q : 2 * ((a % b : ℕ) : ℚ) ≤ b := by exact_mod_cast h2
    have hf2 : ((a % b : ℕ) : ℚ) / b ≤ 1 / 2 := by
      rw [div_le_iff₀ hbq]
      linarith
    rw [hx, abs_le]
    constructor <;> linarith

theorem exponent_zpow (n d : Nat) (hn : 0 < n) (hd : 0 < d) :
    (2 : ℚ) ^ (52 + F64.exponent n d) ≤ (n : ℚ) / d ∧
      (n : ℚ) / d < 2 ^ (53 + F64.exponent n d) := by
  have h := exponent_spec n d hn hd
  rw [zpow_add₀ (by norm_num), zpow_add₀ (by norm_num)]
  have h52 : (2 : ℚ) ^ (52 : ℤ) = 2 ^ (52 : ℕ) := by norm_cast
  have h53 : (2 : ℚ) ^ (53 : ℤ) = 2 ^ (53 : ℕ) := by norm_cast
  rw [h52, h53]
  exact h

/-- The result of `round` in the range of the normal numbers: a finite number
`j * 2^e` with `2^52 <= x * 2^(-e) < 2^53` and `j` an integer nearest to
`x * 2^(-e)`, for `x = n / d`. -/
theorem round_normal (neg : Bool) (n d : Nat) (hn : 0 < n) (hd : 0 < d)
    (hlo : (2 : ℚ) ^ (-1022 : ℤ) ≤ (n : ℚ) / d) (hhi : (n : ℚ) / d < 2 ^ (1023 : ℤ)) :
    ∃ (M : Nat) (E e : Int) (j : Nat), F64.round neg n d = .finite neg M E ∧
      (M : ℚ) * 2 ^ E = j * 2 ^ e ∧ (2 : ℚ) ^ (52 + e) ≤ (n : ℚ) / d ∧
      (n : ℚ) / d < 2 ^ (53 + e) ∧ |(j : ℚ) - (n : ℚ) / d * 2 ^ (-e)| ≤ 1 / 2 := by
  obtain ⟨he1, he2⟩ := exponent_zpow n d hn hd
  have h2 : (1 : ℚ) < 2 := by norm_num
  have hge : -1074 ≤ F64.exponent n d := by
    have := lt_of_le_of_lt hlo he2
    rw [zpow_lt_zpow_iff_right₀ h2] at this
    omega
  have hle : F64.exponent n d ≤ 970 := by
    have := lt_of_le_of_lt he1 hhi
    rw [zpow_lt_zpow_iff_right₀ h2] at this
    omega
  obtain ⟨hs2, hs⟩ := scale_spec n d (-F64.exponent n d) hd
  have hnear := nearest_spec (F64.scale n d (-F64.exponent n d)).1
    (F64.scale n d (-F64.exponent n d)).2 hs2
  rw [hs] at hnear
  rw [round_eq neg n d (by omega)]
  simp only [max_eq_left hge]
  by_cases hj : F64.nearest (F64.scale n d (-F64.exponent n d)).1
      (F64.scale n d (-F64.exponent n d)).2 = 2 ^ 53
  · refine ⟨2 ^ 52, F64.exponent n d + 1, F64.exponent n d, 2 ^ 53, ?_, ?_, he1, he2, ?_⟩
    · rw [if_pos hj]
      have : ¬ (971 < F64.exponent n d + 1) := by omega
      simp only [this, if_false]
    · rw [zpow_add₀ (by norm_num), zpow_one]
      push_cast
      ring
    · rw [hj] at hnear
      exact hnear
  · refine ⟨_, F64.exponent n d, F64.exponent n d, _, ?_, rfl, he1, he2, hnear⟩
    rw [if_neg hj]
    have : ¬ (971 < F64.exponent n d) := by omega
    simp only [this, if_false]

/-- In the range of the normal numbers `round` has a relative error of at most
`2^(-53)`. -/
theorem round_error (neg : Bool) (n d : Nat) (hn : 0 < n) (hd : 0 < d)
    (hlo : (2 : ℚ) ^ (-1022 : ℤ) ≤ (n : ℚ) / d) (hhi : (n : ℚ) / d < 2 ^ (1023 : ℤ)) :
    ∃ (M : Nat) (E : Int), F64.round neg n d = .finite neg M E ∧
      |(M : ℚ) * 2 ^ E - (n : ℚ) / d| ≤ (n : ℚ) / d * 2 ^ (-53 : ℤ) := by
  obtain ⟨M, E, e, j, hr, hv, h1, _, hj⟩ := round_normal neg n d hn hd hlo hhi
  refine ⟨M, E, hr, ?_⟩
  have hP : (0 : ℚ) < 2 ^ e := by positivity
  have hx : (j : ℚ) * 2 ^ e - (n : ℚ) / d = ((j : ℚ) - (n : ℚ) / d * 2 ^ (-e)) * 2 ^ e := by
    rw [sub_mul, mul_assoc, zpow_neg, inv_mul_cancel₀ hP.ne', mul_one]
  rw [hv, hx, abs_mul, abs_of_pos hP]
  have h52 : (2 : ℚ) ^ (52 + e) * 2 ^ (-53 : ℤ) = 1 / 2 * 2 ^ e := by
    rw [zpow_add₀ (by norm_num)]
    have : (2 : ℚ) ^ (52 : ℤ) * 2 ^ (-53 : ℤ) = 1 / 2 := by norm_num [zpow_neg]
    calc (2 : ℚ) ^ (52 : ℤ) * 2 ^ e * 2 ^ (-53 : ℤ) = (2 ^ (52 : ℤ) * 2 ^ (-53 : ℤ)) * 2 ^ e := by ring
      _ = 1 / 2 * 2 ^ e := by rw [this]
  calc |(j : ℚ) - (n : ℚ) / d * 2 ^ (-e)| * 2 ^ e ≤ 1 / 2 * 2 ^ e :=
        mul_le_mul_of_nonneg_right hj hP.le
    _ = (2 : ℚ) ^ (52 + e) * 2 ^ (-53 : ℤ) := h52.symm
    _ ≤ (n : ℚ) / d * 2 ^ (-53 : ℤ) := mul_le_mul_of_nonneg_right h1 (by positivity)

theorem toRat_finite (M : Nat) (E : Int) : (F64.finite false M E).toRat = (M : ℚ) * 2 ^ E := by
  simp [F64.toRat]

/-- An integer from 1 to `2^53 - 1` is converted to `double` exactly. -/
theorem round_nat_exact (k : Nat) (hk : 0 < k) (hk2 : k < 2 ^ 53) :
    ∃ (M : Nat) (E : Int), F64.round false k 1 = .finite false M E ∧ (M : ℚ) * 2 ^ E = k := by
  have h2 : (1 : ℚ) < 2 := by norm_num
  have hkq : (1 : ℚ) ≤ k := by exact_mod_cast hk
  have hk2q : (k : ℚ) < 2 ^ (53 : ℤ) := by
    have h53 : (2 : ℚ) ^ (53 : ℤ) = 2 ^ (53 : ℕ) := zpow_natCast 2 53
    rw [h53]
    exact_mod_cast hk2
  have hlo : (2 : ℚ) ^ (-1022 : ℤ) ≤ (k : ℚ) / ((1 : ℕ) : ℚ) := by
    rw [Nat.cast_one, div_one]
    calc (2 : ℚ) ^ (-1022 : ℤ) ≤ 2 ^ (0 : ℤ) := zpow_le_zpow_right₀ h2.le (by norm_num)
      _ = 1 := zpow_zero 2
      _ ≤ k := hkq
  have hhi : (k : ℚ) / ((1 : ℕ) : ℚ) < 2 ^ (1023 : ℤ) := by
    rw [Nat.cast_one, div_one]
    exact lt_of_lt_of_le hk2q (zpow_le_zpow_right₀ h2.le (by norm_num))
  obtain ⟨M, E, e, j, hr, hv, h1, _, hj⟩ := round_normal false k 1 hk (by norm_num) hlo hhi
  refine ⟨M, E, hr, ?_⟩
  rw [Nat.cast_one, div_one] at h1 hj
  have he : e ≤ 0 := by
    have := lt_of_le_of_lt h1 hk2q
    rw [zpow_lt_zpow_iff_right₀ h2] at this
    omega
  obtain ⟨t, ht⟩ : ∃ t : ℕ, -e = (t : ℤ) := ⟨(-e).toNat, (Int.toNat_of_nonneg (by omega)).symm⟩
  rw [ht, zpow_natCast] at hj
  have hz : (j : ℤ) - ((k * 2 ^ t : ℕ) : ℤ) = 0 := by
    rw [← Int.abs_lt_one_iff]
    have h3 : |(((j : ℤ) - ((k * 2 ^ t : ℕ) : ℤ) : ℤ) : ℚ)| ≤ 1 / 2 := by
      push_cast
      exact hj
    have h4 : ((|(j : ℤ) - ((k * 2 ^ t : ℕ) : ℤ)| : ℤ) : ℚ) < ((1 : ℤ) : ℚ) := by
      rw [Int.cast_abs, Int.cast_one]
      linarith
    exact_mod_cast h4
  have hjk : (j : ℚ) = k * 2 ^ t := by
    have : (j : ℤ) = ((k * 2 ^ t : ℕ) : ℤ) := by omega
    have h5 : ((j : ℤ) : ℚ) = (((k * 2 ^ t : ℕ) : ℤ) : ℚ) := by rw [this]
    push_cast at h5
    exact h5
  have hee : e = -(t : ℤ) := by omega
  have hP : (0 : ℚ) < 2 ^ t := by positivity
  rw [hv, hjk, hee, zpow_neg, zpow_natCast, mul_assoc, mul_inv_cancel₀ hP.ne', mul_one]

theorem ofInt_exact (k : Nat) (hk : 0 < k) (hk2 : k < 2 ^ 53) :
    ∃ (M : Nat) (E : Int), F64.ofInt (k : Int) = .finite false M E ∧
      (F64.finite false M E).toRat = k := by
  obtain ⟨M, E, h, hv⟩ := round_nat_exact k hk hk2
  exact ⟨M, E, by rw [ofInt_nat, h], by rw [toRat_finite, hv]⟩

/-- The rounding of `n / d * 2^e`, as `mul` and `div` call it, in the range of
the normal numbers. -/
theorem round_scale_error (n d : Nat) (e : Int) (hd : 0 < d) (x : ℚ)
    (hx : x = (n : ℚ) / d * 2 ^ e)
    (hlo : (2 : ℚ) ^ (-1022 : ℤ) ≤ x) (hhi : x < 2 ^ (1023 : ℤ)) :
    ∃ (M : Nat) (E : Int),
      F64.round false (F64.scale n d e).1 (F64.scale n d e).2 = .finite false M E ∧
        |(F64.finite false M E).toRat - x| ≤ x * 2 ^ (-53 : ℤ) := by
  obtain ⟨hs2, hs⟩ := scale_spec n d e hd
  rw [← hx] at hs
  have hxpos : (0 : ℚ) < x := lt_of_lt_of_le (by positivity) hlo
  have hs1 : 0 < (F64.scale n d e).1 := by
    rcases Nat.eq_zero_or_pos (F64.scale n d e).1 with h0 | h0
    · rw [h0] at hs
      simp only [Nat.cast_zero, zero_div] at hs
      linarith
    · exact h0
  obtain ⟨M, E, hr, hv⟩ := round_error false _ _ hs1 hs2 (by rw [hs]; exact hlo)
    (by rw [hs]; exact hhi)
  refine ⟨M, E, hr, ?_⟩
  rw [toRat_finite, ← hs]
  exact hv

theorem mul_error (ma mb : Nat) (ea eb : Int)
    (hlo : (2 : ℚ) ^ (-1022 : ℤ) ≤
      (F64.finite false ma ea).toRat * (F64.finite false mb eb).toRat)
    (hhi : (F64.finite false ma ea).toRat * (F64.finite false mb eb).toRat < 2 ^ (1023 : ℤ)) :
    ∃ (M : Nat) (E : Int),
      F64.mul (.finite false ma ea) (.finite false mb eb) = .finite false M E ∧
        |(F64.finite false M E).toRat -
            (F64.finite false ma ea).toRat * (F64.finite false mb eb).toRat| ≤
          (F64.finite false ma ea).toRat * (F64.finite false mb eb).toRat * 2 ^ (-53 : ℤ) := by
  have hx : (F64.finite false ma ea).toRat * (F64.finite false mb eb).toRat =
      ((ma * mb : ℕ) : ℚ) / ((1 : ℕ) : ℚ) * 2 ^ (ea + eb) := by
    rw [toRat_finite, toRat_finite, zpow_add₀ (by norm_num)]
    push_cast
    ring
  exact round_scale_error (ma * mb) 1 (ea + eb) (by norm_num) _ hx hlo hhi

theorem div_error (ma mb : Nat) (ea eb : Int) (hmb : mb ≠ 0)
    (hlo : (2 : ℚ) ^ (-1022 : ℤ) ≤
      (F64.finite false ma ea).toRat / (F64.finite false mb eb).toRat)
    (hhi : (F64.finite false ma ea).toRat / (F64.finite false mb eb).toRat < 2 ^ (1023 : ℤ)) :
    ∃ (M : Nat) (E : Int),
      F64.div (.finite false ma ea) (.finite false mb eb) = .finite false M E ∧
        |(F64.finite false M E).toRat -
            (F64.finite false ma ea).toRat / (F64.finite false mb eb).toRat| ≤
          (F64.finite false ma ea).toRat / (F64.finite false mb eb).toRat * 2 ^ (-53 : ℤ) := by
  have hmbq : (mb : ℚ) ≠ 0 := by exact_mod_cast hmb
  have hx : (F64.finite false ma ea).toRat / (F64.finite false mb eb).toRat =
      (ma : ℚ) / (mb : ℚ) * 2 ^ (ea - eb) := by
    rw [toRat_finite, toRat_finite, zpow_sub₀ (by norm_num)]
    field_simp
  have h := round_scale_error ma mb (ea - eb) (Nat.pos_of_ne_zero hmb) _ hx hlo hhi
  have hb : (false != false) = false := rfl
  simpa only [F64.div, if_neg hmb, hb] using h

theorem f64_le_iff (na : Bool) (ma : Nat) (ea : Int) (nb : Bool) (mb : Nat) (eb : Int) :
    F64.le (.finite na ma ea) (.finite nb mb eb) = true ↔
      (F64.finite na ma ea).toRat ≤ (F64.finite nb mb eb).toRat := by
  unfold F64.le
  rw [Bool.or_eq_true, f64_lt_iff, f64_eq_iff]
  simp only [F64.SameValue]
  exact le_iff_lt_or_eq.symm

/-! ### Equality of values in IEEE 754 arithmetic (C4) -/

set_option maxRecDepth 100000 in
/-- Instances of C4: `'1.0' == '1'` and `'-0' == '0'`, numbers with the same
value; `'1' == '2'` is false; the non-numbers `'a'` and `'a'` are equal; the
number `'1'` and the non-number `'1x'` are not. -/
theorem equal_examples :
    STLValue.equal (f64Ops noLibM) (str "1.0") (str "1") = true ∧
      STLValue.equal (f64Ops noLibM) (str "-0") (str "0") = true ∧
      STLValue.equal (f64Ops noLibM) (str "1") (str "2") = false ∧
      STLValue.equal (f64Ops noLibM) (str "a") (str "a") = true ∧
      STLValue.equal (f64Ops noLibM) (str "1") (str "1x") = false := by
  decide

/-- The arithmetic of the two roundings of `random`: `vy` is the rounded product
`mu * k`, `vz` the rounded quotient `vy / R`. -/
theorem random_arith (mu k R vy vz : ℚ) (hmu : 0 < mu) (hk : 1 ≤ k) (hR : 1 ≤ R)
    (hy : |vy - mu * k| ≤ mu * k * 2 ^ (-53 : ℤ))
    (hz : |vz - vy / R| ≤ vy / R * 2 ^ (-53 : ℤ)) :
    |vz - mu * k / R| ≤ mu * k / R * 2 ^ (-51 : ℤ) := by
  have hu : (2 : ℚ) ^ (-53 : ℤ) = 1 / 9007199254740992 := by norm_num [zpow_neg]
  have he : (2 : ℚ) ^ (-51 : ℤ) = 1 / 2251799813685248 := by norm_num [zpow_neg]
  have hRpos : (0 : ℚ) < R := by linarith
  rw [hu] at hy hz
  rw [he]
  have hq : 0 < mu * k / R := by positivity
  have hy2 : |vy / R - mu * k / R| ≤ mu * k / R * (1 / 9007199254740992) := by
    rw [← sub_div, abs_div, abs_of_pos hRpos, div_le_iff₀ hRpos]
    calc |vy - mu * k| ≤ mu * k * (1 / 9007199254740992) := hy
      _ = mu * k / R * (1 / 9007199254740992) * R := by field_simp; ring
  rw [abs_le] at hy2 hz ⊢
  constructor <;> linarith

theorem random_normal (RAND_MAX rand mm : Nat) (me : Int)
    (hR2 : RAND_MAX < 2 ^ 31) (hrand : rand ≤ RAND_MAX) (hk : 0 < rand)
    (hlo : (2 : ℚ) ^ (-990 : ℤ) ≤ (F64.finite false mm me).toRat)
    (hhi : (F64.finite false mm me).toRat ≤ 2 ^ (990 : ℤ)) :
    ∃ (M : Nat) (E : Int),
      F64.div (F64.mul (.finite false mm me) (F64.ofInt (rand : Int)))
          (F64.ofInt (RAND_MAX : Int)) = .finite false M E ∧
        |(F64.finite false M E).toRat -
            (F64.finite false mm me).toRat * rand / RAND_MAX| ≤
          (F64.finite false mm me).toRat * rand / RAND_MAX * 2 ^ (-51 : ℤ) := by
  have h2 : (1 : ℚ) ≤ 2 := by norm_num
  have hR : 0 < RAND_MAX := by omega
  obtain ⟨K, Ek, hK, hKv⟩ := ofInt_exact rand hk (by omega)
  obtain ⟨MR, ER, hMR, hMRv⟩ := ofInt_exact RAND_MAX hR (by omega)
  set mu := (F64.finite false mm me).toRat with hmu
  have hA : (0 : ℚ) < 2 ^ (-990 : ℤ) := by positivity
  have hmupos : 0 < mu := lt_of_lt_of_le hA hlo
  have hkq : (1 : ℚ) ≤ rand := by exact_mod_cast hk
  have hRq : (1 : ℚ) ≤ RAND_MAX := by exact_mod_cast hR
  have h31 : (2 : ℚ) ^ (31 : ℤ) = 2147483648 := by norm_num
  have hk31 : (rand : ℚ) < 2 ^ (31 : ℤ) := by
    rw [h31]
    have : rand < 2147483648 := by omega
    exact_mod_cast this
  have hR31 : (RAND_MAX : ℚ) < 2 ^ (31 : ℤ) := by
    rw [h31]
    have : RAND_MAX < 2147483648 := by omega
    exact_mod_cast this
  have hu : (2 : ℚ) ^ (-53 : ℤ) = 1 / 9007199254740992 := by norm_num [zpow_neg]
  -- the product
  have hx1lo : (2 : ℚ) ^ (-990 : ℤ) ≤ mu * rand :=
    le_trans hlo (le_mul_of_one_le_right hmupos.le hkq)
  have hx1hi : mu * rand < 2 ^ (1021 : ℤ) := by
    calc mu * rand ≤ 2 ^ (990 : ℤ) * rand := mul_le_mul_of_nonneg_right hhi (by positivity)
      _ < 2 ^ (990 : ℤ) * 2 ^ (31 : ℤ) := mul_lt_mul_of_pos_left hk31 (by positivity)
      _ = 2 ^ (1021 : ℤ) := by rw [← zpow_add₀ (by norm_num)]; rfl
  obtain ⟨My, Ey, hy, hyv⟩ := mul_error mm K me Ek
    (by rw [hKv]; exact le_trans (zpow_le_zpow_right₀ h2 (by norm_num)) hx1lo)
    (by rw [hKv]; exact lt_of_lt_of_le hx1hi (zpow_le_zpow_right₀ h2 (by norm_num)))
  rw [hKv, ← hmu] at hyv
  set vy := (F64.finite false My Ey).toRat with hvy
  have hyb := abs_le.mp hyv
  rw [hu] at hyb
  have hx1pos : 0 < mu * rand := by positivity
  have hvylo : (2 : ℚ) ^ (-991 : ℤ) ≤ vy := by
    have h991 : (2 : ℚ) ^ (-991 : ℤ) = 2 ^ (-990 : ℤ) / 2 := by
      rw [show (-991 : ℤ) = -990 - 1 by norm_num, zpow_sub₀ (by norm_num), zpow_one]
    have h3 : mu * rand / 2 ≤ vy := by linarith [hyb.1]
    calc (2 : ℚ) ^ (-991 : ℤ) = 2 ^ (-990 : ℤ) / 2 := h991
      _ ≤ mu * rand / 2 := div_le_div_of_nonneg_right hx1lo (by norm_num)
      _ ≤ vy := h3
  have hvyhi : vy < 2 ^ (1022 : ℤ) := by
    have h1022 : (2 : ℚ) ^ (1022 : ℤ) = 2 ^ (1021 : ℤ) * 2 := by
      rw [show (1022 : ℤ) = 1021 + 1 by norm_num, zpow_add₀ (by norm_num), zpow_one]
    have h3 : vy ≤ mu * rand * 2 := by linarith [hyb.2]
    calc vy ≤ mu * rand * 2 := h3
      _ < 2 ^ (1021 : ℤ) * 2 := mul_lt_mul_of_pos_right hx1hi (by norm_num)
      _ = 2 ^ (1022 : ℤ) := h1022.symm
  have hMR0 : MR ≠ 0 := by
    intro h0
    rw [h0, toRat_finite] at hMRv
    simp only [Nat.cast_zero, zero_mul] at hMRv
    linarith
  have hRpos : (0 : ℚ) < RAND_MAX := by linarith
  obtain ⟨Mz, Ez, hz, hzv⟩ := div_error My MR Ey ER hMR0
    (by
      rw [hMRv, ← hvy, le_div_iff₀ hRpos]
      calc (2 : ℚ) ^ (-1022 : ℤ) * RAND_MAX ≤ 2 ^ (-1022 : ℤ) * 2 ^ (31 : ℤ) :=
            mul_le_mul_of_nonneg_left hR31.le (by positivity)
        _ = 2 ^ (-991 : ℤ) := by rw [← zpow_add₀ (by norm_num)]; rfl
        _ ≤ vy := hvylo)
    (by
      rw [hMRv, ← hvy, div_lt_iff₀ hRpos]
      calc vy < 2 ^ (1022 : ℤ) := hvyhi
        _ ≤ 2 ^ (1023 : ℤ) := zpow_le_zpow_right₀ h2 (by norm_num)
        _ = 2 ^ (1023 : ℤ) * 1 := (mul_one _).symm
        _ ≤ 2 ^ (1023 : ℤ) * RAND_MAX := mul_le_mul_of_nonneg_left hRq (by positivity))
  rw [hMRv, ← hvy] at hzv
  refine ⟨Mz, Ez, ?_, random_arith mu rand RAND_MAX vy _ hmupos hkq hRq hyv hzv⟩
  rw [hK, hMR, hy, hz]

theorem random_zero (RAND_MAX mm : Nat) (me : Int) (hR : 0 < RAND_MAX) (hR2 : RAND_MAX < 2 ^ 31) :
    F64.div (F64.mul (.finite false mm me) (F64.ofInt ((0 : Nat) : Int)))
      (F64.ofInt (RAND_MAX : Int)) = .finite false 0 0 := by
  obtain ⟨mb, eb, hb, hbv⟩ := ofInt_exact RAND_MAX hR (by omega)
  have hmb : mb ≠ 0 := by
    intro h0
    rw [h0, toRat_finite] at hbv
    simp only [Nat.cast_zero, zero_mul] at hbv
    have : (0 : ℚ) < RAND_MAX := by exact_mod_cast hR
    linarith
  have h0 : F64.ofInt ((0 : Nat) : Int) = .finite false 0 0 := by decide
  rw [hb, h0]
  have h1 : F64.mul (.finite false mm me) (.finite false 0 0) = .finite false 0 0 := by
    simp only [F64.mul, Nat.mul_zero]
    unfold F64.scale
    split <;> simp [round_zero]
  rw [h1]
  simp only [F64.div, if_neg hmb]
  unfold F64.scale
  split <;> simp [round_zero]

theorem random_nonneg (RAND_MAX rand mm : Nat) (me : Int) (hmm : mm ≠ 0) (hR : 0 < RAND_MAX)
    (hR2 : RAND_MAX < 2 ^ 31) :
    F64.le (F64.ofInt 0)
      (F64.div (F64.mul (.finite false mm me) (F64.ofInt (rand : Int)))
        (F64.ofInt (RAND_MAX : Int))) = true := by
  obtain ⟨mb, eb, hb, hbv⟩ := ofInt_exact RAND_MAX hR (by omega)
  have hmb : mb ≠ 0 := by
    intro h0
    rw [h0, toRat_finite] at hbv
    simp only [Nat.cast_zero, zero_mul] at hbv
    have : (0 : ℚ) < RAND_MAX := by exact_mod_cast hR
    linarith
  apply f64_zero_le
  rw [hb, ofInt_nat]
  exact div_nonneg_finite mb eb hmb _ (mul_nonneg_finite mm me hmm _ (round_nonneg _ _))

theorem random_below (mu k R vz : ℚ) (hmu : 0 < mu) (hk : 0 ≤ k) (hkR : k + 1 ≤ R)
    (hR : R < 2147483648)
    (hz : |vz - mu * k / R| ≤ mu * k / R * 2 ^ (-51 : ℤ)) : vz < mu := by
  have he : (2 : ℚ) ^ (-51 : ℤ) = 1 / 2251799813685248 := by norm_num [zpow_neg]
  rw [he] at hz
  have hRpos : (0 : ℚ) < R := by linarith
  have h1 : vz ≤ mu * k / R * (1 + 1 / 2251799813685248) := by
    have := (abs_le.mp hz).2
    linarith
  have h2 : k * (1 + 1 / 2251799813685248) < R := by linarith
  have h3 : mu * k / R * (1 + 1 / 2251799813685248) = mu * (k * (1 + 1 / 2251799813685248)) / R := by
    ring
  have h4 : mu * (k * (1 + 1 / 2251799813685248)) / R < mu := by
    rw [div_lt_iff₀ hRpos]
    exact mul_lt_mul_of_pos_left h2 hmu
  linarith

set_option maxRecDepth 100000 in
/-- Counterexample to C35: when `::rand()` returns `RAND_MAX`, `random(1)` is `1`
and `random(100)` is `100`, not less than the argument, with `RAND_MAX` 32767 as
with 2147483647; `random(4504149383200768)` is 4504149383200769, greater than
the argument, with `RAND_MAX` 32767, and so is `random(4503609291046912)` with
`RAND_MAX` 2147483647; and `random` of the positive infinity is no number when
`::rand()` returns 0. -/
theorem random_counterexample :
    F64.lt (F64.ofInt 0) (F64.ofInt 1) = true ∧
      random (f64Ops noLibM) 2147483647 2147483647 (F64.ofInt 1) = F64.ofInt 1 ∧
      F64.lt (random (f64Ops noLibM) 2147483647 2147483647 (F64.ofInt 1)) (F64.ofInt 1) = false ∧
      random (f64Ops noLibM) 32767 32767 (F64.ofInt 1) = F64.ofInt 1 ∧
      random (f64Ops noLibM) 2147483647 2147483647 (F64.ofInt 100) = F64.ofInt 100 ∧
      random (f64Ops noLibM) 32767 32767 (F64.ofInt 100) = F64.ofInt 100 ∧
      random (f64Ops noLibM) 32767 32767 (F64.ofInt 4504149383200768) =
        F64.ofInt 4504149383200769 ∧
      F64.lt (F64.ofInt 4504149383200768)
        (random (f64Ops noLibM) 32767 32767 (F64.ofInt 4504149383200768)) = true ∧
      random (f64Ops noLibM) 2147483647 2147483647 (F64.ofInt 4503609291046912) =
        F64.ofInt 4503609291046913 ∧
      random (f64Ops noLibM) 2147483647 0 (.inf false) = .nan := by
  decide

/-- Claim C35, amended.  For every finite `m > 0`, every `RAND_MAX` from 1 to
`2^31 - 1` and every value `rand` of `::rand()`, `random(m)` is a number `r`
with `0 <= r` (an infinity when the product overflows), and it is `0` when
`::rand()` returns 0.  When moreover `2^(-990) <= m <= 2^990` and
`rand <= RAND_MAX`, `r` is finite and differs from the quotient
`m * rand / RAND_MAX` by at most that quotient times `2^(-51)`, the error of the
two roundings; so `r < m` whenever `rand < RAND_MAX`, and for `rand = RAND_MAX`
the result lies within `m * 2^(-51)` of `m`, on either side. -/
theorem random_range (libm : LibM) (RAND_MAX rand : Nat) (m : F64)
    (hR : 0 < RAND_MAX) (hR2 : RAND_MAX < 2 ^ 31)
    (hpos : F64.lt (F64.ofInt 0) m = true) (hfin : m ≠ .inf false) :
    F64.le (F64.ofInt 0) (random (f64Ops libm) RAND_MAX rand m) = true ∧
      random (f64Ops libm) RAND_MAX 0 m = F64.ofInt 0 ∧
      (rand ≤ RAND_MAX → F64.le (.finite false 1 (-990)) m = true →
        F64.le m (.finite false 1 990) = true →
        (∃ M E, random (f64Ops libm) RAND_MAX rand m = .finite false M E) ∧
          |(random (f64Ops libm) RAND_MAX rand m).toRat - m.toRat * rand / RAND_MAX| ≤
            m.toRat * rand / RAND_MAX * 2 ^ (-51 : ℤ) ∧
          (rand < RAND_MAX → F64.lt (random (f64Ops libm) RAND_MAX rand m) m = true) ∧
          (rand = RAND_MAX →
            |(random (f64Ops libm) RAND_MAX rand m).toRat - m.toRat| ≤
              m.toRat * 2 ^ (-51 : ℤ))) := by
  obtain ⟨mm, me, rfl, hmm⟩ := f64_pos_finite m hpos hfin
  have h00 : F64.ofInt 0 = .finite false 0 0 := by decide
  have hrnd : ∀ k, random (f64Ops libm) RAND_MAX k (.finite false mm me) =
      F64.div (F64.mul (.finite false mm me) (F64.ofInt (k : Int))) (F64.ofInt (RAND_MAX : Int)) :=
    fun _ => rfl
  refine ⟨?_, ?_, ?_⟩
  · rw [hrnd]
    exact random_nonneg RAND_MAX rand mm me hmm hR hR2
  · rw [hrnd, h00]
    exact random_zero RAND_MAX mm me hR hR2
  · intro hrand hlo hhi
    rw [f64_le_iff] at hlo hhi
    rw [toRat_finite 1 (-990)] at hlo
    rw [toRat_finite 1 990] at hhi
    simp only [Nat.cast_one, one_mul] at hlo hhi
    have hmupos : 0 < (F64.finite false mm me).toRat :=
      lt_of_lt_of_le (by positivity) hlo
    have hRq : (0 : ℚ) < RAND_MAX := by exact_mod_cast hR
    have hR31 : (RAND_MAX : ℚ) < 2147483648 := by
      have : RAND_MAX < 2147483648 := by omega
      exact_mod_cast this
    have key : ∃ M E, random (f64Ops libm) RAND_MAX rand (.finite false mm me) =
        .finite false M E ∧
        |(F64.finite false M E).toRat - (F64.finite false mm me).toRat * rand / RAND_MAX| ≤
          (F64.finite false mm me).toRat * rand / RAND_MAX * 2 ^ (-51 : ℤ) := by
      rcases Nat.eq_zero_or_pos rand with h0 | hk
      · subst h0
        refine ⟨0, 0, ?_, ?_⟩
        · rw [hrnd]
          exact random_zero RAND_MAX mm me hR hR2
        · simp [F64.toRat]
      · rw [hrnd]
        exact random_normal RAND_MAX rand mm me hR2 hrand hk hlo hhi
    obtain ⟨M, E, hr, hv⟩ := key
    rw [hr]
    refine ⟨⟨M, E, rfl⟩, hv, ?_, ?_⟩
    · intro hlt
      rw [f64_lt_iff]
      have h1 : (rand : ℚ) + 1 ≤ RAND_MAX := by exact_mod_cast hlt
      exact random_below _ rand RAND_MAX _ hmupos (by positivity) h1 hR31 hv
    · intro heq
      subst heq
      have : (F64.finite false mm me).toRat * (rand : ℚ) / (rand : ℚ) =
          (F64.finite false mm me).toRat := by
        field_simp
      rw [this] at hv
      exact hv

set_option maxRecDepth 100000 in
/-- An instance of C35: `random(100)` with `RAND_MAX` 2147483647 and `::rand()`
returning 12345 is a finite number from 0 to 100, below 100, within the error
bound of the quotient `100 * 12345 / 2147483647`. -/
theorem random_range_witness :
    F64.le (F64.ofInt 0) (random (f64Ops noLibM) 2147483647 12345 (F64.ofInt 100)) = true ∧
      random (f64Ops noLibM) 2147483647 0 (F64.ofInt 100) = F64.ofInt 0 ∧
      F64.lt (random (f64Ops noLibM) 2147483647 12345 (F64.ofInt 100)) (F64.ofInt 100) = true ∧
      |(random (f64Ops noLibM) 2147483647 12345 (F64.ofInt 100)).toRat -
          (F64.ofInt 100).toRat * ((12345 : ℕ) : ℚ) / ((2147483647 : ℕ) : ℚ)| ≤
        (F64.ofInt 100).toRat * ((12345 : ℕ) : ℚ) / ((2147483647 : ℕ) : ℚ) * 2 ^ (-51 : ℤ) :=
  have h := random_range noLibM 2147483647 12345 (F64.ofInt 100) (by decide) (by decide)
    (by decide) (by decide)
  ⟨h.1, h.2.1, (h.2.2 (by decide) (by decide) (by decide)).2.2.1 (by decide),
    (h.2.2 (by decide) (by decide) (by decide)).2.1⟩

/-! ### The order in which the arguments of a call are evaluated -/

set_option maxRecDepth 100000 in
/-- The order of the arguments at work: in `'a' + 'b'` the right operand is
converted first and the error names `b`; in `x + 'b'` with `x` undefined the
conversion of the right operand fails before the left one is read; in `1 += y`
and `1 = y` with `y` undefined the right side is read before the left side is
tested for an lvalue; and `++'a'` and `'a'++` fail with `Invalid integer`, the
conversion coming before that test, while `++1` fails with `Invalid lvalue`. -/
theorem argument_order_examples :
    (evaluate stdEnv 8 0 (str "'a' + 'b'") stdRoot).1 = .error (.invalidNumber (str "b")) ∧
      (evaluate stdEnv 8 0 (str "x + 'b'") stdRoot).1 = .error (.invalidNumber (str "b")) ∧
      (evaluate stdEnv 8 0 (str "x + 1") stdRoot).1 = .error (.undefined (str "x")) ∧
      (evaluate stdEnv 8 0 (str "1 += y") stdRoot).1 = .error (.undefined (str "y")) ∧
      (evaluate stdEnv 8 0 (str "1 += 2") stdRoot).1 = .error .invalidLValue ∧
      (evaluate stdEnv 8 0 (str "1 = y") stdRoot).1 = .error (.undefined (str "y")) ∧
      (evaluate stdEnv 8 0 (str "++'a'") stdRoot).1 = .error (.invalidInteger (str "a")) ∧
      (evaluate stdEnv 8 0 (str "'a'++") stdRoot).1 = .error (.invalidInteger (str "a")) ∧
      (evaluate stdEnv 8 0 (str "++1") stdRoot).1 = .error .invalidLValue := by
  decide

end Pika
